import Mathlib

/-!
# Coloquinte: piecewise-linear function algebra and row-linked placement structure

A shallow embedding of `src/src/piecewise_linear.cxx` and `src/detailed.cxx`.

Modelling conventions.
* `int_t` is modelled by `Int` and `index_t` by `Nat`; both typedefs live in the absent
  `common.hxx`, and no arithmetic overflow is modelled.
* C++ `/` and `%` on integers truncate towards zero: `Int.tdiv` and `Int.tmod`.
* `std::vector` is modelled by `List`; `push_back` appends at the end.
* A violated `assert`, an out-of-range access, the dereference of an end iterator and a
  division by zero make the modelled function return `none`.
-/

namespace coloquinte

/-! ## Piecewise-linear functions (`piecewise_linear.cxx`) -/

/-- A knot `p_v`: the pair (position, value), `first` and `second` in the source. -/
abbrev p_v := Int × Int

/-- The member `point_values` of `piecewise_linear_function`. -/
abbrev piecewise_linear_function := List p_v

/-- The segment `pl_edge` between the knots `f` and `s`. -/
structure pl_edge where
  f : p_v
  s : p_v
deriving DecidableEq, Repr

namespace pl_edge

/-- The method `pl_edge::value_at`: interpolation, the quotient truncated towards zero. -/
def value_at (e : pl_edge) (pos : Int) : Option Int :=
  if e.f.1 ≤ pos ∧ pos ≤ e.s.1 ∧ e.s.1 - e.f.1 ≠ 0 then
    some (Int.tdiv (e.f.2 * (e.s.1 - pos) + e.s.2 * (pos - e.f.1)) (e.s.1 - e.f.1))
  else none

/-- The method `pl_edge::pos_at`: inverse interpolation, truncated towards zero. -/
def pos_at (e : pl_edge) (val : Int) : Option Int :=
  if val ≤ max e.f.2 e.s.2 ∧ min e.f.2 e.s.2 ≤ val ∧ e.f.2 ≠ e.s.2 then
    some (Int.tdiv (e.f.1 * (e.s.2 - val) + e.s.1 * (val - e.f.2)) (e.s.2 - e.f.2))
  else none

/-- The method `pl_edge::above`: is the segment strictly above the knot `o`? -/
def above (e : pl_edge) (o : p_v) : Option Bool :=
  if e.f.1 < o.1 ∧ o.1 < e.s.1 then
    some (decide (e.f.2 * (e.s.1 - o.1) + e.s.2 * (o.1 - e.f.1) > o.2 * (e.s.1 - e.f.1)))
  else none

/-- The local `denom` of `push_intersections`. -/
def denom (a b : pl_edge) : Int :=
  (a.s.1 - a.f.1) * (b.s.2 - b.f.2) - (a.s.2 - a.f.2) * (b.s.1 - b.f.1)

/-- The local `a_num` of `push_intersections`. -/
def a_num (a b : pl_edge) : Int :=
  (a.f.2 - b.f.2) * (b.s.1 - b.f.1) - (a.f.1 - b.f.1) * (b.s.2 - b.f.2)

/-- The local `b_num` of `push_intersections`. -/
def b_num (a b : pl_edge) : Int :=
  (a.f.2 - b.f.2) * (a.s.1 - a.f.1) - (a.f.1 - b.f.1) * (a.s.2 - a.f.2)

/-- The local `intersect` of `push_intersections`: the two segments cross strictly inside
both of them. -/
def intersect (a b : pl_edge) : Bool :=
  if denom a b > 0 then
    decide (a_num a b < denom a b ∧ b_num a b < denom a b ∧ a_num a b > 0 ∧ b_num a b > 0)
  else
    decide (a_num a b > denom a b ∧ b_num a b > denom a b ∧ a_num a b < 0 ∧ b_num a b < 0)

/-- The local `dist` of `push_intersections`. -/
def dist (a b : pl_edge) : Int :=
  a_num a b * (a.s.1 - a.f.1)

/-- The function `pl_edge::push_intersections`; the result is the list of knots it pushes
at the back of `lf`, in order. -/
def push_intersections (a b : pl_edge) : Option (List p_v) :=
  if ¬ (a.f.1 < b.s.1 ∧ a.s.1 > b.f.1) then none
  else if ¬ (a.f.1 < a.s.1 ∧ b.f.1 < b.s.1) then none
  else if intersect a b then
    if Int.tmod (dist a b) (denom a b) = 0 then
      let pos := Int.tdiv (dist a b) (denom a b)
      if pos > max a.f.1 b.f.1 then
        (a.value_at pos).map fun v => [(pos, v)]
      else some []
    else
      let pos1 := a.f.1 + Int.tdiv (dist a b) (denom a b)
      let pos2 := pos1 + 1
      (if pos1 > max a.f.1 b.f.1 then
          (a.value_at pos1).bind fun va => (b.value_at pos1).map fun vb => [(pos1, min va vb)]
        else some []).bind fun l1 =>
      (if pos2 < min a.s.1 b.s.1 then
          (a.value_at pos2).bind fun va => (b.value_at pos2).map fun vb => [(pos2, min va vb)]
        else some []).map fun l2 => l1 ++ l2
  else some []

end pl_edge

/-- The method `piecewise_linear_function::add_monotone`. -/
def add_monotone (slope offset : Int) (point_values : piecewise_linear_function) :
    piecewise_linear_function :=
  match point_values with
  | [] => []
  | front :: _ =>
    point_values.map fun V => (V.1, V.2 + slope * (V.1 - front.1 + offset))

/-- The `while` loop of `add_bislope`: the knots before `pos` get the left slope; the
result is the list of updated knots passed over and the rest, which starts at `it`. -/
def add_bislope_while (s_l pos : Int) : List p_v → Option (List p_v × List p_v)
  | [] => none
  | V :: rest =>
    if V.1 < pos then
      (add_bislope_while s_l pos rest).map fun r =>
        ((V.1, V.2 + s_l * (V.1 - pos)) :: r.1, r.2)
    else some ([], V :: rest)

/-- The method `piecewise_linear_function::add_bislope`. -/
def add_bislope (s_l s_r pos : Int) (point_values : piecewise_linear_function) :
    Option piecewise_linear_function :=
  (add_bislope_while s_l pos point_values).bind fun r =>
    match r.2 with
    | [] => none
    | it :: rest =>
      (if it.1 ≠ pos then
          (r.1.getLast?).bind fun prev =>
            ((pl_edge.mk prev it).value_at pos).map fun v => r.1 ++ (pos, v) :: it :: rest
        else some (r.1 ++ it :: rest)).map fun pv =>
      pv.map fun V => if V.1 > pos then (V.1, V.2 + s_r * (V.1 - pos)) else V

/-- The `for` loop of `previous_min`: `ret` is the result built so far, `prev` is
`*std::prev(it)` and the list is the range from `it` to the end. -/
def previous_min_loop (ret : List p_v) (prev : p_v) : List p_v → Option (List p_v)
  | [] => some ret
  | it :: rest =>
    match ret.getLast? with
    | none => none
    | some back =>
      let cur_min := back.2
      if ¬ (it.1 > back.1) then none
      else if it.2 < cur_min then
        if prev.1 ≠ back.1 then
          match (pl_edge.mk prev it).pos_at cur_min with
          | none => none
          | some pos =>
            if pos ≠ back.1 ∧ pos ≠ it.1 then
              previous_min_loop ((ret ++ [(pos, cur_min)]) ++ [it]) it rest
            else previous_min_loop (ret ++ [it]) it rest
        else previous_min_loop (ret ++ [it]) it rest
      else previous_min_loop ret it rest

/-- The method `piecewise_linear_function::previous_min`. -/
def previous_min (point_values : piecewise_linear_function) :
    Option piecewise_linear_function :=
  match point_values with
  | [] => none
  | p :: rest => previous_min_loop [p] p rest

/-- The method `piecewise_linear_function::value_at`; `std::lower_bound` finds the first
knot whose position is not smaller than `pos`, `prev` is the knot before it. -/
def value_at_from (pos : Int) (prev : Option p_v) : List p_v → Option Int
  | [] => none
  | it :: rest =>
    if it.1 < pos then value_at_from pos (some it) rest
    else if pos ≠ it.1 then
      match prev with
      | none => none
      | some p => (pl_edge.mk p it).value_at pos
    else some it.2

/-- The method `piecewise_linear_function::value_at`. -/
def value_at (point_values : piecewise_linear_function) (pos : Int) : Option Int :=
  value_at_from pos none point_values

/-- The `while` loop of `minimum`; the lists are the ranges from `a_it` and from `b_it` to
the end, the result is the list of knots pushed at the back of `ret`. One unit of fuel is
used per iteration; `none` also when the fuel runs out. -/
def minimum_loop : Nat → List p_v → List p_v → Option (List p_v)
  | 0, _, _ => none
  | fuel + 1, a0 :: a1 :: as, b0 :: b1 :: bs =>
    let a_edge := pl_edge.mk a0 a1
    let b_edge := pl_edge.mk b0 b1
    (pl_edge.push_intersections a_edge b_edge).bind fun inter =>
      if a_edge.s.1 < b_edge.s.1 then
        (b_edge.above a_edge.s).bind fun ab =>
          (minimum_loop fuel (a1 :: as) (b0 :: b1 :: bs)).map fun tl =>
            inter ++ (if ab then [a_edge.s] else []) ++ tl
      else if a_edge.s.1 > b_edge.s.1 then
        (a_edge.above b_edge.s).bind fun ab =>
          (minimum_loop fuel (a0 :: a1 :: as) (b1 :: bs)).map fun tl =>
            inter ++ (if ab then [b_edge.s] else []) ++ tl
      else
        (minimum_loop fuel (a1 :: as) (b1 :: bs)).map fun tl =>
          inter ++ (a_edge.s.1, min a_edge.s.2 b_edge.s.2) :: tl
  | _ + 1, _, _ => some []

/-- The static method `piecewise_linear_function::minimum`. The loop runs at most
`a.length + b.length` times, since every iteration advances `a_it` or `b_it`. -/
def minimum (a b : piecewise_linear_function) : Option piecewise_linear_function :=
  match a, b with
  | a0 :: a1 :: as, b0 :: b1 :: bs =>
    if a0.1 = b0.1 ∧ a.getLast?.map Prod.fst = b.getLast?.map Prod.fst then
      (minimum_loop (a.length + b.length) (a0 :: a1 :: as) (b0 :: b1 :: bs)).map fun tl =>
        (a0.1, min a0.2 b0.2) :: tl
    else none
  | _, _ => none

/-- The `while` loop of `previous_min_of_sum`: `a_prev` is `*std::prev(a_it)` (`none` when
`a_it == a_begin`), the first list is the range from `a_it` to `a_end`; `b_prev` and the
second list are the same for `b_it`, which runs over the knots of the object itself. The
result is the list of knots pushed at the back of `ret`. One unit of fuel is used per
iteration; `none` also when the fuel runs out. -/
def previous_min_of_sum_loop (shift : Int) :
    Nat → Option p_v → List p_v → Option p_v → List p_v → Option (List p_v)
  | 0, _, _, _, _ => none
  | _ + 1, _, [], _, _ => some []
  | fuel + 1, _, a_it :: a_rest, none, [] =>
    previous_min_of_sum_loop shift fuel (some a_it) a_rest none []
  | fuel + 1, _, a_it :: a_rest, some back, [] =>
    (previous_min_of_sum_loop shift fuel (some a_it) a_rest (some back) []).map fun tl =>
      (a_it.1, a_it.2 + back.2) :: tl
  | fuel + 1, a_prev, a_it :: a_rest, b_prev, b_it :: b_rest =>
    if a_it.1 < b_it.1 - shift then
      match b_prev with
      | none => previous_min_of_sum_loop shift fuel (some a_it) a_rest none (b_it :: b_rest)
      | some pb =>
        ((pl_edge.mk pb b_it).value_at (a_it.1 + shift)).bind fun value =>
          (previous_min_of_sum_loop shift fuel (some a_it) a_rest (some pb) (b_it :: b_rest)).map
            fun tl => (a_it.1, a_it.2 + value) :: tl
    else if a_it.1 > b_it.1 - shift then
      match a_prev with
      | none => previous_min_of_sum_loop shift fuel none (a_it :: a_rest) (some b_it) b_rest
      | some pa =>
        ((pl_edge.mk pa a_it).value_at (b_it.1 - shift)).bind fun value =>
          (previous_min_of_sum_loop shift fuel (some pa) (a_it :: a_rest) (some b_it) b_rest).map
            fun tl => (b_it.1 - shift, b_it.2 + value) :: tl
    else
      (previous_min_of_sum_loop shift fuel (some a_it) a_rest (some b_it) b_rest).map fun tl =>
        (a_it.1, a_it.2 + b_it.2) :: tl

/-- The method `piecewise_linear_function::previous_min_of_sum` of the object with the
knots `point_values`, called with the function `a` and `shift`. The loop runs at most
`a.length + point_values.length` times, since every iteration advances `a_it` or `b_it`. -/
def previous_min_of_sum (point_values a : piecewise_linear_function) (shift : Int) :
    Option piecewise_linear_function :=
  (previous_min_of_sum_loop shift (a.length + point_values.length + 1) none a none
    point_values).bind previous_min

/-- The `while` loop of `last_before` on the reversed knot list, whose head is `*it`. The
body holds no `++it`, so the next iteration sees the same knot again; `none` when the
loop is left at `rend()` (`assert(false)`) and when the fuel runs out. -/
def last_before_loop : Nat → List p_v → Int → Option Int
  | 0, _, _ => none
  | _ + 1, [], _ => none
  | fuel + 1, it :: rest, pos =>
    if it.1 ≤ pos then some it.1 else last_before_loop fuel (it :: rest) pos

/-- The method `piecewise_linear_function::last_before`, run for at most `fuel` iterations
of its loop. -/
def last_before (fuel : Nat) (point_values : piecewise_linear_function) (pos : Int) :
    Option Int :=
  last_before_loop fuel point_values.reverse pos

/-! ## Row-linked placement structure (`detailed.cxx`) -/

/-- Modelled from the spec: the sentinel "none" index `null_ind` of the absent
`common.hxx`, the largest value of the unsigned 32-bit `index_t`. -/
def null_ind : Nat := 4294967295

/-- Modelled from the spec: the attribute bit `XMovable` of the absent `common.hxx`. -/
def XMovable : Nat := 1

/-- Modelled from the spec: the attribute bit `YMovable` of the absent `common.hxx`. -/
def YMovable : Nat := 2

/-- Modelled from the spec: a pin of the external netlist (absent `netlist.hxx`): its
cell, its net and its offset from the centre of the cell. The offset is a `float_t` in the
source (`optimize_convex_sequence` passes `p.offset.x_` to `std::min` together with a
`float_t`); it is a rational number here, and the arithmetic on it is exact. -/
structure pin_t where
  cell_ind : Nat
  net_ind : Nat
  offset_x : ℚ
  offset_y : ℚ
deriving DecidableEq, Repr

/-- Modelled from the spec: what `netlist::get_cell` returns (absent `netlist.hxx`):
attribute mask, size and the pins of the cell. -/
structure netlist_cell where
  attributes : Nat
  size_x : Int
  size_y : Int
  pins : List pin_t
deriving DecidableEq, Repr

/-- Modelled from the spec: the read-only netlist (absent `netlist.hxx`): its cells and,
for every net, the ordered list of its pins (`pin_cnt` is the length of that list). -/
structure netlist where
  cells : List netlist_cell
  nets : List (List pin_t)
deriving DecidableEq, Repr

/-- The record `internal_cell` of the absent `detailed.hxx`, with the members that
`detailed.cxx` reads and writes. -/
structure internal_cell where
  position_x : Int
  position_y : Int
  width : Int
  height : Nat
  row : Nat
  neighbours_begin : Nat
  x_orientation : Bool
  y_orientation : Bool
deriving DecidableEq, Repr

/-- The members of `detailed_placement`. -/
structure detailed_placement where
  min_x_ : Int
  max_x_ : Int
  y_origin_ : Int
  cells_ : List internal_cell
  neighbours_ : List (Nat × Nat)
  row_first_cells_ : List Nat
  row_last_cells_ : List Nat
deriving DecidableEq, Repr

/-- Modelled from the spec: the neighbour lookup key `neighbour_index(c, r)` of the absent
`detailed.hxx`: the place in the flat table of the row-slot of cell `c` in row `r`, a row
that the cell occupies. -/
def neighbour_index (cells : List internal_cell) (c r : Nat) : Option Nat :=
  match cells[c]? with
  | none => none
  | some cell =>
    if cell.row ≤ r ∧ r - cell.row < cell.height then
      some (cell.neighbours_begin + r - cell.row)
    else none

/-- The number of rows `row_cnt()` (absent `detailed.hxx`). -/
def detailed_placement.row_cnt (pl : detailed_placement) : Nat :=
  pl.row_first_cells_.length

/-- The first loop of the constructor: every cell gets its offset into the flat table. -/
def assign_neighbours_begin : Nat → List internal_cell → List internal_cell
  | _, [] => []
  | nbr_lims, c :: cs =>
    { c with neighbours_begin := nbr_lims } :: assign_neighbours_begin (nbr_lims + c.height) cs

/-- The value of `nbr_lims` after the first loop of the constructor. -/
def nbr_lims_of (cells : List internal_cell) : Nat :=
  (cells.map fun c => c.height).sum

/-- The loop `for(index_t c : rows[r])` of the constructor on the table `explored`. -/
def explore_row (cells : List internal_cell) (r : Nat) :
    List Nat → List Bool → Option (List Bool)
  | [], explored => some explored
  | c :: cs, explored =>
    match neighbour_index cells c r with
    | none => none
    | some n =>
      match explored[n]? with
      | none => none
      | some e => if e then none else explore_row cells r cs (explored.set n true)

/-- The loop over the consecutive pairs `rows[r][i]`, `rows[r][i+1]` of the constructor. -/
def link_row (cells : List internal_cell) (r : Nat) :
    List Nat → List (Nat × Nat) → Option (List (Nat × Nat))
  | c1 :: c2 :: cs, neighbours =>
    match neighbour_index cells c1 r, neighbour_index cells c2 r, cells[c1]?, cells[c2]? with
    | some n1, some n2, some cell1, some cell2 =>
      match neighbours[n1]? with
      | none => none
      | some e1 =>
        let neighbours1 := neighbours.set n1 (e1.1, c2)
        match neighbours1[n2]? with
        | none => none
        | some e2 =>
          let neighbours2 := neighbours1.set n2 (c1, e2.2)
          if cell1.position_x + cell1.width ≤ cell2.position_x then
            link_row cells r (c2 :: cs) neighbours2
          else none
    | _, _, _, _ => none
  | _, neighbours => some neighbours

/-- The state of the tables while the constructor walks over the rows. -/
structure ctor_tables where
  neighbours : List (Nat × Nat)
  row_first : List Nat
  row_last : List Nat
  explored : List Bool
deriving DecidableEq, Repr

/-- The loop `for(index_t r=0; r<rows.size(); ++r)` of the constructor, from row `r` on. -/
def process_rows (cells : List internal_cell) :
    Nat → List (List Nat) → ctor_tables → Option ctor_tables
  | _, [], t => some t
  | r, row :: rows, t =>
    let first := match row.head? with
      | none => t.row_first
      | some c => t.row_first.set r c
    let last := match row.getLast? with
      | none => t.row_last
      | some c => t.row_last.set r c
    match explore_row cells r row t.explored with
    | none => none
    | some explored =>
      match link_row cells r row t.neighbours with
      | none => none
      | some neighbours =>
        process_rows cells (r + 1) rows ⟨neighbours, first, last, explored⟩

/-- The checks of `selfcheck` on the predecessor of cell `i` in the slot `n_ind` of row
`c.row + l`. -/
def selfcheck_first (pl : detailed_placement) (i : Nat) (c : internal_cell) (l n_ind : Nat)
    (first : Nat) : Bool :=
  if first ≠ null_ind then
    match pl.cells_[first]? with
    | none => false
    | some oc =>
      decide (c.position_x ≥ oc.position_x + oc.width) &&
      match neighbour_index pl.cells_ first (c.row + l) with
      | none => false
      | some k =>
        match pl.neighbours_[k]? with
        | none => false
        | some e => e.2 == i
  else
    pl.row_first_cells_[c.row + n_ind - c.neighbours_begin]? == some i

/-- The checks of `selfcheck` on the successor of cell `i` in the slot `n_ind` of row
`c.row + l`. -/
def selfcheck_second (pl : detailed_placement) (i : Nat) (c : internal_cell) (l n_ind : Nat)
    (second : Nat) : Bool :=
  if second ≠ null_ind then
    match pl.cells_[second]? with
    | none => false
    | some oc =>
      decide (c.position_x + c.width ≤ oc.position_x) &&
      match neighbour_index pl.cells_ second (c.row + l) with
      | none => false
      | some k =>
        match pl.neighbours_[k]? with
        | none => false
        | some e => e.1 == i
  else
    pl.row_last_cells_[c.row + n_ind - c.neighbours_begin]? == some i

/-- The body of the inner loop of `selfcheck` for cell `i` and level `l`. -/
def selfcheck_slot (pl : detailed_placement) (i : Nat) (c : internal_cell) (l : Nat) : Bool :=
  let n_ind := l + c.neighbours_begin
  decide (c.row + c.height ≤ pl.row_cnt) &&
  match pl.neighbours_[n_ind]? with
  | none => false
  | some e => selfcheck_first pl i c l n_ind e.1 && selfcheck_second pl i c l n_ind e.2

/-- The method `detailed_placement::selfcheck`: `true` when no assertion is violated. -/
def selfcheck (pl : detailed_placement) : Bool :=
  decide (pl.row_first_cells_.length = pl.row_last_cells_.length) &&
  (List.range pl.cells_.length).all fun i =>
    match pl.cells_[i]? with
    | none => false
    | some c => (List.range c.height).all fun l => selfcheck_slot pl i c l

/-- The constructor of `detailed_placement` up to, and without, its final call of
`selfcheck`. -/
def construct_tables (cells : List internal_cell) (rows : List (List Nat))
    (min_x max_x y_origin : Int) (nbr_rows : Nat) (row_height : Int) :
    Option detailed_placement :=
  if ¬ (row_height > 0 ∧ min_x < max_x ∧ rows.length = nbr_rows) then none
  else
    let cells_ := assign_neighbours_begin 0 cells
    let nbr_lims := nbr_lims_of cells
    match process_rows cells_ 0 rows
        ⟨List.replicate nbr_lims (null_ind, null_ind), List.replicate nbr_rows null_ind,
          List.replicate nbr_rows null_ind, List.replicate nbr_lims false⟩ with
    | none => none
    | some t =>
      if t.explored.all (fun o => o) then
        some ⟨min_x, max_x, y_origin, cells_, t.neighbours, t.row_first, t.row_last⟩
      else none

/-- The constructor `detailed_placement::detailed_placement`. -/
def detailed_placement.construct (cells : List internal_cell) (rows : List (List Nat))
    (min_x max_x y_origin : Int) (nbr_rows : Nat) (row_height : Int) :
    Option detailed_placement :=
  match construct_tables cells rows min_x max_x y_origin nbr_rows row_height with
  | none => none
  | some pl => if selfcheck pl then some pl else none

/-! ## Pairwise swap heuristic (`detailed.cxx`) -/

/-- The assignment `pl.cells_[c].position.x_ = v`. -/
def set_position_x (pl : detailed_placement) (c : Nat) (v : Int) : detailed_placement :=
  { pl with cells_ := pl.cells_.modify (fun cell => { cell with position_x := v }) c }

/-- The assignment `pl.cells_[c].position.y_ = v`. -/
def set_position_y (pl : detailed_placement) (c : Nat) (v : Int) : detailed_placement :=
  { pl with cells_ := pl.cells_.modify (fun cell => { cell with position_y := v }) c }

/-- The assignment `pl.cells_[c].row = r`. -/
def set_row (pl : detailed_placement) (c : Nat) (r : Nat) : detailed_placement :=
  { pl with cells_ := pl.cells_.modify (fun cell => { cell with row := r }) c }

/-- The twice repeated statement of `try_swap` that hands the cell `c` to the cell before
it in row `r`: `if(b != null_ind) neighbours_[neighbour_index(b, r)].second = c; else
row_first_cells_[r] = c`. -/
def patch_before (pl : detailed_placement) (b r c : Nat) : Option detailed_placement :=
  if b ≠ null_ind then
    (neighbour_index pl.cells_ b r).bind fun k =>
      if k < pl.neighbours_.length then
        some { pl with neighbours_ := pl.neighbours_.modify (fun e => (e.1, c)) k }
      else none
  else if r < pl.row_first_cells_.length then
    some { pl with row_first_cells_ := pl.row_first_cells_.set r c }
  else none

/-- The twice repeated statement of `try_swap` that hands the cell `c` to the cell after
it in row `r`: `if(a != null_ind) neighbours_[neighbour_index(a, r)].first = c; else
row_last_cells_[r] = c`. -/
def patch_after (pl : detailed_placement) (a r c : Nat) : Option detailed_placement :=
  if a ≠ null_ind then
    (neighbour_index pl.cells_ a r).bind fun k =>
      if k < pl.neighbours_.length then
        some { pl with neighbours_ := pl.neighbours_.modify (fun e => (c, e.2)) k }
      else none
  else if r < pl.row_last_cells_.length then
    some { pl with row_last_cells_ := pl.row_last_cells_.set r c }
  else none

/-- The lower limit `b != null_ind ? cells_[b].position.x_ + cells_[b].width : min_x_`. -/
def limit_low (pl : detailed_placement) (b : Nat) : Option Int :=
  if b ≠ null_ind then (pl.cells_[b]?).map fun oc => oc.position_x + oc.width
  else some pl.min_x_

/-- The upper limit `a != null_ind ? cells_[a].position.x_ : max_x_`. -/
def limit_up (pl : detailed_placement) (a : Nat) : Option Int :=
  if a ≠ null_ind then (pl.cells_[a]?).map fun oc => oc.position_x
  else some pl.max_x_

/-- The effect of `std::unique` on a sorted list: runs of equal entries are collapsed. -/
def unique : List Nat → List Nat
  | a :: b :: rest => if a = b then unique (b :: rest) else a :: unique (b :: rest)
  | l => l

/-- The nets with a pin on `c1` or on `c2`, sorted and without repetition. -/
def involved_nets_of (circuit : netlist) (c1 c2 : Nat) : Option (List Nat) :=
  match circuit.cells[c1]?, circuit.cells[c2]? with
  | some nc1, some nc2 =>
    some (unique (List.insertionSort (· ≤ ·)
      (nc1.pins.map (fun p => p.net_ind) ++ nc2.pins.map (fun p => p.net_ind))))
  | _, _ => none

/-- The position `pos` of the pin `p` in `get_nets_cost`:
`offs + position + 0.5f * size`, in exact arithmetic. -/
def pin_pos (circuit : netlist) (pl : detailed_placement) (p : pin_t) : Option (ℚ × ℚ) :=
  match pl.cells_[p.cell_ind]?, circuit.cells[p.cell_ind]? with
  | some c, some nc =>
    some ((if c.x_orientation then p.offset_x else -p.offset_x) + c.position_x + nc.size_x / 2,
          (if c.y_orientation then p.offset_y else -p.offset_y) + c.position_y + nc.size_y / 2)
  | _, _ => none

/-- The loop over the pins of one net in `get_nets_cost`: `b` holds `mins.x_`, `mins.y_`,
`maxs.x_`, `maxs.y_`. -/
def net_bounds (circuit : netlist) (pl : detailed_placement) :
    List pin_t → (ℚ × ℚ × ℚ × ℚ) → Option (ℚ × ℚ × ℚ × ℚ)
  | [], b => some b
  | p :: ps, b =>
    match pin_pos circuit pl p with
    | none => none
    | some pos =>
      net_bounds circuit pl ps
        (min b.1 pos.1, min b.2.1 pos.2, max b.2.2.1 pos.1, max b.2.2.2 pos.2)

/-- The bounding-box cost of one net; a net without pins is skipped. The first pin
replaces the infinite initial bounds of the source. -/
def net_cost (circuit : netlist) (pl : detailed_placement) (n : Nat) : Option ℚ :=
  match circuit.nets[n]? with
  | none => none
  | some [] => some 0
  | some (p :: ps) =>
    match pin_pos circuit pl p with
    | none => none
    | some pos =>
      (net_bounds circuit pl ps (pos.1, pos.2, pos.1, pos.2)).map fun b =>
        (b.2.2.1 - b.1) + (b.2.2.2 - b.2.1)

/-- The function `get_nets_cost`, in exact arithmetic: the sum of the bounding-box costs
of the nets `involved_nets`. -/
def get_nets_cost (circuit : netlist) (pl : detailed_placement) :
    List Nat → Option ℚ
  | [] => some 0
  | n :: ns =>
    match net_cost circuit pl n, get_nets_cost circuit pl ns with
    | some c, some rest => some (c + rest)
    | _, _ => none

/-- The four assignments `cells_[c1].position.x_ = x1; cells_[c2].position.x_ = x2;
cells_[c1].position.y_ = y1; cells_[c2].position.y_ = y2` that `try_swap` performs, once
to place the cells tentatively and once to reset the old values. -/
def assign_positions (pl : detailed_placement) (c1 c2 : Nat) (x1 x2 y1 y2 : Int) :
    detailed_placement :=
  set_position_y (set_position_y (set_position_x (set_position_x pl c1 x1) c2 x2) c1 y1) c2 y2

/-- The branch `if(swp_cost < old_cost)` of `try_swap`: the entries of the two cells are
exchanged, the neighbours and the row ends are patched, and the rows are exchanged.
`e1`, `e2` are the entries and `row_c1`, `row_c2` the rows read at the start of the call. -/
def commit_swap (pl : detailed_placement) (c1 c2 : Nat) (n1 n2 : Nat) (e1 e2 : Nat × Nat)
    (row_c1 row_c2 : Nat) : Option detailed_placement :=
  let pl5 := { pl with neighbours_ := (pl.neighbours_.set n1 e2).set n2 e1 }
  (patch_before pl5 e1.1 row_c1 c2).bind fun pl6 =>
  (patch_before pl6 e2.1 row_c2 c1).bind fun pl7 =>
  (patch_after pl7 e1.2 row_c1 c2).bind fun pl8 =>
  (patch_after pl8 e2.2 row_c2 c1).bind fun pl9 =>
    some (set_row (set_row pl9 c1 row_c2) c2 row_c1)

/-- The part of `try_swap` after the limit positions `c1_l`, `c1_u`, `c2_l`, `c2_u` have
been computed, with the cost evaluation `cost` in place of `get_nets_cost`. -/
def try_swap_limits {K : Type} [LT K] [DecidableRel (fun a b : K => a < b)]
    (cost : detailed_placement → List Nat → Option K) (circuit : netlist)
    (pl : detailed_placement) (c1 c2 : Nat) (cell1 cell2 : internal_cell) (e1 e2 : Nat × Nat)
    (c1_l c2_l c1_u c2_u : Int) : Option (Bool × detailed_placement) :=
  let swp_min_c1 := c2_l
  let swp_min_c2 := c1_l
  let swp_max_c1 := c2_u - cell1.width
  let swp_max_c2 := c1_u - cell2.width
  if swp_max_c1 ≥ swp_min_c1 ∧ swp_max_c2 ≥ swp_min_c2 then
    match involved_nets_of circuit c1 c2 with
    | none => none
    | some involved_nets =>
      match cost pl involved_nets with
      | none => none
      | some old_cost =>
        let c1_x := cell1.position_x
        let c2_x := cell2.position_x
        let c1_y := cell1.position_y
        let c2_y := cell2.position_y
        let pl4 := assign_positions pl c1 c2 (Int.tdiv (swp_min_c1 + swp_max_c1) 2)
          (Int.tdiv (swp_min_c2 + swp_max_c2) 2) c2_y c1_y
        match cost pl4 involved_nets with
        | none => none
        | some swp_cost =>
          if swp_cost < old_cost then
            (commit_swap pl4 c1 c2 cell1.neighbours_begin cell2.neighbours_begin e1 e2
              cell1.row cell2.row).map fun pl' => (true, pl')
          else
            some (false, assign_positions pl4 c1 c2 c1_x c2_x c1_y c2_y)
  else some (false, pl)

/-- The function `try_swap`, with the cost evaluation `cost` in place of the floating-point
`get_nets_cost`: the result is the returned boolean and the placement after the call. -/
def try_swap_with {K : Type} [LT K] [DecidableRel (fun a b : K => a < b)]
    (cost : detailed_placement → List Nat → Option K)
    (circuit : netlist) (pl : detailed_placement) (c1 c2 : Nat) :
    Option (Bool × detailed_placement) :=
  match pl.cells_[c1]?, pl.cells_[c2]?, circuit.cells[c1]?, circuit.cells[c2]? with
  | some cell1, some cell2, some nc1, some nc2 =>
    if ¬ (cell1.height = 1 ∧ cell2.height = 1) then none
    else if ¬ (nc1.size_y = nc2.size_y) then none
    else if ¬ (cell1.row ≠ cell2.row) then none
    else if ¬ (Nat.land nc1.attributes XMovable ≠ 0 ∧ Nat.land nc1.attributes YMovable ≠ 0) then
      none
    else if ¬ (Nat.land nc2.attributes XMovable ≠ 0 ∧ Nat.land nc2.attributes YMovable ≠ 0) then
      none
    else
    match pl.neighbours_[cell1.neighbours_begin]?, pl.neighbours_[cell2.neighbours_begin]? with
    | some e1, some e2 =>
      match limit_low pl e1.1, limit_low pl e2.1, limit_up pl e1.2, limit_up pl e2.2 with
      | some c1_l, some c2_l, some c1_u, some c2_u =>
        try_swap_limits cost circuit pl c1 c2 cell1 cell2 e1 e2 c1_l c2_l c1_u c2_u
      | _, _, _, _ => none
    | _, _ => none
  | _, _, _, _ => none

/-- The function `try_swap` with the cost of `get_nets_cost` in exact arithmetic. -/
def try_swap (circuit : netlist) (pl : detailed_placement) (c1 c2 : Nat) :
    Option (Bool × detailed_placement) :=
  try_swap_with (get_nets_cost circuit) circuit pl c1 c2

/-! ## Row-local optimizers (`detailed.cxx`) -/

/-- The function `get_first_standard_cell`, run for at most `fuel` tests of its loop
condition: from `c` on, the cells of height other than one are passed over along the
successor links of row `r`. -/
def get_first_standard_cell (pl : detailed_placement) (r : Nat) : Nat → Nat → Option Nat
  | 0, _ => none
  | fuel + 1, c =>
    if c = null_ind then some c
    else
      match pl.cells_[c]? with
      | none => none
      | some cell =>
        if cell.height ≠ 1 then
          match neighbour_index pl.cells_ c r with
          | none => none
          | some k =>
            match pl.neighbours_[k]? with
            | none => none
            | some e => if c = e.2 then none else get_first_standard_cell pl r fuel e.2
        else if cell.row = r then some c
        else none

/-- The function `get_first_cell_on_row`. -/
def get_first_cell_on_row (pl : detailed_placement) (r fuel : Nat) : Option Nat :=
  match pl.row_first_cells_[r]? with
  | none => none
  | some c => get_first_standard_cell pl r fuel c

/-- The `for` loop of `optimize_single_rows` that gathers a run of movable cells of height
one, run for at most `fuel` tests of its condition: the result is the vector `cells` and
the value of `OSRP_cell` after the loop. -/
def collect_cells (circuit : netlist) (pl : detailed_placement) :
    Nat → Nat → Option (List Nat × Nat)
  | 0, _ => none
  | fuel + 1, c =>
    if c = null_ind then some ([], c)
    else
      match pl.cells_[c]? with
      | none => none
      | some cell =>
        if cell.height = 1 then
          match circuit.cells[c]? with
          | none => none
          | some nc =>
            if Nat.land nc.attributes XMovable ≠ 0 then
              match pl.neighbours_[cell.neighbours_begin]? with
              | none => none
              | some e => (collect_cells circuit pl fuel e.2).map fun w => (c :: w.1, w.2)
            else some ([], c)
        else some ([], c)

/-- The loop `for(i < cells.size()) pl.cells_[cells[i]].position.x_ = positions[i]` of the
two row optimizers. -/
def assign_run_positions (pl : detailed_placement) :
    List Nat → List Int → Option detailed_placement
  | [], _ => some pl
  | _ :: _, [] => none
  | c :: cs, x :: xs =>
    if c < pl.cells_.length then assign_run_positions (set_position_x pl c x) cs xs
    else none

/-- The block `if(not cells.empty())` of `optimize_single_rows`: the limits of the run are
read from the cell before its first cell and from the cell after its last cell, the
positions come from `optimize`, which stands for `optimize_convex_sequence` (its result
is the returned cost and the vector `positions`), and are written back. The limits are
declared `index_t` in the source; the conversion is not modelled. -/
def place_run {K : Type}
    (optimize : detailed_placement → List Nat → Int → Int → Option (K × List Int))
    (pl : detailed_placement) (cells : List Nat) : Option detailed_placement :=
  match cells.head?, cells.getLast? with
  | some front, some back =>
    match pl.cells_[front]?, pl.cells_[back]? with
    | some cfront, some cback =>
      match pl.neighbours_[cfront.neighbours_begin]?, pl.neighbours_[cback.neighbours_begin]? with
      | some efront, some eback =>
        match limit_low pl efront.1, limit_up pl eback.2 with
        | some lower_lim, some upper_lim =>
          match optimize pl cells lower_lim upper_lim with
          | some res => assign_run_positions pl cells res.2
          | none => none
        | _, _ => none
      | _, _ => none
    | _, _ => none
  | _, _ => some pl

/-- The loop `while(OSRP_cell != null_ind)` of `optimize_single_rows` on row `r`, run for
at most `fuel` iterations; the loops inside it are given `n` tests each. -/
def single_row_loop {K : Type}
    (optimize : detailed_placement → List Nat → Int → Int → Option (K × List Int))
    (circuit : netlist) (r n : Nat) : Nat → Nat → detailed_placement → Option detailed_placement
  | 0, _, _ => none
  | fuel + 1, c, pl =>
    if c = null_ind then some pl
    else
      match collect_cells circuit pl n c with
      | none => none
      | some w =>
        match place_run optimize pl w.1 with
        | none => none
        | some pl' =>
          if w.2 ≠ null_ind then
            match get_first_standard_cell pl' r n w.2 with
            | none => none
            | some c' => single_row_loop optimize circuit r n fuel c' pl'
          else single_row_loop optimize circuit r n fuel w.2 pl'

/-- The loop over the rows of `optimize_single_rows`, on the rows listed. -/
def single_rows_from {K : Type}
    (optimize : detailed_placement → List Nat → Int → Int → Option (K × List Int))
    (circuit : netlist) (n fuel : Nat) : List Nat → detailed_placement → Option detailed_placement
  | [], pl => some pl
  | r :: rs, pl =>
    match get_first_cell_on_row pl r n with
    | none => none
    | some c =>
      match single_row_loop optimize circuit r n fuel c pl with
      | none => none
      | some pl' => single_rows_from optimize circuit n fuel rs pl'

/-- The function `optimize_single_rows`, every loop of which is run for at most `fuel`
iterations. -/
def optimize_single_rows {K : Type}
    (optimize : detailed_placement → List Nat → Int → Int → Option (K × List Int))
    (circuit : netlist) (fuel : Nat) (pl : detailed_placement) : Option detailed_placement :=
  match single_rows_from optimize circuit fuel fuel (List.range pl.row_cnt) pl with
  | none => none
  | some pl' => if selfcheck pl' then some pl' else none

/-- The part of `std::next_permutation` that exchanges the element `x` in front of the
non-increasing end of the range with the last element of that end greater than `x`, and
reverses the end: the list is the reversed end, the result the exchanged element and the
new end. -/
def exchange_pivot (x : Nat) : List Nat → Option (Nat × List Nat)
  | [] => none
  | y :: ys =>
    if x < y then some (y, x :: ys)
    else (exchange_pivot x ys).map fun r => (r.1, y :: r.2)

/-- The library function `std::next_permutation` on a vector of cell indices: the longest
non-increasing end of the range is found, the element in front of it is exchanged with the
last element of the end that is greater, and the end is reversed. The result is the next
arrangement, `none` when the function returns false (the whole range is non-increasing). -/
def next_permutation : List Nat → Option (List Nat)
  | [] => none
  | x :: xs =>
    match next_permutation xs with
    | some xs' => some (x :: xs')
    | none => (exchange_pivot x xs.reverse).map fun r => r.1 :: r.2

/-- The loop `do{ ... }while(std::next_permutation(...))` of `swap_in_rows`: `best` holds
`best_cost`, `best_permutation` and `best_positions`, and `optimize` stands for the call of
`optimize_convex_sequence` on the current arrangement. -/
def select_loop {K : Type} [LT K] [DecidableRel (fun a b : K => a < b)]
    (optimize : List Nat → Option (K × List Int)) :
    Nat → List Nat → K × List Nat × List Int → Option (K × List Nat × List Int)
  | 0, _, _ => none
  | fuel + 1, cells, best =>
    match optimize cells with
    | none => none
    | some res =>
      let best' := if res.1 < best.1 then (res.1, cells, res.2) else best
      match next_permutation cells with
      | some cells' => select_loop optimize fuel cells' best'
      | none => some best'

/-- The search of `swap_in_rows` for the best arrangement of the window `cells`: the
permutations are tried from the sorted arrangement on, and `best_cost`, which starts at
`inf` (the infinite cost), must have come below it. The loop is left after at most
`cells.length!` iterations. -/
def select_order {K : Type} [LT K] [DecidableRel (fun a b : K => a < b)]
    (optimize : List Nat → Option (K × List Int)) (inf : K) (cells : List Nat) :
    Option (K × List Nat × List Int) :=
  match select_loop optimize cells.length.factorial (List.insertionSort (· ≤ ·) cells)
      (inf, cells, List.replicate cells.length 0) with
  | none => none
  | some best => if best.1 < inf then some best else none

/-- The loop of `swap_in_rows` that asserts that every cell of the chosen arrangement
starts at or after the end of the cell before it. -/
def run_ordered (pl : detailed_placement) : List Nat → Option Bool
  | c1 :: c2 :: cs =>
    match pl.cells_[c1]?, pl.cells_[c2]? with
    | some cell1, some cell2 =>
      if cell2.position_x ≥ cell1.width + cell1.position_x then run_ordered pl (c2 :: cs)
      else some false
    | _, _ => none
  | [c] => if c < pl.cells_.length then some true else none
  | [] => some true

/-- The loop of `swap_in_rows` that writes the neighbour entries of the cells of the
window: the predecessor is the cell before in the arrangement, `prev`, which is
`before_row` for the first cell, and the successor the cell after, `after_row` for the
last cell. -/
def rewrite_links (after_row : Nat) :
    detailed_placement → Nat → List Nat → Option detailed_placement
  | pl, _, [] => some pl
  | pl, prev, c :: cs =>
    match pl.cells_[c]? with
    | none => none
    | some cell =>
      if cell.neighbours_begin < pl.neighbours_.length then
        rewrite_links after_row
          { pl with neighbours_ :=
              pl.neighbours_.set cell.neighbours_begin (prev, cs.headD after_row) } c cs
      else none

/-- The end of the block `if(not cells.empty())` of `swap_in_rows`, for the chosen
arrangement `cells` and its positions: the positions are written, the order is asserted,
the links of the window are rewritten, and the first cell is handed to `before_row` and
the last one to `after_row`, or to the row ends. -/
def commit_window (pl : detailed_placement) (r before_row after_row : Nat) (cells : List Nat)
    (positions : List Int) : Option detailed_placement :=
  match cells.head?, cells.getLast? with
  | some front, some back =>
    (assign_run_positions pl cells positions).bind fun pl1 =>
    (run_ordered pl1 cells).bind fun ok =>
    if ok then
      (rewrite_links after_row pl1 before_row cells).bind fun pl2 =>
      (patch_before pl2 before_row r front).bind fun pl3 =>
      patch_after pl3 after_row r back
    else none
  | _, _ => none

/-- The block `if(not cells.empty())` of `swap_in_rows` on the window `cells` of row `r`:
the result is the placement and the chosen arrangement. -/
def process_window {K : Type} [LT K] [DecidableRel (fun a b : K => a < b)]
    (optimize : detailed_placement → List Nat → Int → Int → Option (K × List Int)) (inf : K)
    (pl : detailed_placement) (r : Nat) (cells : List Nat) :
    Option (detailed_placement × List Nat) :=
  match cells.head?, cells.getLast? with
  | some front, some back =>
    match pl.cells_[front]?, pl.cells_[back]? with
    | some cfront, some cback =>
      match pl.neighbours_[cfront.neighbours_begin]?, pl.neighbours_[cback.neighbours_begin]? with
      | some efront, some eback =>
        match limit_low pl efront.1, limit_up pl eback.2 with
        | some lower_lim, some upper_lim =>
          match select_order (fun cs => optimize pl cs lower_lim upper_lim) inf cells with
          | none => none
          | some best =>
            (commit_window pl r efront.1 eback.2 best.2.1 best.2.2).map fun pl' =>
              (pl', best.2.1)
        | _, _ => none
      | _, _ => none
    | _, _ => none
  | _, _ => some (pl, cells)

/-- The `for` loop of `swap_in_rows` that gathers at most `remaining` movable cells of
height one: the result is the vector `cells` and the value of `OSRP_cell` after the loop. -/
def collect_window (circuit : netlist) (pl : detailed_placement) :
    Nat → Nat → Option (List Nat × Nat)
  | remaining, c =>
    if c = null_ind then some ([], c)
    else
      match pl.cells_[c]? with
      | none => none
      | some cell =>
        if cell.height = 1 then
          match circuit.cells[c]? with
          | none => none
          | some nc =>
            if Nat.land nc.attributes XMovable ≠ 0 then
              match remaining with
              | 0 => some ([], c)
              | k + 1 =>
                match pl.neighbours_[cell.neighbours_begin]? with
                | none => none
                | some e => (collect_window circuit pl k e.2).map fun w => (c :: w.1, w.2)
            else some ([], c)
        else some ([], c)

/-- The end of the body of the loop `while(OSRP_cell != null_ind)` of `swap_in_rows`:
the cell from which the next window starts, for the cell `c` at which the window stopped
and the arrangement `cells` chosen for it. -/
def next_window_start (circuit : netlist) (pl : detailed_placement) (r n : Nat) (c : Nat)
    (cells : List Nat) : Option Nat :=
  if c ≠ null_ind then
    match circuit.cells[c]? with
    | none => none
    | some nc =>
      if Nat.land nc.attributes XMovable = 0 then get_first_standard_cell pl r n c
      else
        match pl.cells_[c]? with
        | none => none
        | some cell =>
          if cell.height ≠ 1 then get_first_standard_cell pl r n c
          else cells[1]?
  else some c

/-- The loop `while(OSRP_cell != null_ind)` of `swap_in_rows` on row `r`, run for at most
`fuel` iterations; `get_first_standard_cell` is given `n` tests of its loop condition. -/
def swap_row_loop {K : Type} [LT K] [DecidableRel (fun a b : K => a < b)]
    (optimize : detailed_placement → List Nat → Int → Int → Option (K × List Int)) (inf : K)
    (circuit : netlist) (range r n : Nat) :
    Nat → Nat → detailed_placement → Option detailed_placement
  | 0, _, _ => none
  | fuel + 1, c, pl =>
    if c = null_ind then some pl
    else
      match collect_window circuit pl range c with
      | none => none
      | some w =>
        match process_window optimize inf pl r w.1 with
        | none => none
        | some res =>
          match next_window_start circuit res.1 r n w.2 res.2 with
          | none => none
          | some c' => swap_row_loop optimize inf circuit range r n fuel c' res.1

/-- The loop over the rows of `swap_in_rows`, on the rows listed. -/
def swap_rows_from {K : Type} [LT K] [DecidableRel (fun a b : K => a < b)]
    (optimize : detailed_placement → List Nat → Int → Int → Option (K × List Int)) (inf : K)
    (circuit : netlist) (range n fuel : Nat) :
    List Nat → detailed_placement → Option detailed_placement
  | [], pl => some pl
  | r :: rs, pl =>
    match get_first_cell_on_row pl r n with
    | none => none
    | some c =>
      match swap_row_loop optimize inf circuit range r n fuel c pl with
      | none => none
      | some pl' => swap_rows_from optimize inf circuit range n fuel rs pl'

/-- The function `swap_in_rows`, every unbounded loop of which is run for at most `fuel`
iterations. -/
def swap_in_rows {K : Type} [LT K] [DecidableRel (fun a b : K => a < b)]
    (optimize : detailed_placement → List Nat → Int → Int → Option (K × List Int)) (inf : K)
    (circuit : netlist) (range fuel : Nat) (pl : detailed_placement) :
    Option detailed_placement :=
  if range ≥ 2 then
    match swap_rows_from optimize inf circuit range fuel fuel (List.range pl.row_cnt) pl with
    | none => none
    | some pl' => if selfcheck pl' then some pl' else none
  else none

/-! ## Global coordinate optimizer (`detailed.cxx`) -/

/-- The nodes of the flow graph of `optimize_positions`: `cell_nodes[c]`, `Lnet_nodes[n]`,
`Unet_nodes[n]` and `fixed`. -/
inductive flow_node where
  | cell (c : Nat)
  | Lnet (n : Nat)
  | Unet (n : Nat)
  | fixed
deriving DecidableEq, Repr

/-- An entry `arc_pair` of `constraint_arcs`: the arc from `source` to `target` that
`g.addArc` has created, and its cost. -/
structure arc_pair where
  source : flow_node
  target : flow_node
  cost : Int
deriving DecidableEq, Repr

/-- The test `(circuit.get_cell(c).attributes & XMovable) != 0`. -/
def x_movable (circuit : netlist) (c : Nat) : Option Bool :=
  (circuit.cells[c]?).map fun nc => decide (Nat.land nc.attributes XMovable ≠ 0)

/-- The results of `f` on the elements of a list, one after the other; `none` as soon as
one of them is `none`. -/
def gather {α β : Type} (f : α → Option (List β)) : List α → Option (List β)
  | [] => some []
  | a :: as =>
    match f a, gather f as with
    | some x, some rest => some (x ++ rest)
    | _, _ => none

/-- The body of the loop over the row-slots `l` of the cell `i`, with record `c`, in the
first loop of `optimize_positions`: the arc for the cell and its right neighbour. -/
def slot_ordering_arcs (circuit : netlist) (pl : detailed_placement) (i : Nat)
    (c : internal_cell) (l : Nat) : Option (List arc_pair) :=
  match pl.neighbours_[l]? with
  | none => none
  | some e =>
    if e.2 = null_ind then some []
    else
      match pl.cells_[e.2]? with
      | none => none
      | some oc =>
        if ¬ (c.position_x + c.width ≤ oc.position_x) then none
        else
          match x_movable circuit i, x_movable circuit e.2 with
          | some true, some true => some [⟨flow_node.cell e.2, flow_node.cell i, -c.width⟩]
          | some true, some false =>
            some [⟨flow_node.fixed, flow_node.cell i, oc.position_x - c.width⟩]
          | some false, some true =>
            some [⟨flow_node.cell e.2, flow_node.fixed, -c.position_x - c.width⟩]
          | some false, some false => some []
          | _, _ => none

/-- The body of the first loop of `optimize_positions` for the cell `i`. -/
def cell_ordering_arcs (circuit : netlist) (pl : detailed_placement) (i : Nat) :
    Option (List arc_pair) :=
  match pl.cells_[i]? with
  | none => none
  | some c =>
    gather (fun l => slot_ordering_arcs circuit pl i c (c.neighbours_begin + l))
      (List.range c.height)

/-- The arcs pushed by the first loop of `optimize_positions`. -/
def ordering_arcs (circuit : netlist) (pl : detailed_placement) : Option (List arc_pair) :=
  gather (cell_ordering_arcs circuit pl) (List.range circuit.cells.length)

/-- The body of the loop of `optimize_positions` over the first cells of the rows. -/
def first_cell_arcs (circuit : netlist) (pl : detailed_placement) (r : Nat) :
    Option (List arc_pair) :=
  match pl.row_first_cells_[r]? with
  | none => none
  | some lc =>
    if lc = null_ind then some []
    else
      match x_movable circuit lc with
      | none => none
      | some true => some [⟨flow_node.cell lc, flow_node.fixed, -pl.min_x_⟩]
      | some false => some []

/-- The body of the loop of `optimize_positions` over the last cells of the rows. -/
def last_cell_arcs (circuit : netlist) (pl : detailed_placement) (r : Nat) :
    Option (List arc_pair) :=
  match pl.row_last_cells_[r]? with
  | none => none
  | some rc =>
    if rc = null_ind then some []
    else
      match x_movable circuit rc with
      | none => none
      | some true =>
        match pl.cells_[rc]? with
        | none => none
        | some cell => some [⟨flow_node.fixed, flow_node.cell rc, pl.max_x_ - cell.width⟩]
      | some false => some []

/-- The arcs pushed by the two loops of `optimize_positions` over the rows. -/
def boundary_arcs (circuit : netlist) (pl : detailed_placement) : Option (List arc_pair) :=
  match gather (first_cell_arcs circuit pl) (List.range pl.row_cnt),
      gather (last_cell_arcs circuit pl) (List.range pl.row_cnt) with
  | some a, some b => some (a ++ b)
  | _, _ => none

/-- The conversion of a `float_t` value to `int_t`, as in the initialisation
`int_t pin_offs = ...` of `optimize_positions`: the fraction is dropped. -/
def float_to_int (q : ℚ) : Int :=
  Int.tdiv q.num q.den

/-- The local `pin_offs` of `optimize_positions`: `0.5f * width + offset`, the offset
taken with the orientation of the cell, converted to `int_t`, which drops the fraction. -/
def pin_offs (cell : internal_cell) (p : pin_t) : Int :=
  float_to_int ((cell.width : ℚ) / 2 + (if cell.x_orientation then p.offset_x else -p.offset_x))

/-- The body of the loop of `optimize_positions` over the pins of the net `n`. -/
def pin_arcs (circuit : netlist) (pl : detailed_placement) (n : Nat) (p : pin_t) :
    Option (List arc_pair) :=
  match pl.cells_[p.cell_ind]? with
  | none => none
  | some cell =>
    match x_movable circuit p.cell_ind with
    | none => none
    | some true =>
      some [⟨flow_node.cell p.cell_ind, flow_node.Lnet n, pin_offs cell p⟩,
        ⟨flow_node.Unet n, flow_node.cell p.cell_ind, -pin_offs cell p⟩]
    | some false =>
      some [⟨flow_node.fixed, flow_node.Lnet n, cell.position_x + pin_offs cell p⟩,
        ⟨flow_node.Unet n, flow_node.fixed, -cell.position_x - pin_offs cell p⟩]

/-- The body of the loop of `optimize_positions` over the nets. -/
def net_arcs (circuit : netlist) (pl : detailed_placement) (n : Nat) : Option (List arc_pair) :=
  match circuit.nets[n]? with
  | none => none
  | some pins => if pins = [] then none else gather (pin_arcs circuit pl n) pins

/-- The vector `constraint_arcs` of `optimize_positions` before the solver is run. -/
def constraint_arcs (circuit : netlist) (pl : detailed_placement) : Option (List arc_pair) :=
  match ordering_arcs circuit pl, boundary_arcs circuit pl,
      gather (net_arcs circuit pl) (List.range circuit.nets.length) with
  | some a, some b, some c => some (a ++ b ++ c)
  | _, _, _ => none

/-- The vector `net_supplies` of `optimize_positions`. -/
def net_supplies (circuit : netlist) : List (flow_node × Int) :=
  (List.range circuit.nets.length).flatMap fun n =>
    [(flow_node.Unet n, 1), (flow_node.Lnet n, -1)]

/-- The last loop of `optimize_positions`: the x-movable cells among those listed get the
potential of their node, counted from the potential of `fixed`. -/
def write_potentials (circuit : netlist) (potential : flow_node → Int) :
    List Nat → detailed_placement → Option detailed_placement
  | [], pl => some pl
  | c :: cs, pl =>
    match x_movable circuit c with
    | none => none
    | some true =>
      if c < pl.cells_.length then
        write_potentials circuit potential cs
          (set_position_x pl c (potential (flow_node.cell c) - potential flow_node.fixed))
      else none
    | some false => write_potentials circuit potential cs pl

/-- The function `optimize_positions`. The solver of the flow problem is the parameter
`solve`: from the arcs with their costs and the supplies it returns the node potentials of
an optimal solution, `none` when its result is not `OPTIMAL` (the function aborts). -/
def optimize_positions
    (solve : List arc_pair → List (flow_node × Int) → Option (flow_node → Int))
    (circuit : netlist) (pl : detailed_placement) : Option detailed_placement :=
  match constraint_arcs circuit pl with
  | none => none
  | some arcs =>
    match solve arcs (net_supplies circuit) with
    | none => none
    | some potential =>
      match write_potentials circuit potential (List.range circuit.cells.length) pl with
      | none => none
      | some pl' => if selfcheck pl' then some pl' else none

/-! ## Properties used in the statements -/

/-- Knot positions strictly increase from each knot to the next. -/
def knots_increasing (f : piecewise_linear_function) : Prop :=
  List.Chain' (fun p q : p_v => p.1 < q.1) f

/-- Knot values never increase from left to right. -/
def values_nonincreasing (f : piecewise_linear_function) : Prop :=
  List.Pairwise (fun p q : p_v => q.2 ≤ p.2) f

/-- The layout of the flat table: no cell index is the sentinel, the row-slots of every
cell lie inside the table, and those of an earlier cell come before those of a later
cell. -/
def table_layout (pl : detailed_placement) : Prop :=
  pl.cells_.length ≤ null_ind ∧
  (∀ (c : Nat) (cell : internal_cell), pl.cells_[c]? = some cell →
    cell.neighbours_begin + cell.height ≤ pl.neighbours_.length) ∧
  (∀ (c c' : Nat) (cell cell' : internal_cell), c < c' → pl.cells_[c]? = some cell →
    pl.cells_[c']? = some cell' →
    cell.neighbours_begin + cell.height ≤ cell'.neighbours_begin)

/-- The cell before place `i` of the row list `row`, the sentinel at the left end. -/
def row_pred (row : List Nat) (i : Nat) : Nat :=
  if i = 0 then null_ind else row.getD (i - 1) null_ind

/-- The cell after place `i` of the row list `row`, the sentinel at the right end. -/
def row_succ (row : List Nat) (i : Nat) : Nat :=
  row.getD (i + 1) null_ind

/-- The cells met from cell `c` on by following the successor links of row `r`, at most
`fuel` of them. -/
def walk_row (pl : detailed_placement) (r : Nat) : Nat → Nat → List Nat
  | 0, _ => []
  | fuel + 1, c =>
    if c = null_ind then []
    else
      match neighbour_index pl.cells_ c r with
      | none => [c]
      | some n =>
        match pl.neighbours_[n]? with
        | none => [c]
        | some e => c :: walk_row pl r fuel e.2

/-- What the tables of the constructor hold once the row lists `done` (the rows
`0 .. done.length - 1`) have been processed. -/
structure rows_processed (cells : List internal_cell) (nbr_rows : Nat)
    (done : List (List Nat)) (t : ctor_tables) : Prop where
  first_length : t.row_first.length = nbr_rows
  last_length : t.row_last.length = nbr_rows
  neighbours_length : t.neighbours.length = t.explored.length
  explored_iff : ∀ n : Nat, t.explored[n]? = some true ↔
    ∃ (r : Nat) (row : List Nat) (c : Nat),
      done[r]? = some row ∧ c ∈ row ∧ neighbour_index cells c r = some n
  unexplored : ∀ n : Nat, t.explored[n]? = some false →
    t.neighbours[n]? = some (null_ind, null_ind)
  entries : ∀ (r : Nat) (row : List Nat) (i c : Nat), done[r]? = some row → row[i]? = some c →
    ∃ n, neighbour_index cells c r = some n ∧
      t.neighbours[n]? = some (row_pred row i, row_succ row i)
  ends : ∀ (r : Nat) (row : List Nat), done[r]? = some row →
    t.row_first[r]? = some (row.head?.getD null_ind) ∧
    t.row_last[r]? = some (row.getLast?.getD null_ind)
  ends_later : ∀ r : Nat, done.length ≤ r → r < nbr_rows →
    t.row_first[r]? = some null_ind ∧ t.row_last[r]? = some null_ind
  ordered : ∀ (r : Nat) (row : List Nat) (i c1 c2 : Nat), done[r]? = some row →
    row[i]? = some c1 →
    row[i + 1]? = some c2 →
    ∃ cell1 cell2, cells[c1]? = some cell1 ∧ cells[c2]? = some cell2 ∧
      cell1.position_x + cell1.width ≤ cell2.position_x
  nodup : ∀ (r : Nat) (row : List Nat), done[r]? = some row → row.Nodup

/-- What `selfcheck` verifies about the predecessor `p` of cell `i`, with record `c`, in
row `r`. -/
def pred_ok (pl : detailed_placement) (i : Nat) (c : internal_cell) (r p : Nat) : Prop :=
  (p ≠ null_ind ∧ ∃ (oc : internal_cell) (k : Nat) (e : Nat × Nat),
    pl.cells_[p]? = some oc ∧ oc.position_x + oc.width ≤ c.position_x ∧
    neighbour_index pl.cells_ p r = some k ∧ pl.neighbours_[k]? = some e ∧ e.2 = i) ∨
  (p = null_ind ∧ pl.row_first_cells_[r]? = some i)

/-- What `selfcheck` verifies about the successor `s` of cell `i`, with record `c`, in
row `r`. -/
def succ_ok (pl : detailed_placement) (i : Nat) (c : internal_cell) (r s : Nat) : Prop :=
  (s ≠ null_ind ∧ ∃ (oc : internal_cell) (k : Nat) (e : Nat × Nat),
    pl.cells_[s]? = some oc ∧ c.position_x + c.width ≤ oc.position_x ∧
    neighbour_index pl.cells_ s r = some k ∧ pl.neighbours_[k]? = some e ∧ e.1 = i) ∨
  (s = null_ind ∧ pl.row_last_cells_[r]? = some i)

/-- The row invariant: the conditions verified by `selfcheck` (no overlap with the linked
predecessor and successor, symmetric links, a cell without predecessor or successor is the
first or last cell of its row), the first and last pointer of a row name a cell of that
row without predecessor or successor, and a cell at a row end lies inside
`[min_x, max_x]`. -/
structure row_invariant (pl : detailed_placement) : Prop where
  checked : selfcheck pl = true
  first_exact : ∀ (r c : Nat), pl.row_first_cells_[r]? = some c → c ≠ null_ind →
    ∃ (n : Nat) (e : Nat × Nat), neighbour_index pl.cells_ c r = some n ∧
      pl.neighbours_[n]? = some e ∧ e.1 = null_ind
  last_exact : ∀ (r c : Nat), pl.row_last_cells_[r]? = some c → c ≠ null_ind →
    ∃ (n : Nat) (e : Nat × Nat), neighbour_index pl.cells_ c r = some n ∧
      pl.neighbours_[n]? = some e ∧ e.2 = null_ind
  ends_inside : ∀ (i : Nat) (c : internal_cell) (l : Nat) (e : Nat × Nat),
    pl.cells_[i]? = some c → l < c.height →
    pl.neighbours_[l + c.neighbours_begin]? = some e →
    (e.1 = null_ind → pl.min_x_ ≤ c.position_x) ∧
    (e.2 = null_ind → c.position_x + c.width ≤ pl.max_x_)

/-- No cell is linked to itself: in no row-slot of a cell is that cell its own predecessor
or successor. The constructor lists a cell at most once in a row, so every placement it
returns has this property. -/
def no_self_link (pl : detailed_placement) : Prop :=
  ∀ (c : Nat) (cell : internal_cell) (k : Nat) (e : Nat × Nat),
    pl.cells_[c]? = some cell → k < cell.height →
    pl.neighbours_[cell.neighbours_begin + k]? = some e → e.1 ≠ c ∧ e.2 ≠ c

/-- The predecessor stored in slot `s` after the accepted swap of `c1` (entry `e1`, row
`row_c1`) and `c2` (entry `e2`, row `row_c2`), when it was `old` after the exchange of the
two entries. -/
def swap_first (cells : List internal_cell) (c1 c2 : Nat) (e1 e2 : Nat × Nat)
    (row_c1 row_c2 s old : Nat) : Nat :=
  if e2.2 ≠ null_ind ∧ neighbour_index cells e2.2 row_c2 = some s then c1
  else if e1.2 ≠ null_ind ∧ neighbour_index cells e1.2 row_c1 = some s then c2
  else old

/-- The successor stored in slot `s` after the accepted swap, when it was `old` after the
exchange of the two entries. -/
def swap_second (cells : List internal_cell) (c1 c2 : Nat) (e1 e2 : Nat × Nat)
    (row_c1 row_c2 s old : Nat) : Nat :=
  if e2.1 ≠ null_ind ∧ neighbour_index cells e2.1 row_c2 = some s then c1
  else if e1.1 ≠ null_ind ∧ neighbour_index cells e1.1 row_c1 = some s then c2
  else old

/-- The placement `pl'` after the accepted swap of `c1` and `c2` in `pl`, table by table:
`cell1`, `cell2` are the records and `e1`, `e2` the entries of the two cells in `pl`, and
`x1`, `x2` their new abscissas. -/
structure swap_effect (pl pl' : detailed_placement) (c1 c2 : Nat)
    (cell1 cell2 : internal_cell) (e1 e2 : Nat × Nat) (x1 x2 : Int) : Prop where
  min_x : pl'.min_x_ = pl.min_x_
  max_x : pl'.max_x_ = pl.max_x_
  cell_c1 : pl'.cells_[c1]? = some { cell1 with
    position_x := x1, position_y := cell2.position_y, row := cell2.row }
  cell_c2 : pl'.cells_[c2]? = some { cell2 with
    position_x := x2, position_y := cell1.position_y, row := cell1.row }
  cell_other : ∀ i : Nat, i ≠ c1 → i ≠ c2 → pl'.cells_[i]? = pl.cells_[i]?
  entry_c1 : pl'.neighbours_[cell1.neighbours_begin]? = some
    (swap_first pl.cells_ c1 c2 e1 e2 cell1.row cell2.row cell1.neighbours_begin e2.1,
      swap_second pl.cells_ c1 c2 e1 e2 cell1.row cell2.row cell1.neighbours_begin e2.2)
  entry_c2 : pl'.neighbours_[cell2.neighbours_begin]? = some
    (swap_first pl.cells_ c1 c2 e1 e2 cell1.row cell2.row cell2.neighbours_begin e1.1,
      swap_second pl.cells_ c1 c2 e1 e2 cell1.row cell2.row cell2.neighbours_begin e1.2)
  entry_other : ∀ s : Nat, s ≠ cell1.neighbours_begin → s ≠ cell2.neighbours_begin →
    pl'.neighbours_[s]? = (pl.neighbours_[s]?).map fun e =>
      (swap_first pl.cells_ c1 c2 e1 e2 cell1.row cell2.row s e.1,
        swap_second pl.cells_ c1 c2 e1 e2 cell1.row cell2.row s e.2)
  first_c1 : e2.1 = null_ind → pl'.row_first_cells_[cell2.row]? = some c1
  first_c2 : e1.1 = null_ind → pl'.row_first_cells_[cell1.row]? = some c2
  first_other : ∀ r : Nat, ¬ (e2.1 = null_ind ∧ r = cell2.row) →
    ¬ (e1.1 = null_ind ∧ r = cell1.row) →
    pl'.row_first_cells_[r]? = pl.row_first_cells_[r]?
  last_c1 : e2.2 = null_ind → pl'.row_last_cells_[cell2.row]? = some c1
  last_c2 : e1.2 = null_ind → pl'.row_last_cells_[cell1.row]? = some c2
  last_other : ∀ r : Nat, ¬ (e2.2 = null_ind ∧ r = cell2.row) →
    ¬ (e1.2 = null_ind ∧ r = cell1.row) →
    pl'.row_last_cells_[r]? = pl.row_last_cells_[r]?
  first_length : pl'.row_first_cells_.length = pl.row_first_cells_.length
  last_length : pl'.row_last_cells_.length = pl.row_last_cells_.length
  neighbours_length : pl'.neighbours_.length = pl.neighbours_.length
  cells_length : pl'.cells_.length = pl.cells_.length

/-- The situation of an accepted swap: the placement `pl` has the table layout and
satisfies the row invariant, `c1` and `c2` are cells of height one in two different rows,
neither of them its own neighbour, with records `cell1`, `cell2` and entries `e1`, `e2`;
the new abscissa `x1` of `c1` lies in the gap of `c2` and the new abscissa `x2` of `c2` in
the gap of `c1`; `pl'` is the placement after the swap. -/
structure swap_context (pl pl' : detailed_placement) (c1 c2 : Nat)
    (cell1 cell2 : internal_cell) (e1 e2 : Nat × Nat) (x1 x2 : Int) : Prop where
  layout : table_layout pl
  inv : row_invariant pl
  hc1 : pl.cells_[c1]? = some cell1
  hc2 : pl.cells_[c2]? = some cell2
  height1 : cell1.height = 1
  height2 : cell2.height = 1
  rows : cell1.row ≠ cell2.row
  loose1 : e1.1 ≠ c1 ∧ e1.2 ≠ c1
  loose2 : e2.1 ≠ c2 ∧ e2.2 ≠ c2
  he1 : pl.neighbours_[cell1.neighbours_begin]? = some e1
  he2 : pl.neighbours_[cell2.neighbours_begin]? = some e2
  low1 : ∀ oc : internal_cell, e2.1 ≠ null_ind → pl.cells_[e2.1]? = some oc →
    oc.position_x + oc.width ≤ x1
  low1_end : e2.1 = null_ind → pl.min_x_ ≤ x1
  up1 : ∀ oc : internal_cell, e2.2 ≠ null_ind → pl.cells_[e2.2]? = some oc →
    x1 + cell1.width ≤ oc.position_x
  up1_end : e2.2 = null_ind → x1 + cell1.width ≤ pl.max_x_
  low2 : ∀ oc : internal_cell, e1.1 ≠ null_ind → pl.cells_[e1.1]? = some oc →
    oc.position_x + oc.width ≤ x2
  low2_end : e1.1 = null_ind → pl.min_x_ ≤ x2
  up2 : ∀ oc : internal_cell, e1.2 ≠ null_ind → pl.cells_[e1.2]? = some oc →
    x2 + cell2.width ≤ oc.position_x
  up2_end : e1.2 = null_ind → x2 + cell2.width ≤ pl.max_x_
  effect : swap_effect pl pl' c1 c2 cell1 cell2 e1 e2 x1 x2

/-! ## Example data -/

/-- Five cells on two rows: cells 0, 1, 4 in row 0 and cells 3, 1, 2 in row 1; cell 1
spans both rows. The offsets `neighbours_begin` are still to be assigned. -/
def example_cells : List internal_cell :=
  [⟨0, 0, 2, 1, 0, 0, true, true⟩, ⟨2, 0, 3, 2, 0, 0, true, true⟩,
   ⟨6, 1, 1, 1, 1, 0, true, true⟩, ⟨0, 1, 1, 1, 1, 0, true, true⟩,
   ⟨9, 0, 1, 1, 0, 0, true, true⟩]

/-- The row lists of the example. -/
def example_rows : List (List Nat) := [[0, 1, 4], [3, 1, 2]]

/-- The placement built from `example_cells` and `example_rows` on `[0, 10]`. -/
def example_placement : detailed_placement :=
  { min_x_ := 0, max_x_ := 10, y_origin_ := 0,
    cells_ :=
      [⟨0, 0, 2, 1, 0, 0, true, true⟩, ⟨2, 0, 3, 2, 0, 1, true, true⟩,
       ⟨6, 1, 1, 1, 1, 3, true, true⟩, ⟨0, 1, 1, 1, 1, 4, true, true⟩,
       ⟨9, 0, 1, 1, 0, 5, true, true⟩],
    neighbours_ := [(null_ind, 1), (0, 4), (3, 2), (1, null_ind), (null_ind, 1), (1, null_ind)],
    row_first_cells_ := [0, 3],
    row_last_cells_ := [4, 2] }

/-- A netlist for the example: net 0 joins cells 0 and 3, net 1 joins cells 2 and 4; all
cells are movable in x and y. -/
def example_circuit : netlist :=
  { cells :=
      [⟨3, 2, 1, [⟨0, 0, 0, 0⟩]⟩, ⟨3, 3, 2, []⟩, ⟨3, 1, 1, [⟨2, 1, 0, 0⟩]⟩,
       ⟨3, 1, 1, [⟨3, 0, 0, 0⟩]⟩, ⟨3, 1, 1, [⟨4, 1, 0, 0⟩]⟩],
    nets := [[⟨0, 0, 0, 0⟩, ⟨3, 0, 0, 0⟩], [⟨2, 1, 0, 0⟩, ⟨4, 1, 0, 0⟩]] }

/-- The example placement after the accepted swap of the cells 4 and 2. -/
def example_swapped : detailed_placement :=
  { min_x_ := 0, max_x_ := 10, y_origin_ := 0,
    cells_ :=
      [⟨0, 0, 2, 1, 0, 0, true, true⟩, ⟨2, 0, 3, 2, 0, 1, true, true⟩,
       ⟨7, 0, 1, 1, 0, 3, true, true⟩, ⟨0, 1, 1, 1, 1, 4, true, true⟩,
       ⟨7, 1, 1, 1, 1, 5, true, true⟩],
    neighbours_ := [(null_ind, 1), (0, 2), (3, 4), (1, null_ind), (null_ind, 1), (1, null_ind)],
    row_first_cells_ := [0, 3],
    row_last_cells_ := [2, 4] }

/-- Three cells of width zero and height one: cells 0 and 1 at abscissa 0 in row 0, cell 2
at abscissa 8 in row 1. The offsets `neighbours_begin` are still to be assigned. -/
def thin_cells : List internal_cell :=
  [⟨0, 0, 0, 1, 0, 0, true, true⟩, ⟨0, 0, 0, 1, 0, 0, true, true⟩,
   ⟨8, 1, 0, 1, 1, 0, true, true⟩]

/-- The row lists of `thin_cells`. -/
def thin_rows : List (List Nat) := [[0, 1], [2]]

/-- The placement built from `thin_cells` and `thin_rows` on `[0, 10]`. -/
def thin_placement : detailed_placement :=
  { min_x_ := 0, max_x_ := 10, y_origin_ := 0,
    cells_ :=
      [⟨0, 0, 0, 1, 0, 0, true, true⟩, ⟨0, 0, 0, 1, 0, 1, true, true⟩,
       ⟨8, 1, 0, 1, 1, 2, true, true⟩],
    neighbours_ := [(null_ind, 1), (0, null_ind), (null_ind, null_ind)],
    row_first_cells_ := [0, 2],
    row_last_cells_ := [1, 2] }

/-- A netlist for `thin_placement`: its one net joins the cells 1 and 2; all cells are
movable in x and y. -/
def thin_circuit : netlist :=
  { cells := [⟨3, 0, 1, []⟩, ⟨3, 0, 1, [⟨1, 0, 0, 0⟩]⟩, ⟨3, 0, 1, [⟨2, 0, 0, 0⟩]⟩],
    nets := [[⟨1, 0, 0, 0⟩, ⟨2, 0, 0, 0⟩]] }

/-- The placement `thin_placement` after the accepted swap of the cells 1 and 2. -/
def thin_swapped : detailed_placement :=
  { min_x_ := 0, max_x_ := 10, y_origin_ := 0,
    cells_ :=
      [⟨0, 0, 0, 1, 0, 0, true, true⟩, ⟨5, 1, 0, 1, 1, 1, true, true⟩,
       ⟨5, 0, 0, 1, 0, 2, true, true⟩],
    neighbours_ := [(null_ind, 2), (null_ind, null_ind), (0, null_ind)],
    row_first_cells_ := [0, 1],
    row_last_cells_ := [2, 1] }

/-- A placement with a cell of width zero that is its own predecessor and successor:
cell 0 in row 0, cell 1 alone in row 1, cell 2 alone in row 2. -/
def loop_placement : detailed_placement :=
  { min_x_ := 0, max_x_ := 10, y_origin_ := 0,
    cells_ :=
      [⟨0, 0, 0, 1, 0, 0, true, true⟩, ⟨0, 1, 0, 1, 1, 1, true, true⟩,
       ⟨5, 2, 0, 1, 2, 2, true, true⟩],
    neighbours_ := [(0, 0), (null_ind, null_ind), (null_ind, null_ind)],
    row_first_cells_ := [null_ind, 1, 2],
    row_last_cells_ := [null_ind, 1, 2] }

/-- A netlist for `loop_placement`: its one net joins the cells 0 and 2. -/
def loop_circuit : netlist :=
  { cells := [⟨3, 0, 1, [⟨0, 0, 0, 0⟩]⟩, ⟨3, 0, 1, []⟩, ⟨3, 0, 1, [⟨2, 0, 0, 0⟩]⟩],
    nets := [[⟨0, 0, 0, 0⟩, ⟨2, 0, 0, 0⟩]] }

/-- The placement `loop_placement` after the accepted swap of the cells 0 and 1. -/
def loop_swapped : detailed_placement :=
  { min_x_ := 0, max_x_ := 10, y_origin_ := 0,
    cells_ :=
      [⟨5, 1, 0, 1, 1, 0, true, true⟩, ⟨0, 0, 0, 1, 0, 1, true, true⟩,
       ⟨5, 2, 0, 1, 2, 2, true, true⟩],
    neighbours_ := [(1, 1), (0, 0), (null_ind, null_ind)],
    row_first_cells_ := [null_ind, 0, 2],
    row_last_cells_ := [null_ind, 0, 2] }

/-- What `add_bislope(s_l, s_r, bp)` is to make of the knot `k`: the left slope is added
before `bp`, the right slope after `bp`, nothing at `bp`. -/
def bislope_knot (s_l s_r bp : Int) (k : p_v) : p_v :=
  if k.1 < bp then (k.1, k.2 + s_l * (k.1 - bp))
  else if k.1 > bp then (k.1, k.2 + s_r * (k.1 - bp))
  else k

/-- The linear interpolation between the knots `p` and `q` at `pos`, rounded down. -/
def floor_interpolation (p q : p_v) (pos : Int) : Int :=
  Int.fdiv (p.2 * (q.1 - pos) + q.2 * (pos - p.1)) (q.1 - p.1)

/-- The value of the knot `k` is the smallest of the values of the knots of `f` at the
positions up to the position of `k`. -/
def running_minimum (f : piecewise_linear_function) (k : p_v) : Prop :=
  (∃ q ∈ f, q.1 ≤ k.1 ∧ q.2 = k.2) ∧ ∀ q ∈ f, q.1 ≤ k.1 → k.2 ≤ q.2

/-- The value `v` is the smallest of the values of the knots of `f`. -/
def least_value (f : piecewise_linear_function) (v : Int) : Prop :=
  (∃ q ∈ f, q.2 = v) ∧ ∀ q ∈ f, v ≤ q.2

/-- The knot `k` carries the sum of the value of `other` at its position and of the value
of `f` at its position moved by `shift`. -/
def knot_is_sum (f other : piecewise_linear_function) (shift : Int) (k : p_v) : Prop :=
  ∃ va vb : Int, value_at other k.1 = some va ∧ value_at f (k.1 + shift) = some vb ∧
    k.2 = va + vb

/-- Both cells fit in the gap of the other one: `c1_l`, `c1_u` are the limits of the gap of
`c1` (the right edge of the cell before it and the left edge of the cell after it in its
row, the region bound at a row end), `c2_l`, `c2_u` those of the gap of `c2`. -/
def swap_fits (cell1 cell2 : internal_cell) (c1_l c2_l c1_u c2_u : Int) : Prop :=
  c2_u - c2_l - cell1.width ≥ 0 ∧ c1_u - c1_l - cell2.width ≥ 0

/-- The placement on which `try_swap` evaluates the cost of the swap: `c1` is centred in
the gap of `c2` and `c2` in the gap of `c1`, and the two cells have exchanged their
ordinates. -/
def swapped_positions (pl : detailed_placement) (c1 c2 : Nat) (cell1 cell2 : internal_cell)
    (c1_l c2_l c1_u c2_u : Int) : detailed_placement :=
  assign_positions pl c1 c2 (Int.tdiv (c2_l + (c2_u - cell1.width)) 2)
    (Int.tdiv (c1_l + (c1_u - cell2.width)) 2) cell2.position_y cell1.position_y

/-- The position at which the lines through the segments `a` and `b` cross, the rational
number of which `push_intersections` computes the integer part with `dist / denom`. -/
def crossing_position (a b : pl_edge) : ℚ :=
  (a.f.1 : ℚ) + (pl_edge.dist a b : ℚ) / (pl_edge.denom a b : ℚ)

/-- A row that holds one cell, of height one: the placement on `[0, 10]`. -/
def fixed_cell_placement : detailed_placement :=
  { min_x_ := 0, max_x_ := 10, y_origin_ := 0,
    cells_ := [⟨2, 0, 3, 1, 0, 0, true, true⟩],
    neighbours_ := [(null_ind, null_ind)],
    row_first_cells_ := [0],
    row_last_cells_ := [0] }

/-- The netlist for `fixed_cell_placement`: its cell has no attribute, so it is fixed. -/
def fixed_cell_circuit : netlist :=
  { cells := [⟨0, 3, 1, []⟩], nets := [] }

/-- Three movable cells of height one in one row of the region `[0, 10]`: cell 0 at
abscissa 1, cell 1 at abscissa 4 and cell 2 at abscissa 7. -/
def window_placement : detailed_placement :=
  { min_x_ := 0, max_x_ := 10, y_origin_ := 0,
    cells_ :=
      [⟨1, 0, 2, 1, 0, 0, true, true⟩, ⟨4, 0, 1, 1, 0, 1, true, true⟩,
       ⟨7, 0, 2, 1, 0, 2, true, true⟩],
    neighbours_ := [(null_ind, 1), (0, 2), (1, null_ind)],
    row_first_cells_ := [0],
    row_last_cells_ := [2] }

/-- The netlist for `window_placement`: three movable cells, one net with a pin on cell 2. -/
def window_circuit : netlist :=
  { cells := [⟨3, 2, 1, []⟩, ⟨3, 1, 1, []⟩, ⟨3, 2, 1, [⟨2, 0, 0, 0⟩]⟩],
    nets := [[⟨2, 0, 0, 0⟩]] }

/-- The positions of the cells `cells`, in this order, packed to the right of `x`. -/
def packed_positions (pl : detailed_placement) : Int → List Nat → List Int
  | _, [] => []
  | x, c :: cs =>
    x :: packed_positions pl (x + ((pl.cells_[c]?).map fun cell => cell.width).getD 0) cs

/-- An optimizer for the examples, in the place of `optimize_convex_sequence`: the cells
are packed to the right of `lower_lim`, and the cost is twice the abscissa given to
cell 2. -/
def packed_optimizer (pl : detailed_placement) (cells : List Nat) (lower_lim _upper_lim : Int) :
    Option (Int × List Int) :=
  some (2 * ((cells.zip (packed_positions pl lower_lim cells)).lookup 2).getD 0,
    packed_positions pl lower_lim cells)

/-- The placement `window_placement` after the window `[0, 1, 2]` has been rearranged to
`[2, 0, 1]` and packed to the right of `min_x`. -/
def window_rearranged : detailed_placement :=
  { min_x_ := 0, max_x_ := 10, y_origin_ := 0,
    cells_ :=
      [⟨2, 0, 2, 1, 0, 0, true, true⟩, ⟨4, 0, 1, 1, 0, 1, true, true⟩,
       ⟨0, 0, 2, 1, 0, 2, true, true⟩],
    neighbours_ := [(2, 1), (0, null_ind), (null_ind, 0)],
    row_first_cells_ := [2],
    row_last_cells_ := [1] }

/-- The ordering arc claimed for a cell `L` with right neighbour `R`, with records `cL` and
`cR`; `mL` and `mR` tell whether the cells are x-movable. -/
def claimed_ordering_arc (L R : Nat) (cL cR : internal_cell) (mL mR : Bool) : List arc_pair :=
  if mL && mR then [⟨flow_node.cell R, flow_node.cell L, -cL.width⟩]
  else if mL then [⟨flow_node.fixed, flow_node.cell L, cR.position_x - cL.width⟩]
  else if mR then [⟨flow_node.cell R, flow_node.fixed, -cL.position_x - cL.width⟩]
  else []

/-- The ordering arc claimed for the entry `l` of the neighbour table, a row-slot of the
cell `L`: none when the cell has no right neighbour there. -/
def claimed_slot_arcs (circuit : netlist) (pl : detailed_placement) (L l : Nat) :
    List arc_pair :=
  match pl.cells_[L]?, pl.neighbours_[l]? with
  | some cL, some e =>
    if e.2 = null_ind then []
    else
      match pl.cells_[e.2]?, x_movable circuit L, x_movable circuit e.2 with
      | some cR, some mL, some mR => claimed_ordering_arc L e.2 cL cR mL mR
      | _, _, _ => []
  | _, _ => []

/-- The ordering arcs claimed for a placement: those of the row-slots of cell 0, then those
of the row-slots of cell 1, and so on. -/
def claimed_ordering_arcs (circuit : netlist) (pl : detailed_placement) : List arc_pair :=
  (List.range circuit.cells.length).flatMap fun L =>
    match pl.cells_[L]? with
    | some cL =>
      (List.range cL.height).flatMap fun k =>
        claimed_slot_arcs circuit pl L (cL.neighbours_begin + k)
    | none => []

/-- A netlist for `example_placement` in which cell 1, the cell of height two, is fixed:
net 0 joins the cells 0 and 3, net 1 the cells 2, 4 and 1. -/
def mixed_circuit : netlist :=
  { cells :=
      [⟨3, 2, 1, [⟨0, 0, 0, 0⟩]⟩, ⟨0, 3, 2, [⟨1, 1, 1, 0⟩]⟩, ⟨3, 1, 1, [⟨2, 1, 0, 0⟩]⟩,
       ⟨3, 1, 1, [⟨3, 0, 0, 0⟩]⟩, ⟨3, 1, 1, [⟨4, 1, 0, 0⟩]⟩],
    nets := [[⟨0, 0, 0, 0⟩, ⟨3, 0, 0, 0⟩], [⟨2, 1, 0, 0⟩, ⟨4, 1, 0, 0⟩, ⟨1, 1, 1, 0⟩]] }

/-- The potentials `potential` respect the arcs: on every arc the potential of the target
exceeds the potential of the source by at most the cost of the arc. -/
def potentials_feasible (arcs : List arc_pair) (potential : flow_node → Int) : Prop :=
  ∀ a ∈ arcs, potential a.target - potential a.source ≤ a.cost

/-- The abscissa that the potentials give to the cell `c`: the potential of its node
counted from the potential of `fixed` when the cell is x-movable, its recorded abscissa
otherwise. -/
def new_abscissa (circuit : netlist) (pl : detailed_placement) (potential : flow_node → Int)
    (c : Nat) : Option Int :=
  match pl.cells_[c]?, x_movable circuit c with
  | some _, some true => some (potential (flow_node.cell c) - potential flow_node.fixed)
  | some cell, some false => some cell.position_x
  | _, _ => none

/-- The part in x of the loop of `get_nets_cost` over the pins of one net: `mins.x_` and
`maxs.x_` for the pins `pins`, none for a net without pins. -/
def net_bounds_x (circuit : netlist) (pl : detailed_placement) :
    List pin_t → Option (ℚ × ℚ)
  | [] => none
  | p :: ps =>
    match pin_pos circuit pl p with
    | none => none
    | some pos =>
      (net_bounds circuit pl ps (pos.1, pos.2, pos.1, pos.2)).map fun b => (b.1, b.2.2.1)

/-- The term `maxs.x_ - mins.x_` that `get_nets_cost` adds for the net `n`; a net without
pins is skipped. -/
def net_length_x (circuit : netlist) (pl : detailed_placement) (n : Nat) : Option ℚ :=
  match circuit.nets[n]? with
  | none => none
  | some pins =>
    if pins = [] then some 0
    else (net_bounds_x circuit pl pins).map fun b => b.2 - b.1

/-- The sum of the values of `f` on the listed nets. -/
def sum_nets (f : Nat → Option ℚ) : List Nat → Option ℚ
  | [] => some 0
  | n :: ns =>
    match f n, sum_nets f ns with
    | some c, some rest => some (c + rest)
    | _, _ => none

/-- The total half-perimeter wirelength in x: the sum over all nets of the circuit of the
largest minus the smallest abscissa of a pin, with the pin positions of `get_nets_cost`. -/
def wirelength_x (circuit : netlist) (pl : detailed_placement) : Option ℚ :=
  sum_nets (net_length_x circuit pl) (List.range circuit.nets.length)

/-- The objective of the potentials in the flow problem: the sum over the nodes with a
supply of the supply times the potential. An optimal solution of the flow problem has
potentials that respect the arcs and make this sum least. -/
def potentials_objective (supplies : List (flow_node × Int)) (potential : flow_node → Int) :
    Int :=
  (supplies.map fun s => s.2 * potential s.1).sum

/-- The potentials of an optimal solution of the flow problem with uncapacitated arcs
`arcs` and supplies `supplies`: they respect the arcs, and no potentials that respect the
arcs have a smaller objective. -/
def potentials_optimal (arcs : List arc_pair) (supplies : List (flow_node × Int))
    (potential : flow_node → Int) : Prop :=
  potentials_feasible arcs potential ∧
  ∀ other : flow_node → Int, potentials_feasible arcs other →
    potentials_objective supplies potential ≤ potentials_objective supplies other

/-- Every net of the circuit has a pin, and every pin of a net names a cell of the
circuit. -/
def nets_valid (circuit : netlist) : Prop :=
  ∀ pins ∈ circuit.nets, pins ≠ [] ∧ ∀ p ∈ pins, p.cell_ind < circuit.cells.length

/-- The pins lie on the integer grid: the width of every cell of the placement is the size
in x that the netlist records for the cell, and every pin lies at an integer distance from
the left edge of its cell, so that `pin_offs` drops no fraction. -/
def pins_on_grid (circuit : netlist) (pl : detailed_placement) : Prop :=
  (∀ (c : Nat) (cell : internal_cell) (nc : netlist_cell), pl.cells_[c]? = some cell →
    circuit.cells[c]? = some nc → nc.size_x = cell.width) ∧
  ∀ pins ∈ circuit.nets, ∀ p ∈ pins, ∀ cell : internal_cell,
    pl.cells_[p.cell_ind]? = some cell →
    ∃ k : Int, (cell.width : ℚ) / 2 +
      (if cell.x_orientation then p.offset_x else -p.offset_x) = k

/-- The record of the cell `i` after the last loop of `optimize_positions`. -/
def moved_cell (circuit : netlist) (potential : flow_node → Int) (i : Nat)
    (cell : internal_cell) : internal_cell :=
  if x_movable circuit i = some true then
    { cell with position_x := potential (flow_node.cell i) - potential flow_node.fixed }
  else cell

/-- The two arcs that `optimize_positions` pushes for the pin `p` of the net `n`, on a cell
with record `cell`; `m` tells whether the cell is x-movable. -/
def claimed_pin_arcs (n : Nat) (p : pin_t) (cell : internal_cell) (m : Bool) : List arc_pair :=
  if m then
    [⟨flow_node.cell p.cell_ind, flow_node.Lnet n, pin_offs cell p⟩,
      ⟨flow_node.Unet n, flow_node.cell p.cell_ind, -pin_offs cell p⟩]
  else
    [⟨flow_node.fixed, flow_node.Lnet n, cell.position_x + pin_offs cell p⟩,
      ⟨flow_node.Unet n, flow_node.fixed, -cell.position_x - pin_offs cell p⟩]

/-- The potentials read off a placement: the abscissa of every cell, zero for `fixed`, and
for every net the smallest and the largest abscissa of its pins. -/
def placement_potential (circuit : netlist) (pl : detailed_placement) : flow_node → Int
  | flow_node.cell c => ((pl.cells_[c]?).map fun cell => cell.position_x).getD 0
  | flow_node.fixed => 0
  | flow_node.Lnet n =>
    (((circuit.nets[n]?).bind (net_bounds_x circuit pl)).map fun b => float_to_int b.1).getD 0
  | flow_node.Unet n =>
    (((circuit.nets[n]?).bind (net_bounds_x circuit pl)).map fun b => float_to_int b.2).getD 0

/-- Three cells of height one on two rows of the region `[0, 10]`: cell 0, of width `w`, is
alone in row 0 at abscissa `x`; the cells 1 and 2, of width 2, lie in row 1 at the
abscissas 0 and 4. -/
def pulled_placement (x w : Int) : detailed_placement :=
  { min_x_ := 0, max_x_ := 10, y_origin_ := 0,
    cells_ :=
      [⟨x, 0, w, 1, 0, 0, true, true⟩, ⟨0, 1, 2, 1, 1, 1, true, true⟩,
       ⟨4, 1, 2, 1, 1, 2, true, true⟩],
    neighbours_ := [(null_ind, null_ind), (null_ind, 2), (1, null_ind)],
    row_first_cells_ := [0, 1],
    row_last_cells_ := [0, 2] }

/-- The netlist for `pulled_placement`: cell 0, of width `w`, is movable, the cells 1 and 2
are fixed; every pin lies at the centre of its cell; net 0 joins the cells 0 and 1, the nets
1 and 2 both join the cells 0 and 2. -/
def pulled_circuit (w : Int) : netlist :=
  { cells :=
      [⟨3, w, 1, [⟨0, 0, 0, 0⟩, ⟨0, 1, 0, 0⟩, ⟨0, 2, 0, 0⟩]⟩, ⟨0, 2, 1, [⟨1, 0, 0, 0⟩]⟩,
       ⟨0, 2, 1, [⟨2, 1, 0, 0⟩, ⟨2, 2, 0, 0⟩]⟩],
    nets :=
      [[⟨0, 0, 0, 0⟩, ⟨1, 0, 0, 0⟩], [⟨0, 1, 0, 0⟩, ⟨2, 1, 0, 0⟩],
       [⟨0, 2, 0, 0⟩, ⟨2, 2, 0, 0⟩]] }

/-- Potentials for the flow problem of `pulled_placement`: cell 0 at the abscissa `x`, the
pin of cell 1 at 1 and the pin of cell 2 at 5. -/
def pulled_potential (x : Int) : flow_node → Int
  | flow_node.cell _ => x
  | flow_node.fixed => 0
  | flow_node.Lnet 0 => 1
  | flow_node.Lnet _ => 5
  | flow_node.Unet _ => 5

/-- The arcs of the flow problem of `pulled_placement`: `o` is the integer offset used for
the pins of cell 0 and `b` the largest abscissa that the region allows for cell 0. -/
def pulled_arcs (o b : Int) : List arc_pair :=
  [⟨flow_node.cell 0, flow_node.fixed, 0⟩, ⟨flow_node.fixed, flow_node.cell 0, b⟩,
   ⟨flow_node.cell 0, flow_node.Lnet 0, o⟩, ⟨flow_node.Unet 0, flow_node.cell 0, -o⟩,
   ⟨flow_node.fixed, flow_node.Lnet 0, 1⟩, ⟨flow_node.Unet 0, flow_node.fixed, -1⟩,
   ⟨flow_node.cell 0, flow_node.Lnet 1, o⟩, ⟨flow_node.Unet 1, flow_node.cell 0, -o⟩,
   ⟨flow_node.fixed, flow_node.Lnet 1, 5⟩, ⟨flow_node.Unet 1, flow_node.fixed, -5⟩,
   ⟨flow_node.cell 0, flow_node.Lnet 2, o⟩, ⟨flow_node.Unet 2, flow_node.cell 0, -o⟩,
   ⟨flow_node.fixed, flow_node.Lnet 2, 5⟩, ⟨flow_node.Unet 2, flow_node.fixed, -5⟩]

/-- The pin lists of the netlist agree: every pin of the net `n` names this net and is
listed among the pins of its cell, and every pin listed for the cell `c` names this cell
and is a pin of its net. -/
def pin_lists_agree (circuit : netlist) : Prop :=
  (∀ n ∈ List.range circuit.nets.length, ∀ p ∈ (circuit.nets[n]?).getD [],
    p.net_ind = n ∧ p ∈ ((circuit.cells[p.cell_ind]?).map fun nc => nc.pins).getD []) ∧
  (∀ c ∈ List.range circuit.cells.length,
    ∀ p ∈ ((circuit.cells[c]?).map fun nc => nc.pins).getD [],
    p.cell_ind = c ∧ p ∈ (circuit.nets[p.net_ind]?).getD [])

/-- The cells `cells` follow one another in row `r`, after the cell `prev` and before the
cell `after`: the row-slot of each of them holds the cell before it and the cell after it
in the list, `prev` for the first and `after` for the last one. -/
def chain_linked (pl : detailed_placement) (r after : Nat) : Nat → List Nat → Prop
  | _, [] => True
  | prev, c :: cs =>
    (∃ n, neighbour_index pl.cells_ c r = some n ∧
      pl.neighbours_[n]? = some (prev, cs.headD after)) ∧
    chain_linked pl r after c cs

/-- The row `r` of the placement reads `row` from left to right: the cells of `row` are
linked to one another in this order, the sentinel before the first and after the last one,
the first and last pointer of the row name the two ends of `row` (the sentinel for an empty
row), and no cell is listed twice. -/
structure row_reads (pl : detailed_placement) (r : Nat) (row : List Nat) : Prop where
  linked : chain_linked pl r null_ind null_ind row
  first : pl.row_first_cells_[r]? = some (row.headD null_ind)
  last : pl.row_last_cells_[r]? = some (row.getLastD null_ind)
  nodup : row.Nodup

/-- The abscissa recorded for the cell `c`. -/
def abscissa (pl : detailed_placement) (c : Nat) : Int :=
  ((pl.cells_[c]?).map fun cell => cell.position_x).getD 0

/-- The number of cells with an abscissa larger than `x`. -/
def cells_right_of (pl : detailed_placement) (x : Int) : Nat :=
  pl.cells_.countP fun cell => decide (x < cell.position_x)

/-- The number of cells with an abscissa smaller than `x`. -/
def cells_left_of (pl : detailed_placement) (x : Int) : Nat :=
  pl.cells_.countP fun cell => decide (cell.position_x < x)

/-- The cells `c1` and `c2` exchanged, every other cell left as it is. -/
def exchange (c1 c2 c : Nat) : Nat :=
  if c = c1 then c2 else if c = c2 then c1 else c

/-- The cell `a` ends at or before the start of the cell `b`. -/
def non_overlapping (pl : detailed_placement) (a b : Nat) : Prop :=
  ∃ ca cb, pl.cells_[a]? = some ca ∧ pl.cells_[b]? = some cb ∧
    ca.position_x + ca.width ≤ cb.position_x

/-- The positions `xs` place the cells `cells`, in this order, between `lower` and `upper`
without overlap: every cell starts at or after `lower` and the end of the cell before it,
and ends at or before `upper`. -/
def run_fits (pl : detailed_placement) (upper : Int) : Int → List Nat → List Int → Prop
  | _, [], [] => True
  | lower, c :: cs, x :: xs =>
    lower ≤ x ∧ ∃ cell, pl.cells_[c]? = some cell ∧ x + cell.width ≤ upper ∧
      run_fits pl upper (x + cell.width) cs xs
  | _, _, _ => False

/-- The row `r` reads `row`, consecutive cells of `row` do not overlap, and the two ends of
`row` lie inside `[min_x, max_x]`. -/
structure row_checked (pl : detailed_placement) (r : Nat) (row : List Nat) : Prop where
  reads : row_reads pl r row
  ordered : row.Chain' (non_overlapping pl)
  left_inside : ∀ (c : Nat) (cell : internal_cell), row.head? = some c →
    pl.cells_[c]? = some cell → pl.min_x_ ≤ cell.position_x
  right_inside : ∀ (c : Nat) (cell : internal_cell), row.getLast? = some c →
    pl.cells_[c]? = some cell → cell.position_x + cell.width ≤ pl.max_x_

/-- The placement `pl'` differs from `pl` only in row `r`, which read `row`: the cells
`moved`, all of height one, may have another abscissa, the row-slots in row `r` of the
cells of `row` and the two pointers of row `r` may hold other cells, and nothing else has
changed. -/
structure row_rewritten (pl pl' : detailed_placement) (r : Nat) (row moved : List Nat) :
    Prop where
  min_x : pl'.min_x_ = pl.min_x_
  max_x : pl'.max_x_ = pl.max_x_
  cells : ∀ i : Nat, pl'.cells_[i]? =
    (pl.cells_[i]?).map fun (cell : internal_cell) =>
      { cell with position_x := abscissa pl' i }
  cells_other : ∀ i, i ∉ moved → pl'.cells_[i]? = pl.cells_[i]?
  moved_height : ∀ (c : Nat) (cell : internal_cell), c ∈ moved → pl.cells_[c]? = some cell →
    cell.height = 1
  moved_row : ∀ c, c ∈ moved → c ∈ row
  neighbours_length : pl'.neighbours_.length = pl.neighbours_.length
  slots_other : ∀ (c ρ n : Nat), neighbour_index pl.cells_ c ρ = some n →
    (ρ ≠ r ∨ c ∉ row) → pl'.neighbours_[n]? = pl.neighbours_[n]?
  first_length : pl'.row_first_cells_.length = pl.row_first_cells_.length
  last_length : pl'.row_last_cells_.length = pl.row_last_cells_.length
  first_other : ∀ ρ, ρ ≠ r → pl'.row_first_cells_[ρ]? = pl.row_first_cells_[ρ]?
  last_other : ∀ ρ, ρ ≠ r → pl'.row_last_cells_[ρ]? = pl.row_last_cells_[ρ]?

/-- The placement `pl'` after the window `p` of row `r`, between the cells `B` and `A`,
has been written back with the positions `xs`: the cells of `p` have their new abscissas
and are linked in this order between `B` and `A`, the row-slot of `B` holds the first and
the row-slot of `A` the last cell of `p` (the pointers of the row when `B` or `A` is the
sentinel), and nothing else has changed. -/
structure window_effect (pl pl' : detailed_placement) (r B A : Nat) (p : List Nat)
    (xs : List Int) : Prop where
  min_x : pl'.min_x_ = pl.min_x_
  max_x : pl'.max_x_ = pl.max_x_
  cells_other : ∀ i, i ∉ p → pl'.cells_[i]? = pl.cells_[i]?
  cells_moved : ∀ (j c : Nat) (x : Int), p[j]? = some c → xs[j]? = some x →
    pl'.cells_[c]? = (pl.cells_[c]?).map fun (cell : internal_cell) =>
      { cell with position_x := x }
  linked : chain_linked pl' r A B p
  before : B ≠ null_ind → ∀ (k : Nat) (e : Nat × Nat),
    neighbour_index pl.cells_ B r = some k → pl.neighbours_[k]? = some e →
    pl'.neighbours_[k]? = some (e.1, p.headD A)
  after : A ≠ null_ind → ∀ (k : Nat) (e : Nat × Nat),
    neighbour_index pl.cells_ A r = some k → pl.neighbours_[k]? = some e →
    pl'.neighbours_[k]? = some (p.getLastD B, e.2)
  slots_other : ∀ s, (∀ c ∈ p, neighbour_index pl.cells_ c r ≠ some s) →
    neighbour_index pl.cells_ B r ≠ some s → neighbour_index pl.cells_ A r ≠ some s →
    pl'.neighbours_[s]? = pl.neighbours_[s]?
  neighbours_length : pl'.neighbours_.length = pl.neighbours_.length
  first_length : pl'.row_first_cells_.length = pl.row_first_cells_.length
  last_length : pl'.row_last_cells_.length = pl.row_last_cells_.length
  first_end : B = null_ind → pl'.row_first_cells_[r]? = some (p.headD A)
  first_kept : B ≠ null_ind → pl'.row_first_cells_ = pl.row_first_cells_
  first_other : ∀ ρ, ρ ≠ r → pl'.row_first_cells_[ρ]? = pl.row_first_cells_[ρ]?
  last_end : A = null_ind → pl'.row_last_cells_[r]? = some (p.getLastD B)
  last_kept : A ≠ null_ind → pl'.row_last_cells_ = pl.row_last_cells_
  last_other : ∀ ρ, ρ ≠ r → pl'.row_last_cells_[ρ]? = pl.row_last_cells_[ρ]?

/-- The knots that `previous_min` pushes after the knot `back`, from left to right: a knot
of the function with a value below the value of `back`, or a knot with the value of `back`
followed by such a knot; in both cases the positions increase. -/
inductive min_steps : p_v → List p_v → Prop
  | nil (back : p_v) : min_steps back []
  | copy (back q : p_v) (rest : List p_v) : back.1 < q.1 → q.2 < back.2 → min_steps q rest →
      min_steps back (q :: rest)
  | extra (back e q : p_v) (rest : List p_v) : back.1 < e.1 → e.2 = back.2 → e.1 < q.1 →
      q.2 < back.2 → min_steps q rest → min_steps back (e :: q :: rest)

/-- The numerator of the interpolation of `pl_edge::value_at` and of `pl_edge::above`: the
value of the line through the segment `e` at `pos`, times the length of the segment. -/
def pl_edge.num (e : pl_edge) (pos : Int) : Int :=
  e.f.2 * (e.s.1 - pos) + e.s.2 * (pos - e.f.1)

/-- Every crossing of a segment of `a` with a segment of `b` strictly inside both lies at a
point whose position and value are integers, and the segment of `a` starts at position
0. -/
def crossings_on_lattice (a b : piecewise_linear_function) : Prop :=
  ∀ (pa : List p_v) (p q : p_v) (sa : List p_v) (pb : List p_v) (p' q' : p_v) (sb : List p_v),
    a = pa ++ p :: q :: sa → b = pb ++ p' :: q' :: sb →
    pl_edge.intersect ⟨p, q⟩ ⟨p', q'⟩ = true →
    Int.tmod (pl_edge.dist ⟨p, q⟩ ⟨p', q'⟩) (pl_edge.denom ⟨p, q⟩ ⟨p', q'⟩) = 0 ∧ p.1 = 0 ∧
    Int.tmod ((pl_edge.mk p q).num
      (Int.tdiv (pl_edge.dist ⟨p, q⟩ ⟨p', q'⟩) (pl_edge.denom ⟨p, q⟩ ⟨p', q'⟩))) (q.1 - p.1) = 0

theorem push_intersections_self (a0 a1 : p_v) (h : a0.1 < a1.1) :
    pl_edge.push_intersections ⟨a0, a1⟩ ⟨a0, a1⟩ = some [] := by
  have h0 : pl_edge.denom ⟨a0, a1⟩ ⟨a0, a1⟩ = 0 := by
    simp only [pl_edge.denom]; ring
  have h1 : pl_edge.a_num ⟨a0, a1⟩ ⟨a0, a1⟩ = 0 := by
    simp only [pl_edge.a_num]; ring
  simp [pl_edge.push_intersections, pl_edge.intersect, h, h0, h1]

theorem minimum_loop_self : ∀ (fuel : Nat) (f : List p_v), knots_increasing f →
    f.length ≤ fuel → 0 < fuel → minimum_loop fuel f f = some f.tail
  | 0, _, _, _, h0 => absurd h0 (by decide)
  | fuel + 1, [], _, _, _ => by simp [minimum_loop]
  | fuel + 1, [_], _, _, _ => by simp [minimum_loop]
  | fuel + 1, a0 :: a1 :: as, hinc, hlen, _ => by
    have h01 : a0.1 < a1.1 := by
      simp [knots_increasing] at hinc; exact hinc.1
    have htl : knots_increasing (a1 :: as) := by
      simp [knots_increasing] at hinc ⊢; exact hinc.2
    have ih := minimum_loop_self fuel (a1 :: as) htl (by simp at hlen ⊢; omega)
      (by simp at hlen; omega)
    simp [minimum_loop, push_intersections_self a0 a1 h01, ih]

/-- C7: for every `f` with at least two knots and strictly increasing knot positions,
`minimum(f, f)` returns exactly the knot sequence of `f`. -/
theorem minimum_self (f : piecewise_linear_function) (hlen : 2 ≤ f.length)
    (hinc : knots_increasing f) : minimum f f = some f := by
  match f, hlen, hinc with
  | a0 :: a1 :: as, _, hinc =>
    have := minimum_loop_self ((a0 :: a1 :: as).length + (a0 :: a1 :: as).length)
      (a0 :: a1 :: as) hinc (by omega) (by simp)
    simp only [List.length_cons] at this
    simp [minimum, this]

theorem minimum_self_witness :
    2 ≤ ([(-3, 4), (0, -1), (5, 2)] : piecewise_linear_function).length ∧
    knots_increasing [(-3, 4), (0, -1), (5, 2)] ∧
    minimum [(-3, 4), (0, -1), (5, 2)] [(-3, 4), (0, -1), (5, 2)] =
      some [(-3, 4), (0, -1), (5, 2)] :=
  ⟨by decide, by simp [knots_increasing],
    minimum_self _ (by decide) (by simp [knots_increasing])⟩

/-- C8: `add_monotone(slope, offset)` followed by `add_monotone(-slope, offset)` gives the
function back: every knot has its original position and its original value. -/
theorem add_monotone_negated_slope (slope offset : Int) (f : piecewise_linear_function) :
    add_monotone (-slope) offset (add_monotone slope offset f) = f := by
  cases f with
  | nil => rfl
  | cons p rest =>
    simp only [add_monotone, List.map_cons, List.map_map]
    congr 1
    · ext <;> simp
    · conv_rhs => rw [← List.map_id rest]
      apply List.map_congr_left
      intro V _
      ext <;> simp

theorem values_nonincreasing_push (init : List p_v) (back x : p_v)
    (h : values_nonincreasing (init ++ [back])) (hx : x.2 ≤ back.2) :
    values_nonincreasing ((init ++ [back]) ++ [x]) := by
  unfold values_nonincreasing at h ⊢
  rw [List.pairwise_append] at h ⊢
  refine ⟨List.pairwise_append.2 h, List.pairwise_singleton _ _, ?_⟩
  intro a ha b hb
  simp only [List.mem_singleton] at hb
  subst hb
  rcases List.mem_append.1 ha with ha | ha
  · have := h.2.2 a ha back (by simp)
    omega
  · simp only [List.mem_singleton] at ha
    subst ha
    exact hx

theorem getLast?_snoc (init : List p_v) (back : p_v) :
    (init ++ [back]).getLast? = some back := by simp

theorem previous_min_loop_spec : ∀ (rest : List p_v) (init : List p_v) (back prev : p_v),
    values_nonincreasing (init ++ [back]) →
    knots_increasing (prev :: rest) →
    back.1 ≤ prev.1 →
    (prev.1 ≠ back.1 → back.2 ≤ prev.2) →
    ∃ r, previous_min_loop (init ++ [back]) prev rest = some r ∧ values_nonincreasing r
  | [], init, back, prev, hv, _, _, _ => ⟨_, rfl, hv⟩
  | it :: rest, init, back, prev, hv, hinc, hle, hval => by
    have hpi : prev.1 < it.1 := by
      simp [knots_increasing] at hinc; exact hinc.1
    have htl : knots_increasing (it :: rest) := by
      simp [knots_increasing] at hinc ⊢; exact hinc.2
    have hgt : it.1 > back.1 := by omega
    simp only [previous_min_loop, getLast?_snoc, hgt, not_true_eq_false, if_false]
    by_cases hlt : it.2 < back.2
    · simp only [hlt, if_true]
      by_cases hpb : prev.1 ≠ back.1
      · have hbp := hval hpb
        have hpos : (pl_edge.mk prev it).pos_at back.2 = some (Int.tdiv
            (prev.1 * (it.2 - back.2) + it.1 * (back.2 - prev.2)) (it.2 - prev.2)) := by
          have h1 : back.2 ≤ max prev.2 it.2 := le_trans hbp (le_max_left _ _)
          have h2 : min prev.2 it.2 ≤ back.2 := le_trans (min_le_right _ _) (le_of_lt hlt)
          have h3 : prev.2 ≠ it.2 := by omega
          simp [pl_edge.pos_at, h1, h2, h3]
        simp only [hpb, if_true, hpos]
        split_ifs
        · have h1 := values_nonincreasing_push init back
            (Int.tdiv (prev.1 * (it.2 - back.2) + it.1 * (back.2 - prev.2)) (it.2 - prev.2),
              back.2) hv (le_refl _)
          have h2 := values_nonincreasing_push (init ++ [back]) _ it h1 (le_of_lt hlt)
          exact previous_min_loop_spec rest _ it it h2 htl (le_refl _) (fun h => absurd rfl h)
        · have h2 := values_nonincreasing_push init back it hv (le_of_lt hlt)
          exact previous_min_loop_spec rest _ it it h2 htl (le_refl _) (fun h => absurd rfl h)
      · simp only [hpb, if_false]
        have h2 := values_nonincreasing_push init back it hv (le_of_lt hlt)
        exact previous_min_loop_spec rest _ it it h2 htl (le_refl _) (fun h => absurd rfl h)
    · simp only [hlt, if_false]
      exact previous_min_loop_spec rest init back it hv htl (by omega) (fun _ => by omega)

/-- C9: for every non-empty `f` with strictly increasing knot positions, `previous_min`
returns a function whose knot values, read left to right, never increase. -/
theorem previous_min_nonincreasing (f : piecewise_linear_function) (hne : f ≠ [])
    (hinc : knots_increasing f) :
    ∃ r, previous_min f = some r ∧ values_nonincreasing r := by
  match f, hne, hinc with
  | p :: rest, _, hinc =>
    have := previous_min_loop_spec rest [] p p (by simp [values_nonincreasing]) hinc
      (le_refl _) (fun h => absurd rfl h)
    simpa [previous_min] using this

theorem previous_min_nonincreasing_witness :
    ([(0, 5), (2, 7), (6, 3), (8, 4), (10, -2)] : piecewise_linear_function) ≠ [] ∧
    knots_increasing [(0, 5), (2, 7), (6, 3), (8, 4), (10, -2)] ∧
    ∃ r, previous_min [(0, 5), (2, 7), (6, 3), (8, 4), (10, -2)] = some r ∧
      values_nonincreasing r :=
  ⟨by decide, by simp [knots_increasing],
    previous_min_nonincreasing _ (by decide) (by simp [knots_increasing])⟩

/-- C10: on `f = [(0,0),(4,0)]` the call `add_bislope(-1, 1, 2)` inserts the knot `(2,1)`,
whereas `f` had the value `0` at position `2` before the call: the inserted value is
interpolated between the left knot after the left slope was applied to it, `(0,2)`, and
the right knot before the right slope is applied to it, `(4,0)`. -/
theorem add_bislope_inserted_value :
    add_bislope (-1) 1 2 [(0, 0), (4, 0)] = some [(0, 2), (2, 1), (4, 2)] ∧
    value_at [(0, 0), (4, 0)] 2 = some 0 :=
  ⟨by decide, by decide⟩

/-! ## Theorems: pairwise swap -/

theorem modify_restore (cells : List internal_cell) (c1 c2 : Nat) (cell1 cell2 : internal_cell)
    (h1 : cells[c1]? = some cell1) (h2 : cells[c2]? = some cell2) (v1 v2 : Int) :
    List.modify (fun cell => { cell with position_y := cell2.position_y })  c2
      (List.modify (fun cell => { cell with position_y := cell1.position_y }) c1
        (List.modify (fun cell => { cell with position_x := cell2.position_x }) c2
          (List.modify (fun cell => { cell with position_x := cell1.position_x }) c1
            (List.modify (fun cell => { cell with position_y := cell1.position_y }) c2
              (List.modify (fun cell => { cell with position_y := cell2.position_y }) c1
                (List.modify (fun cell => { cell with position_x := v2 }) c2
                  (List.modify (fun cell => { cell with position_x := v1 }) c1 cells)))))))
      = cells := by
  apply List.ext_getElem?
  intro m
  simp only [List.getElem?_modify]
  cases hm : cells[m]? with
  | none => rfl
  | some a =>
    simp only [Option.map_eq_map, Option.map_some']
    by_cases e1 : c1 = m <;> by_cases e2 : c2 = m
    · subst e1; subst e2
      rw [hm] at h1 h2
      cases h1; cases h2
      simp only [if_true]
    · subst e1
      rw [hm] at h1
      cases h1
      simp only [e2, if_true, if_false]
    · subst e2
      rw [hm] at h2
      cases h2
      simp only [e1, if_true, if_false]
    · simp only [e1, e2, if_false]

theorem assign_positions_restore (pl : detailed_placement) (c1 c2 : Nat)
    (cell1 cell2 : internal_cell)
    (h1 : pl.cells_[c1]? = some cell1) (h2 : pl.cells_[c2]? = some cell2) (v1 v2 : Int) :
    assign_positions (assign_positions pl c1 c2 v1 v2 cell2.position_y cell1.position_y)
      c1 c2 cell1.position_x cell2.position_x cell1.position_y cell2.position_y = pl := by
  cases pl
  simp only [assign_positions, set_position_x, set_position_y] at h1 h2 ⊢
  rw [modify_restore _ c1 c2 cell1 cell2 h1 h2]

theorem try_swap_limits_false {K : Type} [LT K] [DecidableRel (fun a b : K => a < b)]
    (cost : detailed_placement → List Nat → Option K) (circuit : netlist)
    (pl pl' : detailed_placement) (c1 c2 : Nat) (cell1 cell2 : internal_cell)
    (e1 e2 : Nat × Nat) (c1_l c2_l c1_u c2_u : Int)
    (h1 : pl.cells_[c1]? = some cell1) (h2 : pl.cells_[c2]? = some cell2)
    (h : try_swap_limits cost circuit pl c1 c2 cell1 cell2 e1 e2 c1_l c2_l c1_u c2_u
      = some (false, pl')) : pl' = pl := by
  unfold try_swap_limits at h
  simp only at h
  split_ifs at h with hfit
  · split at h
    · exact absurd h (by simp)
    · split at h
      · exact absurd h (by simp)
      · split at h
        · exact absurd h (by simp)
        · split_ifs at h
          · simp at h
          · simp only [Option.some.injEq, Prod.mk.injEq, true_and] at h
            rw [← h]
            exact assign_positions_restore pl c1 c2 cell1 cell2 h1 h2 _ _
  · simp only [Option.some.injEq, Prod.mk.injEq, true_and] at h
    exact h.symm

/-- C2: whenever `try_swap(c1, c2)` returns false, whatever the cost evaluation returns,
the placement after the call equals the placement before it. -/
theorem try_swap_false_unchanged {K : Type} [LT K] [DecidableRel (fun a b : K => a < b)]
    (cost : detailed_placement → List Nat → Option K) (circuit : netlist)
    (pl pl' : detailed_placement) (c1 c2 : Nat)
    (h : try_swap_with cost circuit pl c1 c2 = some (false, pl')) : pl' = pl := by
  unfold try_swap_with at h
  split at h
  · rename_i cell1 cell2 nc1 nc2 hc1 hc2 _ _
    split_ifs at h
    split at h
    · split at h
      · exact try_swap_limits_false cost circuit pl pl' c1 c2 cell1 cell2 _ _ _ _ _ _ hc1 hc2 h
      · exact absurd h (by simp)
    · exact absurd h (by simp)
  · exact absurd h (by simp)

/-! ## Theorems: construction of the placement structure -/

theorem assign_neighbours_begin_length : ∀ (n : Nat) (cells : List internal_cell),
    (assign_neighbours_begin n cells).length = cells.length
  | _, [] => rfl
  | n, c :: cs => by
    simp [assign_neighbours_begin, assign_neighbours_begin_length (n + c.height) cs]

theorem assign_neighbours_begin_get : ∀ (n : Nat) (cells : List internal_cell) (i : Nat)
    (c' : internal_cell), (assign_neighbours_begin n cells)[i]? = some c' →
    ∃ c, cells[i]? = some c ∧ c' = { c with neighbours_begin := c'.neighbours_begin } ∧
      n ≤ c'.neighbours_begin ∧ c'.neighbours_begin + c'.height ≤ n + nbr_lims_of cells
  | _, [], i, c', h => by simp [assign_neighbours_begin] at h
  | n, c :: cs, 0, c', h => by
    simp only [assign_neighbours_begin, List.getElem?_cons_zero, Option.some.injEq] at h
    subst h
    exact ⟨c, by simp, rfl, le_refl _, by simp [nbr_lims_of]⟩
  | n, c :: cs, i + 1, c', h => by
    simp only [assign_neighbours_begin, List.getElem?_cons_succ] at h
    obtain ⟨d, hd, he, h1, h2⟩ := assign_neighbours_begin_get (n + c.height) cs i c' h
    refine ⟨d, by simpa using hd, he, by omega, ?_⟩
    simp only [nbr_lims_of, List.map_cons, List.sum_cons] at h2 ⊢
    omega

theorem assign_neighbours_begin_ordered : ∀ (n : Nat) (cells : List internal_cell) (i j : Nat)
    (ci cj : internal_cell), i < j → (assign_neighbours_begin n cells)[i]? = some ci →
    (assign_neighbours_begin n cells)[j]? = some cj →
    ci.neighbours_begin + ci.height ≤ cj.neighbours_begin
  | _, [], i, j, ci, cj, _, h, _ => by simp [assign_neighbours_begin] at h
  | n, c :: cs, i, 0, ci, cj, hij, _, _ => by omega
  | n, c :: cs, 0, j + 1, ci, cj, _, hi, hj => by
    simp only [assign_neighbours_begin, List.getElem?_cons_zero, Option.some.injEq] at hi
    simp only [assign_neighbours_begin, List.getElem?_cons_succ] at hj
    obtain ⟨d, _, _, h1, _⟩ := assign_neighbours_begin_get (n + c.height) cs j cj hj
    subst hi
    exact h1
  | n, c :: cs, i + 1, j + 1, ci, cj, hij, hi, hj => by
    simp only [assign_neighbours_begin, List.getElem?_cons_succ] at hi hj
    exact assign_neighbours_begin_ordered (n + c.height) cs i j ci cj (by omega) hi hj

/-- Two row-slots with the same place in the table are the same slot of the same cell. -/
theorem neighbour_index_inj (cells : List internal_cell)
    (hord : ∀ (c c' : Nat) (cell cell' : internal_cell), c < c' → cells[c]? = some cell →
      cells[c']? = some cell' →
      cell.neighbours_begin + cell.height ≤ cell'.neighbours_begin)
    (c c' r r' n : Nat) (h : neighbour_index cells c r = some n)
    (h' : neighbour_index cells c' r' = some n) : c = c' ∧ r = r' := by
  unfold neighbour_index at h h'
  cases hc : cells[c]? with
  | none => simp [hc] at h
  | some cell =>
    cases hc' : cells[c']? with
    | none => simp [hc'] at h'
    | some cell' =>
      simp only [hc, hc'] at h h'
      split_ifs at h h' with h1 h2
      simp only [Option.some.injEq] at h h'
      rcases Nat.lt_trichotomy c c' with hlt | heq | hgt
      · have := hord c c' cell cell' hlt hc hc'
        omega
      · subst heq
        rw [hc] at hc'
        cases hc'
        exact ⟨rfl, by omega⟩
      · have := hord c' c cell' cell hgt hc' hc
        omega

theorem neighbour_index_some (cells : List internal_cell) (c r n : Nat)
    (h : neighbour_index cells c r = some n) :
    ∃ cell, cells[c]? = some cell ∧ cell.row ≤ r ∧ r - cell.row < cell.height ∧
      n = cell.neighbours_begin + (r - cell.row) := by
  unfold neighbour_index at h
  cases hc : cells[c]? with
  | none => simp [hc] at h
  | some cell =>
    simp only [hc] at h
    split_ifs at h with h1
    simp only [Option.some.injEq] at h
    exact ⟨cell, rfl, h1.1, h1.2, by omega⟩

theorem explore_row_spec (cells : List internal_cell) (r : Nat) :
    ∀ (row : List Nat) (e e' : List Bool), explore_row cells r row e = some e' →
    e'.length = e.length ∧
    (∀ c ∈ row, ∃ n, neighbour_index cells c r = some n ∧ e[n]? = some false) ∧
    row.Pairwise (fun c c' => neighbour_index cells c r ≠ neighbour_index cells c' r) ∧
    (∀ n, e'[n]? = some true ↔
      (e[n]? = some true ∨ ∃ c ∈ row, neighbour_index cells c r = some n))
  | [], e, e', h => by
    simp only [explore_row, Option.some.injEq] at h
    subst h
    simp
  | c :: cs, e, e', h => by
    simp only [explore_row] at h
    cases hn : neighbour_index cells c r with
    | none => simp [hn] at h
    | some n =>
      simp only [hn] at h
      cases hen : e[n]? with
      | none => simp [hen] at h
      | some b =>
        simp only [hen] at h
        cases b with
        | true => simp at h
        | false =>
          simp only [Bool.false_eq_true, if_false] at h
          obtain ⟨hlen, hall, hpw, hiff⟩ := explore_row_spec cells r cs _ e' h
          have hnlt : n < e.length := by
            rcases List.getElem?_eq_some_iff.1 hen with ⟨hlt, _⟩
            exact hlt
          have hrest : ∀ c' ∈ cs, ∃ n', neighbour_index cells c' r = some n' ∧
              e[n']? = some false ∧ n' ≠ n := by
            intro c' hc'
            obtain ⟨n', hn', hf⟩ := hall c' hc'
            by_cases hnn : n = n'
            · subst hnn
              rw [List.getElem?_set_self hnlt] at hf
              simp at hf
            · rw [List.getElem?_set_ne hnn] at hf
              exact ⟨n', hn', hf, fun h => hnn h.symm⟩
          refine ⟨by simpa using hlen, ?_, ?_, ?_⟩
          · intro c' hc'
            rcases List.mem_cons.1 hc' with h1 | h1
            · subst h1
              exact ⟨n, hn, hen⟩
            · obtain ⟨n', hn', hf, _⟩ := hrest c' h1
              exact ⟨n', hn', hf⟩
          · refine List.pairwise_cons.2 ⟨?_, hpw⟩
            intro c' hc'
            obtain ⟨n', hn', _, hne⟩ := hrest c' hc'
            rw [hn, hn']
            intro heq
            exact hne (Option.some.inj heq).symm
          · intro m
            rw [hiff m]
            constructor
            · rintro (h1 | ⟨c', hc', hm⟩)
              · by_cases hnm : n = m
                · subst hnm
                  exact Or.inr ⟨c, List.mem_cons_self _ _, hn⟩
                · rw [List.getElem?_set_ne hnm] at h1
                  exact Or.inl h1
              · exact Or.inr ⟨c', List.mem_cons_of_mem _ hc', hm⟩
            · rintro (h1 | ⟨c', hc', hm⟩)
              · by_cases hnm : n = m
                · subst hnm
                  rw [hen] at h1
                  simp at h1
                · left
                  rw [List.getElem?_set_ne hnm]
                  exact h1
              · rcases List.mem_cons.1 hc' with h1 | h1
                · subst h1
                  rw [hn] at hm
                  cases hm
                  left
                  exact List.getElem?_set_self hnlt
                · exact Or.inr ⟨c', h1, hm⟩

theorem link_row_spec (cells : List internal_cell) (r : Nat) :
    ∀ (row : List Nat) (c p : Nat) (nbs nbs' : List (Nat × Nat)),
    link_row cells r (c :: row) nbs = some nbs' →
    (c :: row).Pairwise (fun c c' => neighbour_index cells c r ≠ neighbour_index cells c' r) →
    (∃ n, neighbour_index cells c r = some n ∧ nbs[n]? = some (p, null_ind)) →
    (∀ c' ∈ row, ∃ n, neighbour_index cells c' r = some n ∧
      nbs[n]? = some (null_ind, null_ind)) →
    nbs'.length = nbs.length ∧
    (∀ m, (∀ c' ∈ c :: row, neighbour_index cells c' r ≠ some m) → nbs'[m]? = nbs[m]?) ∧
    (∀ i c', (c :: row)[i]? = some c' → ∃ n, neighbour_index cells c' r = some n ∧
      nbs'[n]? = some (if i = 0 then p else (c :: row).getD (i - 1) null_ind,
        (c :: row).getD (i + 1) null_ind)) ∧
    (∀ i c1 c2, (c :: row)[i]? = some c1 → (c :: row)[i + 1]? = some c2 →
      ∃ cell1 cell2, cells[c1]? = some cell1 ∧ cells[c2]? = some cell2 ∧
        cell1.position_x + cell1.width ≤ cell2.position_x)
  | [], c, p, nbs, nbs', h, _, hc, _ => by
    simp only [link_row, Option.some.injEq] at h
    subst h
    refine ⟨rfl, fun _ _ => rfl, ?_, ?_⟩
    · intro i c' hi
      cases i with
      | zero =>
        simp only [List.getElem?_cons_zero, Option.some.injEq] at hi
        subst hi
        obtain ⟨n, hn, he⟩ := hc
        exact ⟨n, hn, by simpa using he⟩
      | succ j => simp at hi
    · intro i c1 c2 _ h2
      simp at h2
  | c2 :: cs, c, p, nbs, nbs', h, hpw, hc, hrest => by
    obtain ⟨n1, hn1, he1⟩ := hc
    obtain ⟨n2, hn2, he2⟩ := hrest c2 (List.mem_cons_self _ _)
    have hpw' := List.pairwise_cons.1 hpw
    have hpw'' := List.pairwise_cons.1 hpw'.2
    have hn12 : n1 ≠ n2 := by
      have := hpw'.1 c2 (List.mem_cons_self _ _)
      rw [hn1, hn2] at this
      exact fun h => this (congrArg some h)
    have hn1lt : n1 < nbs.length := (List.getElem?_eq_some_iff.1 he1).1
    have hn2lt : n2 < nbs.length := (List.getElem?_eq_some_iff.1 he2).1
    obtain ⟨cl1, hcl1, _⟩ := neighbour_index_some cells c r n1 hn1
    obtain ⟨cl2, hcl2, _⟩ := neighbour_index_some cells c2 r n2 hn2
    have he2' : (nbs.set n1 (p, c2))[n2]? = some (null_ind, null_ind) := by
      rw [List.getElem?_set_ne hn12]; exact he2
    simp only [link_row, hn1, hn2, hcl1, hcl2, he1, he2'] at h
    split_ifs at h with hord
    have ih := link_row_spec cells r cs c2 c _ nbs' h hpw'.2
      ⟨n2, hn2, by rw [List.getElem?_set_self (by simpa using hn2lt)]⟩
      (by
        intro c' hc'
        obtain ⟨n', hn', he'⟩ := hrest c' (List.mem_cons_of_mem _ hc')
        have h1 : n1 ≠ n' := by
          have := hpw'.1 c' (List.mem_cons_of_mem _ hc')
          rw [hn1, hn'] at this
          exact fun h => this (congrArg some h)
        have h2 : n2 ≠ n' := by
          have := hpw''.1 c' hc'
          rw [hn2, hn'] at this
          exact fun h => this (congrArg some h)
        exact ⟨n', hn', by rw [List.getElem?_set_ne h2, List.getElem?_set_ne h1]; exact he'⟩)
    obtain ⟨ihlen, ihuntouched, ihentries, ihord⟩ := ih
    refine ⟨by simpa using ihlen, ?_, ?_, ?_⟩
    · intro m hm
      have h1 : n1 ≠ m := fun h => hm c (List.mem_cons_self _ _) (h ▸ hn1)
      have h2 : n2 ≠ m := fun h =>
        hm c2 (List.mem_cons_of_mem _ (List.mem_cons_self _ _)) (h ▸ hn2)
      rw [ihuntouched m (fun c' hc' => hm c' (List.mem_cons_of_mem _ hc')),
        List.getElem?_set_ne h2, List.getElem?_set_ne h1]
    · intro i c' hi
      cases i with
      | zero =>
        simp only [List.getElem?_cons_zero, Option.some.injEq] at hi
        subst hi
        refine ⟨n1, hn1, ?_⟩
        rw [ihuntouched n1 (by
          intro c' hc'
          have := hpw'.1 c' hc'
          rw [hn1] at this
          exact fun h => this h.symm),
          List.getElem?_set_ne hn12.symm, List.getElem?_set_self hn1lt]
        simp
      | succ j =>
        simp only [List.getElem?_cons_succ] at hi
        obtain ⟨n, hn, he⟩ := ihentries j c' hi
        refine ⟨n, hn, ?_⟩
        rw [he]
        cases j with
        | zero => simp
        | succ k => simp
    · intro i c1 c2' h1 h2
      cases i with
      | zero =>
        simp only [List.getElem?_cons_zero, Option.some.injEq, List.getElem?_cons_succ,
          zero_add] at h1 h2
        subst h1; subst h2
        exact ⟨cl1, cl2, hcl1, hcl2, hord⟩
      | succ j =>
        rw [List.getElem?_cons_succ] at h1 h2
        exact ihord j c1 c2' h1 h2

theorem getElem?_snoc_cases {α : Type} (done : List α) (row row' : α) (r : Nat)
    (h : (done ++ [row])[r]? = some row') :
    done[r]? = some row' ∨ (r = done.length ∧ row' = row) := by
  rw [List.getElem?_append] at h
  split_ifs at h with hlt
  · exact Or.inl h
  · right
    have hr : r - done.length = 0 := by
      by_contra hne
      have : ([row] : List α)[r - done.length]? = none := by
        apply List.getElem?_eq_none
        simp; omega
      rw [this] at h
      cases h
    rw [hr] at h
    simp only [List.getElem?_cons_zero, Option.some.injEq] at h
    exact ⟨by omega, h.symm⟩

theorem link_row_all (cells : List internal_cell) (r : Nat) (row : List Nat)
    (nbs nbs' : List (Nat × Nat)) (h : link_row cells r row nbs = some nbs')
    (hpw : row.Pairwise
      (fun c c' => neighbour_index cells c r ≠ neighbour_index cells c' r))
    (hall : ∀ c ∈ row, ∃ n, neighbour_index cells c r = some n ∧
      nbs[n]? = some (null_ind, null_ind)) :
    nbs'.length = nbs.length ∧
    (∀ m, (∀ c' ∈ row, neighbour_index cells c' r ≠ some m) → nbs'[m]? = nbs[m]?) ∧
    (∀ i c', row[i]? = some c' → ∃ n, neighbour_index cells c' r = some n ∧
      nbs'[n]? = some (row_pred row i, row_succ row i)) ∧
    (∀ i c1 c2, row[i]? = some c1 → row[i + 1]? = some c2 →
      ∃ cell1 cell2, cells[c1]? = some cell1 ∧ cells[c2]? = some cell2 ∧
        cell1.position_x + cell1.width ≤ cell2.position_x) := by
  cases row with
  | nil =>
    simp only [link_row, Option.some.injEq] at h
    subst h
    exact ⟨rfl, fun _ _ => rfl, fun i c' hi => by simp at hi, fun i c1 c2 hi => by simp at hi⟩
  | cons c cs =>
    have := link_row_spec cells r cs c null_ind nbs nbs' h hpw
      (hall c (List.mem_cons_self _ _)) (fun c' hc' => hall c' (List.mem_cons_of_mem _ hc'))
    simpa only [row_pred, row_succ] using this

theorem rows_processed_step (cells : List internal_cell) (nbr_rows : Nat)
    (done : List (List Nat)) (row : List Nat) (t : ctor_tables)
    (explored : List Bool) (neighbours : List (Nat × Nat))
    (hinv : rows_processed cells nbr_rows done t) (hr : done.length < nbr_rows)
    (hexp : explore_row cells done.length row t.explored = some explored)
    (hlink : link_row cells done.length row t.neighbours = some neighbours) :
    rows_processed cells nbr_rows (done ++ [row])
      ⟨neighbours,
        match row.head? with
        | none => t.row_first
        | some c => t.row_first.set done.length c,
        match row.getLast? with
        | none => t.row_last
        | some c => t.row_last.set done.length c,
        explored⟩ := by
  obtain ⟨elen, eall, epw, eiff⟩ := explore_row_spec cells done.length row _ _ hexp
  have hall : ∀ c ∈ row, ∃ n, neighbour_index cells c done.length = some n ∧
      t.neighbours[n]? = some (null_ind, null_ind) := by
    intro c hc
    obtain ⟨n, hn, hf⟩ := eall c hc
    exact ⟨n, hn, hinv.unexplored n hf⟩
  obtain ⟨llen, luntouched, lentries, lord⟩ :=
    link_row_all cells done.length row _ _ hlink epw hall
  have hkeep : ∀ n : Nat, t.explored[n]? = some true →
      neighbours[n]? = t.neighbours[n]? := by
    intro n hn
    apply luntouched
    intro c hc hcn
    obtain ⟨n', hn', hf⟩ := eall c hc
    rw [hcn] at hn'
    cases hn'
    rw [hn] at hf
    cases hf
  have hfirst_len : (match row.head? with
      | none => t.row_first
      | some c => t.row_first.set done.length c).length = nbr_rows := by
    cases row.head? <;> simp [hinv.first_length]
  have hlast_len : (match row.getLast? with
      | none => t.row_last
      | some c => t.row_last.set done.length c).length = nbr_rows := by
    cases row.getLast? <;> simp [hinv.last_length]
  have hfirst_ne : ∀ r : Nat, r ≠ done.length → (match row.head? with
      | none => t.row_first
      | some c => t.row_first.set done.length c)[r]? = t.row_first[r]? := by
    intro r hne
    cases row.head? with
    | none => rfl
    | some c => exact List.getElem?_set_ne (fun h => hne h.symm)
  have hlast_ne : ∀ r : Nat, r ≠ done.length → (match row.getLast? with
      | none => t.row_last
      | some c => t.row_last.set done.length c)[r]? = t.row_last[r]? := by
    intro r hne
    cases row.getLast? with
    | none => rfl
    | some c => exact List.getElem?_set_ne (fun h => hne h.symm)
  have hlt_of : ∀ (r : Nat) (row' : List Nat), done[r]? = some row' → r < done.length :=
    fun r row' h => (List.getElem?_eq_some_iff.1 h).1
  refine ⟨hfirst_len, hlast_len, by simp only; rw [llen, elen, hinv.neighbours_length],
    ?_, ?_, ?_, ?_, ?_, ?_, ?_⟩
  · intro n
    simp only
    rw [eiff n, hinv.explored_iff n]
    constructor
    · rintro (⟨r, row', c, h1, h2, h3⟩ | ⟨c, h2, h3⟩)
      · exact ⟨r, row', c, by rw [List.getElem?_append_left (hlt_of r row' h1)]; exact h1,
          h2, h3⟩
      · exact ⟨done.length, row, c, by simp, h2, h3⟩
    · rintro ⟨r, row', c, h1, h2, h3⟩
      rcases getElem?_snoc_cases done row row' r h1 with h | ⟨h, h'⟩
      · exact Or.inl ⟨r, row', c, h, h2, h3⟩
      · subst h; subst h'
        exact Or.inr ⟨c, h2, h3⟩
  · intro n hn
    simp only at hn ⊢
    have hnlt : n < t.explored.length := by
      rw [← elen]; exact (List.getElem?_eq_some_iff.1 hn).1
    have hold : t.explored[n]? = some false := by
      cases hb : t.explored[n]? with
      | none =>
        rw [List.getElem?_eq_none_iff] at hb
        omega
      | some b =>
        cases b with
        | false => rfl
        | true =>
          have := (eiff n).2 (Or.inl hb)
          rw [hn] at this
          cases this
    rw [luntouched n, hinv.unexplored n hold]
    intro c hc hcn
    have := (eiff n).2 (Or.inr ⟨c, hc, hcn⟩)
    rw [hn] at this
    cases this
  · intro r row' i c h1 h2
    simp only
    rcases getElem?_snoc_cases done row row' r h1 with h | ⟨h, h'⟩
    · obtain ⟨n, hn, he⟩ := hinv.entries r row' i c h h2
      refine ⟨n, hn, ?_⟩
      rw [hkeep n ((hinv.explored_iff n).2 ⟨r, row', c, h, List.getElem?_mem h2, hn⟩)]
      exact he
    · subst h; subst h'
      exact lentries i c h2
  · intro r row' h1
    simp only
    rcases getElem?_snoc_cases done row row' r h1 with h | ⟨h, h'⟩
    · have hne : r ≠ done.length := Nat.ne_of_lt (hlt_of r row' h)
      rw [hfirst_ne r hne, hlast_ne r hne]
      exact hinv.ends r row' h
    · subst h; subst h'
      have hl := hinv.ends_later done.length (le_refl _) hr
      constructor
      · cases hh : row'.head? with
        | none => simpa using hl.1
        | some c =>
          simp only [Option.getD_some]
          exact List.getElem?_set_self (by rw [hinv.first_length]; exact hr)
      · cases hh : row'.getLast? with
        | none => simpa using hl.2
        | some c =>
          simp only [Option.getD_some]
          exact List.getElem?_set_self (by rw [hinv.last_length]; exact hr)
  · intro r h1 h2
    simp only [List.length_append, List.length_singleton] at h1
    have hne : r ≠ done.length := by omega
    simp only
    rw [hfirst_ne r hne, hlast_ne r hne]
    exact hinv.ends_later r (by omega) h2
  · intro r row' i c1 c2 h1 h2 h3
    rcases getElem?_snoc_cases done row row' r h1 with h | ⟨h, h'⟩
    · exact hinv.ordered r row' i c1 c2 h h2 h3
    · subst h; subst h'
      exact lord i c1 c2 h2 h3
  · intro r row' h1
    rcases getElem?_snoc_cases done row row' r h1 with h | ⟨h, h'⟩
    · exact hinv.nodup r row' h
    · subst h'
      exact epw.imp (fun hne heq => hne (by rw [heq]))

theorem process_rows_spec (cells : List internal_cell) (nbr_rows : Nat) :
    ∀ (rest done : List (List Nat)) (t t' : ctor_tables),
    process_rows cells done.length rest t = some t' →
    done.length + rest.length = nbr_rows →
    rows_processed cells nbr_rows done t →
    rows_processed cells nbr_rows (done ++ rest) t'
  | [], done, t, t', h, _, hinv => by
    simp only [process_rows, Option.some.injEq] at h
    subst h
    simpa using hinv
  | row :: rest, done, t, t', h, hlen, hinv => by
    simp only [process_rows] at h
    cases hexp : explore_row cells done.length row t.explored with
    | none => simp [hexp] at h
    | some explored =>
      cases hlink : link_row cells done.length row t.neighbours with
      | none => simp [hexp, hlink] at h
      | some neighbours =>
        simp only [hexp, hlink] at h
        have hstep := rows_processed_step cells nbr_rows done row t explored neighbours hinv
          (by simp at hlen; omega) hexp hlink
        have := process_rows_spec cells nbr_rows rest (done ++ [row]) _ t'
          (by simpa using h) (by simp at hlen ⊢; omega) hstep
        simpa using this

theorem selfcheck_first_iff (pl : detailed_placement) (i : Nat) (c : internal_cell)
    (l n_ind first : Nat) :
    selfcheck_first pl i c l n_ind first = true ↔
      (first ≠ null_ind ∧ ∃ oc k e, pl.cells_[first]? = some oc ∧
        oc.position_x + oc.width ≤ c.position_x ∧
        neighbour_index pl.cells_ first (c.row + l) = some k ∧
        pl.neighbours_[k]? = some e ∧ e.2 = i) ∨
      (first = null_ind ∧ pl.row_first_cells_[c.row + n_ind - c.neighbours_begin]? = some i) := by
  unfold selfcheck_first
  by_cases hf : first = null_ind
  · simp [hf]
  · simp only [ne_eq, hf, not_false_eq_true, if_true, true_and, false_and, or_false]
    cases h1 : pl.cells_[first]? with
    | none => simp
    | some oc =>
      cases h2 : neighbour_index pl.cells_ first (c.row + l) with
      | none => simp
      | some k =>
        cases h3 : pl.neighbours_[k]? with
        | none => simp [h3]
        | some e =>
          obtain ⟨e1, e2⟩ := e
          simp [h3]

theorem selfcheck_second_iff (pl : detailed_placement) (i : Nat) (c : internal_cell)
    (l n_ind second : Nat) :
    selfcheck_second pl i c l n_ind second = true ↔
      (second ≠ null_ind ∧ ∃ oc k e, pl.cells_[second]? = some oc ∧
        c.position_x + c.width ≤ oc.position_x ∧
        neighbour_index pl.cells_ second (c.row + l) = some k ∧
        pl.neighbours_[k]? = some e ∧ e.1 = i) ∨
      (second = null_ind ∧ pl.row_last_cells_[c.row + n_ind - c.neighbours_begin]? = some i) := by
  unfold selfcheck_second
  by_cases hf : second = null_ind
  · simp [hf]
  · simp only [ne_eq, hf, not_false_eq_true, if_true, true_and, false_and, or_false]
    cases h1 : pl.cells_[second]? with
    | none => simp
    | some oc =>
      cases h2 : neighbour_index pl.cells_ second (c.row + l) with
      | none => simp
      | some k =>
        cases h3 : pl.neighbours_[k]? with
        | none => simp [h3]
        | some e =>
          obtain ⟨e1, e2⟩ := e
          simp [h3]

theorem selfcheck_slot_iff (pl : detailed_placement) (i : Nat) (c : internal_cell) (l : Nat) :
    selfcheck_slot pl i c l = true ↔
      c.row + c.height ≤ pl.row_cnt ∧
      ∃ e, pl.neighbours_[l + c.neighbours_begin]? = some e ∧
        selfcheck_first pl i c l (l + c.neighbours_begin) e.1 = true ∧
        selfcheck_second pl i c l (l + c.neighbours_begin) e.2 = true := by
  unfold selfcheck_slot
  cases h : pl.neighbours_[l + c.neighbours_begin]? with
  | none => simp [h]
  | some e => simp [h]

theorem selfcheck_iff (pl : detailed_placement) :
    selfcheck pl = true ↔
      pl.row_first_cells_.length = pl.row_last_cells_.length ∧
      ∀ i c, pl.cells_[i]? = some c → ∀ l, l < c.height → selfcheck_slot pl i c l = true := by
  unfold selfcheck
  simp only [Bool.and_eq_true, decide_eq_true_eq, List.all_eq_true, List.mem_range]
  constructor
  · rintro ⟨h1, h2⟩
    refine ⟨h1, ?_⟩
    intro i c hc l hl
    have hi : i < pl.cells_.length := (List.getElem?_eq_some_iff.1 hc).1
    have := h2 i hi
    rw [hc] at this
    simp only [List.all_eq_true, List.mem_range] at this
    exact this l hl
  · rintro ⟨h1, h2⟩
    refine ⟨h1, ?_⟩
    intro i hi
    rw [List.getElem?_eq_getElem hi]
    simp only [List.all_eq_true, List.mem_range]
    intro l hl
    exact h2 i _ (List.getElem?_eq_getElem hi) l hl

theorem explored_length_process_rows (cells : List internal_cell) :
    ∀ (rows : List (List Nat)) (r : Nat) (t t' : ctor_tables),
    process_rows cells r rows t = some t' → t'.explored.length = t.explored.length
  | [], r, t, t', h => by
    simp only [process_rows, Option.some.injEq] at h
    subst h
    rfl
  | row :: rows, r, t, t', h => by
    simp only [process_rows] at h
    cases hexp : explore_row cells r row t.explored with
    | none => simp [hexp] at h
    | some explored =>
      cases hlink : link_row cells r row t.neighbours with
      | none => simp [hexp, hlink] at h
      | some neighbours =>
        simp only [hexp, hlink] at h
        have := explored_length_process_rows cells rows (r + 1) _ t' h
        rw [this]
        exact (explore_row_spec cells r row _ _ hexp).1
theorem rows_processed_init (cells : List internal_cell) (nbr_rows nbr_lims : Nat) :
    rows_processed cells nbr_rows []
      ⟨List.replicate nbr_lims (null_ind, null_ind), List.replicate nbr_rows null_ind,
        List.replicate nbr_rows null_ind, List.replicate nbr_lims false⟩ := by
  refine ⟨by simp, by simp, by simp, ?_, ?_, ?_, ?_, ?_, ?_, ?_⟩
  · intro n
    simp [List.getElem?_replicate]
  · intro n hn
    simp only [List.getElem?_replicate] at hn ⊢
    split_ifs at hn ⊢ with h
    rfl
  · intro r row i c h
    simp at h
  · intro r row h
    simp at h
  · intro r _ hr
    simp [List.getElem?_replicate, hr]
  · intro r row i c1 c2 h
    simp at h
  · intro r row h
    simp at h

theorem construct_tables_spec (cells : List internal_cell) (rows : List (List Nat))
    (min_x max_x y_origin : Int) (nbr_rows : Nat) (row_height : Int) (pl : detailed_placement)
    (h : construct_tables cells rows min_x max_x y_origin nbr_rows row_height = some pl) :
    pl.cells_ = assign_neighbours_begin 0 cells ∧ pl.min_x_ = min_x ∧ pl.max_x_ = max_x ∧
    rows.length = nbr_rows ∧ 0 < row_height ∧ min_x < max_x ∧
    ∃ explored : List Bool,
      rows_processed pl.cells_ nbr_rows rows
        ⟨pl.neighbours_, pl.row_first_cells_, pl.row_last_cells_, explored⟩ ∧
      explored.length = nbr_lims_of cells ∧
      ∀ n : Nat, n < explored.length → explored[n]? = some true := by
  unfold construct_tables at h
  split_ifs at h with hchk
  simp only [not_not] at hchk
  obtain ⟨h1, h2, h3⟩ := hchk
  simp only at h
  split at h
  · cases h
  · rename_i t ht
    split_ifs at h with hall
    simp only [Option.some.injEq] at h
    subst h
    have hsp := process_rows_spec (assign_neighbours_begin 0 cells) nbr_rows rows [] _ t ht
      (by simpa using h3) (rows_processed_init _ _ _)
    simp only [List.nil_append] at hsp
    have hlen : t.explored.length = nbr_lims_of cells := by
      rw [explored_length_process_rows _ _ _ _ _ ht]
      simp
    refine ⟨rfl, rfl, rfl, h3, h1, h2, t.explored, hsp, hlen, ?_⟩
    intro n hn
    rw [List.all_eq_true] at hall
    rw [List.getElem?_eq_getElem hn]
    have := hall _ (List.getElem_mem hn)
    simp only at this
    rw [this]

theorem construct_tables_layout (cells : List internal_cell) (rows : List (List Nat))
    (min_x max_x y_origin : Int) (nbr_rows : Nat) (row_height : Int) (pl : detailed_placement)
    (h : construct_tables cells rows min_x max_x y_origin nbr_rows row_height = some pl)
    (hcells : cells.length ≤ null_ind) : table_layout pl := by
  obtain ⟨hc, _, _, _, _, _, explored, hsp, hlen, _⟩ :=
    construct_tables_spec cells rows min_x max_x y_origin nbr_rows row_height pl h
  refine ⟨?_, ?_, ?_⟩
  · rw [hc, assign_neighbours_begin_length]
    exact hcells
  · intro c cell hcell
    rw [hc] at hcell
    obtain ⟨_, _, _, _, hle⟩ := assign_neighbours_begin_get 0 cells c cell hcell
    have := hsp.neighbours_length
    simp only at this
    rw [this, hlen]
    omega
  · intro c c' cell cell' hlt h1 h2
    rw [hc] at h1 h2
    exact assign_neighbours_begin_ordered 0 cells c c' cell cell' hlt h1 h2

/-- After the row loop of the constructor every row-slot of every cell is the slot of one
place of the row list of its row, and holds the two neighbours of that place. -/
theorem slot_covered (cells : List internal_cell) (rows : List (List Nat))
    (min_x max_x y_origin : Int) (nbr_rows : Nat) (row_height : Int) (pl : detailed_placement)
    (h : construct_tables cells rows min_x max_x y_origin nbr_rows row_height = some pl)
    (i : Nat) (c : internal_cell) (hc : pl.cells_[i]? = some c) (l : Nat) (hl : l < c.height) :
    ∃ row k, rows[c.row + l]? = some row ∧ row[k]? = some i ∧
      pl.neighbours_[l + c.neighbours_begin]? = some (row_pred row k, row_succ row k) := by
  obtain ⟨hcells, _, _, _, _, _, explored, hsp, hlen, hall⟩ :=
    construct_tables_spec cells rows min_x max_x y_origin nbr_rows row_height pl h
  have hord : ∀ (c c' : Nat) (cell cell' : internal_cell), c < c' →
      pl.cells_[c]? = some cell → pl.cells_[c']? = some cell' →
      cell.neighbours_begin + cell.height ≤ cell'.neighbours_begin := by
    intro c c' cell cell' hlt h1 h2
    rw [hcells] at h1 h2
    exact assign_neighbours_begin_ordered 0 cells c c' cell cell' hlt h1 h2
  have hni : neighbour_index pl.cells_ i (c.row + l) = some (l + c.neighbours_begin) := by
    unfold neighbour_index
    rw [hc]
    simp only
    rw [if_pos ⟨by omega, by omega⟩]
    congr 1
    omega
  have hlt : l + c.neighbours_begin < explored.length := by
    have hc' := hc
    rw [hcells] at hc'
    obtain ⟨_, _, _, _, hle⟩ := assign_neighbours_begin_get 0 cells i c hc'
    rw [hlen]
    omega
  obtain ⟨r, row, c', hrow, hmem, hn⟩ := (hsp.explored_iff _).1 (hall _ hlt)
  obtain ⟨hci, hr⟩ := neighbour_index_inj pl.cells_ hord c' i r (c.row + l) _ hn hni
  subst hci; subst hr
  obtain ⟨k, hk⟩ := List.mem_iff_getElem?.1 hmem
  obtain ⟨n, hn', he⟩ := hsp.entries _ row k c' hrow hk
  rw [hni] at hn'
  cases hn'
  exact ⟨row, k, hrow, hk, he⟩

/-- The constructor links no cell to itself: a row list holds a cell at most once, so the
cell before and the cell after a place of the list differ from the cell at that place. -/
theorem construct_no_self_link (cells : List internal_cell) (rows : List (List Nat))
    (min_x max_x y_origin : Int) (nbr_rows : Nat) (row_height : Int) (pl : detailed_placement)
    (hcells : cells.length ≤ null_ind)
    (h : construct_tables cells rows min_x max_x y_origin nbr_rows row_height = some pl) :
    no_self_link pl := by
  obtain ⟨_, _, _, _, _, _, explored, hsp, _, _⟩ :=
    construct_tables_spec cells rows min_x max_x y_origin nbr_rows row_height pl h
  have hlay := construct_tables_layout cells rows min_x max_x y_origin nbr_rows row_height pl h
    hcells
  intro c cell k e hc hk he
  obtain ⟨row, i, hrow, hi, hent⟩ := slot_covered cells rows min_x max_x y_origin nbr_rows
    row_height pl h c cell hc k hk
  rw [Nat.add_comm, he] at hent
  cases hent
  have hnd : row.Nodup := hsp.nodup _ row hrow
  have hcn : c ≠ null_ind := by
    have := (List.getElem?_eq_some_iff.1 hc).1
    have := hlay.1
    omega
  obtain ⟨hil, hic⟩ := List.getElem?_eq_some_iff.1 hi
  have hother : ∀ j : Nat, j ≠ i → row.getD j null_ind ≠ c := by
    intro j hj hget
    by_cases hjl : j < row.length
    · rw [List.getD_eq_getElem?_getD, List.getElem?_eq_getElem hjl, Option.getD_some] at hget
      exact hj ((List.Nodup.getElem_inj_iff hnd).1 (hget.trans hic.symm))
    · rw [List.getD_eq_getElem?_getD, List.getElem?_eq_none (Nat.le_of_not_lt hjl),
        Option.getD_none] at hget
      exact hcn hget.symm
  constructor
  · simp only [row_pred]
    split_ifs with h0
    · exact Ne.symm hcn
    · exact hother (i - 1) (by omega)
  · simp only [row_succ]
    exact hother (i + 1) (by omega)

/-- C4: whenever the checks of the constructor itself pass (the row count, every row-slot
listed exactly once, consecutive cells of a row list without overlap), the structure it
has built passes `selfcheck`; the number of cells stays below the sentinel index. -/
theorem construct_tables_selfcheck (cells : List internal_cell) (rows : List (List Nat))
    (min_x max_x y_origin : Int) (nbr_rows : Nat) (row_height : Int) (pl : detailed_placement)
    (hcells : cells.length ≤ null_ind)
    (h : construct_tables cells rows min_x max_x y_origin nbr_rows row_height = some pl) :
    selfcheck pl = true := by
  obtain ⟨hceq, _, _, hrows, _, _, explored, hsp, hlen, hall⟩ :=
    construct_tables_spec cells rows min_x max_x y_origin nbr_rows row_height pl h
  have hlay := construct_tables_layout cells rows min_x max_x y_origin nbr_rows row_height pl h
    hcells
  have hnotnull : ∀ (p : Nat) (oc : internal_cell), pl.cells_[p]? = some oc → p ≠ null_ind := by
    intro p oc hp
    have := (List.getElem?_eq_some_iff.1 hp).1
    have := hlay.1
    omega
  rw [selfcheck_iff]
  refine ⟨by rw [hsp.first_length, hsp.last_length], ?_⟩
  intro i c hc l hl
  rw [selfcheck_slot_iff]
  constructor
  · obtain ⟨row, k, hrow, _, _⟩ := slot_covered cells rows min_x max_x y_origin nbr_rows
      row_height pl h i c hc (c.height - 1) (by omega)
    have := (List.getElem?_eq_some_iff.1 hrow).1
    have hf := hsp.first_length
    simp only at hf
    unfold detailed_placement.row_cnt
    omega
  · obtain ⟨row, k, hrow, hk, he⟩ := slot_covered cells rows min_x max_x y_origin nbr_rows
      row_height pl h i c hc l hl
    have hklt : k < row.length := (List.getElem?_eq_some_iff.1 hk).1
    have hidx : c.row + (l + c.neighbours_begin) - c.neighbours_begin = c.row + l := by omega
    refine ⟨_, he, ?_, ?_⟩
    · rw [selfcheck_first_iff, hidx]
      by_cases hk0 : k = 0
      · right
        subst hk0
        refine ⟨by simp [row_pred], ?_⟩
        have := (hsp.ends _ row hrow).1
        simp only at this
        rw [this, List.head?_eq_getElem?, hk]
        rfl
      · left
        have hplt : k - 1 < row.length := by omega
        have hp : row[k - 1]? = some row[k - 1] := List.getElem?_eq_getElem hplt
        have hk' : row[k - 1 + 1]? = some i := by
          rw [Nat.sub_add_cancel (by omega)]; exact hk
        have hpred : row_pred row k = row[k - 1] := by
          simp [row_pred, hk0, List.getD_eq_getElem?_getD, hp]
        obtain ⟨cell1, cell2, hc1, hc2, hord⟩ := hsp.ordered _ row (k - 1) _ i hrow hp hk'
        rw [hc] at hc2
        cases hc2
        obtain ⟨n, hn, hen⟩ := hsp.entries _ row (k - 1) _ hrow hp
        rw [hpred]
        refine ⟨hnotnull _ cell1 hc1, cell1, n, _, hc1, hord, hn, hen, ?_⟩
        simp only [row_succ, List.getD_eq_getElem?_getD, hk', Option.getD_some]
    · rw [selfcheck_second_iff, hidx]
      by_cases hkl : k + 1 < row.length
      · left
        have hs : row[k + 1]? = some row[k + 1] := List.getElem?_eq_getElem hkl
        have hsucc : row_succ row k = row[k + 1] := by
          simp [row_succ, List.getD_eq_getElem?_getD, hs]
        obtain ⟨cell1, cell2, hc1, hc2, hord⟩ := hsp.ordered _ row k i _ hrow hk hs
        rw [hc] at hc1
        cases hc1
        obtain ⟨n, hn, hen⟩ := hsp.entries _ row (k + 1) _ hrow hs
        rw [hsucc]
        refine ⟨hnotnull _ cell2 hc2, cell2, n, _, hc2, hord, hn, hen, ?_⟩
        simp [row_pred, List.getD_eq_getElem?_getD, hk]
      · right
        have hnone : row[k + 1]? = none := List.getElem?_eq_none (by omega)
        refine ⟨by simp [row_succ, List.getD_eq_getElem?_getD, hnone], ?_⟩
        have := (hsp.ends _ row hrow).2
        simp only at this
        have hkk : row.length - 1 = k := by omega
        rw [this, List.getLast?_eq_getElem?, hkk, hk]
        rfl

theorem construct_some (cells : List internal_cell) (rows : List (List Nat))
    (min_x max_x y_origin : Int) (nbr_rows : Nat) (row_height : Int) (pl : detailed_placement)
    (h : detailed_placement.construct cells rows min_x max_x y_origin nbr_rows row_height
      = some pl) :
    construct_tables cells rows min_x max_x y_origin nbr_rows row_height = some pl := by
  unfold detailed_placement.construct at h
  split at h
  · cases h
  · rename_i pl' hpl
    split_ifs at h
    cases h
    exact hpl

theorem walk_row_drop (pl : detailed_placement) (r : Nat) (row : List Nat)
    (hlay : pl.cells_.length ≤ null_ind)
    (hent : ∀ i c, row[i]? = some c → ∃ n, neighbour_index pl.cells_ c r = some n ∧
      pl.neighbours_[n]? = some (row_pred row i, row_succ row i)) :
    ∀ (fuel i : Nat), row.length - i ≤ fuel →
      walk_row pl r fuel (row.getD i null_ind) = row.drop i
  | 0, i, hf => by
    simp only [walk_row]
    exact (List.drop_eq_nil_of_le (by omega)).symm
  | fuel + 1, i, hf => by
    by_cases hi : i < row.length
    · have hget : row[i]? = some row[i] := List.getElem?_eq_getElem hi
      obtain ⟨n, hn, he⟩ := hent i _ hget
      obtain ⟨cell, hcell, _⟩ := neighbour_index_some _ _ _ _ hn
      have hne : row[i] ≠ null_ind := by
        have := (List.getElem?_eq_some_iff.1 hcell).1
        omega
      have hd : row.getD i null_ind = row[i] := by
        simp [List.getD_eq_getElem?_getD, hget]
      rw [hd]
      simp only [walk_row, hne, if_false, hn, he]
      have ih := walk_row_drop pl r row hlay hent fuel (i + 1) (by omega)
      simp only [row_succ]
      rw [ih]
      exact (List.drop_eq_getElem_cons hi).symm
    · have hd : row.getD i null_ind = null_ind := by
        simp [List.getD_eq_getElem?_getD, List.getElem?_eq_none (Nat.le_of_not_lt hi)]
      rw [hd]
      simp only [walk_row, if_true]
      exact (List.drop_eq_nil_of_le (by omega)).symm

/-- C5: after a successful construction from the row lists `rows`, the neighbour lookup of
the cell at place `i` of `rows[r]` in row `r` gives the cells at the places `i-1` and
`i+1`, the sentinel at the two ends; the first and last pointers of row `r` are the front
and the back of `rows[r]`, the sentinel for an empty row; and the walk along the successor
links from the first cell of row `r` gives `rows[r]`. The number of cells stays below the
sentinel index. -/
theorem construct_links (cells : List internal_cell) (rows : List (List Nat))
    (min_x max_x y_origin : Int) (nbr_rows : Nat) (row_height : Int) (pl : detailed_placement)
    (hcells : cells.length ≤ null_ind)
    (h : detailed_placement.construct cells rows min_x max_x y_origin nbr_rows row_height
      = some pl) (r : Nat) (row : List Nat) (hrow : rows[r]? = some row) :
    (∀ i c, row[i]? = some c → ∃ n, neighbour_index pl.cells_ c r = some n ∧
      pl.neighbours_[n]? = some (row_pred row i, row_succ row i)) ∧
    pl.row_first_cells_[r]? = some (row.head?.getD null_ind) ∧
    pl.row_last_cells_[r]? = some (row.getLast?.getD null_ind) ∧
    ∀ fuel, row.length ≤ fuel →
      ((pl.row_first_cells_[r]?).map fun c => walk_row pl r fuel c) = some row := by
  have ht := construct_some cells rows min_x max_x y_origin nbr_rows row_height pl h
  obtain ⟨hceq, _, _, hrows, _, _, explored, hsp, hlen, hall⟩ :=
    construct_tables_spec cells rows min_x max_x y_origin nbr_rows row_height pl ht
  have hlay := construct_tables_layout cells rows min_x max_x y_origin nbr_rows row_height pl
    ht hcells
  have hent := fun i c => hsp.entries r row i c hrow
  have hends := hsp.ends r row hrow
  simp only at hent hends
  refine ⟨hent, hends.1, hends.2, ?_⟩
  intro fuel hfuel
  rw [hends.1]
  simp only [Option.map_some']
  have := walk_row_drop pl r row hlay.1 hent fuel 0 (by omega)
  rw [List.head?_eq_getElem?, ← List.getD_eq_getElem?_getD, this]
  rfl

theorem assign_neighbours_begin_of_get (cells : List internal_cell) (c : Nat)
    (cell : internal_cell) (h : cells[c]? = some cell) :
    ∃ cell', (assign_neighbours_begin 0 cells)[c]? = some cell' ∧
      cell' = { cell with neighbours_begin := cell'.neighbours_begin } := by
  have hlt : c < (assign_neighbours_begin 0 cells).length := by
    rw [assign_neighbours_begin_length]
    exact (List.getElem?_eq_some_iff.1 h).1
  refine ⟨_, List.getElem?_eq_getElem hlt, ?_⟩
  obtain ⟨c0, hc0, heq, _⟩ :=
    assign_neighbours_begin_get 0 cells c _ (List.getElem?_eq_getElem hlt)
  rw [h] at hc0
  cases hc0
  exact heq

/-- C6: the construction fails when the number of row lists differs from `nbr_rows`, when
some cell is listed twice in one row list, when some row-slot of some cell is listed in no
row list, or when two consecutive cells `c1`, `c2` of a row list satisfy
`x(c1) + width(c1) > x(c2)`. -/
theorem construct_fails (cells : List internal_cell) (rows : List (List Nat))
    (min_x max_x y_origin : Int) (nbr_rows : Nat) (row_height : Int)
    (h : rows.length ≠ nbr_rows ∨
      (∃ (r : Nat) (row : List Nat), rows[r]? = some row ∧ ¬ row.Nodup) ∨
      (∃ (c : Nat) (cell : internal_cell) (l : Nat), cells[c]? = some cell ∧ l < cell.height ∧
        ∀ row : List Nat, rows[cell.row + l]? = some row → c ∉ row) ∨
      (∃ (r : Nat) (row : List Nat) (i c1 c2 : Nat) (cell1 cell2 : internal_cell),
        rows[r]? = some row ∧ row[i]? = some c1 ∧ row[i + 1]? = some c2 ∧
        cells[c1]? = some cell1 ∧ cells[c2]? = some cell2 ∧
        cell1.position_x + cell1.width > cell2.position_x)) :
    detailed_placement.construct cells rows min_x max_x y_origin nbr_rows row_height = none := by
  cases hres : detailed_placement.construct cells rows min_x max_x y_origin nbr_rows
    row_height with
  | none => rfl
  | some pl =>
    exfalso
    have ht := construct_some cells rows min_x max_x y_origin nbr_rows row_height pl hres
    obtain ⟨hceq, _, _, hrows, _, _, explored, hsp, hlen, hall⟩ :=
      construct_tables_spec cells rows min_x max_x y_origin nbr_rows row_height pl ht
    rcases h with h | ⟨r, row, hrow, hnd⟩ | ⟨c, cell, l, hc, hl, hno⟩ |
      ⟨r, row, i, c1, c2, cell1, cell2, hrow, h1, h2, hc1, hc2, hov⟩
    · exact h hrows
    · exact hnd (hsp.nodup r row hrow)
    · obtain ⟨cell', hc', heq⟩ := assign_neighbours_begin_of_get cells c cell hc
      rw [← hceq] at hc'
      have hrow' : cell'.row = cell.row := by rw [heq]
      have hh' : cell'.height = cell.height := by rw [heq]
      obtain ⟨row, k, hrow, hk, _⟩ := slot_covered cells rows min_x max_x y_origin nbr_rows
        row_height pl ht c cell' hc' l (by omega)
      rw [hrow'] at hrow
      exact hno row hrow (List.getElem?_mem hk)
    · obtain ⟨d1, d2, hd1, hd2, hord⟩ := hsp.ordered r row i c1 c2 hrow h1 h2
      obtain ⟨cell1', hc1', heq1⟩ := assign_neighbours_begin_of_get cells c1 cell1 hc1
      obtain ⟨cell2', hc2', heq2⟩ := assign_neighbours_begin_of_get cells c2 cell2 hc2
      rw [hceq, hc1'] at hd1
      rw [hceq, hc2'] at hd2
      cases hd1; cases hd2
      have e1 : d1.position_x = cell1.position_x := by rw [heq1]
      have e2 : d1.width = cell1.width := by rw [heq1]
      have e3 : d2.position_x = cell2.position_x := by rw [heq2]
      omega

/-! ## Theorems: the accepted swap -/

theorem neighbour_index_modify (cells : List internal_cell) (f : internal_cell → internal_cell)
    (k : Nat) (hf : ∀ c, (f c).row = c.row ∧ (f c).height = c.height ∧
      (f c).neighbours_begin = c.neighbours_begin) (c r : Nat) :
    neighbour_index (cells.modify f k) c r = neighbour_index cells c r := by
  unfold neighbour_index
  rw [List.getElem?_modify]
  cases h : cells[c]? with
  | none => rfl
  | some cell =>
    simp only [Option.map_eq_map, Option.map_some']
    by_cases hk : k = c
    · simp only [hk, if_true]
      obtain ⟨h1, h2, h3⟩ := hf cell
      rw [h1, h2, h3]
    · simp only [hk, if_false]

theorem assign_positions_cells (pl : detailed_placement) (c1 c2 : Nat) (x1 x2 y1 y2 : Int)
    (i : Nat) :
    (assign_positions pl c1 c2 x1 x2 y1 y2).cells_[i]? =
      (pl.cells_[i]?).map fun cell =>
        let a := if c1 = i then { cell with position_x := x1 } else cell
        let b := if c2 = i then { a with position_x := x2 } else a
        let d := if c1 = i then { b with position_y := y1 } else b
        if c2 = i then { d with position_y := y2 } else d := by
  simp only [assign_positions, set_position_x, set_position_y, List.getElem?_modify]
  cases pl.cells_[i]? with
  | none => rfl
  | some cell => rfl

theorem assign_positions_neighbour_index (pl : detailed_placement) (c1 c2 : Nat)
    (x1 x2 y1 y2 : Int) (c r : Nat) :
    neighbour_index (assign_positions pl c1 c2 x1 x2 y1 y2).cells_ c r =
      neighbour_index pl.cells_ c r := by
  simp only [assign_positions, set_position_x, set_position_y]
  exact (neighbour_index_modify _ (fun cell => { cell with position_y := y2 }) c2
      (fun _ => ⟨rfl, rfl, rfl⟩) c r).trans
    ((neighbour_index_modify _ (fun cell => { cell with position_y := y1 }) c1
      (fun _ => ⟨rfl, rfl, rfl⟩) c r).trans
    ((neighbour_index_modify _ (fun cell => { cell with position_x := x2 }) c2
      (fun _ => ⟨rfl, rfl, rfl⟩) c r).trans
    (neighbour_index_modify _ (fun cell => { cell with position_x := x1 }) c1
      (fun _ => ⟨rfl, rfl, rfl⟩) c r)))

theorem patch_before_spec (pl pl' : detailed_placement) (b r c : Nat)
    (h : patch_before pl b r c = some pl') :
    pl'.cells_ = pl.cells_ ∧ pl'.min_x_ = pl.min_x_ ∧ pl'.max_x_ = pl.max_x_ ∧
    pl'.row_last_cells_ = pl.row_last_cells_ ∧
    (b ≠ null_ind → pl'.row_first_cells_ = pl.row_first_cells_ ∧
      ∃ k, neighbour_index pl.cells_ b r = some k ∧ k < pl.neighbours_.length ∧
        pl'.neighbours_ = pl.neighbours_.modify (fun e => (e.1, c)) k) ∧
    (b = null_ind → pl'.neighbours_ = pl.neighbours_ ∧ r < pl.row_first_cells_.length ∧
      pl'.row_first_cells_ = pl.row_first_cells_.set r c) := by
  unfold patch_before at h
  by_cases hb : b = null_ind
  · simp only [hb, ne_eq, not_true_eq_false, if_false] at h
    split_ifs at h with hr
    cases h
    exact ⟨rfl, rfl, rfl, rfl, fun hne => absurd hb hne, fun _ => ⟨rfl, hr, rfl⟩⟩
  · simp only [ne_eq, hb, not_false_eq_true, if_true] at h
    cases hk : neighbour_index pl.cells_ b r with
    | none => simp [hk] at h
    | some k =>
      simp only [hk, Option.some_bind] at h
      split_ifs at h with hlt
      cases h
      exact ⟨rfl, rfl, rfl, rfl, fun _ => ⟨rfl, k, rfl, hlt, rfl⟩, fun he => absurd he hb⟩

theorem patch_after_spec (pl pl' : detailed_placement) (a r c : Nat)
    (h : patch_after pl a r c = some pl') :
    pl'.cells_ = pl.cells_ ∧ pl'.min_x_ = pl.min_x_ ∧ pl'.max_x_ = pl.max_x_ ∧
    pl'.row_first_cells_ = pl.row_first_cells_ ∧
    (a ≠ null_ind → pl'.row_last_cells_ = pl.row_last_cells_ ∧
      ∃ k, neighbour_index pl.cells_ a r = some k ∧ k < pl.neighbours_.length ∧
        pl'.neighbours_ = pl.neighbours_.modify (fun e => (c, e.2)) k) ∧
    (a = null_ind → pl'.neighbours_ = pl.neighbours_ ∧ r < pl.row_last_cells_.length ∧
      pl'.row_last_cells_ = pl.row_last_cells_.set r c) := by
  unfold patch_after at h
  by_cases ha : a = null_ind
  · simp only [ha, ne_eq, not_true_eq_false, if_false] at h
    split_ifs at h with hr
    cases h
    exact ⟨rfl, rfl, rfl, rfl, fun hne => absurd ha hne, fun _ => ⟨rfl, hr, rfl⟩⟩
  · simp only [ne_eq, ha, not_false_eq_true, if_true] at h
    cases hk : neighbour_index pl.cells_ a r with
    | none => simp [hk] at h
    | some k =>
      simp only [hk, Option.some_bind] at h
      split_ifs at h with hlt
      cases h
      exact ⟨rfl, rfl, rfl, rfl, fun _ => ⟨rfl, k, rfl, hlt, rfl⟩, fun he => absurd he ha⟩

theorem four_patches (pl5 pl9 : detailed_placement) (c1 c2 : Nat) (e1 e2 : Nat × Nat)
    (row_c1 row_c2 : Nat)
    (h : ((patch_before pl5 e1.1 row_c1 c2).bind fun pl6 =>
      (patch_before pl6 e2.1 row_c2 c1).bind fun pl7 =>
      (patch_after pl7 e1.2 row_c1 c2).bind fun pl8 =>
      patch_after pl8 e2.2 row_c2 c1) = some pl9) :
    pl9.cells_ = pl5.cells_ ∧ pl9.min_x_ = pl5.min_x_ ∧ pl9.max_x_ = pl5.max_x_ ∧
    (∀ s : Nat, pl9.neighbours_[s]? = (pl5.neighbours_[s]?).map fun e =>
      (swap_first pl5.cells_ c1 c2 e1 e2 row_c1 row_c2 s e.1,
        swap_second pl5.cells_ c1 c2 e1 e2 row_c1 row_c2 s e.2)) ∧
    (e2.1 = null_ind → pl9.row_first_cells_[row_c2]? = some c1) ∧
    (e1.1 = null_ind → row_c1 ≠ row_c2 → pl9.row_first_cells_[row_c1]? = some c2) ∧
    (∀ r : Nat, ¬ (e2.1 = null_ind ∧ r = row_c2) → ¬ (e1.1 = null_ind ∧ r = row_c1) →
      pl9.row_first_cells_[r]? = pl5.row_first_cells_[r]?) ∧
    (e2.2 = null_ind → pl9.row_last_cells_[row_c2]? = some c1) ∧
    (e1.2 = null_ind → row_c1 ≠ row_c2 → pl9.row_last_cells_[row_c1]? = some c2) ∧
    (∀ r : Nat, ¬ (e2.2 = null_ind ∧ r = row_c2) → ¬ (e1.2 = null_ind ∧ r = row_c1) →
      pl9.row_last_cells_[r]? = pl5.row_last_cells_[r]?) ∧
    pl9.row_first_cells_.length = pl5.row_first_cells_.length ∧
    pl9.row_last_cells_.length = pl5.row_last_cells_.length := by
  simp only [Option.bind_eq_some] at h
  obtain ⟨pl6, h6, pl7, h7, pl8, h8, h9⟩ := h
  obtain ⟨c6, mn6, mx6, l6, hb6, hn6⟩ := patch_before_spec _ _ _ _ _ h6
  obtain ⟨c7, mn7, mx7, l7, hb7, hn7⟩ := patch_before_spec _ _ _ _ _ h7
  obtain ⟨c8, mn8, mx8, f8, hb8, hn8⟩ := patch_after_spec _ _ _ _ _ h8
  obtain ⟨c9, mn9, mx9, f9, hb9, hn9⟩ := patch_after_spec _ _ _ _ _ h9
  rw [c6] at hb7
  rw [c7, c6] at hb8
  rw [c8, c7, c6] at hb9
  refine ⟨by rw [c9, c8, c7, c6], by rw [mn9, mn8, mn7, mn6], by rw [mx9, mx8, mx7, mx6],
    ?_, ?_, ?_, ?_, ?_, ?_, ?_, ?_, ?_⟩
  · intro s
    have s6 : pl6.neighbours_[s]? = (pl5.neighbours_[s]?).map fun e =>
        (e.1, if e1.1 ≠ null_ind ∧ neighbour_index pl5.cells_ e1.1 row_c1 = some s then c2
          else e.2) := by
      by_cases hb : e1.1 = null_ind
      · rw [(hn6 hb).1]
        cases pl5.neighbours_[s]? <;> simp [hb]
      · obtain ⟨_, k, hk, _, hm⟩ := hb6 hb
        rw [hm, List.getElem?_modify, hk]
        cases pl5.neighbours_[s]? with
        | none => rfl
        | some e =>
          by_cases hks : k = s <;> simp [hb, hks]
    have s7 : pl7.neighbours_[s]? = (pl6.neighbours_[s]?).map fun e =>
        (e.1, if e2.1 ≠ null_ind ∧ neighbour_index pl5.cells_ e2.1 row_c2 = some s then c1
          else e.2) := by
      by_cases hb : e2.1 = null_ind
      · rw [(hn7 hb).1]
        cases pl6.neighbours_[s]? <;> simp [hb]
      · obtain ⟨_, k, hk, _, hm⟩ := hb7 hb
        rw [hm, List.getElem?_modify, hk]
        cases pl6.neighbours_[s]? with
        | none => rfl
        | some e =>
          by_cases hks : k = s <;> simp [hb, hks]
    have s8 : pl8.neighbours_[s]? = (pl7.neighbours_[s]?).map fun e =>
        (if e1.2 ≠ null_ind ∧ neighbour_index pl5.cells_ e1.2 row_c1 = some s then c2
          else e.1, e.2) := by
      by_cases hb : e1.2 = null_ind
      · rw [(hn8 hb).1]
        cases pl7.neighbours_[s]? <;> simp [hb]
      · obtain ⟨_, k, hk, _, hm⟩ := hb8 hb
        rw [hm, List.getElem?_modify, hk]
        cases pl7.neighbours_[s]? with
        | none => rfl
        | some e =>
          by_cases hks : k = s <;> simp [hb, hks]
    have s9 : pl9.neighbours_[s]? = (pl8.neighbours_[s]?).map fun e =>
        (if e2.2 ≠ null_ind ∧ neighbour_index pl5.cells_ e2.2 row_c2 = some s then c1
          else e.1, e.2) := by
      by_cases hb : e2.2 = null_ind
      · rw [(hn9 hb).1]
        cases pl8.neighbours_[s]? <;> simp [hb]
      · obtain ⟨_, k, hk, _, hm⟩ := hb9 hb
        rw [hm, List.getElem?_modify, hk]
        cases pl8.neighbours_[s]? with
        | none => rfl
        | some e =>
          by_cases hks : k = s <;> simp [hb, hks]
    rw [s9, s8, s7, s6]
    cases pl5.neighbours_[s]? with
    | none => rfl
    | some e =>
      simp only [Option.map_some', swap_first, swap_second]
  · intro hb
    rw [f9, f8, (hn7 hb).2.2]
    exact List.getElem?_set_self (hn7 hb).2.1
  · intro hb hne
    rw [f9, f8]
    have h6' : pl6.row_first_cells_[row_c1]? = some c2 := by
      rw [(hn6 hb).2.2]
      exact List.getElem?_set_self (hn6 hb).2.1
    by_cases hb2 : e2.1 = null_ind
    · rw [(hn7 hb2).2.2, List.getElem?_set_ne (fun h => hne h.symm)]
      exact h6'
    · rw [(hb7 hb2).1]
      exact h6'
  · intro r hr2 hr1
    rw [f9, f8]
    have h6' : pl6.row_first_cells_[r]? = pl5.row_first_cells_[r]? := by
      by_cases hb : e1.1 = null_ind
      · rw [(hn6 hb).2.2, List.getElem?_set_ne (fun h => hr1 ⟨hb, h.symm⟩)]
      · rw [(hb6 hb).1]
    by_cases hb2 : e2.1 = null_ind
    · rw [(hn7 hb2).2.2, List.getElem?_set_ne (fun h => hr2 ⟨hb2, h.symm⟩)]
      exact h6'
    · rw [(hb7 hb2).1]
      exact h6'
  · intro hb
    rw [(hn9 hb).2.2]
    exact List.getElem?_set_self (hn9 hb).2.1
  · intro hb hne
    have h8' : pl8.row_last_cells_[row_c1]? = some c2 := by
      rw [(hn8 hb).2.2]
      exact List.getElem?_set_self (hn8 hb).2.1
    by_cases hb2 : e2.2 = null_ind
    · rw [(hn9 hb2).2.2, List.getElem?_set_ne (fun h => hne h.symm)]
      exact h8'
    · rw [(hb9 hb2).1]
      exact h8'
  · intro r hr2 hr1
    have h8' : pl8.row_last_cells_[r]? = pl5.row_last_cells_[r]? := by
      by_cases hb : e1.2 = null_ind
      · rw [(hn8 hb).2.2, List.getElem?_set_ne (fun h => hr1 ⟨hb, h.symm⟩), l7, l6]
      · rw [(hb8 hb).1, l7, l6]
    by_cases hb2 : e2.2 = null_ind
    · rw [(hn9 hb2).2.2, List.getElem?_set_ne (fun h => hr2 ⟨hb2, h.symm⟩)]
      exact h8'
    · rw [(hb9 hb2).1]
      exact h8'
  · rw [f9, f8]
    have h6' : pl6.row_first_cells_.length = pl5.row_first_cells_.length := by
      by_cases hb : e1.1 = null_ind
      · rw [(hn6 hb).2.2, List.length_set]
      · rw [(hb6 hb).1]
    by_cases hb2 : e2.1 = null_ind
    · rw [(hn7 hb2).2.2, List.length_set, h6']
    · rw [(hb7 hb2).1, h6']
  · have h8' : pl8.row_last_cells_.length = pl5.row_last_cells_.length := by
      by_cases hb : e1.2 = null_ind
      · rw [(hn8 hb).2.2, List.length_set, l7, l6]
      · rw [(hb8 hb).1, l7, l6]
    by_cases hb2 : e2.2 = null_ind
    · rw [(hn9 hb2).2.2, List.length_set, h8']
    · rw [(hb9 hb2).1, h8']

theorem commit_swap_spec (pl pl' : detailed_placement) (c1 c2 : Nat)
    (cell1 cell2 : internal_cell) (e1 e2 : Nat × Nat) (x1 x2 : Int)
    (hc1 : pl.cells_[c1]? = some cell1) (hc2 : pl.cells_[c2]? = some cell2)
    (hne : c1 ≠ c2) (hrow : cell1.row ≠ cell2.row)
    (hn : cell1.neighbours_begin ≠ cell2.neighbours_begin)
    (he1 : pl.neighbours_[cell1.neighbours_begin]? = some e1)
    (he2 : pl.neighbours_[cell2.neighbours_begin]? = some e2)
    (h : commit_swap (assign_positions pl c1 c2 x1 x2 cell2.position_y cell1.position_y)
      c1 c2 cell1.neighbours_begin cell2.neighbours_begin e1 e2 cell1.row cell2.row
      = some pl') :
    swap_effect pl pl' c1 c2 cell1 cell2 e1 e2 x1 x2 := by
  unfold commit_swap at h
  simp only [Option.bind_eq_some] at h
  obtain ⟨pl6, h6, pl7, h7, pl8, h8, pl9, h9, hfin⟩ := h
  simp only [Option.some.injEq] at hfin
  have hfour := four_patches _ pl9 c1 c2 e1 e2 cell1.row cell2.row
    (by simp only [Option.bind_eq_some]; exact ⟨pl6, h6, pl7, h7, pl8, h8, h9⟩)
  obtain ⟨hcells, hmin, hmax, hnbs, hf1, hf2, hfo, hl1, hl2, hlo, hflen, hllen⟩ := hfour
  simp only at hcells hmin hmax hnbs hfo hlo hflen hllen
  have hn1lt : cell1.neighbours_begin < pl.neighbours_.length :=
    (List.getElem?_eq_some_iff.1 he1).1
  have hn2lt : cell2.neighbours_begin < pl.neighbours_.length :=
    (List.getElem?_eq_some_iff.1 he2).1
  have hsf : ∀ s old, swap_first
      (assign_positions pl c1 c2 x1 x2 cell2.position_y cell1.position_y).cells_
        c1 c2 e1 e2 cell1.row cell2.row s old =
      swap_first pl.cells_ c1 c2 e1 e2 cell1.row cell2.row s old := by
    intro s old
    simp only [swap_first, assign_positions_neighbour_index]
  have hss : ∀ s old, swap_second
      (assign_positions pl c1 c2 x1 x2 cell2.position_y cell1.position_y).cells_
        c1 c2 e1 e2 cell1.row cell2.row s old =
      swap_second pl.cells_ c1 c2 e1 e2 cell1.row cell2.row s old := by
    intro s old
    simp only [swap_second, assign_positions_neighbour_index]
  have hnb4 : (assign_positions pl c1 c2 x1 x2 cell2.position_y cell1.position_y).neighbours_
      = pl.neighbours_ := rfl
  have hcell : ∀ i : Nat, pl'.cells_[i]? =
      ((assign_positions pl c1 c2 x1 x2 cell2.position_y cell1.position_y).cells_[i]?).map
        fun cell =>
          let a := if c1 = i then { cell with row := cell2.row } else cell
          if c2 = i then { a with row := cell1.row } else a := by
    intro i
    rw [← hfin]
    simp only [set_row, List.getElem?_modify, hcells]
    cases (assign_positions pl c1 c2 x1 x2 cell2.position_y cell1.position_y).cells_[i]? with
    | none => rfl
    | some cell => rfl
  have hpl' : pl'.neighbours_ = pl9.neighbours_ ∧ pl'.row_first_cells_ = pl9.row_first_cells_ ∧
      pl'.row_last_cells_ = pl9.row_last_cells_ ∧ pl'.min_x_ = pl9.min_x_ ∧
      pl'.max_x_ = pl9.max_x_ := by
    rw [← hfin]
    exact ⟨rfl, rfl, rfl, rfl, rfl⟩
  obtain ⟨pn, pf, pla, pmin, pmax⟩ := hpl'
  refine ⟨by rw [pmin, hmin]; rfl, by rw [pmax, hmax]; rfl, ?_, ?_, ?_, ?_, ?_, ?_,
    ?_, ?_, ?_, ?_, ?_, ?_, ?_, ?_, ?_, ?_⟩
  · rw [hcell c1, assign_positions_cells, hc1]
    simp [hne, Ne.symm hne]
  · rw [hcell c2, assign_positions_cells, hc2]
    simp [hne, Ne.symm hne]
  · intro i h1 h2
    rw [hcell i, assign_positions_cells]
    cases pl.cells_[i]? with
    | none => rfl
    | some cell => simp [Ne.symm h1, Ne.symm h2]
  · rw [pn, hnbs, hnb4, List.getElem?_set_ne (Ne.symm hn),
      List.getElem?_set_self hn1lt]
    simp only [Option.map_some', hsf, hss]
  · rw [pn, hnbs, hnb4, List.getElem?_set_self (by simpa using hn2lt)]
    simp only [Option.map_some', hsf, hss]
  · intro s hs1 hs2
    rw [pn, hnbs, hnb4, List.getElem?_set_ne (Ne.symm hs2), List.getElem?_set_ne (Ne.symm hs1)]
    simp only [hsf, hss]
  · intro hb
    rw [pf]; exact hf1 hb
  · intro hb
    rw [pf]; exact hf2 hb hrow
  · intro r hr2 hr1
    rw [pf, hfo r hr2 hr1]
    rfl
  · intro hb
    rw [pla]; exact hl1 hb
  · intro hb
    rw [pla]; exact hl2 hb hrow
  · intro r hr2 hr1
    rw [pla, hlo r hr2 hr1]
    rfl
  · rw [pf, hflen]; rfl
  · rw [pla, hllen]; rfl
  · rw [pn]
    have hlen9 : ∀ s : Nat, s < pl9.neighbours_.length ↔ s < pl.neighbours_.length := by
      intro s
      have hs := hnbs s
      rw [hnb4] at hs
      constructor
      · intro hlt
        by_contra hge
        rw [List.getElem?_eq_getElem hlt, List.getElem?_eq_none (by simpa using hge)] at hs
        cases hs
      · intro hlt
        by_contra hge
        have hlt' : s < ((pl.neighbours_.set cell1.neighbours_begin e2).set
            cell2.neighbours_begin e1).length := by simpa using hlt
        rw [List.getElem?_eq_none (Nat.le_of_not_lt hge), List.getElem?_eq_getElem hlt'] at hs
        cases hs
    apply Nat.le_antisymm
    · by_contra hgt
      have := (hlen9 pl.neighbours_.length).1 (by omega)
      omega
    · by_contra hgt
      have := (hlen9 pl9.neighbours_.length).2 (by omega)
      omega
  · have hlen : ∀ i : Nat, i < pl'.cells_.length ↔ i < pl.cells_.length := by
      intro i
      have hs := hcell i
      rw [assign_positions_cells] at hs
      constructor
      · intro hlt
        by_contra hge
        rw [List.getElem?_eq_getElem hlt, List.getElem?_eq_none (Nat.le_of_not_lt hge)] at hs
        cases hs
      · intro hlt
        by_contra hge
        rw [List.getElem?_eq_none (Nat.le_of_not_lt hge), List.getElem?_eq_getElem hlt] at hs
        cases hs
    apply Nat.le_antisymm
    · by_contra hgt
      have := (hlen pl.cells_.length).1 (by omega)
      omega
    · by_contra hgt
      have := (hlen pl'.cells_.length).2 (by omega)
      omega

theorem selfcheck_slots (pl : detailed_placement) (h : selfcheck pl = true) (i : Nat)
    (c : internal_cell) (hc : pl.cells_[i]? = some c) (l : Nat) (hl : l < c.height) :
    c.row + c.height ≤ pl.row_cnt ∧
    ∃ e, pl.neighbours_[l + c.neighbours_begin]? = some e ∧
      pred_ok pl i c (c.row + l) e.1 ∧ succ_ok pl i c (c.row + l) e.2 := by
  have hs := ((selfcheck_iff pl).1 h).2 i c hc l hl
  rw [selfcheck_slot_iff] at hs
  obtain ⟨h1, e, he, hf, hsn⟩ := hs
  have hidx : c.row + (l + c.neighbours_begin) - c.neighbours_begin = c.row + l := by omega
  rw [selfcheck_first_iff, hidx] at hf
  rw [selfcheck_second_iff, hidx] at hsn
  exact ⟨h1, e, he, hf, hsn⟩

theorem selfcheck_of_slots (pl : detailed_placement)
    (hlen : pl.row_first_cells_.length = pl.row_last_cells_.length)
    (h : ∀ (i : Nat) (c : internal_cell), pl.cells_[i]? = some c → ∀ l, l < c.height →
      c.row + c.height ≤ pl.row_cnt ∧
      ∃ e, pl.neighbours_[l + c.neighbours_begin]? = some e ∧
        pred_ok pl i c (c.row + l) e.1 ∧ succ_ok pl i c (c.row + l) e.2) :
    selfcheck pl = true := by
  rw [selfcheck_iff]
  refine ⟨hlen, ?_⟩
  intro i c hc l hl
  obtain ⟨h1, e, he, hf, hsn⟩ := h i c hc l hl
  rw [selfcheck_slot_iff]
  have hidx : c.row + (l + c.neighbours_begin) - c.neighbours_begin = c.row + l := by omega
  refine ⟨h1, e, he, ?_, ?_⟩
  · rw [selfcheck_first_iff, hidx]; exact hf
  · rw [selfcheck_second_iff, hidx]; exact hsn

theorem neighbour_index_height_one (cells : List internal_cell) (c : Nat)
    (cell : internal_cell) (hc : cells[c]? = some cell) (hh : cell.height = 1) (r n : Nat) :
    neighbour_index cells c r = some n ↔ r = cell.row ∧ n = cell.neighbours_begin := by
  unfold neighbour_index
  rw [hc]
  simp only
  constructor
  · intro h
    split_ifs at h with hcond
    simp only [Option.some.injEq] at h
    constructor <;> omega
  · rintro ⟨h1, h2⟩
    subst h1; subst h2
    rw [if_pos ⟨le_refl _, by omega⟩]
    simp

theorem neighbour_index_slot (cells : List internal_cell) (i : Nat) (c : internal_cell)
    (hc : cells[i]? = some c) (l : Nat) (hl : l < c.height) :
    neighbour_index cells i (c.row + l) = some (l + c.neighbours_begin) := by
  unfold neighbour_index
  rw [hc]
  simp only
  rw [if_pos ⟨by omega, by omega⟩]
  congr 1
  omega

theorem neighbour_index_congr (cells cells' : List internal_cell) (i : Nat)
    (h : cells'[i]? = cells[i]?) (r : Nat) :
    neighbour_index cells' i r = neighbour_index cells i r := by
  unfold neighbour_index
  rw [h]

section swap_lemmas

variable {pl pl' : detailed_placement} {c1 c2 : Nat} {cell1 cell2 : internal_cell}
  {e1 e2 : Nat × Nat} {x1 x2 : Int}

theorem swap_context_inj (ctx : swap_context pl pl' c1 c2 cell1 cell2 e1 e2 x1 x2)
    (c c' r r' n : Nat) (h : neighbour_index pl.cells_ c r = some n)
    (h' : neighbour_index pl.cells_ c' r' = some n) : c = c' ∧ r = r' :=
  neighbour_index_inj pl.cells_ ctx.layout.2.2 c c' r r' n h h'

theorem swap_context_not_null (ctx : swap_context pl pl' c1 c2 cell1 cell2 e1 e2 x1 x2)
    (i : Nat) (c : internal_cell) (h : pl.cells_[i]? = some c) : i ≠ null_ind := by
  have := (List.getElem?_eq_some_iff.1 h).1
  have := ctx.layout.1
  omega

theorem swap_context_ne (ctx : swap_context pl pl' c1 c2 cell1 cell2 e1 e2 x1 x2) :
    c1 ≠ c2 := by
  intro h
  subst h
  have := ctx.hc1
  rw [ctx.hc2] at this
  cases this
  exact ctx.rows rfl

theorem swap_context_ni1 (ctx : swap_context pl pl' c1 c2 cell1 cell2 e1 e2 x1 x2)
    (r n : Nat) : neighbour_index pl.cells_ c1 r = some n ↔
      r = cell1.row ∧ n = cell1.neighbours_begin :=
  neighbour_index_height_one pl.cells_ c1 cell1 ctx.hc1 ctx.height1 r n

theorem swap_context_ni2 (ctx : swap_context pl pl' c1 c2 cell1 cell2 e1 e2 x1 x2)
    (r n : Nat) : neighbour_index pl.cells_ c2 r = some n ↔
      r = cell2.row ∧ n = cell2.neighbours_begin :=
  neighbour_index_height_one pl.cells_ c2 cell2 ctx.hc2 ctx.height2 r n

theorem swap_context_slots_ne (ctx : swap_context pl pl' c1 c2 cell1 cell2 e1 e2 x1 x2) :
    cell1.neighbours_begin ≠ cell2.neighbours_begin := by
  intro h
  have h1 := (swap_context_ni1 ctx cell1.row cell1.neighbours_begin).2 ⟨rfl, rfl⟩
  have h2 := (swap_context_ni2 ctx cell2.row cell2.neighbours_begin).2 ⟨rfl, rfl⟩
  rw [← h] at h2
  exact swap_context_ne ctx (swap_context_inj ctx _ _ _ _ _ h1 h2).1

theorem swap_context_ok1 (ctx : swap_context pl pl' c1 c2 cell1 cell2 e1 e2 x1 x2) :
    cell1.row + 1 ≤ pl.row_cnt ∧ pred_ok pl c1 cell1 cell1.row e1.1 ∧
      succ_ok pl c1 cell1 cell1.row e1.2 := by
  obtain ⟨h1, e, he, hp, hs⟩ := selfcheck_slots pl ctx.inv.checked c1 cell1 ctx.hc1 0
    (by rw [ctx.height1]; exact Nat.zero_lt_one)
  rw [Nat.zero_add, ctx.he1] at he
  cases he
  rw [ctx.height1] at h1
  exact ⟨h1, hp, hs⟩

theorem swap_context_ok2 (ctx : swap_context pl pl' c1 c2 cell1 cell2 e1 e2 x1 x2) :
    cell2.row + 1 ≤ pl.row_cnt ∧ pred_ok pl c2 cell2 cell2.row e2.1 ∧
      succ_ok pl c2 cell2 cell2.row e2.2 := by
  obtain ⟨h1, e, he, hp, hs⟩ := selfcheck_slots pl ctx.inv.checked c2 cell2 ctx.hc2 0
    (by rw [ctx.height2]; exact Nat.zero_lt_one)
  rw [Nat.zero_add, ctx.he2] at he
  cases he
  rw [ctx.height2] at h1
  exact ⟨h1, hp, hs⟩

/-- The cell before `c1` in its row, when there is one: it is neither `c1` nor `c2`, and
its slot in that row holds `c1` as successor. -/
theorem swap_context_b1 (ctx : swap_context pl pl' c1 c2 cell1 cell2 e1 e2 x1 x2)
    (hb : e1.1 ≠ null_ind) :
    ∃ oc k e, pl.cells_[e1.1]? = some oc ∧ neighbour_index pl.cells_ e1.1 cell1.row = some k ∧
      pl.neighbours_[k]? = some e ∧ e.2 = c1 ∧ e1.1 ≠ c1 ∧ e1.1 ≠ c2 ∧
      k ≠ cell1.neighbours_begin ∧ k ≠ cell2.neighbours_begin := by
  obtain ⟨_, hp, _⟩ := swap_context_ok1 ctx
  rcases hp with ⟨_, oc, k, e, hoc, _, hk, he, he2⟩ | ⟨hnull, _⟩
  · have hne1 : e1.1 ≠ c1 := ctx.loose1.1
    have hne2 : e1.1 ≠ c2 := by
      intro h
      rw [h] at hk
      exact ctx.rows ((swap_context_ni2 ctx _ _).1 hk).1
    refine ⟨oc, k, e, hoc, hk, he, he2, hne1, hne2, ?_, ?_⟩
    · intro h
      rw [h] at hk
      exact hne1 (swap_context_inj ctx _ _ _ _ _ hk
        ((swap_context_ni1 ctx cell1.row cell1.neighbours_begin).2 ⟨rfl, rfl⟩)).1
    · intro h
      rw [h] at hk
      exact hne2 (swap_context_inj ctx _ _ _ _ _ hk
        ((swap_context_ni2 ctx cell2.row cell2.neighbours_begin).2 ⟨rfl, rfl⟩)).1
  · exact absurd hnull hb

theorem swap_context_a1 (ctx : swap_context pl pl' c1 c2 cell1 cell2 e1 e2 x1 x2)
    (ha : e1.2 ≠ null_ind) :
    ∃ oc k e, pl.cells_[e1.2]? = some oc ∧ neighbour_index pl.cells_ e1.2 cell1.row = some k ∧
      pl.neighbours_[k]? = some e ∧ e.1 = c1 ∧ e1.2 ≠ c1 ∧ e1.2 ≠ c2 ∧
      k ≠ cell1.neighbours_begin ∧ k ≠ cell2.neighbours_begin := by
  obtain ⟨_, _, hs⟩ := swap_context_ok1 ctx
  rcases hs with ⟨_, oc, k, e, hoc, _, hk, he, he2⟩ | ⟨hnull, _⟩
  · have hne1 : e1.2 ≠ c1 := ctx.loose1.2
    have hne2 : e1.2 ≠ c2 := by
      intro h
      rw [h] at hk
      exact ctx.rows ((swap_context_ni2 ctx _ _).1 hk).1
    refine ⟨oc, k, e, hoc, hk, he, he2, hne1, hne2, ?_, ?_⟩
    · intro h
      rw [h] at hk
      exact hne1 (swap_context_inj ctx _ _ _ _ _ hk
        ((swap_context_ni1 ctx cell1.row cell1.neighbours_begin).2 ⟨rfl, rfl⟩)).1
    · intro h
      rw [h] at hk
      exact hne2 (swap_context_inj ctx _ _ _ _ _ hk
        ((swap_context_ni2 ctx cell2.row cell2.neighbours_begin).2 ⟨rfl, rfl⟩)).1
  · exact absurd hnull ha

theorem swap_context_b2 (ctx : swap_context pl pl' c1 c2 cell1 cell2 e1 e2 x1 x2)
    (hb : e2.1 ≠ null_ind) :
    ∃ oc k e, pl.cells_[e2.1]? = some oc ∧ neighbour_index pl.cells_ e2.1 cell2.row = some k ∧
      pl.neighbours_[k]? = some e ∧ e.2 = c2 ∧ e2.1 ≠ c1 ∧ e2.1 ≠ c2 ∧
      k ≠ cell1.neighbours_begin ∧ k ≠ cell2.neighbours_begin := by
  obtain ⟨_, hp, _⟩ := swap_context_ok2 ctx
  rcases hp with ⟨_, oc, k, e, hoc, _, hk, he, he2⟩ | ⟨hnull, _⟩
  · have hne2 : e2.1 ≠ c2 := ctx.loose2.1
    have hne1 : e2.1 ≠ c1 := by
      intro h
      rw [h] at hk
      exact ctx.rows ((swap_context_ni1 ctx _ _).1 hk).1.symm
    refine ⟨oc, k, e, hoc, hk, he, he2, hne1, hne2, ?_, ?_⟩
    · intro h
      rw [h] at hk
      exact hne1 (swap_context_inj ctx _ _ _ _ _ hk
        ((swap_context_ni1 ctx cell1.row cell1.neighbours_begin).2 ⟨rfl, rfl⟩)).1
    · intro h
      rw [h] at hk
      exact hne2 (swap_context_inj ctx _ _ _ _ _ hk
        ((swap_context_ni2 ctx cell2.row cell2.neighbours_begin).2 ⟨rfl, rfl⟩)).1
  · exact absurd hnull hb

theorem swap_context_a2 (ctx : swap_context pl pl' c1 c2 cell1 cell2 e1 e2 x1 x2)
    (ha : e2.2 ≠ null_ind) :
    ∃ oc k e, pl.cells_[e2.2]? = some oc ∧ neighbour_index pl.cells_ e2.2 cell2.row = some k ∧
      pl.neighbours_[k]? = some e ∧ e.1 = c2 ∧ e2.2 ≠ c1 ∧ e2.2 ≠ c2 ∧
      k ≠ cell1.neighbours_begin ∧ k ≠ cell2.neighbours_begin := by
  obtain ⟨_, _, hs⟩ := swap_context_ok2 ctx
  rcases hs with ⟨_, oc, k, e, hoc, _, hk, he, he2⟩ | ⟨hnull, _⟩
  · have hne2 : e2.2 ≠ c2 := ctx.loose2.2
    have hne1 : e2.2 ≠ c1 := by
      intro h
      rw [h] at hk
      exact ctx.rows ((swap_context_ni1 ctx _ _).1 hk).1.symm
    refine ⟨oc, k, e, hoc, hk, he, he2, hne1, hne2, ?_, ?_⟩
    · intro h
      rw [h] at hk
      exact hne1 (swap_context_inj ctx _ _ _ _ _ hk
        ((swap_context_ni1 ctx cell1.row cell1.neighbours_begin).2 ⟨rfl, rfl⟩)).1
    · intro h
      rw [h] at hk
      exact hne2 (swap_context_inj ctx _ _ _ _ _ hk
        ((swap_context_ni2 ctx cell2.row cell2.neighbours_begin).2 ⟨rfl, rfl⟩)).1
  · exact absurd hnull ha

end swap_lemmas

section swap_slots

variable {pl pl' : detailed_placement} {c1 c2 : Nat} {cell1 cell2 : internal_cell}
  {e1 e2 : Nat × Nat} {x1 x2 : Int}

theorem swap_index_other (ctx : swap_context pl pl' c1 c2 cell1 cell2 e1 e2 x1 x2)
    (i : Nat) (h1 : i ≠ c1) (h2 : i ≠ c2) (r : Nat) :
    neighbour_index pl'.cells_ i r = neighbour_index pl.cells_ i r :=
  neighbour_index_congr _ _ i (ctx.effect.cell_other i h1 h2) r

theorem swap_index_c1 (ctx : swap_context pl pl' c1 c2 cell1 cell2 e1 e2 x1 x2) (r n : Nat) :
    neighbour_index pl'.cells_ c1 r = some n ↔ r = cell2.row ∧ n = cell1.neighbours_begin :=
  neighbour_index_height_one pl'.cells_ c1 _ ctx.effect.cell_c1 ctx.height1 r n

theorem swap_index_c2 (ctx : swap_context pl pl' c1 c2 cell1 cell2 e1 e2 x1 x2) (r n : Nat) :
    neighbour_index pl'.cells_ c2 r = some n ↔ r = cell1.row ∧ n = cell2.neighbours_begin :=
  neighbour_index_height_one pl'.cells_ c2 _ ctx.effect.cell_c2 ctx.height2 r n

theorem swap_first_slot (ctx : swap_context pl pl' c1 c2 cell1 cell2 e1 e2 x1 x2)
    (i r s : Nat) (hs : neighbour_index pl.cells_ i r = some s) (old : Nat) :
    swap_first pl.cells_ c1 c2 e1 e2 cell1.row cell2.row s old =
      if e2.2 ≠ null_ind ∧ e2.2 = i ∧ cell2.row = r then c1
      else if e1.2 ≠ null_ind ∧ e1.2 = i ∧ cell1.row = r then c2 else old := by
  have k2 : (e2.2 ≠ null_ind ∧ neighbour_index pl.cells_ e2.2 cell2.row = some s) ↔
      (e2.2 ≠ null_ind ∧ e2.2 = i ∧ cell2.row = r) := by
    constructor
    · rintro ⟨h1, h2⟩
      exact ⟨h1, swap_context_inj ctx _ _ _ _ _ h2 hs⟩
    · rintro ⟨h1, h2, h3⟩
      rw [h2, h3]
      exact ⟨h2 ▸ h1, hs⟩
  have k1 : (e1.2 ≠ null_ind ∧ neighbour_index pl.cells_ e1.2 cell1.row = some s) ↔
      (e1.2 ≠ null_ind ∧ e1.2 = i ∧ cell1.row = r) := by
    constructor
    · rintro ⟨h1, h2⟩
      exact ⟨h1, swap_context_inj ctx _ _ _ _ _ h2 hs⟩
    · rintro ⟨h1, h2, h3⟩
      rw [h2, h3]
      exact ⟨h2 ▸ h1, hs⟩
  unfold swap_first
  simp only [k1, k2]

theorem swap_second_slot (ctx : swap_context pl pl' c1 c2 cell1 cell2 e1 e2 x1 x2)
    (i r s : Nat) (hs : neighbour_index pl.cells_ i r = some s) (old : Nat) :
    swap_second pl.cells_ c1 c2 e1 e2 cell1.row cell2.row s old =
      if e2.1 ≠ null_ind ∧ e2.1 = i ∧ cell2.row = r then c1
      else if e1.1 ≠ null_ind ∧ e1.1 = i ∧ cell1.row = r then c2 else old := by
  have k2 : (e2.1 ≠ null_ind ∧ neighbour_index pl.cells_ e2.1 cell2.row = some s) ↔
      (e2.1 ≠ null_ind ∧ e2.1 = i ∧ cell2.row = r) := by
    constructor
    · rintro ⟨h1, h2⟩
      exact ⟨h1, swap_context_inj ctx _ _ _ _ _ h2 hs⟩
    · rintro ⟨h1, h2, h3⟩
      rw [h2, h3]
      exact ⟨h2 ▸ h1, hs⟩
  have k1 : (e1.1 ≠ null_ind ∧ neighbour_index pl.cells_ e1.1 cell1.row = some s) ↔
      (e1.1 ≠ null_ind ∧ e1.1 = i ∧ cell1.row = r) := by
    constructor
    · rintro ⟨h1, h2⟩
      exact ⟨h1, swap_context_inj ctx _ _ _ _ _ h2 hs⟩
    · rintro ⟨h1, h2, h3⟩
      rw [h2, h3]
      exact ⟨h2 ▸ h1, hs⟩
  unfold swap_second
  simp only [k1, k2]

/-- After the swap the entry of `c1` is the old entry of `c2`. -/
theorem swap_entry_c1 (ctx : swap_context pl pl' c1 c2 cell1 cell2 e1 e2 x1 x2) :
    pl'.neighbours_[cell1.neighbours_begin]? = some e2 := by
  have hs := (swap_context_ni1 ctx cell1.row cell1.neighbours_begin).2 ⟨rfl, rfl⟩
  rw [ctx.effect.entry_c1, swap_first_slot ctx c1 cell1.row _ hs,
    swap_second_slot ctx c1 cell1.row _ hs]
  have r21 : ¬ cell2.row = cell1.row := fun h => ctx.rows h.symm
  have f1 : ¬ (e1.2 ≠ null_ind ∧ e1.2 = c1) := by
    rintro ⟨h1, h2⟩
    obtain ⟨_, _, _, _, _, _, _, hne, _⟩ := swap_context_a1 ctx h1
    exact hne h2
  have f2 : ¬ (e1.1 ≠ null_ind ∧ e1.1 = c1) := by
    rintro ⟨h1, h2⟩
    obtain ⟨_, _, _, _, _, _, _, hne, _⟩ := swap_context_b1 ctx h1
    exact hne h2
  simp only [r21, and_false, if_false, and_true, f1, f2]

/-- After the swap the entry of `c2` is the old entry of `c1`. -/
theorem swap_entry_c2 (ctx : swap_context pl pl' c1 c2 cell1 cell2 e1 e2 x1 x2) :
    pl'.neighbours_[cell2.neighbours_begin]? = some e1 := by
  have hs := (swap_context_ni2 ctx cell2.row cell2.neighbours_begin).2 ⟨rfl, rfl⟩
  rw [ctx.effect.entry_c2, swap_first_slot ctx c2 cell2.row _ hs,
    swap_second_slot ctx c2 cell2.row _ hs]
  have r12 : ¬ cell1.row = cell2.row := ctx.rows
  have f1 : ¬ (e2.2 ≠ null_ind ∧ e2.2 = c2) := by
    rintro ⟨h1, h2⟩
    obtain ⟨_, _, _, _, _, _, _, _, hne, _⟩ := swap_context_a2 ctx h1
    exact hne h2
  have f2 : ¬ (e2.1 ≠ null_ind ∧ e2.1 = c2) := by
    rintro ⟨h1, h2⟩
    obtain ⟨_, _, _, _, _, _, _, _, hne, _⟩ := swap_context_b2 ctx h1
    exact hne h2
  simp only [r12, and_false, if_false, and_true, f1, f2]

/-- The slot of `c1` passes the checks of `selfcheck` after the swap. -/
theorem swap_slot_c1 (ctx : swap_context pl pl' c1 c2 cell1 cell2 e1 e2 x1 x2) :
    pred_ok pl' c1 { cell1 with
        position_x := x1, position_y := cell2.position_y, row := cell2.row } cell2.row e2.1 ∧
      succ_ok pl' c1 { cell1 with
        position_x := x1, position_y := cell2.position_y, row := cell2.row } cell2.row e2.2 := by
  constructor
  · by_cases hb : e2.1 = null_ind
    · exact Or.inr ⟨hb, ctx.effect.first_c1 hb⟩
    · obtain ⟨oc, k, e, hoc, hk, he, _, hne1, hne2, hk1, hk2⟩ := swap_context_b2 ctx hb
      refine Or.inl ⟨hb, oc, k, (swap_first pl.cells_ c1 c2 e1 e2 cell1.row cell2.row k e.1,
        swap_second pl.cells_ c1 c2 e1 e2 cell1.row cell2.row k e.2), ?_, ctx.low1 oc hb hoc, ?_, ?_, ?_⟩
      · rw [ctx.effect.cell_other _ hne1 hne2]; exact hoc
      · rw [swap_index_other ctx _ hne1 hne2]; exact hk
      · rw [ctx.effect.entry_other k hk1 hk2, he]; rfl
      · simp only [swap_second]
        rw [if_pos ⟨hb, hk⟩]
  · by_cases ha : e2.2 = null_ind
    · exact Or.inr ⟨ha, ctx.effect.last_c1 ha⟩
    · obtain ⟨oc, k, e, hoc, hk, he, _, hne1, hne2, hk1, hk2⟩ := swap_context_a2 ctx ha
      refine Or.inl ⟨ha, oc, k, (swap_first pl.cells_ c1 c2 e1 e2 cell1.row cell2.row k e.1,
        swap_second pl.cells_ c1 c2 e1 e2 cell1.row cell2.row k e.2), ?_, ctx.up1 oc ha hoc, ?_, ?_, ?_⟩
      · rw [ctx.effect.cell_other _ hne1 hne2]; exact hoc
      · rw [swap_index_other ctx _ hne1 hne2]; exact hk
      · rw [ctx.effect.entry_other k hk1 hk2, he]; rfl
      · simp only [swap_first]
        rw [if_pos ⟨ha, hk⟩]

/-- The slot of `c2` passes the checks of `selfcheck` after the swap. -/
theorem swap_slot_c2 (ctx : swap_context pl pl' c1 c2 cell1 cell2 e1 e2 x1 x2) :
    pred_ok pl' c2 { cell2 with
        position_x := x2, position_y := cell1.position_y, row := cell1.row } cell1.row e1.1 ∧
      succ_ok pl' c2 { cell2 with
        position_x := x2, position_y := cell1.position_y, row := cell1.row } cell1.row e1.2 := by
  constructor
  · by_cases hb : e1.1 = null_ind
    · exact Or.inr ⟨hb, ctx.effect.first_c2 hb⟩
    · obtain ⟨oc, k, e, hoc, hk, he, _, hne1, hne2, hk1, hk2⟩ := swap_context_b1 ctx hb
      refine Or.inl ⟨hb, oc, k, (swap_first pl.cells_ c1 c2 e1 e2 cell1.row cell2.row k e.1,
        swap_second pl.cells_ c1 c2 e1 e2 cell1.row cell2.row k e.2), ?_, ctx.low2 oc hb hoc, ?_, ?_, ?_⟩
      · rw [ctx.effect.cell_other _ hne1 hne2]; exact hoc
      · rw [swap_index_other ctx _ hne1 hne2]; exact hk
      · rw [ctx.effect.entry_other k hk1 hk2, he]; rfl
      · rw [swap_second_slot ctx e1.1 cell1.row k hk]
        rw [if_neg (fun h => ctx.rows h.2.2.symm), if_pos ⟨hb, rfl, rfl⟩]
  · by_cases ha : e1.2 = null_ind
    · exact Or.inr ⟨ha, ctx.effect.last_c2 ha⟩
    · obtain ⟨oc, k, e, hoc, hk, he, _, hne1, hne2, hk1, hk2⟩ := swap_context_a1 ctx ha
      refine Or.inl ⟨ha, oc, k, (swap_first pl.cells_ c1 c2 e1 e2 cell1.row cell2.row k e.1,
        swap_second pl.cells_ c1 c2 e1 e2 cell1.row cell2.row k e.2), ?_, ctx.up2 oc ha hoc, ?_, ?_, ?_⟩
      · rw [ctx.effect.cell_other _ hne1 hne2]; exact hoc
      · rw [swap_index_other ctx _ hne1 hne2]; exact hk
      · rw [ctx.effect.entry_other k hk1 hk2, he]; rfl
      · rw [swap_first_slot ctx e1.2 cell1.row k hk]
        rw [if_neg (fun h => ctx.rows h.2.2.symm), if_pos ⟨ha, rfl, rfl⟩]

end swap_slots

section swap_other

variable {pl pl' : detailed_placement} {c1 c2 : Nat} {cell1 cell2 : internal_cell}
  {e1 e2 : Nat × Nat} {x1 x2 : Int}

/-- A slot of a cell other than `c1` and `c2`: its place in the table, and what the table
holds there after the swap. -/
theorem swap_other_entry (ctx : swap_context pl pl' c1 c2 cell1 cell2 e1 e2 x1 x2)
    (i r s : Nat) (hi1 : i ≠ c1) (hi2 : i ≠ c2)
    (hs : neighbour_index pl.cells_ i r = some s) (e : Nat × Nat)
    (he : pl.neighbours_[s]? = some e) :
    pl'.neighbours_[s]? = some
      (if e2.2 ≠ null_ind ∧ e2.2 = i ∧ cell2.row = r then c1
        else if e1.2 ≠ null_ind ∧ e1.2 = i ∧ cell1.row = r then c2 else e.1,
       if e2.1 ≠ null_ind ∧ e2.1 = i ∧ cell2.row = r then c1
        else if e1.1 ≠ null_ind ∧ e1.1 = i ∧ cell1.row = r then c2 else e.2) := by
  have hs1 : s ≠ cell1.neighbours_begin := by
    intro h
    rw [h] at hs
    exact hi1 (swap_context_inj ctx _ _ _ _ _ hs
      ((swap_context_ni1 ctx cell1.row cell1.neighbours_begin).2 ⟨rfl, rfl⟩)).1
  have hs2 : s ≠ cell2.neighbours_begin := by
    intro h
    rw [h] at hs
    exact hi2 (swap_context_inj ctx _ _ _ _ _ hs
      ((swap_context_ni2 ctx cell2.row cell2.neighbours_begin).2 ⟨rfl, rfl⟩)).1
  rw [ctx.effect.entry_other s hs1 hs2, he, Option.map_some',
    swap_first_slot ctx i r s hs, swap_second_slot ctx i r s hs]

theorem swap_other_pred (ctx : swap_context pl pl' c1 c2 cell1 cell2 e1 e2 x1 x2)
    (i : Nat) (c : internal_cell) (r p : Nat) (hi1 : i ≠ c1) (hi2 : i ≠ c2)
    (hc : pl.cells_[i]? = some c) (hp : pred_ok pl i c r p) :
    pred_ok pl' i c r
      (if e2.2 ≠ null_ind ∧ e2.2 = i ∧ cell2.row = r then c1
        else if e1.2 ≠ null_ind ∧ e1.2 = i ∧ cell1.row = r then c2 else p) := by
  have hinull : i ≠ null_ind := swap_context_not_null ctx i c hc
  by_cases A2 : e2.2 ≠ null_ind ∧ e2.2 = i ∧ cell2.row = r
  · rw [if_pos A2]
    obtain ⟨h1, h2, h3⟩ := A2
    refine Or.inl ⟨swap_context_not_null ctx c1 cell1 ctx.hc1, _, cell1.neighbours_begin, e2,
      ctx.effect.cell_c1, ctx.up1 c h1 (h2 ▸ hc), ?_, swap_entry_c1 ctx, h2⟩
    exact (swap_index_c1 ctx r _).2 ⟨h3.symm, rfl⟩
  · rw [if_neg A2]
    by_cases A1 : e1.2 ≠ null_ind ∧ e1.2 = i ∧ cell1.row = r
    · rw [if_pos A1]
      obtain ⟨h1, h2, h3⟩ := A1
      refine Or.inl ⟨swap_context_not_null ctx c2 cell2 ctx.hc2, _, cell2.neighbours_begin, e1,
        ctx.effect.cell_c2, ctx.up2 c h1 (h2 ▸ hc), ?_, swap_entry_c2 ctx, h2⟩
      exact (swap_index_c2 ctx r _).2 ⟨h3.symm, rfl⟩
    · rw [if_neg A1]
      rcases hp with ⟨hpn, oc, k, e0, hoc, hord, hk, he0, he02⟩ | ⟨hpn, hfirst⟩
      · have hp1 : p ≠ c1 := by
          intro h
          rw [h] at hk
          obtain ⟨hr, hkk⟩ := (swap_context_ni1 ctx r k).1 hk
          rw [hkk, ctx.he1] at he0
          cases he0
          exact A1 ⟨he02 ▸ hinull, he02, hr.symm⟩
        have hp2 : p ≠ c2 := by
          intro h
          rw [h] at hk
          obtain ⟨hr, hkk⟩ := (swap_context_ni2 ctx r k).1 hk
          rw [hkk, ctx.he2] at he0
          cases he0
          exact A2 ⟨he02 ▸ hinull, he02, hr.symm⟩
        refine Or.inl ⟨hpn, oc, k, _, ?_, hord, ?_, swap_other_entry ctx p r k hp1 hp2 hk e0 he0,
          ?_⟩
        · rw [ctx.effect.cell_other _ hp1 hp2]; exact hoc
        · rw [swap_index_other ctx _ hp1 hp2]; exact hk
        · have B2 : ¬ (e2.1 ≠ null_ind ∧ e2.1 = p ∧ cell2.row = r) := by
            rintro ⟨h1, h2, h3⟩
            obtain ⟨_, k', e', _, hk', he', he2', _⟩ := swap_context_b2 ctx h1
            rw [h2, h3, hk] at hk'
            cases hk'
            rw [he0] at he'
            cases he'
            exact hi2 (he02.symm.trans he2')
          have B1 : ¬ (e1.1 ≠ null_ind ∧ e1.1 = p ∧ cell1.row = r) := by
            rintro ⟨h1, h2, h3⟩
            obtain ⟨_, k', e', _, hk', he', he2', _⟩ := swap_context_b1 ctx h1
            rw [h2, h3, hk] at hk'
            cases hk'
            rw [he0] at he'
            cases he'
            exact hi1 (he02.symm.trans he2')
          simp only [B2, B1, if_false]
          exact he02
      · refine Or.inr ⟨hpn, ?_⟩
        rw [ctx.effect.first_other r ?_ ?_]
        · exact hfirst
        · rintro ⟨h1, h2⟩
          rcases (swap_context_ok2 ctx).2.1 with ⟨hne, _⟩ | ⟨_, hf⟩
          · exact hne h1
          · rw [← h2, hfirst] at hf
            exact hi2 (Option.some.inj hf)
        · rintro ⟨h1, h2⟩
          rcases (swap_context_ok1 ctx).2.1 with ⟨hne, _⟩ | ⟨_, hf⟩
          · exact hne h1
          · rw [← h2, hfirst] at hf
            exact hi1 (Option.some.inj hf)

theorem swap_other_succ (ctx : swap_context pl pl' c1 c2 cell1 cell2 e1 e2 x1 x2)
    (i : Nat) (c : internal_cell) (r p : Nat) (hi1 : i ≠ c1) (hi2 : i ≠ c2)
    (hc : pl.cells_[i]? = some c) (hp : succ_ok pl i c r p) :
    succ_ok pl' i c r
      (if e2.1 ≠ null_ind ∧ e2.1 = i ∧ cell2.row = r then c1
        else if e1.1 ≠ null_ind ∧ e1.1 = i ∧ cell1.row = r then c2 else p) := by
  have hinull : i ≠ null_ind := swap_context_not_null ctx i c hc
  by_cases A2 : e2.1 ≠ null_ind ∧ e2.1 = i ∧ cell2.row = r
  · rw [if_pos A2]
    obtain ⟨h1, h2, h3⟩ := A2
    refine Or.inl ⟨swap_context_not_null ctx c1 cell1 ctx.hc1, _, cell1.neighbours_begin, e2,
      ctx.effect.cell_c1, ctx.low1 c h1 (h2 ▸ hc), ?_, swap_entry_c1 ctx, h2⟩
    exact (swap_index_c1 ctx r _).2 ⟨h3.symm, rfl⟩
  · rw [if_neg A2]
    by_cases A1 : e1.1 ≠ null_ind ∧ e1.1 = i ∧ cell1.row = r
    · rw [if_pos A1]
      obtain ⟨h1, h2, h3⟩ := A1
      refine Or.inl ⟨swap_context_not_null ctx c2 cell2 ctx.hc2, _, cell2.neighbours_begin, e1,
        ctx.effect.cell_c2, ctx.low2 c h1 (h2 ▸ hc), ?_, swap_entry_c2 ctx, h2⟩
      exact (swap_index_c2 ctx r _).2 ⟨h3.symm, rfl⟩
    · rw [if_neg A1]
      rcases hp with ⟨hpn, oc, k, e0, hoc, hord, hk, he0, he01⟩ | ⟨hpn, hlast⟩
      · have hp1 : p ≠ c1 := by
          intro h
          rw [h] at hk
          obtain ⟨hr, hkk⟩ := (swap_context_ni1 ctx r k).1 hk
          rw [hkk, ctx.he1] at he0
          cases he0
          exact A1 ⟨he01 ▸ hinull, he01, hr.symm⟩
        have hp2 : p ≠ c2 := by
          intro h
          rw [h] at hk
          obtain ⟨hr, hkk⟩ := (swap_context_ni2 ctx r k).1 hk
          rw [hkk, ctx.he2] at he0
          cases he0
          exact A2 ⟨he01 ▸ hinull, he01, hr.symm⟩
        refine Or.inl ⟨hpn, oc, k, _, ?_, hord, ?_, swap_other_entry ctx p r k hp1 hp2 hk e0 he0,
          ?_⟩
        · rw [ctx.effect.cell_other _ hp1 hp2]; exact hoc
        · rw [swap_index_other ctx _ hp1 hp2]; exact hk
        · have B2 : ¬ (e2.2 ≠ null_ind ∧ e2.2 = p ∧ cell2.row = r) := by
            rintro ⟨h1, h2, h3⟩
            obtain ⟨_, k', e', _, hk', he', he2', _⟩ := swap_context_a2 ctx h1
            rw [h2, h3, hk] at hk'
            cases hk'
            rw [he0] at he'
            cases he'
            exact hi2 (he01.symm.trans he2')
          have B1 : ¬ (e1.2 ≠ null_ind ∧ e1.2 = p ∧ cell1.row = r) := by
            rintro ⟨h1, h2, h3⟩
            obtain ⟨_, k', e', _, hk', he', he2', _⟩ := swap_context_a1 ctx h1
            rw [h2, h3, hk] at hk'
            cases hk'
            rw [he0] at he'
            cases he'
            exact hi1 (he01.symm.trans he2')
          simp only [B2, B1, if_false]
          exact he01
      · refine Or.inr ⟨hpn, ?_⟩
        rw [ctx.effect.last_other r ?_ ?_]
        · exact hlast
        · rintro ⟨h1, h2⟩
          rcases (swap_context_ok2 ctx).2.2 with ⟨hne, _⟩ | ⟨_, hf⟩
          · exact hne h1
          · rw [← h2, hlast] at hf
            exact hi2 (Option.some.inj hf)
        · rintro ⟨h1, h2⟩
          rcases (swap_context_ok1 ctx).2.2 with ⟨hne, _⟩ | ⟨_, hf⟩
          · exact hne h1
          · rw [← h2, hlast] at hf
            exact hi1 (Option.some.inj hf)

end swap_other

section swap_invariant

variable {pl pl' : detailed_placement} {c1 c2 : Nat} {cell1 cell2 : internal_cell}
  {e1 e2 : Nat × Nat} {x1 x2 : Int}

theorem swap_cell_key (ctx : swap_context pl pl' c1 c2 cell1 cell2 e1 e2 x1 x2)
    (i : Nat) (c' : internal_cell) (hc' : pl'.cells_[i]? = some c') :
    ∃ c, pl.cells_[i]? = some c ∧ c'.neighbours_begin = c.neighbours_begin ∧
      c'.height = c.height := by
  by_cases h1 : i = c1
  · subst h1
    rw [ctx.effect.cell_c1] at hc'
    cases hc'
    exact ⟨cell1, ctx.hc1, rfl, rfl⟩
  · by_cases h2 : i = c2
    · subst h2
      rw [ctx.effect.cell_c2] at hc'
      cases hc'
      exact ⟨cell2, ctx.hc2, rfl, rfl⟩
    · rw [ctx.effect.cell_other i h1 h2] at hc'
      exact ⟨c', hc', rfl, rfl⟩

theorem swap_layout (ctx : swap_context pl pl' c1 c2 cell1 cell2 e1 e2 x1 x2) :
    table_layout pl' := by
  refine ⟨?_, ?_, ?_⟩
  · rw [ctx.effect.cells_length]
    exact ctx.layout.1
  · intro c cell hc
    obtain ⟨c0, hc0, hnb, hh⟩ := swap_cell_key ctx c cell hc
    rw [ctx.effect.neighbours_length, hnb, hh]
    exact ctx.layout.2.1 c c0 hc0
  · intro c c' cell cell' hlt hc hc'
    obtain ⟨d, hd, hnb, hh⟩ := swap_cell_key ctx c cell hc
    obtain ⟨d', hd', hnb', _⟩ := swap_cell_key ctx c' cell' hc'
    rw [hnb, hh, hnb']
    exact ctx.layout.2.2 c c' d d' hlt hd hd'

theorem swap_row_cnt (ctx : swap_context pl pl' c1 c2 cell1 cell2 e1 e2 x1 x2) :
    pl'.row_cnt = pl.row_cnt := by
  unfold detailed_placement.row_cnt
  exact ctx.effect.first_length

theorem swap_selfcheck (ctx : swap_context pl pl' c1 c2 cell1 cell2 e1 e2 x1 x2) :
    selfcheck pl' = true := by
  apply selfcheck_of_slots
  · rw [ctx.effect.first_length, ctx.effect.last_length]
    exact ((selfcheck_iff pl).1 ctx.inv.checked).1
  · intro i c' hc' l hl
    rw [swap_row_cnt ctx]
    by_cases h1 : i = c1
    · subst h1
      rw [ctx.effect.cell_c1] at hc'
      cases hc'
      simp only at hl ⊢
      have hl0 : l = 0 := by rw [ctx.height1] at hl; omega
      subst hl0
      rw [ctx.height1, Nat.zero_add, Nat.add_zero]
      exact ⟨(swap_context_ok2 ctx).1, e2, swap_entry_c1 ctx, swap_slot_c1 ctx⟩
    · by_cases h2 : i = c2
      · subst h2
        rw [ctx.effect.cell_c2] at hc'
        cases hc'
        simp only at hl ⊢
        have hl0 : l = 0 := by rw [ctx.height2] at hl; omega
        subst hl0
        rw [ctx.height2, Nat.zero_add, Nat.add_zero]
        exact ⟨(swap_context_ok1 ctx).1, e1, swap_entry_c2 ctx, swap_slot_c2 ctx⟩
      · rw [ctx.effect.cell_other i h1 h2] at hc'
        obtain ⟨hr, e, he, hp, hs⟩ := selfcheck_slots pl ctx.inv.checked i c' hc' l hl
        have hni := neighbour_index_slot pl.cells_ i c' hc' l hl
        exact ⟨hr, _, swap_other_entry ctx i _ _ h1 h2 hni e he,
          swap_other_pred ctx i c' _ e.1 h1 h2 hc' hp,
          swap_other_succ ctx i c' _ e.2 h1 h2 hc' hs⟩

theorem swap_first_exact (ctx : swap_context pl pl' c1 c2 cell1 cell2 e1 e2 x1 x2)
    (r c : Nat) (hfc : pl'.row_first_cells_[r]? = some c) (hcn : c ≠ null_ind) :
    ∃ (n : Nat) (e : Nat × Nat), neighbour_index pl'.cells_ c r = some n ∧
      pl'.neighbours_[n]? = some e ∧ e.1 = null_ind := by
  by_cases B2 : e2.1 = null_ind ∧ r = cell2.row
  · obtain ⟨hb, hr⟩ := B2
    subst hr
    rw [ctx.effect.first_c1 hb] at hfc
    cases hfc
    exact ⟨cell1.neighbours_begin, e2, (swap_index_c1 ctx _ _).2 ⟨rfl, rfl⟩,
      swap_entry_c1 ctx, hb⟩
  · by_cases B1 : e1.1 = null_ind ∧ r = cell1.row
    · obtain ⟨hb, hr⟩ := B1
      subst hr
      rw [ctx.effect.first_c2 hb] at hfc
      cases hfc
      exact ⟨cell2.neighbours_begin, e1, (swap_index_c2 ctx _ _).2 ⟨rfl, rfl⟩,
        swap_entry_c2 ctx, hb⟩
    · rw [ctx.effect.first_other r B2 B1] at hfc
      obtain ⟨n, e, hn, he, he1⟩ := ctx.inv.first_exact r c hfc hcn
      have hc1 : c ≠ c1 := by
        intro h
        rw [h] at hn
        obtain ⟨hr, hnn⟩ := (swap_context_ni1 ctx r n).1 hn
        rw [hnn, ctx.he1] at he
        cases he
        exact B1 ⟨he1, hr⟩
      have hc2 : c ≠ c2 := by
        intro h
        rw [h] at hn
        obtain ⟨hr, hnn⟩ := (swap_context_ni2 ctx r n).1 hn
        rw [hnn, ctx.he2] at he
        cases he
        exact B2 ⟨he1, hr⟩
      refine ⟨n, _, ?_, swap_other_entry ctx c r n hc1 hc2 hn e he, ?_⟩
      · rw [swap_index_other ctx _ hc1 hc2]; exact hn
      · have A2 : ¬ (e2.2 ≠ null_ind ∧ e2.2 = c ∧ cell2.row = r) := by
          rintro ⟨h1, h2, h3⟩
          obtain ⟨_, k', e', _, hk', he', he2', _⟩ := swap_context_a2 ctx h1
          rw [h2, h3, hn] at hk'
          cases hk'
          rw [he] at he'
          cases he'
          exact swap_context_not_null ctx c2 cell2 ctx.hc2 (he2'.symm.trans he1)
        have A1 : ¬ (e1.2 ≠ null_ind ∧ e1.2 = c ∧ cell1.row = r) := by
          rintro ⟨h1, h2, h3⟩
          obtain ⟨_, k', e', _, hk', he', he2', _⟩ := swap_context_a1 ctx h1
          rw [h2, h3, hn] at hk'
          cases hk'
          rw [he] at he'
          cases he'
          exact swap_context_not_null ctx c1 cell1 ctx.hc1 (he2'.symm.trans he1)
        simp only [A2, A1, if_false]
        exact he1

theorem swap_last_exact (ctx : swap_context pl pl' c1 c2 cell1 cell2 e1 e2 x1 x2)
    (r c : Nat) (hfc : pl'.row_last_cells_[r]? = some c) (hcn : c ≠ null_ind) :
    ∃ (n : Nat) (e : Nat × Nat), neighbour_index pl'.cells_ c r = some n ∧
      pl'.neighbours_[n]? = some e ∧ e.2 = null_ind := by
  by_cases B2 : e2.2 = null_ind ∧ r = cell2.row
  · obtain ⟨hb, hr⟩ := B2
    subst hr
    rw [ctx.effect.last_c1 hb] at hfc
    cases hfc
    exact ⟨cell1.neighbours_begin, e2, (swap_index_c1 ctx _ _).2 ⟨rfl, rfl⟩,
      swap_entry_c1 ctx, hb⟩
  · by_cases B1 : e1.2 = null_ind ∧ r = cell1.row
    · obtain ⟨hb, hr⟩ := B1
      subst hr
      rw [ctx.effect.last_c2 hb] at hfc
      cases hfc
      exact ⟨cell2.neighbours_begin, e1, (swap_index_c2 ctx _ _).2 ⟨rfl, rfl⟩,
        swap_entry_c2 ctx, hb⟩
    · rw [ctx.effect.last_other r B2 B1] at hfc
      obtain ⟨n, e, hn, he, he1⟩ := ctx.inv.last_exact r c hfc hcn
      have hc1 : c ≠ c1 := by
        intro h
        rw [h] at hn
        obtain ⟨hr, hnn⟩ := (swap_context_ni1 ctx r n).1 hn
        rw [hnn, ctx.he1] at he
        cases he
        exact B1 ⟨he1, hr⟩
      have hc2 : c ≠ c2 := by
        intro h
        rw [h] at hn
        obtain ⟨hr, hnn⟩ := (swap_context_ni2 ctx r n).1 hn
        rw [hnn, ctx.he2] at he
        cases he
        exact B2 ⟨he1, hr⟩
      refine ⟨n, _, ?_, swap_other_entry ctx c r n hc1 hc2 hn e he, ?_⟩
      · rw [swap_index_other ctx _ hc1 hc2]; exact hn
      · have A2 : ¬ (e2.1 ≠ null_ind ∧ e2.1 = c ∧ cell2.row = r) := by
          rintro ⟨h1, h2, h3⟩
          obtain ⟨_, k', e', _, hk', he', he2', _⟩ := swap_context_b2 ctx h1
          rw [h2, h3, hn] at hk'
          cases hk'
          rw [he] at he'
          cases he'
          exact swap_context_not_null ctx c2 cell2 ctx.hc2 (he2'.symm.trans he1)
        have A1 : ¬ (e1.1 ≠ null_ind ∧ e1.1 = c ∧ cell1.row = r) := by
          rintro ⟨h1, h2, h3⟩
          obtain ⟨_, k', e', _, hk', he', he2', _⟩ := swap_context_b1 ctx h1
          rw [h2, h3, hn] at hk'
          cases hk'
          rw [he] at he'
          cases he'
          exact swap_context_not_null ctx c1 cell1 ctx.hc1 (he2'.symm.trans he1)
        simp only [A2, A1, if_false]
        exact he1

theorem swap_ends_inside (ctx : swap_context pl pl' c1 c2 cell1 cell2 e1 e2 x1 x2)
    (i : Nat) (c' : internal_cell) (l : Nat) (e' : Nat × Nat)
    (hc' : pl'.cells_[i]? = some c') (hl : l < c'.height)
    (he' : pl'.neighbours_[l + c'.neighbours_begin]? = some e') :
    (e'.1 = null_ind → pl'.min_x_ ≤ c'.position_x) ∧
    (e'.2 = null_ind → c'.position_x + c'.width ≤ pl'.max_x_) := by
  rw [ctx.effect.min_x, ctx.effect.max_x]
  by_cases h1 : i = c1
  · subst h1
    rw [ctx.effect.cell_c1] at hc'
    cases hc'
    simp only at hl he' ⊢
    have hl0 : l = 0 := by rw [ctx.height1] at hl; omega
    subst hl0
    rw [Nat.zero_add, swap_entry_c1 ctx] at he'
    cases he'
    exact ⟨ctx.low1_end, ctx.up1_end⟩
  · by_cases h2 : i = c2
    · subst h2
      rw [ctx.effect.cell_c2] at hc'
      cases hc'
      simp only at hl he' ⊢
      have hl0 : l = 0 := by rw [ctx.height2] at hl; omega
      subst hl0
      rw [Nat.zero_add, swap_entry_c2 ctx] at he'
      cases he'
      exact ⟨ctx.low2_end, ctx.up2_end⟩
    · rw [ctx.effect.cell_other i h1 h2] at hc'
      obtain ⟨_, e, he, _, _⟩ := selfcheck_slots pl ctx.inv.checked i c' hc' l hl
      have hni := neighbour_index_slot pl.cells_ i c' hc' l hl
      rw [swap_other_entry ctx i _ _ h1 h2 hni e he] at he'
      cases he'
      have hin := ctx.inv.ends_inside i c' l e hc' hl he
      have n1 := swap_context_not_null ctx c1 cell1 ctx.hc1
      have n2 := swap_context_not_null ctx c2 cell2 ctx.hc2
      constructor
      · intro h
        simp only at h
        split_ifs at h
        · exact absurd h n1
        · exact absurd h n2
        · exact hin.1 h
      · intro h
        simp only at h
        split_ifs at h
        · exact absurd h n1
        · exact absurd h n2
        · exact hin.2 h

theorem swap_context_invariant (ctx : swap_context pl pl' c1 c2 cell1 cell2 e1 e2 x1 x2) :
    row_invariant pl' ∧ table_layout pl' :=
  ⟨⟨swap_selfcheck ctx, swap_first_exact ctx, swap_last_exact ctx, swap_ends_inside ctx⟩,
    swap_layout ctx⟩

end swap_invariant

theorem tdiv_two_between (lo hi : Int) (h : lo ≤ hi) :
    lo ≤ Int.tdiv (lo + hi) 2 ∧ Int.tdiv (lo + hi) 2 ≤ hi := by
  rcases Int.le_total 0 (lo + hi) with hs | hs
  · rw [Int.tdiv_eq_ediv hs (by decide)]
    constructor <;> omega
  · have hneg : Int.tdiv (lo + hi) 2 = -(Int.tdiv (-(lo + hi)) 2) := by
      rw [Int.neg_tdiv, neg_neg]
    rw [hneg, Int.tdiv_eq_ediv (by omega) (by decide)]
    constructor <;> omega

theorem try_swap_limits_true {K : Type} [LT K] [DecidableRel (fun a b : K => a < b)]
    (cost : detailed_placement → List Nat → Option K) (circuit : netlist)
    (pl pl' : detailed_placement) (c1 c2 : Nat) (cell1 cell2 : internal_cell)
    (e1 e2 : Nat × Nat) (c1_l c2_l c1_u c2_u : Int)
    (h : try_swap_limits cost circuit pl c1 c2 cell1 cell2 e1 e2 c1_l c2_l c1_u c2_u
      = some (true, pl')) :
    c2_l ≤ c2_u - cell1.width ∧ c1_l ≤ c1_u - cell2.width ∧
    commit_swap (assign_positions pl c1 c2 (Int.tdiv (c2_l + (c2_u - cell1.width)) 2)
        (Int.tdiv (c1_l + (c1_u - cell2.width)) 2) cell2.position_y cell1.position_y)
      c1 c2 cell1.neighbours_begin cell2.neighbours_begin e1 e2 cell1.row cell2.row
      = some pl' := by
  unfold try_swap_limits at h
  simp only at h
  split_ifs at h with hfit
  · split at h
    · exact absurd h (by simp)
    · split at h
      · exact absurd h (by simp)
      · split at h
        · exact absurd h (by simp)
        · split_ifs at h
          · simp only [Option.map_eq_some', Prod.mk.injEq, true_and, exists_eq_right] at h
            exact ⟨hfit.1, hfit.2, h⟩
          · simp at h
  · simp at h

theorem limit_low_spec (pl : detailed_placement) (b : Nat) (v : Int)
    (h : limit_low pl b = some v) :
    (∀ oc : internal_cell, b ≠ null_ind → pl.cells_[b]? = some oc →
      oc.position_x + oc.width = v) ∧ (b = null_ind → pl.min_x_ = v) := by
  unfold limit_low at h
  by_cases hb : b = null_ind
  · simp only [hb, ne_eq, not_true_eq_false, if_false, Option.some.injEq] at h
    exact ⟨fun _ hne => absurd hb hne, fun _ => h⟩
  · simp only [ne_eq, hb, not_false_eq_true, if_true, Option.map_eq_some'] at h
    obtain ⟨oc, hoc, hv⟩ := h
    refine ⟨fun oc' _ hoc' => ?_, fun he => absurd he hb⟩
    rw [hoc] at hoc'
    cases hoc'
    exact hv

theorem limit_up_spec (pl : detailed_placement) (a : Nat) (v : Int)
    (h : limit_up pl a = some v) :
    (∀ oc : internal_cell, a ≠ null_ind → pl.cells_[a]? = some oc → oc.position_x = v) ∧
    (a = null_ind → pl.max_x_ = v) := by
  unfold limit_up at h
  by_cases ha : a = null_ind
  · simp only [ha, ne_eq, not_true_eq_false, if_false, Option.some.injEq] at h
    exact ⟨fun _ hne => absurd ha hne, fun _ => h⟩
  · simp only [ne_eq, ha, not_false_eq_true, if_true, Option.map_eq_some'] at h
    obtain ⟨oc, hoc, hv⟩ := h
    refine ⟨fun oc' _ hoc' => ?_, fun he => absurd he ha⟩
    rw [hoc] at hoc'
    cases hoc'
    exact hv

/-- The accepted swap links no cell to itself when no cell was linked to itself before. -/
theorem swap_no_self_link {pl pl' : detailed_placement} {c1 c2 : Nat}
    {cell1 cell2 : internal_cell} {e1 e2 : Nat × Nat} {x1 x2 : Int}
    (ctx : swap_context pl pl' c1 c2 cell1 cell2 e1 e2 x1 x2) (hself : no_self_link pl) :
    no_self_link pl' := by
  intro c cell k e hc hk he
  have hn1 : c1 ≠ null_ind := swap_context_not_null ctx c1 cell1 ctx.hc1
  have hn2 : c2 ≠ null_ind := swap_context_not_null ctx c2 cell2 ctx.hc2
  by_cases h1 : c = c1
  · subst h1
    rw [ctx.effect.cell_c1] at hc
    cases hc
    simp only at hk he
    have hk0 : k = 0 := by rw [ctx.height1] at hk; omega
    subst hk0
    rw [Nat.add_zero, swap_entry_c1 ctx] at he
    cases he
    constructor
    · by_cases hb : e2.1 = null_ind
      · rw [hb]
        exact Ne.symm hn1
      · obtain ⟨_, _, _, _, _, _, _, hne, _⟩ := swap_context_b2 ctx hb
        exact hne
    · by_cases ha : e2.2 = null_ind
      · rw [ha]
        exact Ne.symm hn1
      · obtain ⟨_, _, _, _, _, _, _, hne, _⟩ := swap_context_a2 ctx ha
        exact hne
  · by_cases h2 : c = c2
    · subst h2
      rw [ctx.effect.cell_c2] at hc
      cases hc
      simp only at hk he
      have hk0 : k = 0 := by rw [ctx.height2] at hk; omega
      subst hk0
      rw [Nat.add_zero, swap_entry_c2 ctx] at he
      cases he
      constructor
      · by_cases hb : e1.1 = null_ind
        · rw [hb]
          exact Ne.symm hn2
        · obtain ⟨_, _, _, _, _, _, _, _, hne, _⟩ := swap_context_b1 ctx hb
          exact hne
      · by_cases ha : e1.2 = null_ind
        · rw [ha]
          exact Ne.symm hn2
        · obtain ⟨_, _, _, _, _, _, _, _, hne, _⟩ := swap_context_a1 ctx ha
          exact hne
    · rw [ctx.effect.cell_other c h1 h2] at hc
      have hs : neighbour_index pl.cells_ c (cell.row + k) = some (cell.neighbours_begin + k) := by
        unfold neighbour_index
        rw [hc]
        simp only
        rw [if_pos ⟨by omega, by omega⟩]
        congr 1
        omega
      have hlt : cell.neighbours_begin + k < pl.neighbours_.length := by
        have := ctx.layout.2.1 c cell hc
        omega
      have he0 : pl.neighbours_[cell.neighbours_begin + k]? =
          some pl.neighbours_[cell.neighbours_begin + k] := List.getElem?_eq_getElem hlt
      obtain ⟨g1, g2⟩ := hself c cell k _ hc hk he0
      rw [swap_other_entry ctx c (cell.row + k) _ h1 h2 hs _ he0] at he
      cases he
      constructor
      · simp only
        split_ifs
        · exact Ne.symm h1
        · exact Ne.symm h2
        · exact g1
      · simp only
        split_ifs
        · exact Ne.symm h1
        · exact Ne.symm h2
        · exact g2

/-- C3: if the placement has the table layout, satisfies the row invariant and links no
cell to itself, as every placement that the constructor returns does, then after every call
`try_swap(c1, c2)` that completes, accepted or rejected and whatever the cost evaluation
returns, the placement has the table layout, satisfies the row invariant and links no cell
to itself again. The cells may have any width, zero included. -/
theorem try_swap_keeps_row_invariant {K : Type} [LT K] [DecidableRel (fun a b : K => a < b)]
    (cost : detailed_placement → List Nat → Option K) (circuit : netlist)
    (pl pl' : detailed_placement) (c1 c2 : Nat) (b : Bool)
    (hlay : table_layout pl) (hinv : row_invariant pl) (hself : no_self_link pl)
    (h : try_swap_with cost circuit pl c1 c2 = some (b, pl')) :
    row_invariant pl' ∧ table_layout pl' ∧ no_self_link pl' := by
  unfold try_swap_with at h
  split at h
  · rename_i cell1 cell2 nc1 nc2 hc1 hc2 _ _
    split_ifs at h with hh hsz hrows
    simp only [ne_eq, not_not] at hrows
    split at h
    · rename_i e1 e2 he1 he2
      split at h
      · rename_i c1_l c2_l c1_u c2_u hl1 hl2 hu1 hu2
        cases b with
        | false =>
          have := try_swap_limits_false cost circuit pl pl' c1 c2 cell1 cell2 e1 e2 _ _ _ _
            hc1 hc2 h
          rw [this]
          exact ⟨hinv, hlay, hself⟩
        | true =>
          obtain ⟨hfit1, hfit2, hcommit⟩ := try_swap_limits_true cost circuit pl pl' c1 c2
            cell1 cell2 e1 e2 _ _ _ _ h
          have hne : c1 ≠ c2 := by
            intro he
            subst he
            rw [hc1] at hc2
            cases hc2
            exact hrows rfl
          have hn : cell1.neighbours_begin ≠ cell2.neighbours_begin := by
            intro he
            have h1 := (neighbour_index_height_one pl.cells_ c1 cell1 hc1 hh.1 cell1.row
              cell1.neighbours_begin).2 ⟨rfl, rfl⟩
            have h2 := (neighbour_index_height_one pl.cells_ c2 cell2 hc2 hh.2 cell2.row
              cell2.neighbours_begin).2 ⟨rfl, rfl⟩
            rw [← he] at h2
            exact hne (neighbour_index_inj pl.cells_ hlay.2.2 _ _ _ _ _ h1 h2).1
          have heff := commit_swap_spec pl pl' c1 c2 cell1 cell2 e1 e2 _ _ hc1 hc2 hne hrows hn
            he1 he2 hcommit
          have hx1 := tdiv_two_between c2_l (c2_u - cell1.width) hfit1
          have hx2 := tdiv_two_between c1_l (c1_u - cell2.width) hfit2
          have L1 := limit_low_spec pl e1.1 c1_l hl1
          have L2 := limit_low_spec pl e2.1 c2_l hl2
          have U1 := limit_up_spec pl e1.2 c1_u hu1
          have U2 := limit_up_spec pl e2.2 c2_u hu2
          have ctx : swap_context pl pl' c1 c2 cell1 cell2 e1 e2
              (Int.tdiv (c2_l + (c2_u - cell1.width)) 2)
              (Int.tdiv (c1_l + (c1_u - cell2.width)) 2) :=
            { layout := hlay
              inv := hinv
              hc1 := hc1
              hc2 := hc2
              height1 := hh.1
              height2 := hh.2
              rows := hrows
              loose1 := hself c1 cell1 0 e1 hc1 (by rw [hh.1]; exact Nat.zero_lt_one) he1
              loose2 := hself c2 cell2 0 e2 hc2 (by rw [hh.2]; exact Nat.zero_lt_one) he2
              he1 := he1
              he2 := he2
              low1 := fun oc hb hoc => by have := L2.1 oc hb hoc; omega
              low1_end := fun hb => by have := L2.2 hb; omega
              up1 := fun oc ha hoc => by have := U2.1 oc ha hoc; omega
              up1_end := fun ha => by have := U2.2 ha; omega
              low2 := fun oc hb hoc => by have := L1.1 oc hb hoc; omega
              low2_end := fun hb => by have := L1.2 hb; omega
              up2 := fun oc ha hoc => by have := U1.1 oc ha hoc; omega
              up2_end := fun ha => by have := U1.2 ha; omega
              effect := heff }
          obtain ⟨g1, g2⟩ := swap_context_invariant ctx
          exact ⟨g1, g2, swap_no_self_link ctx hself⟩
      · exact absurd h (by simp)
    · exact absurd h (by simp)
  · exact absurd h (by simp)

/-! ## Theorems: the examples -/

theorem example_layout : table_layout example_placement :=
  construct_tables_layout example_cells example_rows 0 10 0 2 1 example_placement
    (by decide) (by decide)

theorem example_invariant : row_invariant example_placement := by
  refine ⟨by decide, ?_, ?_, ?_⟩
  · intro r c h hne
    have hr : r < 2 := (List.getElem?_eq_some_iff.1 h).1
    interval_cases r
    · cases h
      exact ⟨0, (null_ind, 1), by decide, by decide, rfl⟩
    · cases h
      exact ⟨4, (null_ind, 1), by decide, by decide, rfl⟩
  · intro r c h hne
    have hr : r < 2 := (List.getElem?_eq_some_iff.1 h).1
    interval_cases r
    · cases h
      exact ⟨5, (1, null_ind), by decide, by decide, rfl⟩
    · cases h
      exact ⟨3, (1, null_ind), by decide, by decide, rfl⟩
  · intro i c l e hc hl he
    have hi : i < 5 := (List.getElem?_eq_some_iff.1 hc).1
    interval_cases i <;> cases hc <;> (have hl2 : l < 2 := Nat.lt_of_lt_of_le hl (by decide)) <;>
      interval_cases l <;> first
        | exact absurd hl (by decide)
        | (cases he; decide)

theorem loop_layout : table_layout loop_placement := by
  refine ⟨by decide, ?_, ?_⟩
  · intro c cell hc
    have hi : c < 3 := (List.getElem?_eq_some_iff.1 hc).1
    interval_cases c <;> cases hc <;> decide
  · intro c c' cell cell' hlt hc hc'
    have hi : c < 3 := (List.getElem?_eq_some_iff.1 hc).1
    have hi' : c' < 3 := (List.getElem?_eq_some_iff.1 hc').1
    interval_cases c <;> interval_cases c' <;> cases hc <;> cases hc' <;> decide

theorem loop_invariant : row_invariant loop_placement := by
  refine ⟨by decide, ?_, ?_, ?_⟩
  · intro r c h hne
    have hr : r < 3 := (List.getElem?_eq_some_iff.1 h).1
    interval_cases r
    · cases h
      exact absurd rfl hne
    · cases h
      exact ⟨1, (null_ind, null_ind), by decide, by decide, rfl⟩
    · cases h
      exact ⟨2, (null_ind, null_ind), by decide, by decide, rfl⟩
  · intro r c h hne
    have hr : r < 3 := (List.getElem?_eq_some_iff.1 h).1
    interval_cases r
    · cases h
      exact absurd rfl hne
    · cases h
      exact ⟨1, (null_ind, null_ind), by decide, by decide, rfl⟩
    · cases h
      exact ⟨2, (null_ind, null_ind), by decide, by decide, rfl⟩
  · intro i c l e hc hl he
    have hi : i < 3 := (List.getElem?_eq_some_iff.1 hc).1
    interval_cases i <;> cases hc <;> (have hl2 : l < 2 := Nat.lt_of_lt_of_le hl (by decide)) <;>
      interval_cases l <;> first
        | exact absurd hl (by decide)
        | (cases he; decide)

theorem thin_layout : table_layout thin_placement :=
  construct_tables_layout thin_cells thin_rows 0 10 0 2 1 thin_placement (by decide) (by decide)

theorem thin_no_self_link : no_self_link thin_placement :=
  construct_no_self_link thin_cells thin_rows 0 10 0 2 1 thin_placement (by decide) (by decide)

theorem thin_invariant : row_invariant thin_placement := by
  refine ⟨by decide, ?_, ?_, ?_⟩
  · intro r c h hne
    have hr : r < 2 := (List.getElem?_eq_some_iff.1 h).1
    interval_cases r
    · cases h
      exact ⟨0, (null_ind, 1), by decide, by decide, rfl⟩
    · cases h
      exact ⟨2, (null_ind, null_ind), by decide, by decide, rfl⟩
  · intro r c h hne
    have hr : r < 2 := (List.getElem?_eq_some_iff.1 h).1
    interval_cases r
    · cases h
      exact ⟨1, (0, null_ind), by decide, by decide, rfl⟩
    · cases h
      exact ⟨2, (null_ind, null_ind), by decide, by decide, rfl⟩
  · intro i c l e hc hl he
    have hi : i < 3 := (List.getElem?_eq_some_iff.1 hc).1
    interval_cases i <;> cases hc <;> (have hl2 : l < 2 := Nat.lt_of_lt_of_le hl (by decide)) <;>
      interval_cases l <;> first
        | exact absurd hl (by decide)
        | (cases he; decide)

/-- The row invariant alone does not exclude a cell that is its own neighbour, and the
swap of such a cell goes wrong: `loop_placement` has the table layout and satisfies the row
invariant, but its cell 0, of width zero, is its own predecessor and successor; `try_swap`
accepts the swap of the cells 0 and 1, and the placement after the call does not pass
`selfcheck`. No row list given to the constructor produces `loop_placement`. -/
theorem try_swap_breaks_invariant_of_looped_cell :
    table_layout loop_placement ∧ row_invariant loop_placement ∧ ¬ no_self_link loop_placement ∧
    try_swap loop_circuit loop_placement 0 1 = some (true, loop_swapped) ∧
    ¬ row_invariant loop_swapped :=
  ⟨loop_layout, loop_invariant,
    fun h => (h 0 ⟨0, 0, 0, 1, 0, 0, true, true⟩ 0 (0, 0) (by decide) (by decide) (by decide)).1
      rfl,
    by decide!, fun h => absurd h.checked (by decide)⟩

theorem try_swap_keeps_row_invariant_witness :
    detailed_placement.construct thin_cells thin_rows 0 10 0 2 1 = some thin_placement ∧
    table_layout thin_placement ∧ row_invariant thin_placement ∧
    no_self_link thin_placement ∧
    try_swap_with (get_nets_cost thin_circuit) thin_circuit thin_placement 1 2
      = some (true, thin_swapped) ∧
    row_invariant thin_swapped ∧ table_layout thin_swapped ∧ no_self_link thin_swapped :=
  ⟨by decide, thin_layout, thin_invariant, thin_no_self_link, by decide!,
    try_swap_keeps_row_invariant (get_nets_cost thin_circuit) thin_circuit
      thin_placement thin_swapped 1 2 true thin_layout thin_invariant thin_no_self_link
      (by decide!)⟩

theorem try_swap_false_unchanged_witness :
    try_swap_with (get_nets_cost example_circuit) example_circuit example_placement 0 3
      = some (false, example_placement) ∧ example_placement = example_placement :=
  ⟨by decide!, try_swap_false_unchanged (get_nets_cost example_circuit) example_circuit
    example_placement example_placement 0 3 (by decide!)⟩

theorem construct_tables_selfcheck_witness :
    example_cells.length ≤ null_ind ∧
    construct_tables example_cells example_rows 0 10 0 2 1 = some example_placement ∧
    selfcheck example_placement = true :=
  ⟨by decide, by decide,
    construct_tables_selfcheck example_cells example_rows 0 10 0 2 1 example_placement
      (by decide) (by decide)⟩

theorem construct_links_witness :
    example_cells.length ≤ null_ind ∧
    detailed_placement.construct example_cells example_rows 0 10 0 2 1
      = some example_placement ∧
    example_rows[1]? = some [3, 1, 2] ∧
    ((∀ i c, ([3, 1, 2] : List Nat)[i]? = some c →
      ∃ n, neighbour_index example_placement.cells_ c 1 = some n ∧
        example_placement.neighbours_[n]? = some (row_pred [3, 1, 2] i, row_succ [3, 1, 2] i)) ∧
    example_placement.row_first_cells_[1]? = some (([3, 1, 2] : List Nat).head?.getD null_ind) ∧
    example_placement.row_last_cells_[1]? =
      some (([3, 1, 2] : List Nat).getLast?.getD null_ind) ∧
    ∀ fuel, ([3, 1, 2] : List Nat).length ≤ fuel →
      ((example_placement.row_first_cells_[1]?).map fun c =>
        walk_row example_placement 1 fuel c) = some [3, 1, 2]) :=
  ⟨by decide, by decide, by decide,
    construct_links example_cells example_rows 0 10 0 2 1 example_placement (by decide)
      (by decide) 1 [3, 1, 2] (by decide)⟩

theorem construct_fails_witness :
    (([[0, 1, 4], [3, 1, 2, 2]] : List (List Nat)).length ≠ 2 ∨
      (∃ (r : Nat) (row : List Nat),
        ([[0, 1, 4], [3, 1, 2, 2]] : List (List Nat))[r]? = some row ∧ ¬ row.Nodup) ∨
      (∃ (c : Nat) (cell : internal_cell) (l : Nat), example_cells[c]? = some cell ∧
        l < cell.height ∧ ∀ row : List Nat,
          ([[0, 1, 4], [3, 1, 2, 2]] : List (List Nat))[cell.row + l]? = some row → c ∉ row) ∨
      (∃ (r : Nat) (row : List Nat) (i c1 c2 : Nat) (cell1 cell2 : internal_cell),
        ([[0, 1, 4], [3, 1, 2, 2]] : List (List Nat))[r]? = some row ∧ row[i]? = some c1 ∧
        row[i + 1]? = some c2 ∧ example_cells[c1]? = some cell1 ∧
        example_cells[c2]? = some cell2 ∧
        cell1.position_x + cell1.width > cell2.position_x)) ∧
    detailed_placement.construct example_cells [[0, 1, 4], [3, 1, 2, 2]] 0 10 0 2 1 = none :=
  ⟨Or.inr (Or.inl ⟨1, [3, 1, 2, 2], by decide, by decide⟩),
    construct_fails example_cells [[0, 1, 4], [3, 1, 2, 2]] 0 10 0 2 1
      (Or.inr (Or.inl ⟨1, [3, 1, 2, 2], by decide, by decide⟩))⟩

/-! ## Theorems: the pointwise minimum -/

theorem edge_value_at_first (p q : p_v) (h : p.1 < q.1) :
    (pl_edge.mk p q).value_at p.1 = some p.2 := by
  have hne : q.1 - p.1 ≠ 0 := by omega
  simp only [pl_edge.value_at]
  rw [if_pos ⟨le_refl _, le_of_lt h, hne⟩]
  simp [Int.mul_tdiv_cancel _ hne]

theorem edge_value_at_second (p q : p_v) (h : p.1 < q.1) :
    (pl_edge.mk p q).value_at q.1 = some q.2 := by
  have hne : q.1 - p.1 ≠ 0 := by omega
  simp only [pl_edge.value_at]
  rw [if_pos ⟨le_of_lt h, le_refl _, hne⟩]
  simp [Int.mul_tdiv_cancel _ hne]

theorem knots_increasing_pairwise (f : piecewise_linear_function) (h : knots_increasing f) :
    List.Pairwise (fun p q : p_v => p.1 < q.1) f := by
  unfold knots_increasing at h
  haveI : IsTrans p_v (fun p q : p_v => p.1 < q.1) := ⟨fun _ _ _ h1 h2 => lt_trans h1 h2⟩
  exact (List.chain'_iff_pairwise).1 h

theorem value_at_from_edge : ∀ (pre : List p_v) (prev : Option p_v) (p q : p_v)
    (post : List p_v) (x : Int), knots_increasing (pre ++ p :: q :: post) →
    p.1 ≤ x → x ≤ q.1 →
    value_at_from x prev (pre ++ p :: q :: post) = (pl_edge.mk p q).value_at x
  | [], prev, p, q, post, x, hinc, h1, h2 => by
    have hpq : p.1 < q.1 := by
      have := knots_increasing_pairwise _ hinc
      simp only [List.nil_append, List.pairwise_cons] at this
      exact this.1 q (List.mem_cons_self _ _)
    simp only [List.nil_append, value_at_from]
    by_cases hlt : p.1 < x
    · rw [if_pos hlt, if_neg (by omega)]
      by_cases hx : x = q.1
      · subst hx
        simp [edge_value_at_second p q hpq]
      · simp [hx]
    · have hx : x = p.1 := by omega
      subst hx
      simp [edge_value_at_first p q hpq]
  | h :: t, prev, p, q, post, x, hinc, h1, h2 => by
    have hpw := knots_increasing_pairwise _ hinc
    have hhp : h.1 < p.1 := by
      simp only [List.cons_append, List.pairwise_cons] at hpw
      exact hpw.1 p (by simp)
    have htl : knots_increasing (t ++ p :: q :: post) := by
      unfold knots_increasing at hinc ⊢
      simp only [List.cons_append] at hinc
      exact hinc.tail
    simp only [List.cons_append, value_at_from]
    rw [if_pos (by omega)]
    exact value_at_from_edge t (some h) p q post x htl h1 h2

theorem value_at_from_knot : ∀ (r : List p_v) (prev : Option p_v) (k : p_v),
    knots_increasing r → k ∈ r → value_at_from k.1 prev r = some k.2
  | [], _, _, _, hk => by simp at hk
  | h :: t, prev, k, hinc, hk => by
    have hpw := knots_increasing_pairwise _ hinc
    simp only [List.pairwise_cons] at hpw
    simp only [value_at_from]
    rcases List.mem_cons.1 hk with he | hm
    · subst he
      simp
    · have := hpw.1 k hm
      rw [if_pos this]
      exact value_at_from_knot t (some h) k (by
        unfold knots_increasing at hinc ⊢
        exact hinc.tail) hm

theorem intersect_cases (a b : pl_edge) (h : pl_edge.intersect a b = true) :
    (0 < pl_edge.denom a b ∧ 0 < pl_edge.a_num a b ∧ pl_edge.a_num a b < pl_edge.denom a b ∧
      0 < pl_edge.b_num a b ∧ pl_edge.b_num a b < pl_edge.denom a b) ∨
    (pl_edge.denom a b < 0 ∧ pl_edge.a_num a b < 0 ∧ pl_edge.denom a b < pl_edge.a_num a b ∧
      pl_edge.b_num a b < 0 ∧ pl_edge.denom a b < pl_edge.b_num a b) := by
  unfold pl_edge.intersect at h
  split_ifs at h with hd
  · simp only [decide_eq_true_eq] at h
    exact Or.inl ⟨hd, h.2.2.1, h.1, h.2.2.2, h.2.1⟩
  · simp only [decide_eq_true_eq] at h
    exact Or.inr ⟨by omega, h.2.2.1, h.1, h.2.2.2, h.2.1⟩

theorem crossing_identity (a b : pl_edge) :
    a.f.1 * pl_edge.denom a b + pl_edge.a_num a b * (a.s.1 - a.f.1) =
      b.f.1 * pl_edge.denom a b + pl_edge.b_num a b * (b.s.1 - b.f.1) := by
  simp only [pl_edge.denom, pl_edge.a_num, pl_edge.b_num]
  ring

theorem lt_of_mul_lt_mul_pos (x y d : Int) (hd : 0 < d) (h : x * d < y * d) : x < y :=
  lt_of_mul_lt_mul_right h (le_of_lt hd)

theorem value_at_edge (a pa : List p_v) (p q : p_v) (post : List p_v) (x : Int)
    (hinc : knots_increasing a) (ha : a = pa ++ p :: q :: post) (h1 : p.1 ≤ x)
    (h2 : x ≤ q.1) : value_at a x = (pl_edge.mk p q).value_at x := by
  subst ha
  exact value_at_from_edge pa none p q post x hinc h1 h2

/-- C12: for every `f` whose first knot is `p0`, `add_monotone(slope, offset)` keeps the
position of every knot and replaces the value `v` of the knot at position `p` by
`v + slope * (p - p0 + offset)`; the first knot is treated like the others. -/
theorem add_monotone_knots (slope offset : Int) (f : piecewise_linear_function) (p0 : p_v)
    (h : f.head? = some p0) :
    add_monotone slope offset f =
      f.map fun k => (k.1, k.2 + slope * (k.1 - p0.1 + offset)) := by
  cases f with
  | nil => simp at h
  | cons p rest =>
    simp only [List.head?_cons, Option.some.injEq] at h
    subst h
    rfl

theorem add_monotone_knots_witness :
    ([(3, 1), (5, -2), (9, 4)] : piecewise_linear_function).head? = some (3, 1) ∧
    add_monotone 2 (-1) [(3, 1), (5, -2), (9, 4)] = [(3, -1), (5, 0), (9, 14)] :=
  ⟨rfl, (add_monotone_knots 2 (-1) [(3, 1), (5, -2), (9, 4)] (3, 1) rfl).trans (by decide)⟩

/-- C13: between the knots `(0,0)` and `(2,-1)` the interpolation at position 1 is `-1/2`,
which rounded down is `-1`; `value_at(1)` returns `0`, the quotient of the C++ division,
which rounds a negative quotient up. -/
theorem value_at_rounds_negative_up :
    value_at [(0, 0), (2, -1)] 1 = some 0 ∧ floor_interpolation (0, 0) (2, -1) 1 = -1 :=
  ⟨by decide, by decide⟩

theorem last_before_loop_stuck : ∀ (fuel : Nat) (it : p_v) (rest : List p_v) (pos : Int),
    pos < it.1 → last_before_loop fuel (it :: rest) pos = none
  | 0, _, _, _, _ => rfl
  | fuel + 1, it, rest, pos, h => by
    simp only [last_before_loop]
    rw [if_neg (by omega)]
    exact last_before_loop_stuck fuel it rest pos h

/-- C14: when `pos` is smaller than the position of the last knot `k` of `f`, the loop of
`last_before(pos)` sees `k` in every iteration and returns no position, however many
iterations it is given. -/
theorem last_before_never_returns (fuel : Nat) (f : piecewise_linear_function) (k : p_v)
    (pos : Int) (hk : f.getLast? = some k) (hpos : pos < k.1) :
    last_before fuel f pos = none := by
  have hrev : ∃ rest, f.reverse = k :: rest := by
    have h1 : f.reverse.head? = some k := by rw [List.head?_reverse]; exact hk
    cases hr : f.reverse with
    | nil => rw [hr] at h1; simp at h1
    | cons x rest =>
      rw [hr] at h1
      simp only [List.head?_cons, Option.some.injEq] at h1
      exact ⟨rest, by rw [h1]⟩
  obtain ⟨rest, hr⟩ := hrev
  unfold last_before
  rw [hr]
  exact last_before_loop_stuck fuel k rest pos hpos

theorem last_before_never_returns_witness :
    ([(0, 0), (2, 0)] : piecewise_linear_function).getLast? = some (2, 0) ∧
    (1 : Int) < 2 ∧ last_before 1000 [(0, 0), (2, 0)] 1 = none :=
  ⟨rfl, by decide, last_before_never_returns 1000 [(0, 0), (2, 0)] (2, 0) 1 rfl (by decide)⟩

/-- C17: the segments of `a = [(2,0),(6,4)]` and `b = [(2,4),(6,0)]` cross at position 4,
strictly inside both, where both functions have the value 2; `minimum(a, b)` returns
`[(2,0),(6,0)]`, without a knot at position 4 and with the value 0 there. -/
theorem minimum_misses_shifted_crossing :
    pl_edge.intersect ⟨(2, 0), (6, 4)⟩ ⟨(2, 4), (6, 0)⟩ = true ∧
    value_at [(2, 0), (6, 4)] 4 = some 2 ∧ value_at [(2, 4), (6, 0)] 4 = some 2 ∧
    minimum [(2, 0), (6, 4)] [(2, 4), (6, 0)] = some [(2, 0), (6, 0)] ∧
    value_at [(2, 0), (6, 0)] 4 = some 0 :=
  ⟨by decide, by decide, by decide, by decide, by decide⟩

/-- C18: for `a = [(-10,0),(10,0)]` and `b = [(-10,2),(-6,-2),(10,1)]` the segment of `a`
and the second segment of `b` cross at the non-integer position `14/3`, between the
common start `-6` and the common end `10`; `minimum(a, b)` holds the knots at 4 and 5 and,
between `-6` and `10`, also the knot `(2,0)`, pushed for the crossing of the segment of
`a` with the first segment of `b` at position `-8`. -/
theorem minimum_foreign_knot_between :
    pl_edge.intersect ⟨(-10, 0), (10, 0)⟩ ⟨(-6, -2), (10, 1)⟩ = true ∧
    Int.tmod (pl_edge.dist ⟨(-10, 0), (10, 0)⟩ ⟨(-6, -2), (10, 1)⟩)
      (pl_edge.denom ⟨(-10, 0), (10, 0)⟩ ⟨(-6, -2), (10, 1)⟩) ≠ 0 ∧
    pl_edge.push_intersections ⟨(-10, 0), (10, 0)⟩ ⟨(-6, -2), (10, 1)⟩ =
      some [(4, 0), (5, 0)] ∧
    pl_edge.push_intersections ⟨(-10, 0), (10, 0)⟩ ⟨(-10, 2), (-6, -2)⟩ = some [(2, 0)] ∧
    minimum [(-10, 0), (10, 0)] [(-10, 2), (-6, -2), (10, 1)] =
      some [(-10, 0), (2, 0), (-6, -2), (4, 0), (5, 0), (10, 0)] :=
  ⟨by decide, by decide, by decide, by decide, by decide⟩

/-- C19: for `a = [(-4,0),(4,8)]` and `b = [(-4,3),(-1,-3),(4,-3)]`, both with strictly
increasing knot positions and the same first and last position, `minimum(a, b)` returns
`[(-4,0),(1,5),(-1,-3),(4,-3)]`, whose knot positions do not increase. -/
theorem minimum_result_not_increasing :
    knots_increasing [(-4, 0), (4, 8)] ∧ knots_increasing [(-4, 3), (-1, -3), (4, -3)] ∧
    minimum [(-4, 0), (4, 8)] [(-4, 3), (-1, -3), (4, -3)] =
      some [(-4, 0), (1, 5), (-1, -3), (4, -3)] ∧
    ¬ knots_increasing [(-4, 0), (1, 5), (-1, -3), (4, -3)] :=
  ⟨by simp [knots_increasing], by simp [knots_increasing], by decide,
    by simp [knots_increasing]⟩

theorem add_bislope_while_spec (s_l pos : Int) : ∀ (f : List p_v), knots_increasing f →
    (∃ k ∈ f, pos ≤ k.1) →
    ∃ (pre : List p_v) (it : p_v) (post : List p_v), f = pre ++ it :: post ∧
      (∀ k ∈ pre, k.1 < pos) ∧ pos ≤ it.1 ∧
      add_bislope_while s_l pos f =
        some (pre.map (fun V => (V.1, V.2 + s_l * (V.1 - pos))), it :: post)
  | [], _, h => by
    obtain ⟨k, hk, _⟩ := h
    simp at hk
  | V :: rest, hinc, h => by
    by_cases hV : V.1 < pos
    · have hrest : ∃ k ∈ rest, pos ≤ k.1 := by
        obtain ⟨k, hk, hle⟩ := h
        rcases List.mem_cons.1 hk with he | hm
        · subst he; omega
        · exact ⟨k, hm, hle⟩
      have htl : knots_increasing rest := by
        unfold knots_increasing at hinc ⊢
        exact hinc.tail
      obtain ⟨pre, it, post, hf, hpre, hit, hw⟩ := add_bislope_while_spec s_l pos rest htl hrest
      refine ⟨V :: pre, it, post, by rw [hf]; rfl, ?_, hit, ?_⟩
      · intro k hk
        rcases List.mem_cons.1 hk with he | hm
        · subst he; exact hV
        · exact hpre k hm
      · simp only [add_bislope_while]
        rw [if_pos hV, hw]
        rfl
    · refine ⟨[], V, rest, rfl, by simp, by omega, ?_⟩
      simp only [add_bislope_while]
      rw [if_neg hV]
      rfl

theorem bislope_knot_left (s_l s_r bp : Int) (pre : List p_v) (h : ∀ k ∈ pre, k.1 < bp) :
    (pre.map (fun V => (V.1, V.2 + s_l * (V.1 - bp)))).map
        (fun V : p_v => if V.1 > bp then (V.1, V.2 + s_r * (V.1 - bp)) else V) =
      pre.map (bislope_knot s_l s_r bp) := by
  rw [List.map_map]
  apply List.map_congr_left
  intro k hk
  have := h k hk
  simp only [Function.comp, bislope_knot]
  rw [if_neg (by simp only [gt_iff_lt]; omega), if_pos this]

theorem bislope_knot_right (s_l s_r bp : Int) (post : List p_v) (h : ∀ k ∈ post, bp < k.1) :
    post.map (fun V : p_v => if V.1 > bp then (V.1, V.2 + s_r * (V.1 - bp)) else V) =
      post.map (bislope_knot s_l s_r bp) := by
  apply List.map_congr_left
  intro k hk
  have := h k hk
  simp only [bislope_knot]
  rw [if_pos this, if_neg (by omega)]

/-- C11: for every `f` with strictly increasing knot positions and every `bp` between the
first and the last knot position, `add_bislope(s_l, s_r, bp)` returns; when `bp` is a knot
position the result is `f` with every knot `(p, v)` replaced by `(p, v + s_l*(p - bp))`
for `p < bp`, by `(p, v + s_r*(p - bp))` for `p > bp` and kept for `p = bp`; otherwise it
is the same list of replaced knots with one knot at `bp` put between the knots before
and the knots after `bp`. No knot of `f` is removed or moved. -/
theorem add_bislope_knots (s_l s_r bp : Int) (f : piecewise_linear_function)
    (first last : p_v) (hinc : knots_increasing f) (hfirst : f.head? = some first)
    (hlast : f.getLast? = some last) (h1 : first.1 ≤ bp) (h2 : bp ≤ last.1) :
    ∃ r, add_bislope s_l s_r bp f = some r ∧
      (((∃ k ∈ f, k.1 = bp) ∧ r = f.map (bislope_knot s_l s_r bp)) ∨
       ((∀ k ∈ f, k.1 ≠ bp) ∧ ∃ (pre post : List p_v) (v : Int), f = pre ++ post ∧
          r = pre.map (bislope_knot s_l s_r bp) ++
            (bp, v) :: post.map (bislope_knot s_l s_r bp))) := by
  have hex : ∃ k ∈ f, bp ≤ k.1 := ⟨last, List.mem_of_getLast?_eq_some hlast, h2⟩
  obtain ⟨pre, it, post, hf, hpre, hit, hw⟩ := add_bislope_while_spec s_l bp f hinc hex
  have hpw := knots_increasing_pairwise f hinc
  rw [hf] at hpw
  have hpost : ∀ k ∈ post, it.1 < k.1 := by
    have := (List.pairwise_append.1 hpw).2.1
    simp only [List.pairwise_cons] at this
    exact this.1
  have hprepost : ∀ k ∈ pre, k.1 < it.1 := by
    intro k hk
    exact (List.pairwise_append.1 hpw).2.2 k hk it (List.mem_cons_self _ _)
  unfold add_bislope
  rw [hw]
  simp only [Option.bind_eq_bind, Option.some_bind]
  by_cases hib : it.1 = bp
  · rw [if_neg (by simp [hib])]
    refine ⟨_, rfl, Or.inl ⟨⟨it, by rw [hf]; simp, hib⟩, ?_⟩⟩
    beta_reduce
    rw [hf, List.map_append, List.map_append, bislope_knot_left s_l s_r bp pre hpre,
      List.map_cons, List.map_cons,
      bislope_knot_right s_l s_r bp post (fun k hk => by have := hpost k hk; omega)]
    have hit1 : (if it.1 > bp then (it.1, it.2 + s_r * (it.1 - bp)) else it) = it := by
      rw [if_neg (by omega)]
    have hit2 : bislope_knot s_l s_r bp it = it := by
      simp only [bislope_knot]
      rw [if_neg (by omega), if_neg (by omega)]
    rw [hit1, hit2]
  · have hgt : bp < it.1 := by omega
    rw [if_pos hib]
    have hprene : pre ≠ [] := by
      intro hnil
      subst hnil
      rw [hf] at hfirst
      simp only [List.nil_append, List.head?_cons, Option.some.injEq] at hfirst
      subst hfirst
      omega
    obtain ⟨init, prev, hinit⟩ : ∃ init prev, pre = init ++ [prev] :=
      ⟨pre.dropLast, pre.getLast hprene, (List.dropLast_append_getLast hprene).symm⟩
    have hprev : prev.1 < bp := hpre prev (by rw [hinit]; simp)
    have hgl : (pre.map (fun V : p_v => (V.1, V.2 + s_l * (V.1 - bp)))).getLast? =
        some (prev.1, prev.2 + s_l * (prev.1 - bp)) := by
      rw [hinit]
      simp
    rw [hgl]
    simp only [Option.some_bind, pl_edge.value_at]
    rw [if_pos ⟨by omega, by omega, by omega⟩]
    simp only [Option.map_some']
    refine ⟨_, rfl, Or.inr ⟨?_, pre, it :: post,
      Int.tdiv ((prev.2 + s_l * (prev.1 - bp)) * (it.1 - bp) + it.2 * (bp - prev.1))
        (it.1 - prev.1), hf, ?_⟩⟩
    · intro k hk
      rw [hf] at hk
      rcases List.mem_append.1 hk with hk | hk
      · have := hpre k hk; omega
      · rcases List.mem_cons.1 hk with he | hm
        · subst he; omega
        · have := hpost k hm; omega
    · beta_reduce
      rw [List.map_append, bislope_knot_left s_l s_r bp pre hpre, List.map_cons,
        bislope_knot_right s_l s_r bp (it :: post) (fun k hk => by
          rcases List.mem_cons.1 hk with he | hm
          · subst he; exact hgt
          · have := hpost k hm; omega)]
      rw [if_neg (by simp)]

theorem add_bislope_knots_witness :
    knots_increasing [(0, 1), (2, 5), (7, 0), (9, 9)] ∧ (0 : Int) ≤ 4 ∧ (4 : Int) ≤ 9 ∧
    ∃ r, add_bislope 3 (-2) 4 [(0, 1), (2, 5), (7, 0), (9, 9)] = some r ∧
      (((∃ k ∈ ([(0, 1), (2, 5), (7, 0), (9, 9)] : piecewise_linear_function), k.1 = 4) ∧
          r = List.map (bislope_knot 3 (-2) 4) [(0, 1), (2, 5), (7, 0), (9, 9)]) ∨
       ((∀ k ∈ ([(0, 1), (2, 5), (7, 0), (9, 9)] : piecewise_linear_function), k.1 ≠ 4) ∧
          ∃ (pre post : List p_v) (v : Int), [(0, 1), (2, 5), (7, 0), (9, 9)] = pre ++ post ∧
            r = pre.map (bislope_knot 3 (-2) 4) ++
              (4, v) :: post.map (bislope_knot 3 (-2) 4))) :=
  ⟨by simp [knots_increasing], by decide, by decide,
    add_bislope_knots 3 (-2) 4 [(0, 1), (2, 5), (7, 0), (9, 9)] (0, 1) (9, 9)
      (by simp [knots_increasing]) rfl rfl (by decide) (by decide)⟩

/-! ## Theorems: the running minimum -/

theorem le_tdiv_of_mul_le (v n d : Int) (hd : 0 < d) (h : v * d ≤ n) : v ≤ Int.tdiv n d := by
  rcases Int.le_total 0 n with hn | hn
  · rw [Int.tdiv_eq_ediv hn (le_of_lt hd)]
    exact (Int.le_ediv_iff_mul_le hd).2 h
  · have hneg : Int.tdiv n d = -(Int.tdiv (-n) d) := by
      rw [Int.neg_tdiv, neg_neg]
    rw [hneg, Int.tdiv_eq_ediv (by omega) (le_of_lt hd)]
    have : -n / d < -v + 1 := (Int.ediv_lt_iff_lt_mul hd).2 (by
      have : (-v + 1) * d = -(v * d) + d := by ring
      rw [this]
      omega)
    omega

theorem tdiv_le_of_le_mul (u n d : Int) (hd : 0 < d) (h : n ≤ u * d) : Int.tdiv n d ≤ u := by
  have := le_tdiv_of_mul_le (-u) (-n) d hd (by rw [Int.neg_mul]; omega)
  rw [Int.neg_tdiv] at this
  omega

/-- The position computed by `pos_at` for the current minimum `v` on the falling segment
from `prev` to `it` lies between the positions of the two knots. -/
theorem pos_at_between (prev it : p_v) (v : Int) (h1 : prev.1 < it.1) (h2 : it.2 < v)
    (h3 : v ≤ prev.2) :
    prev.1 ≤ Int.tdiv (prev.1 * (it.2 - v) + it.1 * (v - prev.2)) (it.2 - prev.2) ∧
    Int.tdiv (prev.1 * (it.2 - v) + it.1 * (v - prev.2)) (it.2 - prev.2) ≤ it.1 := by
  have hD : it.2 - prev.2 = -(prev.2 - it.2) := by ring
  have hN : Int.tdiv (prev.1 * (it.2 - v) + it.1 * (v - prev.2)) (it.2 - prev.2) =
      Int.tdiv (prev.1 * (v - it.2) + it.1 * (prev.2 - v)) (prev.2 - it.2) := by
    rw [hD, Int.tdiv_neg, ← Int.neg_tdiv]
    congr 1
    ring
  rw [hN]
  have e1 := mul_nonneg (sub_nonneg.2 (le_of_lt h1)) (sub_nonneg.2 h3)
  have e2 := mul_nonneg (sub_nonneg.2 (le_of_lt h1)) (sub_nonneg.2 (le_of_lt h2))
  constructor
  · apply le_tdiv_of_mul_le _ _ _ (by omega)
    nlinarith
  · apply tdiv_le_of_le_mul _ _ _ (by omega)
    nlinarith

theorem previous_min_loop_running (f : List p_v) (hinc : knots_increasing f) :
    ∀ (rest done init : List p_v) (back prev : p_v),
    f = (done ++ [prev]) ++ rest →
    (∀ k ∈ init ++ [back], running_minimum f k) →
    least_value (done ++ [prev]) back.2 →
    back.1 ≤ prev.1 →
    ∃ r, previous_min_loop (init ++ [back]) prev rest = some r ∧
      (∃ tl, r = init ++ back :: tl) ∧ (∀ k ∈ r, running_minimum f k) ∧
      ∃ l, r.getLast? = some l ∧ least_value f l.2
  | [], done, init, back, prev, hf, hrun, hleast, _ => by
    refine ⟨_, rfl, ⟨[], rfl⟩, hrun, back, getLast?_snoc init back, ?_⟩
    rw [hf, List.append_nil]
    exact hleast
  | it :: rest, done, init, back, prev, hf, hrun, hleast, hle => by
    have hpw := knots_increasing_pairwise f hinc
    rw [hf] at hpw
    have hdone : ∀ q ∈ done ++ [prev], q.1 ≤ prev.1 := by
      intro q hq
      rcases List.mem_append.1 hq with hq | hq
      · have := (List.pairwise_append.1 (List.pairwise_append.1 hpw).1).2.2 q hq prev (by simp)
        omega
      · simp only [List.mem_singleton] at hq
        subst hq
        exact le_refl _
    have hpi : prev.1 < it.1 :=
      (List.pairwise_append.1 hpw).2.2 prev (by simp) it (List.mem_cons_self _ _)
    have hrest : ∀ q ∈ rest, it.1 < q.1 := by
      have := (List.pairwise_append.1 hpw).2.1
      simp only [List.pairwise_cons] at this
      exact this.1
    have hmem : ∀ q ∈ f, q ∈ done ++ [prev] ∨ q = it ∨ q ∈ rest := by
      intro q hq
      rw [hf] at hq
      rcases List.mem_append.1 hq with hq | hq
      · exact Or.inl hq
      · exact Or.inr (List.mem_cons.1 hq)
    have hitf : it ∈ f := by rw [hf]; simp
    have hf' : f = ((done ++ [prev]) ++ [it]) ++ rest := by rw [hf]; simp
    have hgt : it.1 > back.1 := by omega
    have hbp : back.2 ≤ prev.2 := hleast.2 prev (by simp)
    simp only [previous_min_loop, getLast?_snoc, hgt, not_true_eq_false, if_false]
    by_cases hlt : it.2 < back.2
    · have hleast' : least_value ((done ++ [prev]) ++ [it]) it.2 := by
        refine ⟨⟨it, by simp, rfl⟩, ?_⟩
        intro q hq
        rcases List.mem_append.1 hq with hq | hq
        · have := hleast.2 q hq
          omega
        · simp only [List.mem_singleton] at hq
          subst hq
          exact le_refl _
      have hrunit : running_minimum f it := by
        refine ⟨⟨it, hitf, le_refl _, rfl⟩, ?_⟩
        intro q hq hqle
        rcases hmem q hq with h | h | h
        · have := hleast.2 q h
          omega
        · subst h
          exact le_refl _
        · have := hrest q h
          omega
      have hrun1 : ∀ k ∈ (init ++ [back]) ++ [it], running_minimum f k := by
        intro k hk
        rcases List.mem_append.1 hk with hk | hk
        · exact hrun k hk
        · simp only [List.mem_singleton] at hk
          subst hk
          exact hrunit
      have hfin : ∀ (ret : List p_v), (∃ mid, ret = init ++ back :: mid) →
          (∀ k ∈ ret ++ [it], running_minimum f k) →
          ∃ r, previous_min_loop (ret ++ [it]) it rest = some r ∧
            (∃ tl, r = init ++ back :: tl) ∧ (∀ k ∈ r, running_minimum f k) ∧
            ∃ l, r.getLast? = some l ∧ least_value f l.2 := by
        intro ret hret hrunret
        obtain ⟨mid, hmid⟩ := hret
        obtain ⟨r, hr, ⟨tl, htl⟩, hall, hl⟩ :=
          previous_min_loop_running f hinc rest (done ++ [prev]) ret it it hf' hrunret hleast'
            (le_refl _)
        refine ⟨r, hr, ⟨mid ++ it :: tl, ?_⟩, hall, hl⟩
        rw [htl, hmid]
        simp
      simp only [hlt, if_true]
      by_cases hpb : prev.1 ≠ back.1
      · have hpos : (pl_edge.mk prev it).pos_at back.2 = some (Int.tdiv
            (prev.1 * (it.2 - back.2) + it.1 * (back.2 - prev.2)) (it.2 - prev.2)) := by
          have h1 : back.2 ≤ max prev.2 it.2 := le_trans hbp (le_max_left _ _)
          have h2 : min prev.2 it.2 ≤ back.2 := le_trans (min_le_right _ _) (le_of_lt hlt)
          have h3 : prev.2 ≠ it.2 := by omega
          simp [pl_edge.pos_at, h1, h2, h3]
        have hbetween := pos_at_between prev it back.2 hpi hlt hbp
        generalize Int.tdiv (prev.1 * (it.2 - back.2) + it.1 * (back.2 - prev.2))
          (it.2 - prev.2) = P at hpos hbetween
        simp only [hpb, if_true, hpos]
        split_ifs with hcond
        · have hrunpos : running_minimum f (P, back.2) := by
            obtain ⟨q, hq, hqv⟩ := hleast.1
            refine ⟨⟨q, by rw [hf]; exact List.mem_append_left _ hq, ?_, hqv⟩, ?_⟩
            · have := hdone q hq
              exact le_trans this hbetween.1
            · intro q' hq' hq'le
              have hne := hcond.2
              have hq'le2 : q'.1 < it.1 := by
                have h5 : q'.1 ≤ P := hq'le
                have := hbetween.2
                omega
              rcases hmem q' hq' with h | h | h
              · exact hleast.2 q' h
              · subst h
                omega
              · have := hrest q' h
                omega
          refine hfin ((init ++ [back]) ++ [(P, back.2)]) ⟨[(P, back.2)], by simp⟩ ?_
          intro k hk
          rcases List.mem_append.1 hk with hk | hk
          · rcases List.mem_append.1 hk with hk | hk
            · exact hrun k hk
            · simp only [List.mem_singleton] at hk
              subst hk
              exact hrunpos
          · simp only [List.mem_singleton] at hk
            subst hk
            exact hrunit
        · exact hfin (init ++ [back]) ⟨[], by simp⟩ hrun1
      · simp only [hpb, if_false]
        exact hfin (init ++ [back]) ⟨[], by simp⟩ hrun1
    · simp only [hlt, if_false]
      have hleast' : least_value ((done ++ [prev]) ++ [it]) back.2 := by
        obtain ⟨q, hq, hqv⟩ := hleast.1
        refine ⟨⟨q, List.mem_append_left _ hq, hqv⟩, ?_⟩
        intro q' hq'
        rcases List.mem_append.1 hq' with hq' | hq'
        · exact hleast.2 q' hq'
        · simp only [List.mem_singleton] at hq'
          subst hq'
          omega
      exact previous_min_loop_running f hinc rest (done ++ [prev]) init back it hf' hrun hleast'
        (by omega)

/-- C15: for every non-empty `f` with strictly increasing knot positions, `previous_min`
returns a function that starts with the first knot of `f`; the value of every knot
`(p, v)` of the result is the smallest of the values of the knots of `f` at positions up
to `p`, and the value of its last knot is the smallest of all knot values of `f`. -/
theorem previous_min_running_minimum (f : piecewise_linear_function) (hne : f ≠ [])
    (hinc : knots_increasing f) :
    ∃ r, previous_min f = some r ∧ r.head? = f.head? ∧ (∀ k ∈ r, running_minimum f k) ∧
      ∃ l, r.getLast? = some l ∧ least_value f l.2 := by
  match f, hne, hinc with
  | p :: rest, _, hinc =>
    have hpw := knots_increasing_pairwise _ hinc
    simp only [List.pairwise_cons] at hpw
    have hrun : ∀ k ∈ ([] : List p_v) ++ [p], running_minimum (p :: rest) k := by
      intro k hk
      simp only [List.nil_append, List.mem_singleton] at hk
      subst hk
      refine ⟨⟨k, List.mem_cons_self _ _, le_refl _, rfl⟩, ?_⟩
      intro q hq hqle
      rcases List.mem_cons.1 hq with he | hm
      · subst he
        exact le_refl _
      · have := hpw.1 q hm
        omega
    have hleast : least_value (([] : List p_v) ++ [p]) p.2 :=
      ⟨⟨p, by simp, rfl⟩, fun q hq => by
        simp only [List.nil_append, List.mem_singleton] at hq
        subst hq
        exact le_refl _⟩
    obtain ⟨r, hr, ⟨tl, htl⟩, hall, hl⟩ :=
      previous_min_loop_running (p :: rest) hinc rest [] [] p p rfl hrun hleast (le_refl _)
    refine ⟨r, ?_, ?_, hall, hl⟩
    · simpa [previous_min] using hr
    · rw [htl]
      rfl

theorem previous_min_running_minimum_witness :
    ([(0, 5), (2, 7), (6, 3), (8, 4), (10, -2)] : piecewise_linear_function) ≠ [] ∧
    knots_increasing [(0, 5), (2, 7), (6, 3), (8, 4), (10, -2)] ∧
    ∃ r, previous_min [(0, 5), (2, 7), (6, 3), (8, 4), (10, -2)] = some r ∧
      r.head? = List.head? [(0, 5), (2, 7), (6, 3), (8, 4), (10, -2)] ∧
      (∀ k ∈ r, running_minimum [(0, 5), (2, 7), (6, 3), (8, 4), (10, -2)] k) ∧
      ∃ l, r.getLast? = some l ∧ least_value [(0, 5), (2, 7), (6, 3), (8, 4), (10, -2)] l.2 :=
  ⟨by decide, by simp [knots_increasing],
    previous_min_running_minimum _ (by decide) (by simp [knots_increasing])⟩

/-! ## Theorems: the running minimum of a sum -/

theorem edge_value_at_some (p q : p_v) (x : Int) (h1 : p.1 ≤ x) (h2 : x ≤ q.1)
    (h3 : p.1 < q.1) : ∃ v, (pl_edge.mk p q).value_at x = some v := by
  simp only [pl_edge.value_at]
  rw [if_pos ⟨h1, h2, by omega⟩]
  exact ⟨_, rfl⟩

theorem knots_after_head (pre : List p_v) (p : p_v) (t : List p_v)
    (h : knots_increasing (pre ++ p :: t)) : ∀ q ∈ t, p.1 < q.1 := by
  have hpw := knots_increasing_pairwise _ h
  have := (List.pairwise_append.1 hpw).2.1
  simp only [List.pairwise_cons] at this
  exact this.1

theorem last_after_head (pre : List p_v) (p q : p_v) (t : List p_v) (l : p_v)
    (h : knots_increasing (pre ++ p :: q :: t)) (hl : (p :: q :: t).getLast? = some l) :
    q.1 ≤ l.1 := by
  rw [List.getLast?_cons_cons] at hl
  have hm := List.mem_of_getLast?_eq_some hl
  have hinc : knots_increasing ((pre ++ [p]) ++ q :: t) := by simpa using h
  rcases List.mem_cons.1 hm with he | hm
  · subst he
    exact le_refl _
  · exact le_of_lt (knots_after_head _ q t hinc l hm)

theorem previous_min_of_sum_loop_spec (f a : List p_v) (shift : Int)
    (hif : knots_increasing f) (hia : knots_increasing a) :
    ∀ (fuel : Nat) (pa : p_v) (ta : List p_v) (pb : p_v) (tb : List p_v)
      (prea preb : List p_v) (la lb : p_v),
    a = prea ++ pa :: ta → f = preb ++ pb :: tb → ta.length + tb.length + 1 ≤ fuel →
    (pa :: ta).getLast? = some la → (pb :: tb).getLast? = some lb → la.1 = lb.1 - shift →
    (∀ a1, ta.head? = some a1 → pb.1 - shift < a1.1) →
    (∀ b1, tb.head? = some b1 → pa.1 < b1.1 - shift) →
    ∃ out, previous_min_of_sum_loop shift fuel (some pa) ta (some pb) tb = some out ∧
      List.Pairwise (fun p q : p_v => p.1 < q.1) out ∧
      (∀ k ∈ out, max pa.1 (pb.1 - shift) < k.1) ∧
      (∀ k ∈ out, (∃ q ∈ ta, q.1 = k.1) ∨ ∃ q ∈ tb, q.1 = k.1 + shift) ∧
      (∀ q ∈ ta, ∃ k ∈ out, k.1 = q.1) ∧ (∀ q ∈ tb, ∃ k ∈ out, k.1 + shift = q.1) ∧
      ∀ k ∈ out, knot_is_sum f a shift k
  | 0, _, _, _, _, _, _, _, _, _, _, hfuel, _, _, _, _, _ => by omega
  | fuel + 1, pa, [], pb, tb, prea, preb, la, lb, ha, hf, _, hla, hlb, hlast, _, hb => by
    have htb : tb = [] := by
      cases tb with
      | nil => rfl
      | cons b1 tb' =>
        exfalso
        have h1 := hb b1 rfl
        have h2 := last_after_head preb pb b1 tb' lb (by rw [← hf]; exact hif) hlb
        simp only [List.getLast?_singleton, Option.some.injEq] at hla
        subst hla
        omega
    subst htb
    exact ⟨[], by simp [previous_min_of_sum_loop], List.Pairwise.nil, by simp, by simp, by simp,
      by simp, by simp⟩
  | fuel + 1, pa, a1 :: ta, pb, [], prea, preb, la, lb, ha, hf, _, hla, hlb, hlast, hab, _ => by
    exfalso
    have h1 := hab a1 rfl
    have h2 := last_after_head prea pa a1 ta la (by rw [← ha]; exact hia) hla
    simp only [List.getLast?_singleton, Option.some.injEq] at hlb
    subst hlb
    omega
  | fuel + 1, pa, a1 :: ta, pb, b1 :: tb, prea, preb, la, lb, ha, hf, hfuel, hla, hlb, hlast,
      hab, hb => by
    have hpa1 : pa.1 < a1.1 :=
      knots_after_head prea pa (a1 :: ta) (by rw [← ha]; exact hia) a1 (List.mem_cons_self _ _)
    have hpb1 : pb.1 < b1.1 :=
      knots_after_head preb pb (b1 :: tb) (by rw [← hf]; exact hif) b1 (List.mem_cons_self _ _)
    have ha' : a = (prea ++ [pa]) ++ a1 :: ta := by rw [ha]; simp
    have hf' : f = (preb ++ [pb]) ++ b1 :: tb := by rw [hf]; simp
    have hta : ∀ q ∈ ta, a1.1 < q.1 := knots_after_head _ a1 ta (by rw [← ha']; exact hia)
    have htb : ∀ q ∈ tb, b1.1 < q.1 := knots_after_head _ b1 tb (by rw [← hf']; exact hif)
    have hla' : (a1 :: ta).getLast? = some la := by rw [← List.getLast?_cons_cons]; exact hla
    have hlb' : (b1 :: tb).getLast? = some lb := by rw [← List.getLast?_cons_cons]; exact hlb
    have hbpa := hab a1 rfl
    have hapb := hb b1 rfl
    have hma : a1 ∈ a := by rw [ha]; simp
    have hmf : b1 ∈ f := by rw [hf]; simp
    have hva : value_at a a1.1 = some a1.2 := value_at_from_knot a none a1 hia hma
    have hvf : value_at f b1.1 = some b1.2 := value_at_from_knot f none b1 hif hmf
    simp only [previous_min_of_sum_loop]
    by_cases hlt : a1.1 < b1.1 - shift
    · rw [if_pos hlt]
      obtain ⟨v, hv⟩ := edge_value_at_some pb b1 (a1.1 + shift) (by omega) (by omega) hpb1
      obtain ⟨out, hout, hpw, hgt, hfrom, hcova, hcovb, hsum⟩ :=
        previous_min_of_sum_loop_spec f a shift hif hia fuel a1 ta pb (b1 :: tb)
          (prea ++ [pa]) preb la lb ha' hf (by simp at hfuel ⊢; omega) hla' hlb hlast
          (fun a2 h2 => by
            have := hta a2 (List.mem_of_mem_head? h2)
            omega)
          (fun b h => by
            simp only [List.head?_cons, Option.some.injEq] at h
            subst h
            exact hlt)
      rw [hv, hout]
      refine ⟨_, rfl, ?_, ?_, ?_, ?_, ?_, ?_⟩
      · refine List.Pairwise.cons ?_ hpw
        intro k hk
        have := hgt k hk
        have := le_max_left a1.1 (pb.1 - shift)
        show a1.1 < k.1
        omega
      · intro k hk
        rcases List.mem_cons.1 hk with he | hm
        · subst he
          exact max_lt hpa1 hbpa
        · have := hgt k hm
          have := le_max_left a1.1 (pb.1 - shift)
          exact max_lt (by omega) (by omega)
      · intro k hk
        rcases List.mem_cons.1 hk with he | hm
        · subst he
          exact Or.inl ⟨a1, List.mem_cons_self _ _, rfl⟩
        · rcases hfrom k hm with ⟨q, hq, hqk⟩ | h
          · exact Or.inl ⟨q, List.mem_cons_of_mem _ hq, hqk⟩
          · exact Or.inr h
      · intro q hq
        rcases List.mem_cons.1 hq with he | hm
        · subst he
          exact ⟨_, List.mem_cons_self _ _, rfl⟩
        · obtain ⟨k, hk, hkq⟩ := hcova q hm
          exact ⟨k, List.mem_cons_of_mem _ hk, hkq⟩
      · intro q hq
        obtain ⟨k, hk, hkq⟩ := hcovb q hq
        exact ⟨k, List.mem_cons_of_mem _ hk, hkq⟩
      · intro k hk
        rcases List.mem_cons.1 hk with he | hm
        · subst he
          refine ⟨a1.2, v, hva, ?_, rfl⟩
          rw [value_at_edge f preb pb b1 tb (a1.1 + shift) hif hf (by show pb.1 ≤ a1.1 + shift; omega)
            (by show a1.1 + shift ≤ b1.1; omega)]
          exact hv
        · exact hsum k hm
    · rw [if_neg hlt]
      by_cases hgt' : a1.1 > b1.1 - shift
      · rw [if_pos hgt']
        obtain ⟨v, hv⟩ := edge_value_at_some pa a1 (b1.1 - shift) (by omega) (by omega) hpa1
        obtain ⟨out, hout, hpw, hgt, hfrom, hcova, hcovb, hsum⟩ :=
          previous_min_of_sum_loop_spec f a shift hif hia fuel pa (a1 :: ta) b1 tb
            prea (preb ++ [pb]) la lb ha hf' (by simp at hfuel ⊢; omega) hla hlb' hlast
            (fun a h => by
              simp only [List.head?_cons, Option.some.injEq] at h
              subst h
              exact hgt')
            (fun b2 h2 => by
              have := htb b2 (List.mem_of_mem_head? h2)
              omega)
        rw [hv, hout]
        refine ⟨_, rfl, ?_, ?_, ?_, ?_, ?_, ?_⟩
        · refine List.Pairwise.cons ?_ hpw
          intro k hk
          have := hgt k hk
          have := le_max_right pa.1 (b1.1 - shift)
          show b1.1 - shift < k.1
          omega
        · intro k hk
          rcases List.mem_cons.1 hk with he | hm
          · subst he
            exact max_lt hapb (by show pb.1 - shift < b1.1 - shift; omega)
          · have := hgt k hm
            have := le_max_right pa.1 (b1.1 - shift)
            exact max_lt (by omega) (by omega)
        · intro k hk
          rcases List.mem_cons.1 hk with he | hm
          · subst he
            exact Or.inr ⟨b1, List.mem_cons_self _ _, by show b1.1 = b1.1 - shift + shift; omega⟩
          · rcases hfrom k hm with h | ⟨q, hq, hqk⟩
            · exact Or.inl h
            · exact Or.inr ⟨q, List.mem_cons_of_mem _ hq, hqk⟩
        · intro q hq
          obtain ⟨k, hk, hkq⟩ := hcova q hq
          exact ⟨k, List.mem_cons_of_mem _ hk, hkq⟩
        · intro q hq
          rcases List.mem_cons.1 hq with he | hm
          · subst he
            exact ⟨_, List.mem_cons_self _ _, by show q.1 - shift + shift = q.1; omega⟩
          · obtain ⟨k, hk, hkq⟩ := hcovb q hm
            exact ⟨k, List.mem_cons_of_mem _ hk, hkq⟩
        · intro k hk
          rcases List.mem_cons.1 hk with he | hm
          · subst he
            refine ⟨v, b1.2, ?_, ?_, by show b1.2 + v = v + b1.2; omega⟩
            · rw [value_at_edge a prea pa a1 ta (b1.1 - shift) hia ha
                (by show pa.1 ≤ b1.1 - shift; omega) (by show b1.1 - shift ≤ a1.1; omega)]
              exact hv
            · have : b1.1 - shift + shift = b1.1 := by omega
              show value_at f (b1.1 - shift + shift) = some b1.2
              rw [this]
              exact hvf
          · exact hsum k hm
      · rw [if_neg hgt']
        have heq : a1.1 = b1.1 - shift := by omega
        obtain ⟨out, hout, hpw, hgt, hfrom, hcova, hcovb, hsum⟩ :=
          previous_min_of_sum_loop_spec f a shift hif hia fuel a1 ta b1 tb
            (prea ++ [pa]) (preb ++ [pb]) la lb ha' hf' (by simp at hfuel ⊢; omega) hla' hlb'
            hlast
            (fun a2 h2 => by
              have := hta a2 (List.mem_of_mem_head? h2)
              omega)
            (fun b2 h2 => by
              have := htb b2 (List.mem_of_mem_head? h2)
              omega)
        rw [hout]
        refine ⟨_, rfl, ?_, ?_, ?_, ?_, ?_, ?_⟩
        · refine List.Pairwise.cons ?_ hpw
          intro k hk
          have := hgt k hk
          have := le_max_left a1.1 (b1.1 - shift)
          show a1.1 < k.1
          omega
        · intro k hk
          rcases List.mem_cons.1 hk with he | hm
          · subst he
            exact max_lt hpa1 hbpa
          · have := hgt k hm
            have := le_max_left a1.1 (b1.1 - shift)
            exact max_lt (by omega) (by omega)
        · intro k hk
          rcases List.mem_cons.1 hk with he | hm
          · subst he
            exact Or.inl ⟨a1, List.mem_cons_self _ _, rfl⟩
          · rcases hfrom k hm with ⟨q, hq, hqk⟩ | ⟨q, hq, hqk⟩
            · exact Or.inl ⟨q, List.mem_cons_of_mem _ hq, hqk⟩
            · exact Or.inr ⟨q, List.mem_cons_of_mem _ hq, hqk⟩
        · intro q hq
          rcases List.mem_cons.1 hq with he | hm
          · subst he
            exact ⟨_, List.mem_cons_self _ _, rfl⟩
          · obtain ⟨k, hk, hkq⟩ := hcova q hm
            exact ⟨k, List.mem_cons_of_mem _ hk, hkq⟩
        · intro q hq
          rcases List.mem_cons.1 hq with he | hm
          · subst he
            exact ⟨_, List.mem_cons_self _ _, by show a1.1 + shift = q.1; omega⟩
          · obtain ⟨k, hk, hkq⟩ := hcovb q hm
            exact ⟨k, List.mem_cons_of_mem _ hk, hkq⟩
        · intro k hk
          rcases List.mem_cons.1 hk with he | hm
          · subst he
            refine ⟨a1.2, b1.2, hva, ?_, rfl⟩
            have : a1.1 + shift = b1.1 := by omega
            show value_at f (a1.1 + shift) = some b1.2
            rw [this]
            exact hvf
          · exact hsum k hm

/-- C16: for `f` and `other` with strictly increasing knot positions such that the first
and the last knot position of `other` are those of `f` minus `shift`,
`f.previous_min_of_sum(other, shift)` returns `previous_min` of the function `m` with
strictly increasing knot positions whose knot positions are the knot positions of `other`
together with the knot positions of `f` minus `shift`, every knot at position `x` with
the value `other.value_at(x) + f.value_at(x + shift)`. -/
theorem previous_min_of_sum_merged (f other : piecewise_linear_function) (shift : Int)
    (ff lf fo lo : p_v) (hif : knots_increasing f) (hio : knots_increasing other)
    (hff : f.head? = some ff) (hlf : f.getLast? = some lf)
    (hfo : other.head? = some fo) (hlo : other.getLast? = some lo)
    (hfirst : fo.1 = ff.1 - shift) (hlast : lo.1 = lf.1 - shift) :
    ∃ m r, knots_increasing m ∧
      (∀ x : Int, (∃ k ∈ m, k.1 = x) ↔ ((∃ q ∈ other, q.1 = x) ∨ ∃ q ∈ f, q.1 = x + shift)) ∧
      (∀ k ∈ m, knot_is_sum f other shift k) ∧
      previous_min m = some r ∧ previous_min_of_sum f other shift = some r := by
  match f, other, hff, hfo with
  | b0 :: tb, a0 :: ta, hff, hfo =>
    simp only [List.head?_cons, Option.some.injEq] at hff hfo
    subst hff hfo
    obtain ⟨out, hout, hpw, hgt, hfrom, hcova, hcovb, hsum⟩ :=
      previous_min_of_sum_loop_spec (b0 :: tb) (a0 :: ta) shift hif hio
        (ta.length + tb.length + 1 + 1) a0 ta b0 tb [] [] lo lf rfl rfl (by omega) hlo hlf hlast
        (fun a1 h1 => by
          have := knots_after_head [] a0 ta hio a1 (List.mem_of_mem_head? h1)
          omega)
        (fun b1 h1 => by
          have := knots_after_head [] b0 tb hif b1 (List.mem_of_mem_head? h1)
          omega)
    have hloop : previous_min_of_sum_loop shift ((a0 :: ta).length + (b0 :: tb).length + 1) none
        (a0 :: ta) none (b0 :: tb) = some ((a0.1, a0.2 + b0.2) :: out) := by
      have hfuel : (a0 :: ta).length + (b0 :: tb).length + 1 =
          (ta.length + tb.length + 1 + 1) + 1 := by
        simp only [List.length_cons]
        omega
      rw [hfuel]
      have h1 : ¬ a0.1 < b0.1 - shift := by omega
      have h2 : ¬ a0.1 > b0.1 - shift := by omega
      simp only [previous_min_of_sum_loop]
      rw [if_neg h1, if_neg h2, hout]
      rfl
    have hpwm : List.Pairwise (fun p q : p_v => p.1 < q.1) ((a0.1, a0.2 + b0.2) :: out) := by
      refine List.Pairwise.cons ?_ hpw
      intro k hk
      have := hgt k hk
      have := le_max_left a0.1 (b0.1 - shift)
      show a0.1 < k.1
      omega
    have hincm : knots_increasing ((a0.1, a0.2 + b0.2) :: out) := hpwm.chain'
    obtain ⟨r, hr, _⟩ := previous_min_loop_spec out [] (a0.1, a0.2 + b0.2) (a0.1, a0.2 + b0.2)
      (by simp [values_nonincreasing]) hincm (le_refl _) (fun h => absurd rfl h)
    refine ⟨(a0.1, a0.2 + b0.2) :: out, r, hincm, ?_, ?_, ?_, ?_⟩
    · intro x
      constructor
      · rintro ⟨k, hk, hkx⟩
        rcases List.mem_cons.1 hk with he | hm
        · subst he
          exact Or.inl ⟨a0, List.mem_cons_self _ _, hkx⟩
        · rcases hfrom k hm with ⟨q, hq, hqk⟩ | ⟨q, hq, hqk⟩
          · exact Or.inl ⟨q, List.mem_cons_of_mem _ hq, by omega⟩
          · exact Or.inr ⟨q, List.mem_cons_of_mem _ hq, by omega⟩
      · rintro (⟨q, hq, hqx⟩ | ⟨q, hq, hqx⟩)
        · rcases List.mem_cons.1 hq with he | hm
          · subst he
            exact ⟨_, List.mem_cons_self _ _, hqx⟩
          · obtain ⟨k, hk, hkq⟩ := hcova q hm
            exact ⟨k, List.mem_cons_of_mem _ hk, by omega⟩
        · rcases List.mem_cons.1 hq with he | hm
          · subst he
            exact ⟨_, List.mem_cons_self _ _, by show a0.1 = x; omega⟩
          · obtain ⟨k, hk, hkq⟩ := hcovb q hm
            exact ⟨k, List.mem_cons_of_mem _ hk, by omega⟩
    · intro k hk
      rcases List.mem_cons.1 hk with he | hm
      · subst he
        refine ⟨a0.2, b0.2, value_at_from_knot (a0 :: ta) none a0 hio (List.mem_cons_self _ _),
          ?_, rfl⟩
        have : a0.1 + shift = b0.1 := by omega
        show value_at (b0 :: tb) (a0.1 + shift) = some b0.2
        rw [this]
        exact value_at_from_knot (b0 :: tb) none b0 hif (List.mem_cons_self _ _)
      · exact hsum k hm
    · simpa [previous_min] using hr
    · unfold previous_min_of_sum
      rw [hloop]
      simpa [previous_min] using hr

theorem previous_min_of_sum_merged_witness :
    knots_increasing [(2, 0), (6, 4), (10, 0)] ∧ knots_increasing [(0, 5), (3, 1), (8, 9)] ∧
    (0 : Int) = 2 - 2 ∧ (8 : Int) = 10 - 2 ∧
    ∃ m r, knots_increasing m ∧
      (∀ x : Int, (∃ k ∈ m, k.1 = x) ↔
        ((∃ q ∈ ([(0, 5), (3, 1), (8, 9)] : piecewise_linear_function), q.1 = x) ∨
          ∃ q ∈ ([(2, 0), (6, 4), (10, 0)] : piecewise_linear_function), q.1 = x + 2)) ∧
      (∀ k ∈ m, knot_is_sum [(2, 0), (6, 4), (10, 0)] [(0, 5), (3, 1), (8, 9)] 2 k) ∧
      previous_min m = some r ∧
      previous_min_of_sum [(2, 0), (6, 4), (10, 0)] [(0, 5), (3, 1), (8, 9)] 2 = some r :=
  ⟨by simp [knots_increasing], by simp [knots_increasing], by decide, by decide,
    previous_min_of_sum_merged [(2, 0), (6, 4), (10, 0)] [(0, 5), (3, 1), (8, 9)] 2
      (2, 0) (10, 0) (0, 5) (8, 9) (by simp [knots_increasing]) (by simp [knots_increasing])
      rfl rfl rfl rfl (by decide) (by decide)⟩

/-! ## Theorems: the decision of the swap -/

theorem try_swap_limits_decision {K : Type} [LT K] [DecidableRel (fun a b : K => a < b)]
    (cost : detailed_placement → List Nat → Option K) (circuit : netlist)
    (pl pl' : detailed_placement) (c1 c2 : Nat) (cell1 cell2 : internal_cell)
    (e1 e2 : Nat × Nat) (c1_l c2_l c1_u c2_u : Int) (b : Bool)
    (h : try_swap_limits cost circuit pl c1 c2 cell1 cell2 e1 e2 c1_l c2_l c1_u c2_u
      = some (b, pl')) :
    (¬ swap_fits cell1 cell2 c1_l c2_l c1_u c2_u ∧ b = false) ∨
    (swap_fits cell1 cell2 c1_l c2_l c1_u c2_u ∧
      ∃ (nets : List Nat) (old swp : K), involved_nets_of circuit c1 c2 = some nets ∧
        cost pl nets = some old ∧
        cost (swapped_positions pl c1 c2 cell1 cell2 c1_l c2_l c1_u c2_u) nets = some swp ∧
        (b = true ↔ swp < old)) := by
  unfold try_swap_limits at h
  simp only at h
  split_ifs at h with hfit
  · right
    refine ⟨⟨by omega, by omega⟩, ?_⟩
    split at h
    · exact absurd h (by simp)
    · rename_i nets hnets
      split at h
      · exact absurd h (by simp)
      · rename_i old hold
        split at h
        · exact absurd h (by simp)
        · rename_i swp hswp
          refine ⟨nets, old, swp, hnets, hold, hswp, ?_⟩
          split_ifs at h with hlt
          · simp only [Option.map_eq_some', Prod.mk.injEq] at h
            obtain ⟨_, _, hb, _⟩ := h
            exact ⟨fun _ => hlt, fun _ => hb.symm⟩
          · simp only [Option.some.injEq, Prod.mk.injEq] at h
            constructor
            · intro hb
              rw [hb] at h
              exact absurd h.1 (by simp)
            · intro hlt'
              exact absurd hlt' hlt
  · left
    simp only [Option.some.injEq, Prod.mk.injEq] at h
    exact ⟨fun hf => hfit ⟨by have := hf.1; omega, by have := hf.2; omega⟩, h.1.symm⟩

/-- C20: in a call `try_swap(c1, c2)` that completes, with `cell1`, `cell2` the records of
the two cells and `c1_l`, `c1_u`, `c2_l`, `c2_u` the limits of their gaps (the right edge
of the cell before and the left edge of the cell after in the row, the region bound at a
row end), the returned boolean is true if and only if both cells fit in the gap of the
other one and the cost of the nets with a pin on `c1` or `c2`, evaluated with the swapped
positions, is strictly smaller than the cost evaluated with the current positions;
whatever the cost evaluation returns, as long as no cost is smaller than itself, a swap of
equal cost is rejected. -/
theorem try_swap_true_iff {K : Type} [LT K] [DecidableRel (fun a b : K => a < b)]
    (cost : detailed_placement → List Nat → Option K) (circuit : netlist)
    (pl pl' : detailed_placement) (c1 c2 : Nat) (b : Bool) (hirr : ∀ k : K, ¬ k < k)
    (h : try_swap_with cost circuit pl c1 c2 = some (b, pl')) :
    ∃ (cell1 cell2 : internal_cell) (e1 e2 : Nat × Nat) (c1_l c2_l c1_u c2_u : Int),
      pl.cells_[c1]? = some cell1 ∧ pl.cells_[c2]? = some cell2 ∧
      pl.neighbours_[cell1.neighbours_begin]? = some e1 ∧
      pl.neighbours_[cell2.neighbours_begin]? = some e2 ∧
      limit_low pl e1.1 = some c1_l ∧ limit_up pl e1.2 = some c1_u ∧
      limit_low pl e2.1 = some c2_l ∧ limit_up pl e2.2 = some c2_u ∧
      (b = true ↔ swap_fits cell1 cell2 c1_l c2_l c1_u c2_u ∧
        ∃ (nets : List Nat) (old swp : K), involved_nets_of circuit c1 c2 = some nets ∧
          cost pl nets = some old ∧
          cost (swapped_positions pl c1 c2 cell1 cell2 c1_l c2_l c1_u c2_u) nets = some swp ∧
          swp < old) ∧
      (∀ (nets : List Nat) (old : K), involved_nets_of circuit c1 c2 = some nets →
        cost pl nets = some old →
        cost (swapped_positions pl c1 c2 cell1 cell2 c1_l c2_l c1_u c2_u) nets = some old →
        b = false) := by
  unfold try_swap_with at h
  split at h
  · rename_i cell1 cell2 nc1 nc2 hc1 hc2 _ _
    split_ifs at h
    split at h
    · rename_i e1 e2 he1 he2
      split at h
      · rename_i c1_l c2_l c1_u c2_u h1l h2l h1u h2u
        refine ⟨cell1, cell2, e1, e2, c1_l, c2_l, c1_u, c2_u, hc1, hc2, he1, he2, h1l, h1u,
          h2l, h2u, ?_, ?_⟩
        · rcases try_swap_limits_decision cost circuit pl pl' c1 c2 cell1 cell2 e1 e2 c1_l c2_l
            c1_u c2_u b h with ⟨hnf, hb⟩ | ⟨hf, nets, old, swp, hn, ho, hs, hiff⟩
          · constructor
            · intro hbt
              rw [hb] at hbt
              exact absurd hbt (by simp)
            · intro hfit
              exact absurd hfit.1 hnf
          · constructor
            · intro hbt
              exact ⟨hf, nets, old, swp, hn, ho, hs, hiff.1 hbt⟩
            · rintro ⟨_, nets', old', swp', hn', ho', hs', hlt⟩
              rw [hn] at hn'
              simp only [Option.some.injEq] at hn'
              subst hn'
              rw [ho] at ho'
              rw [hs] at hs'
              simp only [Option.some.injEq] at ho' hs'
              subst ho' hs'
              exact hiff.2 hlt
        · intro nets' old' hn' ho' hs'
          rcases try_swap_limits_decision cost circuit pl pl' c1 c2 cell1 cell2 e1 e2 c1_l c2_l
            c1_u c2_u b h with ⟨_, hb⟩ | ⟨hf, nets, old, swp, hn, ho, hs, hiff⟩
          · exact hb
          · rw [hn] at hn'
            simp only [Option.some.injEq] at hn'
            subst hn'
            rw [ho] at ho'
            rw [hs] at hs'
            simp only [Option.some.injEq] at ho' hs'
            subst ho'
            cases hbv : b with
            | false => rfl
            | true =>
              have := hiff.1 hbv
              rw [hs'] at this
              exact absurd this (hirr _)
      · exact absurd h (by simp)
    · exact absurd h (by simp)
  · exact absurd h (by simp)

theorem try_swap_true_iff_witness :
    (∀ k : ℚ, ¬ k < k) ∧
    try_swap_with (get_nets_cost example_circuit) example_circuit example_placement 4 2
      = some (true, example_swapped) ∧
    ∃ (cell1 cell2 : internal_cell) (e1 e2 : Nat × Nat) (c1_l c2_l c1_u c2_u : Int),
      example_placement.cells_[4]? = some cell1 ∧ example_placement.cells_[2]? = some cell2 ∧
      example_placement.neighbours_[cell1.neighbours_begin]? = some e1 ∧
      example_placement.neighbours_[cell2.neighbours_begin]? = some e2 ∧
      limit_low example_placement e1.1 = some c1_l ∧
      limit_up example_placement e1.2 = some c1_u ∧
      limit_low example_placement e2.1 = some c2_l ∧
      limit_up example_placement e2.2 = some c2_u ∧
      (true = true ↔ swap_fits cell1 cell2 c1_l c2_l c1_u c2_u ∧
        ∃ (nets : List Nat) (old swp : ℚ), involved_nets_of example_circuit 4 2 = some nets ∧
          get_nets_cost example_circuit example_placement nets = some old ∧
          get_nets_cost example_circuit
            (swapped_positions example_placement 4 2 cell1 cell2 c1_l c2_l c1_u c2_u) nets
              = some swp ∧
          swp < old) ∧
      (∀ (nets : List Nat) (old : ℚ), involved_nets_of example_circuit 4 2 = some nets →
        get_nets_cost example_circuit example_placement nets = some old →
        get_nets_cost example_circuit
          (swapped_positions example_placement 4 2 cell1 cell2 c1_l c2_l c1_u c2_u) nets
            = some old →
        true = false) :=
  ⟨fun k => lt_irrefl k, by decide!,
    try_swap_true_iff (get_nets_cost example_circuit) example_circuit example_placement
      example_swapped 4 2 true (fun k => lt_irrefl k) (by decide!)⟩

/-! ## Theorems: crossings at a non-integer position -/

theorem crossing_floor_bounds (af as' bf bs D Na Nb q : Int) (hD : 0 < D) (hNa : 0 < Na)
    (hNaD : Na < D) (hNb : 0 < Nb) (hNbD : Nb < D) (dax : af < as') (dbx : bf < bs)
    (hid : af * D + Na * (as' - af) = bf * D + Nb * (bs - bf))
    (hq1 : q * D ≤ Na * (as' - af)) (hq2 : Na * (as' - af) < (q + 1) * D) :
    0 ≤ q ∧ af + q < as' ∧ af + q < bs ∧ bf < af + q + 1 := by
  have e1 : 0 < Na * (as' - af) := mul_pos hNa (by omega)
  have e2 : Na * (as' - af) < D * (as' - af) := Int.mul_lt_mul_of_pos_right hNaD (by omega)
  have e3 : 0 < Nb * (bs - bf) := mul_pos hNb (by omega)
  have e4 : Nb * (bs - bf) < D * (bs - bf) := Int.mul_lt_mul_of_pos_right hNbD (by omega)
  refine ⟨?_, ?_, ?_, ?_⟩
  · have : (-1) * D < q * D := by linarith
    have := lt_of_mul_lt_mul_pos _ _ _ hD this
    omega
  · have : q * D < (as' - af) * D := by linarith
    have := lt_of_mul_lt_mul_pos _ _ _ hD this
    omega
  · have : (af + q) * D < bs * D := by linarith
    exact lt_of_mul_lt_mul_pos _ _ _ hD this
  · have : bf * D < (af + q + 1) * D := by linarith
    exact lt_of_mul_lt_mul_pos _ _ _ hD this

/-- The quotient `dist / denom` of a crossing strictly inside both segments, with the
absolute values `D`, `Na`, `Nb` of `denom`, `a_num`, `b_num`. -/
theorem crossing_quotient (a b : pl_edge) (h1 : a.f.1 < a.s.1)
    (hint : pl_edge.intersect a b = true) :
    ∃ D Na Nb : Int, 0 < D ∧ 0 < Na ∧ Na < D ∧ 0 < Nb ∧ Nb < D ∧
      a.f.1 * D + Na * (a.s.1 - a.f.1) = b.f.1 * D + Nb * (b.s.1 - b.f.1) ∧
      Int.tdiv (pl_edge.dist a b) (pl_edge.denom a b) = Na * (a.s.1 - a.f.1) / D ∧
      ((pl_edge.dist a b : Int) : ℚ) / ((pl_edge.denom a b : Int) : ℚ) =
        ((Na * (a.s.1 - a.f.1) : Int) : ℚ) / ((D : Int) : ℚ) := by
  have hid := crossing_identity a b
  rcases intersect_cases a b hint with ⟨hd, han, han', hbn, hbn'⟩ | ⟨hd, han, han', hbn, hbn'⟩
  · refine ⟨pl_edge.denom a b, pl_edge.a_num a b, pl_edge.b_num a b, hd, han, han', hbn, hbn',
      hid, ?_, rfl⟩
    have h0 : 0 ≤ pl_edge.dist a b := by
      unfold pl_edge.dist
      exact le_of_lt (mul_pos han (by omega))
    rw [Int.tdiv_eq_ediv h0 (le_of_lt hd)]
    rfl
  · refine ⟨-pl_edge.denom a b, -pl_edge.a_num a b, -pl_edge.b_num a b, by omega, by omega,
      by omega, by omega, by omega, by linarith, ?_, ?_⟩
    · have h0 : 0 ≤ -pl_edge.dist a b := by
        unfold pl_edge.dist
        have : 0 < (-pl_edge.a_num a b) * (a.s.1 - a.f.1) := mul_pos (by omega) (by omega)
        linarith
      have h1 : Int.tdiv (pl_edge.dist a b) (pl_edge.denom a b) =
          Int.tdiv (-pl_edge.dist a b) (-pl_edge.denom a b) := by
        rw [Int.neg_tdiv, Int.tdiv_neg, neg_neg]
      rw [h1, Int.tdiv_eq_ediv h0 (by omega)]
      congr 1
      unfold pl_edge.dist
      ring
    · have h1 : pl_edge.dist a b = pl_edge.a_num a b * (a.s.1 - a.f.1) := rfl
      rw [h1]
      push_cast
      rw [neg_mul, neg_div_neg_eq]

/-- At `crossing_position` the lines through the two segments have the same value. -/
theorem crossing_position_common_value (a b : pl_edge) (h1 : a.f.1 < a.s.1)
    (h2 : b.f.1 < b.s.1) (hd : pl_edge.denom a b ≠ 0) :
    (a.f.2 : ℚ) + ((a.s.2 : ℚ) - a.f.2) * (crossing_position a b - a.f.1) / ((a.s.1 : ℚ) - a.f.1) =
      (b.f.2 : ℚ) + ((b.s.2 : ℚ) - b.f.2) * (crossing_position a b - b.f.1) /
        ((b.s.1 : ℚ) - b.f.1) := by
  have hda : ((a.s.1 : ℚ) - a.f.1) ≠ 0 := by
    have : (a.f.1 : ℚ) < a.s.1 := by exact_mod_cast h1
    linarith
  have hdb : ((b.s.1 : ℚ) - b.f.1) ≠ 0 := by
    have : (b.f.1 : ℚ) < b.s.1 := by exact_mod_cast h2
    linarith
  have hdq : ((pl_edge.denom a b : Int) : ℚ) ≠ 0 := by exact_mod_cast hd
  unfold crossing_position
  simp only [pl_edge.dist, pl_edge.a_num, pl_edge.denom] at hdq ⊢
  push_cast at hdq ⊢
  field_simp
  ring

/-- The branch of `push_intersections` for a crossing at a non-integer position: with `p`
the integer part of the crossing position, the knot at `p` is pushed when `p` lies after
both segment starts and the knot at `p + 1` when it lies before both segment ends, each
with the smaller of the values of the two segments there; nothing else is pushed. -/
theorem push_intersections_inexact (a b : pl_edge) (h1 : a.f.1 < a.s.1) (h2 : b.f.1 < b.s.1)
    (h3 : a.f.1 < b.s.1) (h4 : b.f.1 < a.s.1) (hint : pl_edge.intersect a b = true)
    (hmod : Int.tmod (pl_edge.dist a b) (pl_edge.denom a b) ≠ 0) :
    ∃ (p : Int) (l1 l2 : List p_v), Int.floor (crossing_position a b) = p ∧
      pl_edge.push_intersections a b = some (l1 ++ l2) ∧
      ((max a.f.1 b.f.1 < p ∧ ∃ va vb, a.value_at p = some va ∧ b.value_at p = some vb ∧
          l1 = [(p, min va vb)]) ∨ (¬ max a.f.1 b.f.1 < p ∧ l1 = [])) ∧
      ((p + 1 < min a.s.1 b.s.1 ∧ ∃ va vb, a.value_at (p + 1) = some va ∧
          b.value_at (p + 1) = some vb ∧ l2 = [(p + 1, min va vb)]) ∨
        (¬ p + 1 < min a.s.1 b.s.1 ∧ l2 = [])) := by
  obtain ⟨D, Na, Nb, hD, hNa, hNaD, hNb, hNbD, hid, hq, hrat⟩ := crossing_quotient a b h1 hint
  have hq1 : Na * (a.s.1 - a.f.1) / D * D ≤ Na * (a.s.1 - a.f.1) :=
    Int.ediv_mul_le _ (by omega)
  have hq2 : Na * (a.s.1 - a.f.1) < (Na * (a.s.1 - a.f.1) / D + 1) * D :=
    Int.lt_ediv_add_one_mul_self _ hD
  have hfloor : Int.floor (crossing_position a b) =
      a.f.1 + Int.tdiv (pl_edge.dist a b) (pl_edge.denom a b) := by
    unfold crossing_position
    rw [hrat, hq, Int.floor_int_add]
    congr 1
    have := Rat.floor_intCast_div_natCast (Na * (a.s.1 - a.f.1)) D.toNat
    rw [Int.toNat_of_nonneg (le_of_lt hD)] at this
    rw [← this]
    congr 2
    have : ((D.toNat : Int) : ℚ) = (D : ℚ) := by rw [Int.toNat_of_nonneg (le_of_lt hD)]
    exact_mod_cast this.symm
  rw [← hq] at hq1 hq2
  obtain ⟨b0, b1, b2, b3⟩ := crossing_floor_bounds a.f.1 a.s.1 b.f.1 b.s.1 D Na Nb
    (Int.tdiv (pl_edge.dist a b) (pl_edge.denom a b)) hD hNa hNaD hNb hNbD h1 h2 hid hq1 hq2
  rw [hfloor]
  unfold pl_edge.push_intersections
  rw [if_neg (by simp only [not_not]; exact ⟨h3, h4⟩),
    if_neg (by simp only [not_not]; exact ⟨h1, h2⟩), if_pos hint, if_neg hmod]
  generalize Int.tdiv (pl_edge.dist a b) (pl_edge.denom a b) = q at b0 b1 b2 b3
  simp only
  have first : ∃ l1, (if a.f.1 + q > max a.f.1 b.f.1 then
        (a.value_at (a.f.1 + q)).bind fun va =>
          (b.value_at (a.f.1 + q)).map fun vb => [(a.f.1 + q, min va vb)]
      else some []) = some l1 ∧
      ((max a.f.1 b.f.1 < a.f.1 + q ∧ ∃ va vb, a.value_at (a.f.1 + q) = some va ∧
          b.value_at (a.f.1 + q) = some vb ∧ l1 = [(a.f.1 + q, min va vb)]) ∨
        (¬ max a.f.1 b.f.1 < a.f.1 + q ∧ l1 = [])) := by
    by_cases hc : a.f.1 + q > max a.f.1 b.f.1
    · have hbf : b.f.1 < a.f.1 + q := lt_of_le_of_lt (le_max_right _ _) hc
      obtain ⟨va, hva⟩ := edge_value_at_some a.f a.s (a.f.1 + q) (by omega) (by omega) h1
      obtain ⟨vb, hvb⟩ := edge_value_at_some b.f b.s (a.f.1 + q) (by omega) (by omega) h2
      rw [if_pos hc, hva, hvb]
      exact ⟨_, rfl, Or.inl ⟨hc, va, vb, rfl, rfl, rfl⟩⟩
    · rw [if_neg hc]
      exact ⟨_, rfl, Or.inr ⟨hc, rfl⟩⟩
  have second : ∃ l2, (if a.f.1 + q + 1 < min a.s.1 b.s.1 then
        (a.value_at (a.f.1 + q + 1)).bind fun va =>
          (b.value_at (a.f.1 + q + 1)).map fun vb => [(a.f.1 + q + 1, min va vb)]
      else some []) = some l2 ∧
      ((a.f.1 + q + 1 < min a.s.1 b.s.1 ∧ ∃ va vb, a.value_at (a.f.1 + q + 1) = some va ∧
          b.value_at (a.f.1 + q + 1) = some vb ∧ l2 = [(a.f.1 + q + 1, min va vb)]) ∨
        (¬ a.f.1 + q + 1 < min a.s.1 b.s.1 ∧ l2 = [])) := by
    by_cases hc : a.f.1 + q + 1 < min a.s.1 b.s.1
    · have has : a.f.1 + q + 1 < a.s.1 := lt_of_lt_of_le hc (min_le_left _ _)
      have hbs : a.f.1 + q + 1 < b.s.1 := lt_of_lt_of_le hc (min_le_right _ _)
      obtain ⟨va, hva⟩ := edge_value_at_some a.f a.s (a.f.1 + q + 1) (by omega) (by omega) h1
      obtain ⟨vb, hvb⟩ := edge_value_at_some b.f b.s (a.f.1 + q + 1) (by omega) (by omega) h2
      rw [if_pos hc, hva, hvb]
      exact ⟨_, rfl, Or.inl ⟨hc, va, vb, rfl, rfl, rfl⟩⟩
    · rw [if_neg hc]
      exact ⟨_, rfl, Or.inr ⟨hc, rfl⟩⟩
  obtain ⟨l1, e1, p1⟩ := first
  obtain ⟨l2, e2, p2⟩ := second
  refine ⟨a.f.1 + q, l1, l2, rfl, ?_, p1, p2⟩
  rw [e1, e2]
  rfl

/-! ## Theorems: region bounds at construction -/

/-- C24, as stated, fails: a single cell of width 3 at abscissa `-5` in a region
`[0, 10]` lies left of `min_x`, and the construction succeeds; neither the constructor nor
`selfcheck` compares a cell with `min_x_` or `max_x_`. -/
theorem construct_accepts_cell_outside_region :
    detailed_placement.construct [⟨-5, 0, 3, 1, 0, 0, true, true⟩] [[0]] 0 10 0 1 1 =
      some ⟨0, 10, 0, [⟨-5, 0, 3, 1, 0, 0, true, true⟩], [(null_ind, null_ind)], [0], [0]⟩ ∧
    (-5 : Int) < 0 := by
  decide

/-- C24 (amended): after a successful construction every cell of a row list ends at or
before the start of the cell listed after it; the region bounds are not looked at. -/
theorem construct_rows_without_overlap (cells : List internal_cell) (rows : List (List Nat))
    (min_x max_x y_origin : Int) (nbr_rows : Nat) (row_height : Int) (pl : detailed_placement)
    (h : detailed_placement.construct cells rows min_x max_x y_origin nbr_rows row_height
      = some pl) (r : Nat) (row : List Nat) (i c1 c2 : Nat) (hrow : rows[r]? = some row)
    (h1 : row[i]? = some c1) (h2 : row[i + 1]? = some c2) :
    ∃ cell1 cell2, pl.cells_[c1]? = some cell1 ∧ pl.cells_[c2]? = some cell2 ∧
      cell1.position_x + cell1.width ≤ cell2.position_x := by
  obtain ⟨_, _, _, _, _, _, explored, hproc, _, _⟩ :=
    construct_tables_spec cells rows min_x max_x y_origin nbr_rows row_height pl
      (construct_some cells rows min_x max_x y_origin nbr_rows row_height pl h)
  exact hproc.ordered r row i c1 c2 hrow h1 h2

theorem construct_rows_without_overlap_witness :
    detailed_placement.construct example_cells example_rows 0 10 0 2 1
      = some example_placement ∧
    example_rows[0]? = some [0, 1, 4] ∧ ([0, 1, 4] : List Nat)[1]? = some 1 ∧
    ([0, 1, 4] : List Nat)[1 + 1]? = some 4 ∧
    ∃ cell1 cell2, example_placement.cells_[1]? = some cell1 ∧
      example_placement.cells_[4]? = some cell2 ∧
      cell1.position_x + cell1.width ≤ cell2.position_x :=
  ⟨by decide, by decide, by decide, by decide,
    construct_rows_without_overlap example_cells example_rows 0 10 0 2 1 example_placement
      (by decide) 0 [0, 1, 4] 1 1 4 (by decide) (by decide) (by decide)⟩

/-! ## Theorems: the scan of a row -/

theorem single_row_loop_stuck {K : Type}
    (optimize : detailed_placement → List Nat → Int → Int → Option (K × List Int))
    (circuit : netlist) (r n : Nat) (c : Nat) (pl : detailed_placement) (cell : internal_cell)
    (nc : netlist_cell) (hc : c ≠ null_ind) (hcell : pl.cells_[c]? = some cell)
    (hh : cell.height = 1) (hnc : circuit.cells[c]? = some nc)
    (hfix : Nat.land nc.attributes XMovable = 0) :
    ∀ fuel : Nat, single_row_loop optimize circuit r n fuel c pl = none
  | 0 => rfl
  | fuel + 1 => by
    have ih := single_row_loop_stuck optimize circuit r n c pl cell nc hc hcell hh hnc hfix fuel
    cases n with
    | zero => simp [single_row_loop, collect_cells, hc]
    | succ m =>
      have hcol : collect_cells circuit pl (m + 1) c = some ([], c) := by
        simp [collect_cells, hc, hcell, hh, hnc, hfix]
      have hfirst : get_first_standard_cell pl r (m + 1) c = if cell.row = r then some c else none := by
        simp [get_first_standard_cell, hc, hcell, hh]
      simp only [single_row_loop, hc, if_false, hcol, place_run, List.head?_nil,
        List.getLast?_nil, ne_eq, not_false_eq_true, if_true, hfirst]
      split_ifs
      · exact ih
      · rfl

theorem swap_row_loop_stuck {K : Type} [LT K] [DecidableRel (fun a b : K => a < b)]
    (optimize : detailed_placement → List Nat → Int → Int → Option (K × List Int)) (inf : K)
    (circuit : netlist) (range r n : Nat) (c : Nat) (pl : detailed_placement)
    (cell : internal_cell) (nc : netlist_cell) (hc : c ≠ null_ind)
    (hcell : pl.cells_[c]? = some cell) (hh : cell.height = 1)
    (hnc : circuit.cells[c]? = some nc) (hfix : Nat.land nc.attributes XMovable = 0) :
    ∀ fuel : Nat, swap_row_loop optimize inf circuit range r n fuel c pl = none
  | 0 => rfl
  | fuel + 1 => by
    have ih := swap_row_loop_stuck optimize inf circuit range r n c pl cell nc hc hcell hh hnc
      hfix fuel
    have hcol : collect_window circuit pl range c = some ([], c) := by
      unfold collect_window
      simp [hc, hcell, hh, hnc, hfix]
    cases n with
    | zero =>
      simp [swap_row_loop, hc, hcol, process_window, next_window_start, hnc, hfix,
        get_first_standard_cell]
    | succ m =>
      have hfirst : get_first_standard_cell pl r (m + 1) c = if cell.row = r then some c else none := by
        simp [get_first_standard_cell, hc, hcell, hh]
      simp only [swap_row_loop, hc, if_false, hcol, process_window, List.head?_nil,
        List.getLast?_nil, next_window_start, ne_eq, not_false_eq_true, if_true, hnc, hfix,
        hfirst]
      split_ifs
      · exact ih
      · rfl

/-- C22: when the scan of a row stands on a cell of height one that is not x-movable, the
loop `while(OSRP_cell != null_ind)` of `optimize_single_rows` and the one of `swap_in_rows`
find the same cell again in every iteration (no cell is gathered, and
`get_first_standard_cell` returns the cell it is given): neither loop is left, however
many iterations are granted and whatever the convex optimizer returns. -/
theorem row_scan_stuck_on_fixed_cell {K : Type} [LT K] [DecidableRel (fun a b : K => a < b)]
    (optimize : detailed_placement → List Nat → Int → Int → Option (K × List Int)) (inf : K)
    (circuit : netlist) (range r n fuel : Nat) (c : Nat) (pl : detailed_placement)
    (cell : internal_cell) (nc : netlist_cell) (hc : c ≠ null_ind)
    (hcell : pl.cells_[c]? = some cell) (hh : cell.height = 1)
    (hnc : circuit.cells[c]? = some nc) (hfix : Nat.land nc.attributes XMovable = 0) :
    single_row_loop optimize circuit r n fuel c pl = none ∧
    swap_row_loop optimize inf circuit range r n fuel c pl = none :=
  ⟨single_row_loop_stuck optimize circuit r n c pl cell nc hc hcell hh hnc hfix fuel,
    swap_row_loop_stuck optimize inf circuit range r n c pl cell nc hc hcell hh hnc hfix fuel⟩

theorem row_scan_stuck_on_fixed_cell_witness :
    (0 : Nat) ≠ null_ind ∧
    fixed_cell_placement.cells_[0]? = some ⟨2, 0, 3, 1, 0, 0, true, true⟩ ∧
    fixed_cell_circuit.cells[0]? = some ⟨0, 3, 1, []⟩ ∧ Nat.land 0 XMovable = 0 ∧
    selfcheck fixed_cell_placement = true ∧
    get_first_cell_on_row fixed_cell_placement 0 1000 = some 0 ∧
    single_row_loop (fun _ _ _ _ => some ((0 : Int), [])) fixed_cell_circuit 0 1000 1000 0
      fixed_cell_placement = none ∧
    swap_row_loop (fun _ _ _ _ => some ((0 : Int), [])) 1 fixed_cell_circuit 2 0 1000 1000 0
      fixed_cell_placement = none :=
  ⟨by decide, by decide, by decide, by decide, by decide, by decide,
    row_scan_stuck_on_fixed_cell (fun _ _ _ _ => some ((0 : Int), [])) 1 fixed_cell_circuit 2 0
      1000 1000 0 fixed_cell_placement ⟨2, 0, 3, 1, 0, 0, true, true⟩ ⟨0, 3, 1, []⟩ (by decide)
      (by decide) rfl (by decide) (by decide)⟩

/-- On the row of `fixed_cell_placement` neither `optimize_single_rows` nor `swap_in_rows`
returns, whatever the number of iterations granted to their loops. -/
theorem row_optimizers_fixed_cell {K : Type} [LT K] [DecidableRel (fun a b : K => a < b)]
    (optimize : detailed_placement → List Nat → Int → Int → Option (K × List Int)) (inf : K)
    (range fuel : Nat) :
    optimize_single_rows optimize fixed_cell_circuit fuel fixed_cell_placement = none ∧
    swap_in_rows optimize inf fixed_cell_circuit range fuel fixed_cell_placement = none := by
  have hrows : List.range fixed_cell_placement.row_cnt = [0] := by decide
  cases fuel with
  | zero =>
    constructor
    · simp [optimize_single_rows, hrows, single_rows_from, get_first_cell_on_row,
        get_first_standard_cell, fixed_cell_placement]
    · simp [swap_in_rows, hrows, swap_rows_from, get_first_cell_on_row,
        get_first_standard_cell, fixed_cell_placement]
  | succ m =>
    have hfirst : get_first_cell_on_row fixed_cell_placement 0 (m + 1) = some 0 := by
      simp [get_first_cell_on_row, get_first_standard_cell, fixed_cell_placement, null_ind]
    have h1 := single_row_loop_stuck optimize fixed_cell_circuit 0 (m + 1) 0
      fixed_cell_placement ⟨2, 0, 3, 1, 0, 0, true, true⟩ ⟨0, 3, 1, []⟩ (by decide)
      (by decide) rfl (by decide) (by decide) (m + 1)
    have h2 := swap_row_loop_stuck optimize inf fixed_cell_circuit range 0 (m + 1) 0
      fixed_cell_placement ⟨2, 0, 3, 1, 0, 0, true, true⟩ ⟨0, 3, 1, []⟩ (by decide)
      (by decide) rfl (by decide) (by decide) (m + 1)
    constructor
    · simp [optimize_single_rows, hrows, single_rows_from, hfirst, h1]
    · simp [swap_in_rows, hrows, swap_rows_from, hfirst, h2]

/-! ## Theorems: the enumeration of the arrangements of a window -/

theorem cons_lt_cons_iff' (a b : Nat) (as bs : List Nat) :
    (a :: as) < (b :: bs) ↔ a < b ∨ (a = b ∧ as < bs) := by
  constructor
  · intro h
    cases h with
    | rel h => exact Or.inl h
    | cons h => exact Or.inr ⟨rfl, h⟩
  · rintro (h | ⟨rfl, h⟩)
    · exact List.Lex.rel h
    · exact List.Lex.cons h

theorem cons_le_cons_iff' (a b : Nat) (as bs : List Nat) :
    (a :: as) ≤ (b :: bs) ↔ a < b ∨ (a = b ∧ as ≤ bs) := by
  rw [le_iff_lt_or_eq, cons_lt_cons_iff', le_iff_lt_or_eq]
  constructor
  · rintro ((h | ⟨h1, h2⟩) | h)
    · exact Or.inl h
    · exact Or.inr ⟨h1, Or.inl h2⟩
    · simp only [List.cons.injEq] at h
      exact Or.inr ⟨h.1, Or.inr h.2⟩
  · rintro (h | ⟨h1, h2 | h2⟩)
    · exact Or.inl (Or.inl h)
    · exact Or.inl (Or.inr ⟨h1, h2⟩)
    · exact Or.inr (by rw [h1, h2])

/-- A non-increasing list is the last of its arrangements in lexicographic order. -/
theorem le_of_perm_nonincreasing : ∀ (l m : List Nat), List.Pairwise (fun a b => b ≤ a) l →
    m.Perm l → m ≤ l
  | [], m, _, hp => by
    rw [List.perm_nil.1 hp]
  | x :: xs, [], _, hp => absurd hp.symm (List.cons_ne_nil _ _ ∘ List.perm_nil.1)
  | x :: xs, b :: bs, hs, hp => by
    rw [cons_le_cons_iff']
    have hb : b ∈ x :: xs := hp.subset (List.mem_cons_self _ _)
    rw [List.pairwise_cons] at hs
    have hbx : b ≤ x := by
      rcases List.mem_cons.1 hb with h | h
      · omega
      · exact hs.1 b h
    rcases Nat.lt_or_ge b x with h | h
    · exact Or.inl h
    · have hbe : b = x := by omega
      subst hbe
      exact Or.inr ⟨rfl, le_of_perm_nonincreasing xs bs hs.2 ((List.perm_cons b).1 hp)⟩

/-- A non-decreasing list is the first of its arrangements in lexicographic order. -/
theorem le_of_perm_nondecreasing : ∀ (l m : List Nat), List.Pairwise (fun a b => a ≤ b) l →
    m.Perm l → l ≤ m
  | [], m, _, hp => by
    rw [List.perm_nil.1 hp]
  | x :: xs, [], _, hp => absurd hp.symm (List.cons_ne_nil _ _ ∘ List.perm_nil.1)
  | x :: xs, b :: bs, hs, hp => by
    rw [cons_le_cons_iff']
    have hb : b ∈ x :: xs := hp.subset (List.mem_cons_self _ _)
    rw [List.pairwise_cons] at hs
    have hbx : x ≤ b := by
      rcases List.mem_cons.1 hb with h | h
      · omega
      · exact hs.1 b h
    rcases Nat.lt_or_ge x b with h | h
    · exact Or.inl h
    · have hbe : x = b := by omega
      subst hbe
      exact Or.inr ⟨rfl, le_of_perm_nondecreasing xs bs hs.2 ((List.perm_cons x).1 hp)⟩

theorem exchange_pivot_none (x : Nat) : ∀ (l : List Nat), exchange_pivot x l = none →
    ∀ y ∈ l, y ≤ x
  | [], _, y, hy => by simp at hy
  | a :: as, h, y, hy => by
    simp only [exchange_pivot] at h
    split_ifs at h with hlt
    simp only [Option.map_eq_none'] at h
    rcases List.mem_cons.1 hy with he | hm
    · omega
    · exact exchange_pivot_none x as h y hm

theorem exchange_pivot_some (x : Nat) : ∀ (l : List Nat) (y : Nat) (rest : List Nat),
    List.Pairwise (fun a b => a ≤ b) l → exchange_pivot x l = some (y, rest) →
    x < y ∧ y ∈ l ∧ (y :: rest).Perm (x :: l) ∧ List.Pairwise (fun a b => a ≤ b) rest ∧
      ∀ z ∈ l, x < z → y ≤ z
  | [], _, _, _, h => by simp [exchange_pivot] at h
  | a :: as, y, rest, hs, h => by
    rw [List.pairwise_cons] at hs
    simp only [exchange_pivot] at h
    split_ifs at h with hlt
    · simp only [Option.some.injEq, Prod.mk.injEq] at h
      obtain ⟨h1, h2⟩ := h
      subst h1 h2
      refine ⟨hlt, List.mem_cons_self _ _, List.Perm.swap _ _ _, ?_, ?_⟩
      · rw [List.pairwise_cons]
        exact ⟨fun b hb => by have := hs.1 b hb; omega, hs.2⟩
      · intro z hz _
        rcases List.mem_cons.1 hz with he | hm
        · omega
        · exact hs.1 z hm
    · simp only [Option.map_eq_some', Prod.mk.injEq] at h
      obtain ⟨⟨y', r'⟩, hr, hy, hrest⟩ := h
      simp only at hy hrest
      subst hy hrest
      obtain ⟨e1, e2, e3, e4, e5⟩ := exchange_pivot_some x as y' r' hs.2 hr
      refine ⟨e1, List.mem_cons_of_mem _ e2, ?_, ?_, ?_⟩
      · exact ((List.Perm.swap a y' r').trans ((List.perm_cons a).2 e3)).trans
          (List.Perm.swap x a as)
      · rw [List.pairwise_cons]
        refine ⟨?_, e4⟩
        intro b hb
        have hb' : b ∈ x :: as := e3.subset (List.mem_cons_of_mem _ hb)
        rcases List.mem_cons.1 hb' with he | hm
        · omega
        · exact hs.1 b hm
      · intro z hz hxz
        rcases List.mem_cons.1 hz with he | hm
        · omega
        · exact e5 z hm hxz

theorem next_permutation_none : ∀ (l : List Nat), next_permutation l = none →
    List.Pairwise (fun a b => b ≤ a) l
  | [], _ => List.Pairwise.nil
  | x :: xs, h => by
    simp only [next_permutation] at h
    cases hn : next_permutation xs with
    | some xs' => rw [hn] at h; simp at h
    | none =>
      rw [hn] at h
      simp only [Option.map_eq_none'] at h
      rw [List.pairwise_cons]
      refine ⟨?_, next_permutation_none xs hn⟩
      intro b hb
      exact exchange_pivot_none x xs.reverse h b (List.mem_reverse.2 hb)

/-- The arrangement returned by `next_permutation` is a permutation that comes later in
lexicographic order, and no permutation lies between the two. -/
theorem next_permutation_some : ∀ (l l' : List Nat), next_permutation l = some l' →
    l'.Perm l ∧ l < l' ∧ ∀ m : List Nat, m.Perm l → l < m → l' ≤ m
  | [], _, h => by simp [next_permutation] at h
  | x :: xs, l', h => by
    simp only [next_permutation] at h
    cases hn : next_permutation xs with
    | some xs' =>
      rw [hn] at h
      simp only [Option.some.injEq] at h
      subst h
      obtain ⟨i1, i2, i3⟩ := next_permutation_some xs xs' hn
      refine ⟨(List.perm_cons x).2 i1, (cons_lt_cons_iff' _ _ _ _).2 (Or.inr ⟨rfl, i2⟩), ?_⟩
      intro m hm hlt
      cases m with
      | nil => exact absurd hm.symm (List.cons_ne_nil _ _ ∘ List.perm_nil.1)
      | cons b bs =>
        rw [cons_le_cons_iff']
        rcases (cons_lt_cons_iff' _ _ _ _).1 hlt with hxb | ⟨hxb, hlt'⟩
        · exact Or.inl hxb
        · subst hxb
          exact Or.inr ⟨rfl, i3 bs ((List.perm_cons x).1 hm) hlt'⟩
    | none =>
      rw [hn] at h
      simp only [Option.map_eq_some'] at h
      obtain ⟨⟨y, rest⟩, hr, hl'⟩ := h
      simp only at hl'
      subst hl'
      have hdesc := next_permutation_none xs hn
      have hasc : List.Pairwise (fun a b => a ≤ b) xs.reverse := List.pairwise_reverse.2 hdesc
      obtain ⟨e1, e2, e3, e4, e5⟩ := exchange_pivot_some x xs.reverse y rest hasc hr
      have hperm : (y :: rest).Perm (x :: xs) :=
        e3.trans ((List.perm_cons x).2 (List.reverse_perm xs))
      refine ⟨hperm, (cons_lt_cons_iff' _ _ _ _).2 (Or.inl e1), ?_⟩
      intro m hm hlt
      cases m with
      | nil => exact absurd hm.symm (List.cons_ne_nil _ _ ∘ List.perm_nil.1)
      | cons b bs =>
        rw [cons_le_cons_iff']
        rcases (cons_lt_cons_iff' _ _ _ _).1 hlt with hxb | ⟨hxb, hlt'⟩
        · have hb : b ∈ x :: xs := hm.subset (List.mem_cons_self _ _)
          have hbxs : b ∈ xs.reverse := by
            rcases List.mem_cons.1 hb with he | hmem
            · omega
            · exact List.mem_reverse.2 hmem
          have hyb := e5 b hbxs hxb
          rcases Nat.lt_or_ge y b with hlt2 | hge
          · exact Or.inl hlt2
          · have hyb' : y = b := by omega
            subst hyb'
            have hbs : bs.Perm rest := (List.perm_cons y).1 (hm.trans hperm.symm)
            exact Or.inr ⟨rfl, le_of_perm_nondecreasing rest bs e4 hbs⟩
        · subst hxb
          have := le_of_perm_nonincreasing xs bs hdesc ((List.perm_cons x).1 hm)
          exact absurd hlt' (not_lt.2 this)

theorem countP_lt_of_imp {α : Type} (p q : α → Bool) : ∀ (l : List α),
    (∀ x ∈ l, p x = true → q x = true) → (∃ x ∈ l, q x = true ∧ p x = false) →
    l.countP p < l.countP q
  | [], _, h => by
    obtain ⟨x, hx, _⟩ := h
    simp at hx
  | a :: as, himp, hex => by
    have hle : as.countP p ≤ as.countP q :=
      List.countP_mono_left (fun x hx => himp x (List.mem_cons_of_mem _ hx))
    obtain ⟨x, hx, hq, hp⟩ := hex
    rcases List.mem_cons.1 hx with he | hm
    · subst he
      rw [List.countP_cons_of_pos _ _ hq, List.countP_cons_of_neg _ _ (by simp [hp])]
      omega
    · have ih := countP_lt_of_imp p q as (fun y hy => himp y (List.mem_cons_of_mem _ hy))
        ⟨x, hm, hq, hp⟩
      by_cases hpa : p a = true
      · rw [List.countP_cons_of_pos _ _ hpa,
          List.countP_cons_of_pos _ _ (himp a (List.mem_cons_self _ _) hpa)]
        omega
      · rw [List.countP_cons_of_neg _ _ hpa]
        by_cases hqa : q a = true
        · rw [List.countP_cons_of_pos _ _ hqa]
          omega
        · rw [List.countP_cons_of_neg _ _ hqa]
          exact ih

/-- The loop over the arrangements is left before `fuel` iterations when the number of
permutations after the current one is smaller than `fuel`, provided the convex optimizer
returns on every permutation. -/
theorem select_loop_returns {K : Type} [LinearOrder K]
    (opt : List Nat → Option (K × List Int)) (l : List Nat)
    (htot : ∀ m : List Nat, m.Perm l → ∃ res, opt m = some res) :
    ∀ (fuel : Nat) (cur : List Nat) (best : K × List Nat × List Int), cur.Perm l →
    l.permutations.countP (fun m => decide (cur < m)) < fuel →
    ∃ res, select_loop opt fuel cur best = some res
  | 0, _, _, _, h => by omega
  | fuel + 1, cur, best, hcur, hcount => by
    obtain ⟨r0, hr0⟩ := htot cur hcur
    simp only [select_loop, hr0]
    cases hn : next_permutation cur with
    | none => exact ⟨_, rfl⟩
    | some nxt =>
      obtain ⟨n1, n2, _⟩ := next_permutation_some cur nxt hn
      have hnxt : nxt.Perm l := n1.trans hcur
      apply select_loop_returns opt l htot fuel nxt _ hnxt
      have : l.permutations.countP (fun m => decide (nxt < m)) <
          l.permutations.countP (fun m => decide (cur < m)) := by
        apply countP_lt_of_imp
        · intro x _ hx
          simp only [decide_eq_true_eq] at hx ⊢
          exact lt_trans n2 hx
        · exact ⟨nxt, List.mem_permutations.2 hnxt, by simpa using n2, by simp⟩
      omega

theorem select_loop_spec {K : Type} [LinearOrder K]
    (opt : List Nat → Option (K × List Int)) (inf : K) (l : List Nat) :
    ∀ (fuel : Nat) (cur : List Nat) (best res : K × List Nat × List Int), cur.Perm l →
    best.1 ≤ inf →
    (∀ (m : List Nat) (r : K × List Int), m.Perm l → m < cur → opt m = some r → best.1 ≤ r.1) →
    (best.1 < inf → best.2.1.Perm l ∧ best.2.1 < cur ∧ opt best.2.1 = some (best.1, best.2.2) ∧
      ∀ (m : List Nat) (r : K × List Int), m.Perm l → m < cur → opt m = some r →
        r.1 = best.1 → best.2.1 ≤ m) →
    select_loop opt fuel cur best = some res →
    res.1 ≤ inf ∧
    (∀ (m : List Nat) (r : K × List Int), m.Perm l → opt m = some r → res.1 ≤ r.1) ∧
    (res.1 < inf → res.2.1.Perm l ∧ opt res.2.1 = some (res.1, res.2.2) ∧
      ∀ (m : List Nat) (r : K × List Int), m.Perm l → opt m = some r → r.1 = res.1 →
        res.2.1 ≤ m)
  | 0, _, _, _, _, _, _, _, h => by simp [select_loop] at h
  | fuel + 1, cur, best, res, hcur, hinf, hmin, hbest, h => by
    simp only [select_loop] at h
    cases hr0 : opt cur with
    | none => rw [hr0] at h; simp at h
    | some r0 =>
      rw [hr0] at h
      simp only at h
      -- the state after the comparison, for all permutations up to the current one
      have key : ∀ best' : K × List Nat × List Int,
          best' = (if r0.1 < best.1 then (r0.1, cur, r0.2) else best) →
          best'.1 ≤ inf ∧
          (∀ (m : List Nat) (r : K × List Int), m.Perm l → m ≤ cur → opt m = some r →
            best'.1 ≤ r.1) ∧
          (best'.1 < inf → best'.2.1.Perm l ∧ best'.2.1 ≤ cur ∧
            opt best'.2.1 = some (best'.1, best'.2.2) ∧
            ∀ (m : List Nat) (r : K × List Int), m.Perm l → m ≤ cur → opt m = some r →
              r.1 = best'.1 → best'.2.1 ≤ m) := by
        intro best' hb'
        by_cases hlt : r0.1 < best.1
        · rw [if_pos hlt] at hb'
          subst hb'
          refine ⟨le_trans (le_of_lt hlt) hinf, ?_, ?_⟩
          · intro m r hm hle hr
            rcases lt_or_eq_of_le hle with h1 | h1
            · exact le_trans (le_of_lt hlt) (hmin m r hm h1 hr)
            · subst h1
              rw [hr0] at hr
              simp only [Option.some.injEq] at hr
              subst hr
              exact le_refl _
          · intro _
            refine ⟨hcur, le_refl _, hr0, ?_⟩
            intro m r hm hle hr heq
            rcases lt_or_eq_of_le hle with h1 | h1
            · have := hmin m r hm h1 hr
              simp only at heq
              rw [heq] at this
              exact absurd hlt (not_lt.2 this)
            · exact le_of_eq h1.symm
        · rw [if_neg hlt] at hb'
          rw [hb']
          have hge : best.1 ≤ r0.1 := not_lt.1 hlt
          refine ⟨hinf, ?_, ?_⟩
          · intro m r hm hle hr
            rcases lt_or_eq_of_le hle with h1 | h1
            · exact hmin m r hm h1 hr
            · subst h1
              rw [hr0] at hr
              simp only [Option.some.injEq] at hr
              subst hr
              exact hge
          · intro hfin
            obtain ⟨b1, b2, b3, b4⟩ := hbest hfin
            refine ⟨b1, le_of_lt b2, b3, ?_⟩
            intro m r hm hle hr heq
            rcases lt_or_eq_of_le hle with h1 | h1
            · exact b4 m r hm h1 hr heq
            · subst h1
              exact le_of_lt b2
      obtain ⟨k1, k2, k3⟩ := key _ rfl
      cases hn : next_permutation cur with
      | none =>
        rw [hn] at h
        simp only [Option.some.injEq] at h
        subst h
        have hall : ∀ m : List Nat, m.Perm l → m ≤ cur := fun m hm =>
          le_of_perm_nonincreasing cur m (next_permutation_none cur hn) (hm.trans hcur.symm)
        refine ⟨k1, fun m r hm hr => k2 m r hm (hall m hm) hr, ?_⟩
        intro hfin
        obtain ⟨c1, _, c3, c4⟩ := k3 hfin
        exact ⟨c1, c3, fun m r hm hr heq => c4 m r hm (hall m hm) hr heq⟩
      | some nxt =>
        rw [hn] at h
        simp only at h
        obtain ⟨n1, n2, n3⟩ := next_permutation_some cur nxt hn
        have hbefore : ∀ m : List Nat, m.Perm l → m < nxt → m ≤ cur := by
          intro m hm hlt
          by_contra hcon
          have := n3 m (hm.trans hcur.symm) (not_le.1 hcon)
          exact absurd hlt (not_lt.2 this)
        refine select_loop_spec opt inf l fuel nxt _ res (n1.trans hcur) k1
          (fun m r hm hlt hr => k2 m r hm (hbefore m hm hlt) hr) ?_ h
        intro hfin
        obtain ⟨c1, c2, c3, c4⟩ := k3 hfin
        exact ⟨c1, lt_of_le_of_lt c2 n2, c3,
          fun m r hm hlt hr heq => c4 m r hm (hbefore m hm hlt) hr heq⟩

theorem select_order_spec {K : Type} [LinearOrder K]
    (opt : List Nat → Option (K × List Int)) (inf : K) (cells : List Nat)
    (best : K × List Nat × List Int) (h : select_order opt inf cells = some best) :
    best.1 < inf ∧ best.2.1.Perm cells ∧ opt best.2.1 = some (best.1, best.2.2) ∧
    (∀ (m : List Nat) (r : K × List Int), m.Perm cells → opt m = some r → best.1 ≤ r.1) ∧
    (∀ (m : List Nat) (r : K × List Int), m.Perm cells → opt m = some r → r.1 = best.1 →
      best.2.1 ≤ m) := by
  unfold select_order at h
  cases hl : select_loop opt cells.length.factorial (List.insertionSort (· ≤ ·) cells)
      (inf, cells, List.replicate cells.length 0) with
  | none => rw [hl] at h; simp at h
  | some res =>
    rw [hl] at h
    simp only at h
    split_ifs at h with hfin
    simp only [Option.some.injEq] at h
    subst h
    have hsorted : List.Pairwise (fun a b : Nat => a ≤ b) (List.insertionSort (· ≤ ·) cells) :=
      List.sorted_insertionSort (· ≤ ·) cells
    have hperm := List.perm_insertionSort (fun a b : Nat => a ≤ b) cells
    have hfirst : ∀ m : List Nat, m.Perm cells → ¬ m < List.insertionSort (· ≤ ·) cells :=
      fun m hm => not_lt.2 (le_of_perm_nondecreasing _ m hsorted (hm.trans hperm.symm))
    obtain ⟨_, s2, s3⟩ := select_loop_spec opt inf cells cells.length.factorial
      (List.insertionSort (· ≤ ·) cells) (inf, cells, List.replicate cells.length 0) res hperm
      (le_refl _) (fun m r hm hlt _ => absurd hlt (hfirst m hm))
      (fun hlt => absurd hlt (lt_irrefl _)) hl
    obtain ⟨t1, t2, t3⟩ := s3 hfin
    exact ⟨hfin, t1, t2, s2, t3⟩

/-- The search for the best arrangement returns when the convex optimizer returns a cost
below `inf` on every permutation of the window: the `cells.length!` iterations granted to
the loop are enough. -/
theorem select_order_returns {K : Type} [LinearOrder K]
    (opt : List Nat → Option (K × List Int)) (inf : K) (cells : List Nat)
    (htot : ∀ m : List Nat, m.Perm cells → ∃ res, opt m = some res ∧ res.1 < inf) :
    ∃ best, select_order opt inf cells = some best := by
  have hperm := List.perm_insertionSort (fun a b : Nat => a ≤ b) cells
  have hcount : cells.permutations.countP
      (fun m => decide (List.insertionSort (· ≤ ·) cells < m)) < cells.length.factorial := by
    rw [← List.length_permutations cells]
    have : cells.permutations.countP
        (fun m => decide (List.insertionSort (· ≤ ·) cells < m)) <
        cells.permutations.countP (fun _ => true) := by
      apply countP_lt_of_imp
      · intro _ _ _
        rfl
      · exact ⟨_, List.mem_permutations.2 hperm, rfl, by simp⟩
    rw [List.countP_true] at this
    exact this
  obtain ⟨res, hres⟩ := select_loop_returns opt cells
    (fun m hm => by obtain ⟨r, hr, _⟩ := htot m hm; exact ⟨r, hr⟩)
    cells.length.factorial (List.insertionSort (· ≤ ·) cells)
    (inf, cells, List.replicate cells.length 0) hperm hcount
  have hspec := select_loop_spec opt inf cells cells.length.factorial
      (List.insertionSort (· ≤ ·) cells) (inf, cells, List.replicate cells.length 0) res hperm
      (le_refl _)
      (fun m r hm hlt _ => absurd hlt (not_lt.2 (le_of_perm_nondecreasing _ m
        (List.sorted_insertionSort (· ≤ ·) cells) (hm.trans hperm.symm))))
      (fun hlt => absurd hlt (lt_irrefl _)) hres
  obtain ⟨r, hr, hrlt⟩ := htot cells (List.Perm.refl _)
  have hfin : res.1 < inf := lt_of_le_of_lt (hspec.2.1 cells r (List.Perm.refl _) hr) hrlt
  refine ⟨res, ?_⟩
  unfold select_order
  rw [hres]
  simp only
  rw [if_pos hfin]

/-- C21: when `swap_in_rows` has processed the window `cells`, the arrangement `perm` it
has committed is a permutation of the window with the positions that the convex optimizer
returned for it; its cost is at most the cost that the optimizer returns for any
permutation of the window, the arrangement before included, and among the permutations of
that same cost it is the first in lexicographic order. -/
theorem process_window_commits_best {K : Type} [LinearOrder K]
    (optimize : detailed_placement → List Nat → Int → Int → Option (K × List Int)) (inf : K)
    (pl pl' : detailed_placement) (r : Nat) (cells perm : List Nat) (hne : cells ≠ [])
    (h : process_window optimize inf pl r cells = some (pl', perm)) :
    ∃ (before_row after_row : Nat) (lower_lim upper_lim : Int) (cost : K)
      (positions : List Int),
      limit_low pl before_row = some lower_lim ∧ limit_up pl after_row = some upper_lim ∧
      optimize pl perm lower_lim upper_lim = some (cost, positions) ∧ cost < inf ∧
      perm.Perm cells ∧
      commit_window pl r before_row after_row perm positions = some pl' ∧
      (∀ (m : List Nat) (res : K × List Int), m.Perm cells →
        optimize pl m lower_lim upper_lim = some res → cost ≤ res.1) ∧
      (∀ (m : List Nat) (res : K × List Int), m.Perm cells →
        optimize pl m lower_lim upper_lim = some res → res.1 = cost → perm ≤ m) := by
  unfold process_window at h
  split at h
  · split at h
    · split at h
      · rename_i efront eback _ _
        split at h
        · rename_i lower_lim upper_lim hlow hup
          split at h
          · exact absurd h (by simp)
          · rename_i best hbest
            simp only [Option.map_eq_some', Prod.mk.injEq] at h
            obtain ⟨pl2, hcommit, hpl, hperm⟩ := h
            subst hpl hperm
            obtain ⟨s1, s2, s3, s4, s5⟩ :=
              select_order_spec (fun cs => optimize pl cs lower_lim upper_lim) inf cells best
                hbest
            exact ⟨efront.1, eback.2, lower_lim, upper_lim, best.1, best.2.2, hlow, hup, s3, s1,
              s2, hcommit, s4, s5⟩
        · exact absurd h (by simp)
      · exact absurd h (by simp)
    · exact absurd h (by simp)
  · rename_i hnone
    exfalso
    cases cells with
    | nil => exact hne rfl
    | cons c cs =>
      exact hnone c ((c :: cs).getLast (List.cons_ne_nil _ _)) rfl
        (List.getLast?_eq_getLast _ _)

set_option maxRecDepth 100000 in
theorem process_window_commits_best_witness :
    ([0, 1, 2] : List Nat) ≠ [] ∧
    process_window packed_optimizer 1000 window_placement 0 [0, 1, 2]
      = some (window_rearranged, [2, 0, 1]) ∧
    ∃ (before_row after_row : Nat) (lower_lim upper_lim : Int) (cost : Int)
      (positions : List Int),
      limit_low window_placement before_row = some lower_lim ∧
      limit_up window_placement after_row = some upper_lim ∧
      packed_optimizer window_placement [2, 0, 1] lower_lim upper_lim = some (cost, positions) ∧
      cost < 1000 ∧ List.Perm [2, 0, 1] [0, 1, 2] ∧
      commit_window window_placement 0 before_row after_row [2, 0, 1] positions
        = some window_rearranged ∧
      (∀ (m : List Nat) (res : Int × List Int), m.Perm [0, 1, 2] →
        packed_optimizer window_placement m lower_lim upper_lim = some res → cost ≤ res.1) ∧
      (∀ (m : List Nat) (res : Int × List Int), m.Perm [0, 1, 2] →
        packed_optimizer window_placement m lower_lim upper_lim = some res → res.1 = cost →
        [2, 0, 1] ≤ m) :=
  ⟨by decide, by decide,
    process_window_commits_best packed_optimizer 1000 window_placement window_rearranged 0
      [0, 1, 2] [2, 0, 1] (by decide) (by decide)⟩

/-! ## Theorems: the arcs of the flow problem -/

theorem gather_eq_flatMap {α β : Type} (f : α → Option (List β)) (g : α → List β) :
    ∀ (l : List α), (∀ a ∈ l, f a = some (g a)) → gather f l = some (l.flatMap g)
  | [], _ => rfl
  | a :: as, h => by
    have h1 := h a (List.mem_cons_self _ _)
    have h2 := gather_eq_flatMap f g as (fun b hb => h b (List.mem_cons_of_mem _ hb))
    simp only [gather, h1, h2, List.flatMap_cons]

theorem x_movable_some (circuit : netlist) (c : Nat) (h : c < circuit.cells.length) :
    ∃ m, x_movable circuit c = some m := by
  unfold x_movable
  rw [List.getElem?_eq_getElem h]
  exact ⟨_, rfl⟩

theorem slot_arcs_as_claimed (circuit : netlist) (pl : detailed_placement)
    (hcheck : selfcheck pl = true) (hlen : circuit.cells.length = pl.cells_.length)
    (i : Nat) (c : internal_cell) (hc : pl.cells_[i]? = some c) (k : Nat) (hk : k < c.height) :
    slot_ordering_arcs circuit pl i c (c.neighbours_begin + k) =
      some (claimed_slot_arcs circuit pl i (c.neighbours_begin + k)) := by
  obtain ⟨_, e, he, _, hsucc⟩ := selfcheck_slots pl hcheck i c hc k hk
  rw [Nat.add_comm] at he
  have hi : i < circuit.cells.length := by
    rw [hlen]
    exact (List.getElem?_eq_some_iff.1 hc).1
  obtain ⟨mi, hmi⟩ := x_movable_some circuit i hi
  unfold slot_ordering_arcs claimed_slot_arcs
  simp only [he, hc]
  by_cases hnull : e.2 = null_ind
  · simp [hnull]
  · rcases hsucc with ⟨_, oc, _, _, hoc, hpos, _⟩ | ⟨h1, _⟩
    · have ho : e.2 < circuit.cells.length := by
        rw [hlen]
        exact (List.getElem?_eq_some_iff.1 hoc).1
      obtain ⟨mo, hmo⟩ := x_movable_some circuit e.2 ho
      simp only [hnull, if_false, hoc, hpos, not_true_eq_false, hmi, hmo]
      cases mi <;> cases mo <;> simp [claimed_ordering_arc]
    · exact absurd h1 hnull

/-- C23: on a placement that passes `selfcheck`, with as many cells as the netlist, the
first loop of `optimize_positions` pushes, for the row-slots of the cells taken in order,
the arcs `claimed_slot_arcs`; for a row-slot in which the cell `L` has the right neighbour
`R` this is one arc from the node of `R` to the node of `L` with cost `-width(L)` when both
are x-movable, one arc from `fixed` to the node of `L` with cost `x(R) - width(L)` when only
`L` is, one arc from the node of `R` to `fixed` with cost `-x(L) - width(L)` when only `R`
is, and no arc when neither is. -/
theorem ordering_arcs_claimed (circuit : netlist) (pl : detailed_placement)
    (hcheck : selfcheck pl = true) (hlen : circuit.cells.length = pl.cells_.length) :
    ordering_arcs circuit pl = some (claimed_ordering_arcs circuit pl) ∧
    ∀ (L R : Nat) (cL cR : internal_cell) (k : Nat) (e : Nat × Nat) (mL mR : Bool),
      pl.cells_[L]? = some cL → k < cL.height →
      pl.neighbours_[cL.neighbours_begin + k]? = some e → e.2 = R → R ≠ null_ind →
      pl.cells_[R]? = some cR → x_movable circuit L = some mL → x_movable circuit R = some mR →
      claimed_slot_arcs circuit pl L (cL.neighbours_begin + k) =
        (if mL && mR then [⟨flow_node.cell R, flow_node.cell L, -cL.width⟩]
        else if mL then [⟨flow_node.fixed, flow_node.cell L, cR.position_x - cL.width⟩]
        else if mR then [⟨flow_node.cell R, flow_node.fixed, -cL.position_x - cL.width⟩]
        else []) := by
  constructor
  · unfold ordering_arcs claimed_ordering_arcs
    apply gather_eq_flatMap
    intro i hi
    have hi' : i < pl.cells_.length := by
      rw [← hlen]
      exact List.mem_range.1 hi
    have hc : pl.cells_[i]? = some pl.cells_[i] := List.getElem?_eq_getElem hi'
    unfold cell_ordering_arcs
    simp only [hc]
    apply gather_eq_flatMap
    intro k hk
    exact slot_arcs_as_claimed circuit pl hcheck hlen i _ hc k (List.mem_range.1 hk)
  · intro L R cL cR k e mL mR hL _ he hR hnull hcR hmL hmR
    subst hR
    unfold claimed_slot_arcs
    simp only [hL, he, hnull, if_false, hcR, hmL, hmR]
    rfl

theorem ordering_arcs_claimed_witness :
    selfcheck example_placement = true ∧
    mixed_circuit.cells.length = example_placement.cells_.length ∧
    ordering_arcs mixed_circuit example_placement =
      some [⟨flow_node.fixed, flow_node.cell 0, 0⟩, ⟨flow_node.cell 4, flow_node.fixed, -5⟩,
        ⟨flow_node.cell 2, flow_node.fixed, -5⟩, ⟨flow_node.fixed, flow_node.cell 3, 1⟩] ∧
    claimed_ordering_arcs mixed_circuit example_placement =
      [⟨flow_node.fixed, flow_node.cell 0, 0⟩, ⟨flow_node.cell 4, flow_node.fixed, -5⟩,
        ⟨flow_node.cell 2, flow_node.fixed, -5⟩, ⟨flow_node.fixed, flow_node.cell 3, 1⟩] :=
  ⟨by decide, by decide,
    (ordering_arcs_claimed mixed_circuit example_placement (by decide) (by decide)).1.trans
      (by decide),
    by decide⟩

/-! ## Theorems: potentials that respect the arcs -/

theorem ordering_arcs_built (circuit : netlist) (pl : detailed_placement)
    (hcheck : selfcheck pl = true) (hlen : circuit.cells.length = pl.cells_.length) :
    ordering_arcs circuit pl = some (claimed_ordering_arcs circuit pl) := by
  unfold ordering_arcs claimed_ordering_arcs
  apply gather_eq_flatMap
  intro i hi
  have hi' : i < pl.cells_.length := by
    rw [← hlen]
    exact List.mem_range.1 hi
  have hc : pl.cells_[i]? = some pl.cells_[i] := List.getElem?_eq_getElem hi'
  unfold cell_ordering_arcs
  simp only [hc]
  apply gather_eq_flatMap
  intro k hk
  exact slot_arcs_as_claimed circuit pl hcheck hlen i _ hc k (List.mem_range.1 hk)

theorem gather_some {α β : Type} (f : α → Option (List β)) :
    ∀ (l : List α), (∀ a ∈ l, ∃ x, f a = some x) →
    gather f l = some (l.flatMap fun a => (f a).getD [])
  | [], _ => rfl
  | a :: as, h => by
    obtain ⟨x, hx⟩ := h a (List.mem_cons_self _ _)
    have h2 := gather_some f as (fun b hb => h b (List.mem_cons_of_mem _ hb))
    simp only [gather, hx, h2, List.flatMap_cons, Option.getD_some]

theorem row_first_valid (pl : detailed_placement) (hinv : row_invariant pl) (r c : Nat)
    (h : pl.row_first_cells_[r]? = some c) (hc : c ≠ null_ind) :
    ∃ cell, pl.cells_[c]? = some cell := by
  obtain ⟨n, _, hn, _⟩ := hinv.first_exact r c h hc
  obtain ⟨cell, hcell, _⟩ := neighbour_index_some _ _ _ _ hn
  exact ⟨cell, hcell⟩

theorem row_last_valid (pl : detailed_placement) (hinv : row_invariant pl) (r c : Nat)
    (h : pl.row_last_cells_[r]? = some c) (hc : c ≠ null_ind) :
    ∃ cell, pl.cells_[c]? = some cell := by
  obtain ⟨n, _, hn, _⟩ := hinv.last_exact r c h hc
  obtain ⟨cell, hcell, _⟩ := neighbour_index_some _ _ _ _ hn
  exact ⟨cell, hcell⟩

theorem first_cell_arcs_some (circuit : netlist) (pl : detailed_placement)
    (hinv : row_invariant pl) (hlen : circuit.cells.length = pl.cells_.length) (r : Nat)
    (hr : r < pl.row_cnt) : ∃ x, first_cell_arcs circuit pl r = some x := by
  unfold detailed_placement.row_cnt at hr
  unfold first_cell_arcs
  rw [List.getElem?_eq_getElem hr]
  simp only
  by_cases hnull : pl.row_first_cells_[r] = null_ind
  · exact ⟨_, by rw [if_pos hnull]⟩
  · rw [if_neg hnull]
    obtain ⟨cell, hcell⟩ := row_first_valid pl hinv r _ (List.getElem?_eq_getElem hr) hnull
    obtain ⟨m, hm⟩ := x_movable_some circuit pl.row_first_cells_[r] (by
      rw [hlen]
      exact (List.getElem?_eq_some_iff.1 hcell).1)
    rw [hm]
    cases m <;> exact ⟨_, rfl⟩

theorem last_cell_arcs_some (circuit : netlist) (pl : detailed_placement)
    (hinv : row_invariant pl) (hlen : circuit.cells.length = pl.cells_.length) (r : Nat)
    (hr : r < pl.row_cnt) : ∃ x, last_cell_arcs circuit pl r = some x := by
  unfold detailed_placement.row_cnt at hr
  have hlast : r < pl.row_last_cells_.length := by
    have := ((selfcheck_iff pl).1 hinv.checked).1
    omega
  unfold last_cell_arcs
  rw [List.getElem?_eq_getElem hlast]
  simp only
  by_cases hnull : pl.row_last_cells_[r] = null_ind
  · exact ⟨_, by rw [if_pos hnull]⟩
  · rw [if_neg hnull]
    obtain ⟨cell, hcell⟩ := row_last_valid pl hinv r _ (List.getElem?_eq_getElem hlast) hnull
    obtain ⟨m, hm⟩ := x_movable_some circuit pl.row_last_cells_[r] (by
      rw [hlen]
      exact (List.getElem?_eq_some_iff.1 hcell).1)
    rw [hm]
    cases m
    · exact ⟨_, rfl⟩
    · simp only [hcell]
      exact ⟨_, rfl⟩

theorem boundary_arcs_some (circuit : netlist) (pl : detailed_placement)
    (hinv : row_invariant pl) (hlen : circuit.cells.length = pl.cells_.length) :
    boundary_arcs circuit pl = some
      (((List.range pl.row_cnt).flatMap fun r => (first_cell_arcs circuit pl r).getD []) ++
        (List.range pl.row_cnt).flatMap fun r => (last_cell_arcs circuit pl r).getD []) := by
  unfold boundary_arcs
  rw [gather_some (first_cell_arcs circuit pl) _ (fun r hr =>
      first_cell_arcs_some circuit pl hinv hlen r (List.mem_range.1 hr)),
    gather_some (last_cell_arcs circuit pl) _ (fun r hr =>
      last_cell_arcs_some circuit pl hinv hlen r (List.mem_range.1 hr))]

/-- The arc of a row-slot is one of the ordering arcs. -/
theorem claimed_slot_arcs_subset (circuit : netlist) (pl : detailed_placement) (L : Nat)
    (cL : internal_cell) (k : Nat) (hL : pl.cells_[L]? = some cL) (hk : k < cL.height)
    (hlen : circuit.cells.length = pl.cells_.length) (a : arc_pair)
    (ha : a ∈ claimed_slot_arcs circuit pl L (cL.neighbours_begin + k)) :
    a ∈ claimed_ordering_arcs circuit pl := by
  unfold claimed_ordering_arcs
  rw [List.mem_flatMap]
  refine ⟨L, List.mem_range.2 (by rw [hlen]; exact (List.getElem?_eq_some_iff.1 hL).1), ?_⟩
  simp only [hL]
  rw [List.mem_flatMap]
  exact ⟨k, List.mem_range.2 hk, ha⟩

/-- The inequality between the new abscissas of a cell `L` and of its right neighbour `R`
that the ordering arc of their row-slot enforces. -/
theorem ordering_arc_enforces (circuit : netlist) (pl : detailed_placement)
    (potential : flow_node → Int) (L R : Nat) (cL cR : internal_cell) (mL mR : Bool)
    (hL : pl.cells_[L]? = some cL) (hR : pl.cells_[R]? = some cR)
    (hmL : x_movable circuit L = some mL) (hmR : x_movable circuit R = some mR)
    (hm : mL = true ∨ mR = true)
    (hfeas : ∀ a ∈ claimed_ordering_arc L R cL cR mL mR,
      potential a.target - potential a.source ≤ a.cost)
    (xL xR : Int) (hxL : new_abscissa circuit pl potential L = some xL)
    (hxR : new_abscissa circuit pl potential R = some xR) : xL + cL.width ≤ xR := by
  unfold new_abscissa at hxL hxR
  rw [hL, hmL] at hxL
  rw [hR, hmR] at hxR
  cases mL <;> cases mR
  · simp at hm
  · simp only [Option.some.injEq] at hxL hxR
    have := hfeas ⟨flow_node.cell R, flow_node.fixed, -cL.position_x - cL.width⟩
      (by simp [claimed_ordering_arc])
    simp only at this
    omega
  · simp only [Option.some.injEq] at hxL hxR
    have := hfeas ⟨flow_node.fixed, flow_node.cell L, cR.position_x - cL.width⟩
      (by simp [claimed_ordering_arc])
    simp only at this
    omega
  · simp only [Option.some.injEq] at hxL hxR
    have := hfeas ⟨flow_node.cell R, flow_node.cell L, -cL.width⟩
      (by simp [claimed_ordering_arc])
    simp only at this
    omega

/-- C27: on a placement with the row invariant, with as many cells as the netlist, the
ordering arcs and the row-boundary arcs of `optimize_positions` are built, and every
assignment of potentials that respects them gives abscissas (potential of the node counted
from the potential of `fixed` for an x-movable cell, recorded abscissa otherwise) with
`x(L) + width(L) ≤ x(R)` for every row-slot in which `L` has the right neighbour `R` and
one of the two is x-movable, `min_x ≤ x` for an x-movable first cell of a row and
`x + width ≤ max_x` for an x-movable last cell of a row. -/
theorem feasible_potentials_legal (circuit : netlist) (pl : detailed_placement)
    (hinv : row_invariant pl) (hlen : circuit.cells.length = pl.cells_.length) :
    ∃ oarcs barcs, ordering_arcs circuit pl = some oarcs ∧
      boundary_arcs circuit pl = some barcs ∧
      ∀ potential : flow_node → Int, potentials_feasible (oarcs ++ barcs) potential →
        (∀ (L R : Nat) (cL cR : internal_cell) (k : Nat) (e : Nat × Nat) (mL mR : Bool)
          (xL xR : Int), pl.cells_[L]? = some cL → k < cL.height →
          pl.neighbours_[cL.neighbours_begin + k]? = some e → e.2 = R → R ≠ null_ind →
          pl.cells_[R]? = some cR → x_movable circuit L = some mL →
          x_movable circuit R = some mR → (mL = true ∨ mR = true) →
          new_abscissa circuit pl potential L = some xL →
          new_abscissa circuit pl potential R = some xR → xL + cL.width ≤ xR) ∧
        (∀ (r lc : Nat) (x : Int), pl.row_first_cells_[r]? = some lc → lc ≠ null_ind →
          x_movable circuit lc = some true → new_abscissa circuit pl potential lc = some x →
          pl.min_x_ ≤ x) ∧
        (∀ (r rc : Nat) (cell : internal_cell) (x : Int), pl.row_last_cells_[r]? = some rc →
          rc ≠ null_ind → x_movable circuit rc = some true → pl.cells_[rc]? = some cell →
          new_abscissa circuit pl potential rc = some x → x + cell.width ≤ pl.max_x_) := by
  have hlens := ((selfcheck_iff pl).1 hinv.checked).1
  refine ⟨_, _, (ordering_arcs_built circuit pl hinv.checked hlen),
    boundary_arcs_some circuit pl hinv hlen, ?_⟩
  intro potential hfeas
  refine ⟨?_, ?_, ?_⟩
  · intro L R cL cR k e mL mR xL xR hL hk he hR hnull hcR hmL hmR hm hxL hxR
    subst hR
    apply ordering_arc_enforces circuit pl potential L e.2 cL cR mL mR hL hcR hmL hmR hm _ xL xR
      hxL hxR
    intro a ha
    apply hfeas a
    apply List.mem_append_left
    apply claimed_slot_arcs_subset circuit pl L cL k hL hk hlen
    unfold claimed_slot_arcs
    simp only [hL, he, hnull, if_false, hcR, hmL, hmR]
    exact ha
  · intro r lc x hr hnull hm hx
    obtain ⟨cell, hcell⟩ := row_first_valid pl hinv r lc hr hnull
    have hrlt : r < pl.row_cnt := (List.getElem?_eq_some_iff.1 hr).1
    have hmem : (⟨flow_node.cell lc, flow_node.fixed, -pl.min_x_⟩ : arc_pair) ∈
        (List.range pl.row_cnt).flatMap fun r => (first_cell_arcs circuit pl r).getD [] := by
      rw [List.mem_flatMap]
      refine ⟨r, List.mem_range.2 hrlt, ?_⟩
      simp [first_cell_arcs, hr, hnull, hm]
    have := hfeas _ (List.mem_append_right _ (List.mem_append_left _ hmem))
    unfold new_abscissa at hx
    rw [hcell, hm] at hx
    simp only [Option.some.injEq] at hx
    simp only at this
    omega
  · intro r rc cell x hr hnull hm hcell hx
    have hrlt : r < pl.row_cnt := by
      have := (List.getElem?_eq_some_iff.1 hr).1
      unfold detailed_placement.row_cnt
      omega
    have hmem : (⟨flow_node.fixed, flow_node.cell rc, pl.max_x_ - cell.width⟩ : arc_pair) ∈
        (List.range pl.row_cnt).flatMap fun r => (last_cell_arcs circuit pl r).getD [] := by
      rw [List.mem_flatMap]
      refine ⟨r, List.mem_range.2 hrlt, ?_⟩
      simp [last_cell_arcs, hr, hnull, hm, hcell]
    have := hfeas _ (List.mem_append_right _ (List.mem_append_right _ hmem))
    unfold new_abscissa at hx
    rw [hcell, hm] at hx
    simp only [Option.some.injEq] at hx
    simp only at this
    omega

theorem feasible_potentials_legal_witness :
    row_invariant example_placement ∧
    mixed_circuit.cells.length = example_placement.cells_.length ∧
    ∃ oarcs barcs, ordering_arcs mixed_circuit example_placement = some oarcs ∧
      boundary_arcs mixed_circuit example_placement = some barcs ∧
      ∀ potential : flow_node → Int, potentials_feasible (oarcs ++ barcs) potential →
        (∀ (L R : Nat) (cL cR : internal_cell) (k : Nat) (e : Nat × Nat) (mL mR : Bool)
          (xL xR : Int), example_placement.cells_[L]? = some cL → k < cL.height →
          example_placement.neighbours_[cL.neighbours_begin + k]? = some e → e.2 = R →
          R ≠ null_ind → example_placement.cells_[R]? = some cR →
          x_movable mixed_circuit L = some mL → x_movable mixed_circuit R = some mR →
          (mL = true ∨ mR = true) →
          new_abscissa mixed_circuit example_placement potential L = some xL →
          new_abscissa mixed_circuit example_placement potential R = some xR →
          xL + cL.width ≤ xR) ∧
        (∀ (r lc : Nat) (x : Int), example_placement.row_first_cells_[r]? = some lc →
          lc ≠ null_ind → x_movable mixed_circuit lc = some true →
          new_abscissa mixed_circuit example_placement potential lc = some x →
          example_placement.min_x_ ≤ x) ∧
        (∀ (r rc : Nat) (cell : internal_cell) (x : Int),
          example_placement.row_last_cells_[r]? = some rc → rc ≠ null_ind →
          x_movable mixed_circuit rc = some true →
          example_placement.cells_[rc]? = some cell →
          new_abscissa mixed_circuit example_placement potential rc = some x →
          x + cell.width ≤ example_placement.max_x_) :=
  ⟨example_invariant, rfl,
    feasible_potentials_legal mixed_circuit example_placement example_invariant rfl⟩

/-! ## Theorems: the coordinates written by the global optimizer -/

theorem write_potentials_spec (circuit : netlist) (potential : flow_node → Int) :
    ∀ (l : List Nat) (pl : detailed_placement),
    circuit.cells.length = pl.cells_.length → (∀ c ∈ l, c < circuit.cells.length) →
    ∃ pl', write_potentials circuit potential l pl = some pl' ∧
      pl'.min_x_ = pl.min_x_ ∧ pl'.max_x_ = pl.max_x_ ∧ pl'.y_origin_ = pl.y_origin_ ∧
      pl'.neighbours_ = pl.neighbours_ ∧ pl'.row_first_cells_ = pl.row_first_cells_ ∧
      pl'.row_last_cells_ = pl.row_last_cells_ ∧
      ∀ i, pl'.cells_[i]? = (pl.cells_[i]?).map fun cell =>
        if i ∈ l then moved_cell circuit potential i cell else cell
  | [], pl, _, _ => ⟨pl, rfl, rfl, rfl, rfl, rfl, rfl, rfl, fun i => by simp⟩
  | c :: cs, pl, hlen, hl => by
    have hc : c < circuit.cells.length := hl c (List.mem_cons_self _ _)
    obtain ⟨m, hm⟩ := x_movable_some circuit c hc
    unfold write_potentials
    rw [hm]
    cases m with
    | false =>
      obtain ⟨pl', h, h1, h2, h3, h4, h5, h6, h7⟩ := write_potentials_spec circuit potential cs
        pl hlen (fun b hb => hl b (List.mem_cons_of_mem _ hb))
      refine ⟨pl', h, h1, h2, h3, h4, h5, h6, ?_⟩
      intro i
      rw [h7 i]
      cases pl.cells_[i]? with
      | none => rfl
      | some cell =>
        simp only [Option.map_some', List.mem_cons]
        by_cases hi : i = c
        · subst hi
          simp [moved_cell, hm]
        · simp [hi]
    | true =>
      simp only
      rw [if_pos (by omega)]
      obtain ⟨pl', h, h1, h2, h3, h4, h5, h6, h7⟩ := write_potentials_spec circuit potential cs
        (set_position_x pl c (potential (flow_node.cell c) - potential flow_node.fixed))
        (by simp [set_position_x, hlen]) (fun b hb => hl b (List.mem_cons_of_mem _ hb))
      refine ⟨pl', h, h1, h2, h3, h4, h5, h6, ?_⟩
      intro i
      rw [h7 i]
      simp only [set_position_x, List.getElem?_modify]
      cases pl.cells_[i]? with
      | none => rfl
      | some cell =>
        simp only [Option.map_eq_map, Option.map_some', List.mem_cons]
        by_cases hi : c = i
        · subst hi
          by_cases hcs : c ∈ cs <;> simp [moved_cell, hm, hcs]
        · have hi' : ¬ i = c := fun h => hi h.symm
          simp [hi, hi']

/-- The placement after the last loop of `optimize_positions`: only the abscissas of the
x-movable cells have changed. -/
theorem write_potentials_range (circuit : netlist) (potential : flow_node → Int)
    (pl : detailed_placement) (hlen : circuit.cells.length = pl.cells_.length) :
    ∃ pl', write_potentials circuit potential (List.range circuit.cells.length) pl = some pl' ∧
      pl'.min_x_ = pl.min_x_ ∧ pl'.max_x_ = pl.max_x_ ∧ pl'.y_origin_ = pl.y_origin_ ∧
      pl'.neighbours_ = pl.neighbours_ ∧ pl'.row_first_cells_ = pl.row_first_cells_ ∧
      pl'.row_last_cells_ = pl.row_last_cells_ ∧
      ∀ i, pl'.cells_[i]? = (pl.cells_[i]?).map (moved_cell circuit potential i) := by
  obtain ⟨pl', h, h1, h2, h3, h4, h5, h6, h7⟩ := write_potentials_spec circuit potential
    (List.range circuit.cells.length) pl hlen (fun c hc => List.mem_range.1 hc)
  refine ⟨pl', h, h1, h2, h3, h4, h5, h6, ?_⟩
  intro i
  rw [h7 i]
  cases hc : pl.cells_[i]? with
  | none => rfl
  | some cell =>
    have : i < circuit.cells.length := by
      rw [hlen]
      exact (List.getElem?_eq_some_iff.1 hc).1
    simp [List.mem_range, this]

theorem moved_cell_fields (circuit : netlist) (potential : flow_node → Int) (i : Nat)
    (cell : internal_cell) :
    (moved_cell circuit potential i cell).width = cell.width ∧
    (moved_cell circuit potential i cell).height = cell.height ∧
    (moved_cell circuit potential i cell).row = cell.row ∧
    (moved_cell circuit potential i cell).neighbours_begin = cell.neighbours_begin ∧
    (moved_cell circuit potential i cell).x_orientation = cell.x_orientation ∧
    (moved_cell circuit potential i cell).position_y = cell.position_y ∧
    (moved_cell circuit potential i cell).y_orientation = cell.y_orientation := by
  unfold moved_cell
  split_ifs <;> exact ⟨rfl, rfl, rfl, rfl, rfl, rfl, rfl⟩

theorem moved_cell_abscissa (circuit : netlist) (pl : detailed_placement)
    (potential : flow_node → Int) (i : Nat) (cell : internal_cell) (m : Bool)
    (hc : pl.cells_[i]? = some cell) (hm : x_movable circuit i = some m) :
    new_abscissa circuit pl potential i =
      some (moved_cell circuit potential i cell).position_x := by
  unfold new_abscissa moved_cell
  rw [hc, hm]
  cases m <;> simp

theorem neighbour_index_moved (circuit : netlist) (potential : flow_node → Int)
    (cells cells' : List internal_cell)
    (h : ∀ i, cells'[i]? = (cells[i]?).map (moved_cell circuit potential i)) (c r : Nat) :
    neighbour_index cells' c r = neighbour_index cells c r := by
  unfold neighbour_index
  rw [h c]
  cases cells[c]? with
  | none => rfl
  | some cell =>
    obtain ⟨_, h2, h3, h4, _⟩ := moved_cell_fields circuit potential c cell
    simp only [Option.map_some', h2, h3, h4]

/-- A cell and its right neighbour after the coordinates have been written: they do not
overlap, by the ordering arc when one of them is x-movable and as before otherwise. -/
theorem moved_pair_ordered (circuit : netlist) (pl : detailed_placement)
    (potential : flow_node → Int) (hlen : circuit.cells.length = pl.cells_.length)
    (hfeas : potentials_feasible (claimed_ordering_arcs circuit pl) potential)
    (L R : Nat) (cL cR : internal_cell) (k : Nat) (e : Nat × Nat)
    (hL : pl.cells_[L]? = some cL) (hk : k < cL.height)
    (he : pl.neighbours_[cL.neighbours_begin + k]? = some e) (hR : e.2 = R)
    (hnull : R ≠ null_ind) (hcR : pl.cells_[R]? = some cR)
    (hold : cL.position_x + cL.width ≤ cR.position_x) :
    (moved_cell circuit potential L cL).position_x + cL.width ≤
      (moved_cell circuit potential R cR).position_x := by
  obtain ⟨mL, hmL⟩ := x_movable_some circuit L (by
    rw [hlen]
    exact (List.getElem?_eq_some_iff.1 hL).1)
  obtain ⟨mR, hmR⟩ := x_movable_some circuit R (by
    rw [hlen]
    exact (List.getElem?_eq_some_iff.1 hcR).1)
  by_cases hm : mL = true ∨ mR = true
  · subst hR
    apply ordering_arc_enforces circuit pl potential L e.2 cL cR mL mR hL hcR hmL hmR hm _ _ _
      (moved_cell_abscissa circuit pl potential L cL mL hL hmL)
      (moved_cell_abscissa circuit pl potential e.2 cR mR hcR hmR)
    intro a ha
    apply hfeas a
    apply claimed_slot_arcs_subset circuit pl L cL k hL hk hlen
    unfold claimed_slot_arcs
    simp only [hL, he, hnull, if_false, hcR, hmL, hmR]
    exact ha
  · have h1 : mL = false := by cases mL <;> simp_all
    have h2 : mR = false := by cases mR <;> simp_all
    subst h1 h2
    simp only [moved_cell, hmL, hmR]
    simpa using hold

/-- The placement with the coordinates written by `optimize_positions` passes `selfcheck`
when the potentials respect the ordering arcs. -/
theorem moved_selfcheck (circuit : netlist) (pl pl' : detailed_placement)
    (potential : flow_node → Int) (hlay : pl.cells_.length ≤ null_ind)
    (hcheck : selfcheck pl = true) (hlen : circuit.cells.length = pl.cells_.length)
    (hfeas : potentials_feasible (claimed_ordering_arcs circuit pl) potential)
    (hn : pl'.neighbours_ = pl.neighbours_) (hf : pl'.row_first_cells_ = pl.row_first_cells_)
    (hl : pl'.row_last_cells_ = pl.row_last_cells_)
    (hcells : ∀ i, pl'.cells_[i]? = (pl.cells_[i]?).map (moved_cell circuit potential i)) :
    selfcheck pl' = true := by
  have hni := neighbour_index_moved circuit potential pl.cells_ pl'.cells_ hcells
  apply selfcheck_of_slots
  · rw [hf, hl]
    exact ((selfcheck_iff pl).1 hcheck).1
  · intro i c' hc' l hlt
    rw [hcells i] at hc'
    cases hc : pl.cells_[i]? with
    | none => simp [hc] at hc'
    | some c =>
      rw [hc] at hc'
      simp only [Option.map_some', Option.some.injEq] at hc'
      subst hc'
      obtain ⟨hw, hh, hr, hnb, _⟩ := moved_cell_fields circuit potential i c
      rw [hh] at hlt
      obtain ⟨hrows, e, he, hpred, hsucc⟩ := selfcheck_slots pl hcheck i c hc l hlt
      have hinot : i ≠ null_ind := by
        have := (List.getElem?_eq_some_iff.1 hc).1
        omega
      rw [hh, hr, hnb]
      refine ⟨by unfold detailed_placement.row_cnt at hrows ⊢; rw [hf]; exact hrows, e,
        by rw [hn]; exact he, ?_, ?_⟩
      · rcases hpred with ⟨hp, oc, k, e', hoc, hpos, hk, he', hback⟩ | ⟨hp, hfirst⟩
        · left
          refine ⟨hp, moved_cell circuit potential e.1 oc, k, e', by rw [hcells, hoc]; rfl, ?_,
            by rw [hni]; exact hk, by rw [hn]; exact he', hback⟩
          obtain ⟨cell, hcell, hrow1, hrow2, hkk⟩ := neighbour_index_some _ _ _ _ hk
          rw [hoc] at hcell
          cases hcell
          rw [(moved_cell_fields circuit potential e.1 oc).1]
          exact moved_pair_ordered circuit pl potential hlen hfeas e.1 i oc c
            (c.row + l - oc.row) e' hoc hrow2 (by rw [← hkk]; exact he') hback hinot hc hpos
        · right
          exact ⟨hp, by rw [hf]; exact hfirst⟩
      · rcases hsucc with ⟨hs, oc, k, e', hoc, hpos, hk, he', hback⟩ | ⟨hs, hlast⟩
        · left
          refine ⟨hs, moved_cell circuit potential e.2 oc, k, e', by rw [hcells, hoc]; rfl, ?_,
            by rw [hni]; exact hk, by rw [hn]; exact he', hback⟩
          rw [hw]
          exact moved_pair_ordered circuit pl potential hlen hfeas i e.2 c oc l e hc hlt
            (by rw [Nat.add_comm]; exact he) rfl hs hoc hpos
        · right
          exact ⟨hs, by rw [hl]; exact hlast⟩
theorem net_bounds_range (circuit : netlist) (pl : detailed_placement) :
    ∀ (ps : List pin_t) (b : ℚ × ℚ × ℚ × ℚ),
    (∀ p ∈ ps, ∃ pos, pin_pos circuit pl p = some pos) →
    ∃ b', net_bounds circuit pl ps b = some b' ∧ b'.1 ≤ b.1 ∧ b.2.2.1 ≤ b'.2.2.1 ∧
      (∀ p ∈ ps, ∀ pos, pin_pos circuit pl p = some pos →
        b'.1 ≤ pos.1 ∧ pos.1 ≤ b'.2.2.1) ∧
      (b'.1 = b.1 ∨ ∃ p ∈ ps, ∃ pos, pin_pos circuit pl p = some pos ∧ b'.1 = pos.1) ∧
      (b'.2.2.1 = b.2.2.1 ∨
        ∃ p ∈ ps, ∃ pos, pin_pos circuit pl p = some pos ∧ b'.2.2.1 = pos.1)
  | [], b, _ => ⟨b, rfl, le_refl _, le_refl _, fun p hp => by simp at hp, Or.inl rfl, Or.inl rfl⟩
  | p :: ps, b, h => by
    obtain ⟨pos, hpos⟩ := h p (List.mem_cons_self _ _)
    obtain ⟨b', hb', h1, h2, h3, h4, h5⟩ := net_bounds_range circuit pl ps
      (min b.1 pos.1, min b.2.1 pos.2, max b.2.2.1 pos.1, max b.2.2.2 pos.2)
      (fun q hq => h q (List.mem_cons_of_mem _ hq))
    simp only at h1 h2 h4 h5
    refine ⟨b', by simp only [net_bounds, hpos, hb'], ?_, ?_, ?_, ?_, ?_⟩
    · exact le_trans h1 (min_le_left _ _)
    · exact le_trans (le_max_left _ _) h2
    · intro q hq qpos hqpos
      rcases List.mem_cons.1 hq with rfl | hq
      · rw [hpos] at hqpos
        cases hqpos
        exact ⟨le_trans h1 (min_le_right _ _), le_trans (le_max_right _ _) h2⟩
      · exact h3 q hq qpos hqpos
    · rcases h4 with h4 | ⟨q, hq, qpos, hqpos, hqe⟩
      · rcases min_choice b.1 pos.1 with hm | hm
        · left
          rw [h4, hm]
        · right
          exact ⟨p, List.mem_cons_self _ _, pos, hpos, by rw [h4, hm]⟩
      · right
        exact ⟨q, List.mem_cons_of_mem _ hq, qpos, hqpos, hqe⟩
    · rcases h5 with h5 | ⟨q, hq, qpos, hqpos, hqe⟩
      · rcases max_choice b.2.2.1 pos.1 with hm | hm
        · left
          rw [h5, hm]
        · right
          exact ⟨p, List.mem_cons_self _ _, pos, hpos, by rw [h5, hm]⟩
      · right
        exact ⟨q, List.mem_cons_of_mem _ hq, qpos, hqpos, hqe⟩

/-- The bounds of a net with a pin: both are the abscissa of a pin of the net, and the
abscissas of all pins lie between them. -/
theorem net_bounds_x_spec (circuit : netlist) (pl : detailed_placement) (pins : List pin_t)
    (hne : pins ≠ []) (h : ∀ p ∈ pins, ∃ pos, pin_pos circuit pl p = some pos) :
    ∃ mn mx, net_bounds_x circuit pl pins = some (mn, mx) ∧
      (∀ p ∈ pins, ∀ pos, pin_pos circuit pl p = some pos → mn ≤ pos.1 ∧ pos.1 ≤ mx) ∧
      (∃ p ∈ pins, ∃ pos, pin_pos circuit pl p = some pos ∧ mn = pos.1) ∧
      (∃ p ∈ pins, ∃ pos, pin_pos circuit pl p = some pos ∧ mx = pos.1) := by
  cases pins with
  | nil => exact absurd rfl hne
  | cons p ps =>
    obtain ⟨pos, hpos⟩ := h p (List.mem_cons_self _ _)
    obtain ⟨b', hb', h1, h2, h3, h4, h5⟩ := net_bounds_range circuit pl ps
      (pos.1, pos.2, pos.1, pos.2) (fun q hq => h q (List.mem_cons_of_mem _ hq))
    simp only at h1 h2 h4 h5
    refine ⟨b'.1, b'.2.2.1, by simp only [net_bounds_x, hpos, hb', Option.map_some'], ?_, ?_, ?_⟩
    · intro q hq qpos hqpos
      rcases List.mem_cons.1 hq with rfl | hq
      · rw [hpos] at hqpos
        cases hqpos
        exact ⟨h1, h2⟩
      · exact h3 q hq qpos hqpos
    · rcases h4 with h4 | ⟨q, hq, qpos, hqpos, hqe⟩
      · exact ⟨p, List.mem_cons_self _ _, pos, hpos, h4⟩
      · exact ⟨q, List.mem_cons_of_mem _ hq, qpos, hqpos, hqe⟩
    · rcases h5 with h5 | ⟨q, hq, qpos, hqpos, hqe⟩
      · exact ⟨p, List.mem_cons_self _ _, pos, hpos, h5⟩
      · exact ⟨q, List.mem_cons_of_mem _ hq, qpos, hqpos, hqe⟩

theorem float_to_int_cast (k : Int) : float_to_int (k : ℚ) = k := by
  unfold float_to_int
  rw [Rat.num_intCast, Rat.den_intCast]
  exact Int.tdiv_one k

/-- When the pin lies at the integer distance `k` from the left edge of its cell, `pin_offs`
is `k`: no fraction is dropped. -/
theorem pin_offs_grid (cell : internal_cell) (p : pin_t) (k : Int)
    (h : (cell.width : ℚ) / 2 +
      (if cell.x_orientation then p.offset_x else -p.offset_x) = k) :
    pin_offs cell p = k := by
  unfold pin_offs
  rw [h]
  exact float_to_int_cast k

/-- With pins on the grid, the abscissa of a pin in `get_nets_cost` is the abscissa of the
cell plus the integer `pin_offs`. -/
theorem pin_pos_grid (circuit : netlist) (pl : detailed_placement) (pins : List pin_t)
    (p : pin_t) (cell : internal_cell) (hgrid : pins_on_grid circuit pl)
    (hpins : pins ∈ circuit.nets) (hp : p ∈ pins)
    (hi : p.cell_ind < circuit.cells.length)
    (hc : pl.cells_[p.cell_ind]? = some cell) :
    ∃ pos, pin_pos circuit pl p = some pos ∧
      pos.1 = ((cell.position_x + pin_offs cell p : Int) : ℚ) := by
  have hs := hgrid.1 p.cell_ind cell _ hc (List.getElem?_eq_getElem hi)
  obtain ⟨k, hk⟩ := hgrid.2 pins hpins p hp cell hc
  have hpos : pin_pos circuit pl p = some
      ((if cell.x_orientation then p.offset_x else -p.offset_x) + cell.position_x +
          (circuit.cells[p.cell_ind].size_x : ℚ) / 2,
        (if cell.y_orientation then p.offset_y else -p.offset_y) + cell.position_y +
          (circuit.cells[p.cell_ind].size_y : ℚ) / 2) := by
    simp only [pin_pos, hc, List.getElem?_eq_getElem hi]
  refine ⟨_, hpos, ?_⟩
  simp only
  rw [hs, pin_offs_grid cell p k hk, Int.cast_add, ← hk]
  ring

theorem pin_offs_moved (circuit : netlist) (potential : flow_node → Int) (i : Nat)
    (cell : internal_cell) (p : pin_t) :
    pin_offs (moved_cell circuit potential i cell) p = pin_offs cell p := by
  obtain ⟨h1, _, _, _, h5, _⟩ := moved_cell_fields circuit potential i cell
  unfold pin_offs
  rw [h1, h5]

theorem pins_on_grid_moved (circuit : netlist) (pl pl' : detailed_placement)
    (potential : flow_node → Int) (hgrid : pins_on_grid circuit pl)
    (hcells : ∀ i, pl'.cells_[i]? = (pl.cells_[i]?).map (moved_cell circuit potential i)) :
    pins_on_grid circuit pl' := by
  constructor
  · intro c cell' nc hc' hnc
    rw [hcells c] at hc'
    cases hc : pl.cells_[c]? with
    | none => simp [hc] at hc'
    | some cell =>
      rw [hc] at hc'
      simp only [Option.map_some', Option.some.injEq] at hc'
      subst hc'
      rw [(moved_cell_fields circuit potential c cell).1]
      exact hgrid.1 c cell nc hc hnc
  · intro pins hpins p hp cell' hc'
    rw [hcells p.cell_ind] at hc'
    cases hc : pl.cells_[p.cell_ind]? with
    | none => simp [hc] at hc'
    | some cell =>
      rw [hc] at hc'
      simp only [Option.map_some', Option.some.injEq] at hc'
      subst hc'
      obtain ⟨h1, _, _, _, h5, _⟩ := moved_cell_fields circuit potential p.cell_ind cell
      rw [h1, h5]
      exact hgrid.2 pins hpins p hp cell hc

theorem sum_nets_eq (f : Nat → Option ℚ) (g : Nat → ℚ) :
    ∀ (l : List Nat), (∀ n ∈ l, f n = some (g n)) → sum_nets f l = some ((l.map g).sum)
  | [], _ => rfl
  | n :: ns, h => by
    have h1 := h n (List.mem_cons_self _ _)
    have h2 := sum_nets_eq f g ns (fun m hm => h m (List.mem_cons_of_mem _ hm))
    simp only [sum_nets, h1, h2, List.map_cons, List.sum_cons]

theorem objective_net_supplies (circuit : netlist) (potential : flow_node → Int) :
    potentials_objective (net_supplies circuit) potential =
      ((List.range circuit.nets.length).map fun n =>
        potential (flow_node.Unet n) - potential (flow_node.Lnet n)).sum := by
  unfold potentials_objective net_supplies
  induction List.range circuit.nets.length with
  | nil => rfl
  | cons n ns ih =>
    simp only [List.flatMap_cons, List.map_append, List.sum_append, ih, List.map_cons,
      List.map_nil, List.sum_cons, List.sum_nil]
    ring
theorem mem_claimed_ordering_arcs (circuit : netlist) (pl : detailed_placement) (a : arc_pair)
    (ha : a ∈ claimed_ordering_arcs circuit pl) :
    ∃ (L : Nat) (cL cR : internal_cell) (k : Nat) (e : Nat × Nat) (mL mR : Bool),
      pl.cells_[L]? = some cL ∧ k < cL.height ∧
      pl.neighbours_[cL.neighbours_begin + k]? = some e ∧ e.2 ≠ null_ind ∧
      pl.cells_[e.2]? = some cR ∧ x_movable circuit L = some mL ∧
      x_movable circuit e.2 = some mR ∧ a ∈ claimed_ordering_arc L e.2 cL cR mL mR := by
  unfold claimed_ordering_arcs at ha
  rw [List.mem_flatMap] at ha
  obtain ⟨L, _, ha⟩ := ha
  cases hL : pl.cells_[L]? with
  | none => simp [hL] at ha
  | some cL =>
    simp only [hL] at ha
    rw [List.mem_flatMap] at ha
    obtain ⟨k, hk, ha⟩ := ha
    unfold claimed_slot_arcs at ha
    simp only [hL] at ha
    cases he : pl.neighbours_[cL.neighbours_begin + k]? with
    | none => simp [he] at ha
    | some e =>
      simp only [he] at ha
      by_cases hnull : e.2 = null_ind
      · simp [hnull] at ha
      · simp only [hnull, if_false] at ha
        cases hcR : pl.cells_[e.2]? with
        | none => simp [hcR] at ha
        | some cR =>
          cases hmL : x_movable circuit L with
          | none => simp [hcR, hmL] at ha
          | some mL =>
            cases hmR : x_movable circuit e.2 with
            | none => simp [hcR, hmL, hmR] at ha
            | some mR =>
              simp only [hcR, hmL, hmR] at ha
              exact ⟨L, cL, cR, k, e, mL, mR, hL, List.mem_range.1 hk, he, hnull, hcR, hmL,
                hmR, ha⟩

theorem pin_arcs_claimed (circuit : netlist) (pl : detailed_placement) (n : Nat) (p : pin_t)
    (cell : internal_cell) (m : Bool) (hc : pl.cells_[p.cell_ind]? = some cell)
    (hm : x_movable circuit p.cell_ind = some m) :
    pin_arcs circuit pl n p = some (claimed_pin_arcs n p cell m) := by
  unfold pin_arcs claimed_pin_arcs
  rw [hc, hm]
  cases m <;> rfl

theorem pin_arcs_some (circuit : netlist) (pl : detailed_placement)
    (hlen : circuit.cells.length = pl.cells_.length) (n : Nat) (p : pin_t)
    (hp : p.cell_ind < circuit.cells.length) :
    ∃ cell m, pl.cells_[p.cell_ind]? = some cell ∧ x_movable circuit p.cell_ind = some m ∧
      pin_arcs circuit pl n p = some (claimed_pin_arcs n p cell m) := by
  obtain ⟨m, hm⟩ := x_movable_some circuit p.cell_ind hp
  have hc : pl.cells_[p.cell_ind]? = some pl.cells_[p.cell_ind] :=
    List.getElem?_eq_getElem (by omega)
  exact ⟨_, m, hc, hm, pin_arcs_claimed circuit pl n p _ m hc hm⟩

theorem net_arcs_some (circuit : netlist) (pl : detailed_placement)
    (hlen : circuit.cells.length = pl.cells_.length) (hnets : nets_valid circuit) (n : Nat)
    (hn : n < circuit.nets.length) :
    ∃ pins, circuit.nets[n]? = some pins ∧ pins ≠ [] ∧
      (∀ p ∈ pins, p.cell_ind < circuit.cells.length) ∧
      net_arcs circuit pl n = some (pins.flatMap fun p => (pin_arcs circuit pl n p).getD []) := by
  have hpins : circuit.nets[n]? = some circuit.nets[n] := List.getElem?_eq_getElem hn
  obtain ⟨hne, hvalid⟩ := hnets _ (List.getElem_mem hn)
  refine ⟨_, hpins, hne, hvalid, ?_⟩
  unfold net_arcs
  rw [hpins]
  simp only
  rw [if_neg hne]
  apply gather_some
  intro p hp
  obtain ⟨cell, m, _, _, h⟩ := pin_arcs_some circuit pl hlen n p (hvalid p hp)
  exact ⟨_, h⟩

/-- The arcs for the pins of the nets: an arc is pushed by the last loop over the nets
exactly when it is one of the two arcs of a pin of a net. -/
theorem mem_net_arcs (circuit : netlist) (pl : detailed_placement)
    (hlen : circuit.cells.length = pl.cells_.length) (hnets : nets_valid circuit)
    (a : arc_pair) :
    a ∈ ((List.range circuit.nets.length).flatMap fun n => (net_arcs circuit pl n).getD []) ↔
    ∃ (n : Nat) (pins : List pin_t) (p : pin_t) (cell : internal_cell) (m : Bool),
      circuit.nets[n]? = some pins ∧ p ∈ pins ∧ pl.cells_[p.cell_ind]? = some cell ∧
      x_movable circuit p.cell_ind = some m ∧ a ∈ claimed_pin_arcs n p cell m := by
  rw [List.mem_flatMap]
  constructor
  · rintro ⟨n, hn, ha⟩
    obtain ⟨pins, hpins, _, hvalid, harcs⟩ := net_arcs_some circuit pl hlen hnets n
      (List.mem_range.1 hn)
    rw [harcs, Option.getD_some, List.mem_flatMap] at ha
    obtain ⟨p, hp, ha⟩ := ha
    obtain ⟨cell, m, hc, hm, h⟩ := pin_arcs_some circuit pl hlen n p (hvalid p hp)
    rw [h, Option.getD_some] at ha
    exact ⟨n, pins, p, cell, m, hpins, hp, hc, hm, ha⟩
  · rintro ⟨n, pins, p, cell, m, hpins, hp, hc, hm, ha⟩
    have hn : n < circuit.nets.length := (List.getElem?_eq_some_iff.1 hpins).1
    refine ⟨n, List.mem_range.2 hn, ?_⟩
    obtain ⟨pins', hpins', _, _, harcs⟩ := net_arcs_some circuit pl hlen hnets n hn
    rw [hpins] at hpins'
    cases hpins'
    rw [harcs, Option.getD_some, List.mem_flatMap]
    refine ⟨p, hp, ?_⟩
    rw [pin_arcs_claimed circuit pl n p cell m hc hm, Option.getD_some]
    exact ha

/-- The arcs handed to the solver: the ordering arcs, then the arcs of the row ends, then
the arcs of the pins. -/
theorem constraint_arcs_some (circuit : netlist) (pl : detailed_placement)
    (hinv : row_invariant pl) (hlen : circuit.cells.length = pl.cells_.length)
    (hnets : nets_valid circuit) :
    constraint_arcs circuit pl = some
      (claimed_ordering_arcs circuit pl ++
        (((List.range pl.row_cnt).flatMap fun r => (first_cell_arcs circuit pl r).getD []) ++
          (List.range pl.row_cnt).flatMap fun r => (last_cell_arcs circuit pl r).getD []) ++
        (List.range circuit.nets.length).flatMap fun n => (net_arcs circuit pl n).getD []) := by
  unfold constraint_arcs
  rw [ordering_arcs_built circuit pl hinv.checked hlen,
    boundary_arcs_some circuit pl hinv hlen,
    gather_some (net_arcs circuit pl) _ (fun n hn => by
      obtain ⟨_, _, _, _, h⟩ := net_arcs_some circuit pl hlen hnets n (List.mem_range.1 hn)
      exact ⟨_, h⟩)]

theorem mem_first_cell_arcs (circuit : netlist) (pl : detailed_placement) (a : arc_pair)
    (ha : a ∈ (List.range pl.row_cnt).flatMap fun r => (first_cell_arcs circuit pl r).getD []) :
    ∃ (r lc : Nat), pl.row_first_cells_[r]? = some lc ∧ lc ≠ null_ind ∧
      a = ⟨flow_node.cell lc, flow_node.fixed, -pl.min_x_⟩ := by
  rw [List.mem_flatMap] at ha
  obtain ⟨r, _, ha⟩ := ha
  unfold first_cell_arcs at ha
  cases hlc : pl.row_first_cells_[r]? with
  | none => simp [hlc] at ha
  | some lc =>
    simp only [hlc] at ha
    by_cases hnull : lc = null_ind
    · simp [hnull] at ha
    · rw [if_neg hnull] at ha
      cases hm : x_movable circuit lc with
      | none => simp [hm] at ha
      | some m =>
        cases m with
        | false => simp [hm] at ha
        | true =>
          simp only [hm, Option.getD_some, List.mem_singleton] at ha
          exact ⟨r, lc, hlc, hnull, ha⟩

theorem mem_last_cell_arcs (circuit : netlist) (pl : detailed_placement) (a : arc_pair)
    (ha : a ∈ (List.range pl.row_cnt).flatMap fun r => (last_cell_arcs circuit pl r).getD []) :
    ∃ (r rc : Nat) (cell : internal_cell), pl.row_last_cells_[r]? = some rc ∧ rc ≠ null_ind ∧
      pl.cells_[rc]? = some cell ∧
      a = ⟨flow_node.fixed, flow_node.cell rc, pl.max_x_ - cell.width⟩ := by
  rw [List.mem_flatMap] at ha
  obtain ⟨r, _, ha⟩ := ha
  unfold last_cell_arcs at ha
  cases hrc : pl.row_last_cells_[r]? with
  | none => simp [hrc] at ha
  | some rc =>
    simp only [hrc] at ha
    by_cases hnull : rc = null_ind
    · simp [hnull] at ha
    · rw [if_neg hnull] at ha
      cases hm : x_movable circuit rc with
      | none => simp [hm] at ha
      | some m =>
        cases m with
        | false => simp [hm] at ha
        | true =>
          cases hcell : pl.cells_[rc]? with
          | none => simp [hm, hcell] at ha
          | some cell =>
            simp only [hm, hcell, Option.getD_some, List.mem_singleton] at ha
            exact ⟨r, rc, cell, hrc, hnull, hcell, ha⟩

theorem placement_potential_net (circuit : netlist) (pl : detailed_placement) (n : Nat)
    (pins : List pin_t) (mn mx : Int) (hpins : circuit.nets[n]? = some pins)
    (hb : net_bounds_x circuit pl pins = some ((mn : ℚ), (mx : ℚ))) :
    placement_potential circuit pl (flow_node.Lnet n) = mn ∧
    placement_potential circuit pl (flow_node.Unet n) = mx := by
  simp [placement_potential, hpins, hb, float_to_int_cast]

theorem placement_potential_cell (circuit : netlist) (pl : detailed_placement) (c : Nat)
    (cell : internal_cell) (hc : pl.cells_[c]? = some cell) :
    placement_potential circuit pl (flow_node.cell c) = cell.position_x := by
  simp [placement_potential, hc]

/-- The bounds of the pins of a net, with pins on the grid: the smallest and the largest of
the integer abscissas `x + pin_offs` of the pins. -/
theorem net_bounds_grid (circuit : netlist) (pl : detailed_placement)
    (hgrid : pins_on_grid circuit pl) (hlen : circuit.cells.length = pl.cells_.length)
    (pins : List pin_t) (hpins : pins ∈ circuit.nets) (hne : pins ≠ [])
    (hvalid : ∀ p ∈ pins, p.cell_ind < circuit.cells.length) :
    ∃ mn mx : Int, net_bounds_x circuit pl pins = some ((mn : ℚ), (mx : ℚ)) ∧
      (∀ p ∈ pins, ∀ cell, pl.cells_[p.cell_ind]? = some cell →
        mn ≤ cell.position_x + pin_offs cell p ∧ cell.position_x + pin_offs cell p ≤ mx) ∧
      (∃ p ∈ pins, ∃ cell, pl.cells_[p.cell_ind]? = some cell ∧
        mn = cell.position_x + pin_offs cell p) ∧
      (∃ p ∈ pins, ∃ cell, pl.cells_[p.cell_ind]? = some cell ∧
        mx = cell.position_x + pin_offs cell p) := by
  have hcell : ∀ p ∈ pins, ∃ cell, pl.cells_[p.cell_ind]? = some cell := fun p hp =>
    ⟨_, List.getElem?_eq_getElem (by have := hvalid p hp; omega)⟩
  have hpos : ∀ p ∈ pins, ∀ cell, pl.cells_[p.cell_ind]? = some cell →
      ∀ pos, pin_pos circuit pl p = some pos →
        pos.1 = ((cell.position_x + pin_offs cell p : Int) : ℚ) := by
    intro p hp cell hc pos hpos
    obtain ⟨pos', h1, h2⟩ := pin_pos_grid circuit pl pins p cell hgrid hpins hp (hvalid p hp) hc
    rw [h1] at hpos
    cases hpos
    exact h2
  obtain ⟨mn, mx, hb, hall, ⟨p1, hp1, pos1, hpos1, hmn⟩, ⟨p2, hp2, pos2, hpos2, hmx⟩⟩ :=
    net_bounds_x_spec circuit pl pins hne (fun p hp => by
      obtain ⟨cell, hc⟩ := hcell p hp
      obtain ⟨pos, h, _⟩ := pin_pos_grid circuit pl pins p cell hgrid hpins hp (hvalid p hp) hc
      exact ⟨pos, h⟩)
  obtain ⟨cell1, hc1⟩ := hcell p1 hp1
  obtain ⟨cell2, hc2⟩ := hcell p2 hp2
  have e1 := hpos p1 hp1 cell1 hc1 pos1 hpos1
  have e2 := hpos p2 hp2 cell2 hc2 pos2 hpos2
  refine ⟨cell1.position_x + pin_offs cell1 p1, cell2.position_x + pin_offs cell2 p2,
    by rw [hb, hmn, hmx, e1, e2], ?_, ⟨p1, hp1, cell1, hc1, rfl⟩, ⟨p2, hp2, cell2, hc2, rfl⟩⟩
  intro p hp cell hc
  obtain ⟨pos, h, hval⟩ := pin_pos_grid circuit pl pins p cell hgrid hpins hp (hvalid p hp) hc
  have := hall p hp pos h
  rw [hmn, hmx, e1, e2, hval] at this
  exact ⟨by exact_mod_cast this.1, by exact_mod_cast this.2⟩

theorem nets_mem (circuit : netlist) (n : Nat) (pins : List pin_t)
    (hpins : circuit.nets[n]? = some pins) : pins ∈ circuit.nets := by
  obtain ⟨hn, rfl⟩ := List.getElem?_eq_some_iff.1 hpins
  exact List.getElem_mem hn

theorem nets_valid_get (circuit : netlist) (hnets : nets_valid circuit) (n : Nat)
    (pins : List pin_t) (hpins : circuit.nets[n]? = some pins) :
    pins ≠ [] ∧ ∀ p ∈ pins, p.cell_ind < circuit.cells.length := by
  obtain ⟨hn, rfl⟩ := List.getElem?_eq_some_iff.1 hpins
  exact hnets _ (List.getElem_mem hn)

/-- The potentials read off a placement with the row invariant respect all arcs. -/
theorem placement_potential_feasible (circuit : netlist) (pl : detailed_placement)
    (hinv : row_invariant pl) (hlen : circuit.cells.length = pl.cells_.length)
    (hnets : nets_valid circuit) (heven : pins_on_grid circuit pl) :
    potentials_feasible
      (claimed_ordering_arcs circuit pl ++
        (((List.range pl.row_cnt).flatMap fun r => (first_cell_arcs circuit pl r).getD []) ++
          (List.range pl.row_cnt).flatMap fun r => (last_cell_arcs circuit pl r).getD []) ++
        (List.range circuit.nets.length).flatMap fun n => (net_arcs circuit pl n).getD [])
      (placement_potential circuit pl) := by
  intro a ha
  rcases List.mem_append.1 ha with ha | ha
  · rcases List.mem_append.1 ha with ha | ha
    · obtain ⟨L, cL, cR, k, e, mL, mR, hL, hk, he, hnull, hcR, hmL, hmR, ha⟩ :=
        mem_claimed_ordering_arcs circuit pl a ha
      obtain ⟨_, e', he', _, hsucc⟩ := selfcheck_slots pl hinv.checked L cL hL k hk
      rw [Nat.add_comm, he] at he'
      cases he'
      have hord : cL.position_x + cL.width ≤ cR.position_x := by
        rcases hsucc with ⟨_, oc, _, _, hoc, hpos, _⟩ | ⟨h1, _⟩
        · rw [hcR] at hoc
          cases hoc
          exact hpos
        · exact absurd h1 hnull
      have pL := placement_potential_cell circuit pl L cL hL
      have pR := placement_potential_cell circuit pl e.2 cR hcR
      have pF : placement_potential circuit pl flow_node.fixed = 0 := rfl
      unfold claimed_ordering_arc at ha
      cases mL <;> cases mR <;> simp at ha <;> subst ha <;> simp only [pL, pR, pF] <;> omega
    · rcases List.mem_append.1 ha with ha | ha
      · obtain ⟨r, lc, hr, hnull, rfl⟩ := mem_first_cell_arcs circuit pl a ha
        obtain ⟨n, e, hn, he, he1⟩ := hinv.first_exact r lc hr hnull
        obtain ⟨cell, hcell, _, hlt, hnn⟩ := neighbour_index_some _ _ _ _ hn
        have := (hinv.ends_inside lc cell (r - cell.row) e hcell hlt
          (by rw [Nat.add_comm, ← hnn]; exact he)).1 he1
        have pL := placement_potential_cell circuit pl lc cell hcell
        have pF : placement_potential circuit pl flow_node.fixed = 0 := rfl
        simp only [pL, pF]
        omega
      · obtain ⟨r, rc, cell', hr, hnull, hcell', rfl⟩ := mem_last_cell_arcs circuit pl a ha
        obtain ⟨n, e, hn, he, he2⟩ := hinv.last_exact r rc hr hnull
        obtain ⟨cell, hcell, _, hlt, hnn⟩ := neighbour_index_some _ _ _ _ hn
        rw [hcell'] at hcell
        cases hcell
        have := (hinv.ends_inside rc cell' (r - cell'.row) e hcell' hlt
          (by rw [Nat.add_comm, ← hnn]; exact he)).2 he2
        have pL := placement_potential_cell circuit pl rc cell' hcell'
        have pF : placement_potential circuit pl flow_node.fixed = 0 := rfl
        simp only [pL, pF]
        omega
  · obtain ⟨n, pins, p, cell, m, hpins, hp, hc, hm, ha⟩ :=
      (mem_net_arcs circuit pl hlen hnets a).1 ha
    obtain ⟨hne, hvalid⟩ := nets_valid_get circuit hnets n pins hpins
    obtain ⟨mn, mx, hb, hall, _, _⟩ := net_bounds_grid circuit pl heven hlen pins
      (nets_mem circuit n pins hpins) hne hvalid
    obtain ⟨pL, pU⟩ := placement_potential_net circuit pl n pins _ _ hpins hb
    have pC := placement_potential_cell circuit pl p.cell_ind cell hc
    have pF : placement_potential circuit pl flow_node.fixed = 0 := rfl
    have := hall p hp cell hc
    unfold claimed_pin_arcs at ha
    cases m <;> simp at ha <;> rcases ha with rfl | rfl <;> simp only [pL, pU, pC, pF] <;> omega

/-- The length of a net on a placement with pins on the grid is the difference of the
potentials that the placement gives to the two nodes of the net. -/
theorem placement_net_length (circuit : netlist) (pl : detailed_placement)
    (hlen : circuit.cells.length = pl.cells_.length) (hnets : nets_valid circuit)
    (heven : pins_on_grid circuit pl) (n : Nat) (hn : n < circuit.nets.length) :
    net_length_x circuit pl n = some
      (((placement_potential circuit pl (flow_node.Unet n) -
        placement_potential circuit pl (flow_node.Lnet n) : Int)) : ℚ) := by
  have hpins : circuit.nets[n]? = some circuit.nets[n] := List.getElem?_eq_getElem hn
  obtain ⟨hne, hvalid⟩ := nets_valid_get circuit hnets n _ hpins
  obtain ⟨mn, mx, hb, _, _, _⟩ := net_bounds_grid circuit pl heven hlen _
    (nets_mem circuit n _ hpins) hne hvalid
  obtain ⟨pL, pU⟩ := placement_potential_net circuit pl n _ _ _ hpins hb
  unfold net_length_x
  rw [hpins]
  simp only
  rw [if_neg hne, hb, pL, pU]
  simp only [Option.map_some', Option.some.injEq, Int.cast_sub]

/-- The length of a net after the coordinates have been written is at most the difference
of the potentials of the two nodes of the net. -/
theorem moved_net_length (circuit : netlist) (pl pl' : detailed_placement)
    (potential : flow_node → Int) (hlen : circuit.cells.length = pl.cells_.length)
    (hnets : nets_valid circuit) (heven : pins_on_grid circuit pl)
    (hfeas : potentials_feasible
      ((List.range circuit.nets.length).flatMap fun n => (net_arcs circuit pl n).getD [])
      potential)
    (hcells : ∀ i, pl'.cells_[i]? = (pl.cells_[i]?).map (moved_cell circuit potential i))
    (hlen' : circuit.cells.length = pl'.cells_.length)
    (n : Nat) (hn : n < circuit.nets.length) :
    ∃ len, net_length_x circuit pl' n = some len ∧
      len ≤ ((potential (flow_node.Unet n) - potential (flow_node.Lnet n) : Int) : ℚ) := by
  have hpins : circuit.nets[n]? = some circuit.nets[n] := List.getElem?_eq_getElem hn
  obtain ⟨hne, hvalid⟩ := nets_valid_get circuit hnets n _ hpins
  have heven' := pins_on_grid_moved circuit pl pl' potential heven hcells
  obtain ⟨mn, mx, hb, _, ⟨p1, hp1, cell1, hc1, hmn⟩, ⟨p2, hp2, cell2, hc2, hmx⟩⟩ :=
    net_bounds_grid circuit pl' heven' hlen' _ (nets_mem circuit n _ hpins) hne hvalid
  have hbound : ∀ p ∈ circuit.nets[n], ∀ cell', pl'.cells_[p.cell_ind]? = some cell' →
      potential (flow_node.Lnet n) - potential flow_node.fixed ≤
        cell'.position_x + pin_offs cell' p ∧
      cell'.position_x + pin_offs cell' p ≤
        potential (flow_node.Unet n) - potential flow_node.fixed := by
    intro p hp cell' hc'
    rw [hcells] at hc'
    cases hc : pl.cells_[p.cell_ind]? with
    | none => simp [hc] at hc'
    | some cell =>
      rw [hc] at hc'
      simp only [Option.map_some', Option.some.injEq] at hc'
      subst hc'
      rw [pin_offs_moved]
      obtain ⟨m, hm⟩ := x_movable_some circuit p.cell_ind (hvalid p hp)
      have harc : ∀ a ∈ claimed_pin_arcs n p cell m,
          potential a.target - potential a.source ≤ a.cost := fun a ha =>
        hfeas a ((mem_net_arcs circuit pl hlen hnets a).2
          ⟨n, _, p, cell, m, hpins, hp, hc, hm, ha⟩)
      unfold claimed_pin_arcs at harc
      cases m
      · have h1 := harc ⟨flow_node.fixed, flow_node.Lnet n,
          cell.position_x + pin_offs cell p⟩ (by simp)
        have h2 := harc ⟨flow_node.Unet n, flow_node.fixed,
          -cell.position_x - pin_offs cell p⟩ (by simp)
        simp only [moved_cell, hm] at h1 h2 ⊢
        constructor <;> simp <;> omega
      · have h1 := harc ⟨flow_node.cell p.cell_ind, flow_node.Lnet n, pin_offs cell p⟩
          (by simp)
        have h2 := harc ⟨flow_node.Unet n, flow_node.cell p.cell_ind, -pin_offs cell p⟩
          (by simp)
        simp only [moved_cell, hm] at h1 h2 ⊢
        constructor <;> simp <;> omega
  have b1 := hbound p1 hp1 cell1 hc1
  have b2 := hbound p2 hp2 cell2 hc2
  refine ⟨((mx - mn : Int) : ℚ), ?_, by exact_mod_cast (by omega : mx - mn ≤
    potential (flow_node.Unet n) - potential (flow_node.Lnet n))⟩
  unfold net_length_x
  rw [hpins]
  simp only
  rw [if_neg hne, hb]
  simp only [Option.map_some', Option.some.injEq, Int.cast_sub]

theorem length_eq_of_getElem?_map {α : Type} (f : Nat → α → α) (l l' : List α)
    (h : ∀ i, l'[i]? = (l[i]?).map (f i)) : l'.length = l.length := by
  have h1 := h l.length
  have h2 := h l'.length
  rw [List.getElem?_eq_none (le_refl _), Option.map_none', List.getElem?_eq_none_iff] at h1
  rw [List.getElem?_eq_none (le_refl _)] at h2
  have h3 : l[l'.length]? = none := by
    cases hx : l[l'.length]? with
    | none => rfl
    | some a => simp [hx] at h2
  rw [List.getElem?_eq_none_iff] at h3
  omega

/-- On a placement with the table layout and the row invariant, with pins on the grid,
every net of which has a pin and every pin a cell, when the solver returns the potentials
of an optimal solution for the arcs built by `optimize_positions`, the function returns a
placement that passes `selfcheck`, and the total half-perimeter wirelength in x after the
call is at most its value before. -/
theorem optimize_positions_shortens_nets
    (solve : List arc_pair → List (flow_node × Int) → Option (flow_node → Int))
    (circuit : netlist) (pl : detailed_placement)
    (hlay : table_layout pl) (hinv : row_invariant pl)
    (hlen : circuit.cells.length = pl.cells_.length) (hnets : nets_valid circuit)
    (heven : pins_on_grid circuit pl)
    (hsolver : ∀ arcs, constraint_arcs circuit pl = some arcs →
      ∃ potential, solve arcs (net_supplies circuit) = some potential ∧
        potentials_optimal arcs (net_supplies circuit) potential) :
    ∃ (pl' : detailed_placement) (before after : ℚ),
      optimize_positions solve circuit pl = some pl' ∧ selfcheck pl' = true ∧
      wirelength_x circuit pl = some before ∧ wirelength_x circuit pl' = some after ∧
      after ≤ before := by
  have harcs := constraint_arcs_some circuit pl hinv hlen hnets
  obtain ⟨potential, hsolve, hfe, hopt⟩ := hsolver _ harcs
  obtain ⟨pl', hw, _, _, _, hn, hf, hl, hcells⟩ :=
    write_potentials_range circuit potential pl hlen
  have hfe_o : potentials_feasible (claimed_ordering_arcs circuit pl) potential :=
    fun a ha => hfe a (List.mem_append_left _ (List.mem_append_left _ ha))
  have hfe_n : potentials_feasible
      ((List.range circuit.nets.length).flatMap fun n => (net_arcs circuit pl n).getD [])
      potential := fun a ha => hfe a (List.mem_append_right _ ha)
  have hsc := moved_selfcheck circuit pl pl' potential hlay.1 hinv.checked hlen hfe_o hn hf hl
    hcells
  have hlen' : circuit.cells.length = pl'.cells_.length := by
    rw [hlen]
    exact (length_eq_of_getElem?_map _ _ _ hcells).symm
  have hbefore := sum_nets_eq (net_length_x circuit pl)
    (fun n => (((placement_potential circuit pl (flow_node.Unet n) -
      placement_potential circuit pl (flow_node.Lnet n) : Int)) : ℚ))
    (List.range circuit.nets.length) (fun n hn =>
      placement_net_length circuit pl hlen hnets heven n (List.mem_range.1 hn))
  have hafter := sum_nets_eq (net_length_x circuit pl')
    (fun n => (net_length_x circuit pl' n).getD 0)
    (List.range circuit.nets.length) (fun n hn => by
      obtain ⟨len, h, _⟩ := moved_net_length circuit pl pl' potential hlen hnets heven hfe_n
        hcells hlen' n (List.mem_range.1 hn)
      simp only [h, Option.getD_some])
  refine ⟨pl', _, _, ?_, hsc, hbefore, hafter, ?_⟩
  · unfold optimize_positions
    rw [harcs]
    simp only
    rw [hsolve]
    simp only
    rw [hw]
    simp only
    rw [if_pos hsc]
  · have h1 : ((List.range circuit.nets.length).map fun n =>
        (net_length_x circuit pl' n).getD 0).sum ≤
        ((List.range circuit.nets.length).map fun n =>
          (((potential (flow_node.Unet n) - potential (flow_node.Lnet n) : Int)) : ℚ)).sum := by
      apply List.sum_le_sum
      intro n hn
      obtain ⟨len, h, hle⟩ := moved_net_length circuit pl pl' potential hlen hnets heven hfe_n
        hcells hlen' n (List.mem_range.1 hn)
      simp only [h, Option.getD_some]
      exact hle
    have h2 := hopt (placement_potential circuit pl)
      (placement_potential_feasible circuit pl hinv hlen hnets heven)
    rw [objective_net_supplies, objective_net_supplies] at h2
    have h3 : ∀ (f : Nat → Int) (l : List Nat),
        (l.map fun n => ((f n : Int) : ℚ)).sum = (((l.map f).sum : Int) : ℚ) := by
      intro f l
      induction l with
      | nil => simp
      | cons a t ih => simp only [List.map_cons, List.sum_cons, ih, Int.cast_add]
    rw [h3 (fun n => potential (flow_node.Unet n) - potential (flow_node.Lnet n))] at h1
    rw [h3 (fun n => placement_potential circuit pl (flow_node.Unet n) -
      placement_potential circuit pl (flow_node.Lnet n))]
    exact le_trans h1 (by exact_mod_cast h2)

theorem pulled_legal (x w : Int) (h : (x = 4 ∧ w = 1) ∨ (x = 1 ∧ w = 2)) :
    table_layout (pulled_placement x w) ∧ row_invariant (pulled_placement x w) ∧
    nets_valid (pulled_circuit w) := by
  rcases h with ⟨rfl, rfl⟩ | ⟨rfl, rfl⟩ <;>
  ( refine ⟨⟨by decide, ?_, ?_⟩, ⟨by decide, ?_, ?_, ?_⟩, ?_⟩
    · intro c cell hc
      have hi : c < 3 := (List.getElem?_eq_some_iff.1 hc).1
      interval_cases c <;> cases hc <;> decide
    · intro c c' cell cell' hlt hc hc'
      have hi : c < 3 := (List.getElem?_eq_some_iff.1 hc).1
      have hi' : c' < 3 := (List.getElem?_eq_some_iff.1 hc').1
      interval_cases c <;> interval_cases c' <;> cases hc <;> cases hc' <;> decide
    · intro r c hr hne
      have hlt : r < 2 := (List.getElem?_eq_some_iff.1 hr).1
      interval_cases r
      · cases hr
        exact ⟨0, (null_ind, null_ind), by decide, by decide, rfl⟩
      · cases hr
        exact ⟨1, (null_ind, 2), by decide, by decide, rfl⟩
    · intro r c hr hne
      have hlt : r < 2 := (List.getElem?_eq_some_iff.1 hr).1
      interval_cases r
      · cases hr
        exact ⟨0, (null_ind, null_ind), by decide, by decide, rfl⟩
      · cases hr
        exact ⟨2, (1, null_ind), by decide, by decide, rfl⟩
    · intro i c l e hc hl he
      have hi : i < 3 := (List.getElem?_eq_some_iff.1 hc).1
      interval_cases i <;> cases hc <;> (have hl2 : l < 1 := hl) <;>
        interval_cases l <;> cases he <;> decide
    · unfold nets_valid
      decide )

theorem pulled_write (x w : Int) (potential : flow_node → Int) :
    write_potentials (pulled_circuit w) potential (List.range (pulled_circuit w).cells.length)
      (pulled_placement x w) =
    some (pulled_placement (potential (flow_node.cell 0) - potential flow_node.fixed) w) := by
  have h0 : x_movable (pulled_circuit w) 0 = some true := by
    simp only [x_movable, pulled_circuit, List.getElem?_cons_zero, Option.map_some']
    exact congrArg some (decide_eq_true (by decide))
  have h1 : x_movable (pulled_circuit w) 1 = some false := by
    simp only [x_movable, pulled_circuit, List.getElem?_cons_succ, List.getElem?_cons_zero,
      Option.map_some']
    exact congrArg some (decide_eq_false (by decide))
  have h2 : x_movable (pulled_circuit w) 2 = some false := by
    simp only [x_movable, pulled_circuit, List.getElem?_cons_succ, List.getElem?_cons_zero,
      Option.map_some']
    exact congrArg some (decide_eq_false (by decide))
  have hr : List.range (pulled_circuit w).cells.length = [0, 1, 2] := rfl
  rw [hr]
  simp only [write_potentials, h0, h1, h2]
  rfl

theorem pulled_arcs_odd :
    constraint_arcs (pulled_circuit 1) (pulled_placement 4 1) = some (pulled_arcs 0 9) := by
  decide!

theorem pulled_arcs_even :
    constraint_arcs (pulled_circuit 2) (pulled_placement 1 2) = some (pulled_arcs 1 8) := by
  decide!

theorem pulled_objective (w : Int) (potential : flow_node → Int) :
    potentials_objective (net_supplies (pulled_circuit w)) potential =
      (potential (flow_node.Unet 0) - potential (flow_node.Lnet 0)) +
      (potential (flow_node.Unet 1) - potential (flow_node.Lnet 1)) +
      (potential (flow_node.Unet 2) - potential (flow_node.Lnet 2)) := by
  have h : net_supplies (pulled_circuit w) =
      [(flow_node.Unet 0, 1), (flow_node.Lnet 0, -1), (flow_node.Unet 1, 1),
       (flow_node.Lnet 1, -1), (flow_node.Unet 2, 1), (flow_node.Lnet 2, -1)] := rfl
  rw [h]
  simp only [potentials_objective, List.map_cons, List.map_nil, List.sum_cons, List.sum_nil]
  ring

/-- The least objective in the flow problem of `pulled_placement` is 4, and potentials
with this objective put the pin of cell 0 at the abscissa 5. -/
theorem pulled_optimum (o b : Int) (potential : flow_node → Int) (w : Int)
    (h : potentials_feasible (pulled_arcs o b) potential) :
    4 ≤ potentials_objective (net_supplies (pulled_circuit w)) potential ∧
    (potentials_objective (net_supplies (pulled_circuit w)) potential ≤ 4 →
      potential (flow_node.cell 0) - potential flow_node.fixed = 5 - o) := by
  rw [pulled_objective]
  unfold potentials_feasible pulled_arcs at h
  simp only [List.mem_cons, List.mem_nil_iff, or_false, forall_eq_or_imp, forall_eq] at h
  omega

theorem pulled_potential_optimal (o b x w : Int) (hx : x + o = 5) (h0 : 0 ≤ x) (hb : x ≤ b) :
    potentials_optimal (pulled_arcs o b) (net_supplies (pulled_circuit w))
      (pulled_potential x) := by
  constructor
  · unfold potentials_feasible pulled_arcs
    simp only [List.mem_cons, List.mem_nil_iff, or_false, forall_eq_or_imp, forall_eq,
      pulled_potential]
    omega
  · intro other hother
    have h4 : potentials_objective (net_supplies (pulled_circuit w)) (pulled_potential x)
        = 4 := by
      rw [pulled_objective]
      rfl
    rw [h4]
    exact (pulled_optimum o b other w hother).1

/-- C25: the code diverges from the claim on `pulled_placement 4 1`. The placement has
the table layout and the row invariant, every net of `pulled_circuit 1` has its pins on
cells of the circuit, and the total wirelength in x is 9/2; the flow problem built by
`optimize_positions` has optimal potentials, and with whatever optimal potentials the solver
returns, the call moves cell 0 from abscissa 4 to abscissa 5, where the total wirelength in
x is 11/2. The pin of cell 0, of width 1, lies half a unit right of the left edge of the
cell: the conversion of `pin_offs` to an integer drops this half unit from the arc costs,
while the pins of the cells 1 and 2, of width 2, are placed exactly. -/
theorem optimize_positions_lengthens_nets :
    table_layout (pulled_placement 4 1) ∧ row_invariant (pulled_placement 4 1) ∧
    nets_valid (pulled_circuit 1) ∧
    wirelength_x (pulled_circuit 1) (pulled_placement 4 1) = some (9 / 2) ∧
    ∃ arcs, constraint_arcs (pulled_circuit 1) (pulled_placement 4 1) = some arcs ∧
      potentials_optimal arcs (net_supplies (pulled_circuit 1)) (pulled_potential 5) ∧
      ∀ (solve : List arc_pair → List (flow_node × Int) → Option (flow_node → Int))
        (potential : flow_node → Int),
        solve arcs (net_supplies (pulled_circuit 1)) = some potential →
        potentials_optimal arcs (net_supplies (pulled_circuit 1)) potential →
        optimize_positions solve (pulled_circuit 1) (pulled_placement 4 1) =
          some (pulled_placement 5 1) ∧
        selfcheck (pulled_placement 5 1) = true ∧
        wirelength_x (pulled_circuit 1) (pulled_placement 5 1) = some (11 / 2) := by
  obtain ⟨hlay, hinv, hnets⟩ := pulled_legal 4 1 (Or.inl ⟨rfl, rfl⟩)
  have hbest := pulled_potential_optimal 0 9 5 1 (by decide) (by decide) (by decide)
  refine ⟨hlay, hinv, hnets, by decide!, _, pulled_arcs_odd, hbest, ?_⟩
  intro solve potential hsolve hopt
  have hx := (pulled_optimum 0 9 potential 1 hopt.1).2 (by
    have := hopt.2 (pulled_potential 5) hbest.1
    rw [pulled_objective] at this
    rw [pulled_objective]
    exact this)
  refine ⟨?_, by decide, by decide!⟩
  unfold optimize_positions
  rw [pulled_arcs_odd]
  simp only
  rw [hsolve]
  simp only
  rw [pulled_write, hx]
  simp only
  rw [if_pos (by decide)]
  rfl

theorem optimize_positions_shortens_nets_witness :
    table_layout (pulled_placement 1 2) ∧ row_invariant (pulled_placement 1 2) ∧
    (pulled_circuit 2).cells.length = (pulled_placement 1 2).cells_.length ∧
    nets_valid (pulled_circuit 2) ∧ pins_on_grid (pulled_circuit 2) (pulled_placement 1 2) ∧
    (∀ arcs, constraint_arcs (pulled_circuit 2) (pulled_placement 1 2) = some arcs →
      ∃ potential, (fun _ _ => some (pulled_potential 4)) arcs
          (net_supplies (pulled_circuit 2)) = some potential ∧
        potentials_optimal arcs (net_supplies (pulled_circuit 2)) potential) ∧
    optimize_positions (fun _ _ => some (pulled_potential 4)) (pulled_circuit 2)
      (pulled_placement 1 2) = some (pulled_placement 4 2) ∧
    wirelength_x (pulled_circuit 2) (pulled_placement 1 2) = some 7 ∧
    wirelength_x (pulled_circuit 2) (pulled_placement 4 2) = some 4 ∧
    ∃ (pl' : detailed_placement) (before after : ℚ),
      optimize_positions (fun _ _ => some (pulled_potential 4)) (pulled_circuit 2)
        (pulled_placement 1 2) = some pl' ∧ selfcheck pl' = true ∧
      wirelength_x (pulled_circuit 2) (pulled_placement 1 2) = some before ∧
      wirelength_x (pulled_circuit 2) pl' = some after ∧ after ≤ before := by
  obtain ⟨hlay, hinv, hnets⟩ := pulled_legal 1 2 (Or.inr ⟨rfl, rfl⟩)
  have heven : pins_on_grid (pulled_circuit 2) (pulled_placement 1 2) := by
    constructor
    · intro c cell nc hc hnc
      have hi : c < 3 := (List.getElem?_eq_some_iff.1 hc).1
      interval_cases c <;> cases hc <;> cases hnc <;> decide
    · intro pins hpins p hp cell hc
      simp only [pulled_circuit, List.mem_cons, List.mem_singleton, List.not_mem_nil,
        or_false] at hpins
      rcases hpins with rfl | rfl | rfl <;>
        simp only [List.mem_cons, List.mem_singleton, List.not_mem_nil, or_false] at hp <;>
        rcases hp with rfl | rfl <;> cases hc <;> exact ⟨1, by decide!⟩
  have hsolver : ∀ arcs, constraint_arcs (pulled_circuit 2) (pulled_placement 1 2) = some arcs →
      ∃ potential, (fun _ _ => some (pulled_potential 4)) arcs
          (net_supplies (pulled_circuit 2)) = some potential ∧
        potentials_optimal arcs (net_supplies (pulled_circuit 2)) potential := by
    intro arcs harcs
    rw [pulled_arcs_even] at harcs
    cases harcs
    exact ⟨pulled_potential 4, rfl,
      pulled_potential_optimal 1 8 4 2 (by decide) (by decide) (by decide)⟩
  have hrun : optimize_positions (fun _ _ => some (pulled_potential 4)) (pulled_circuit 2)
      (pulled_placement 1 2) = some (pulled_placement 4 2) := by
    unfold optimize_positions
    rw [pulled_arcs_even]
    simp only
    rw [pulled_write]
    simp only
    rw [if_pos (by decide)]
    rfl
  exact ⟨hlay, hinv, rfl, hnets, heven, hsolver, hrun, by decide!, by decide!,
    optimize_positions_shortens_nets (fun _ _ => some (pulled_potential 4)) (pulled_circuit 2)
      (pulled_placement 1 2) hlay hinv rfl hnets heven hsolver⟩

/-! ## Theorems: the cost of all nets after an accepted swap -/

theorem unique_head (a : Nat) : ∀ (l : List Nat), (unique (a :: l)).head? = some a
  | [] => rfl
  | b :: rest => by
    unfold unique
    split_ifs with h
    · rw [h]
      exact unique_head b rest
    · rfl

theorem unique_chain : ∀ (l : List Nat), l.Chain' (· ≤ ·) → (unique l).Chain' (· < ·)
  | [], _ => List.chain'_nil
  | [a], _ => List.chain'_singleton a
  | a :: b :: rest, h => by
    have hab : a ≤ b := (List.chain'_cons.1 h).1
    have ih := unique_chain (b :: rest) (List.chain'_cons.1 h).2
    unfold unique
    split_ifs with he
    · exact ih
    · rw [List.chain'_cons']
      refine ⟨?_, ih⟩
      intro y hy
      rw [unique_head b rest] at hy
      cases hy
      omega

theorem mem_unique (x : Nat) : ∀ (l : List Nat), x ∈ unique l ↔ x ∈ l
  | [] => Iff.rfl
  | [a] => Iff.rfl
  | a :: b :: rest => by
    have ih := mem_unique x (b :: rest)
    unfold unique
    split_ifs with he
    · rw [ih, he]
      simp
    · rw [List.mem_cons, ih, List.mem_cons (a := x) (b := a)]

/-- The list of the involved nets has no repetition and holds exactly the nets named by a
pin of `c1` or of `c2`. -/
theorem involved_nets_spec (circuit : netlist) (c1 c2 : Nat) (nets : List Nat)
    (h : involved_nets_of circuit c1 c2 = some nets) :
    nets.Nodup ∧ ∃ nc1 nc2, circuit.cells[c1]? = some nc1 ∧ circuit.cells[c2]? = some nc2 ∧
      ∀ n, n ∈ nets ↔ (∃ p ∈ nc1.pins, p.net_ind = n) ∨ (∃ p ∈ nc2.pins, p.net_ind = n) := by
  unfold involved_nets_of at h
  cases h1 : circuit.cells[c1]? with
  | none => simp [h1] at h
  | some nc1 =>
    cases h2 : circuit.cells[c2]? with
    | none => simp [h1, h2] at h
    | some nc2 =>
      simp only [h1, h2, Option.some.injEq] at h
      subst h
      constructor
      · have hs : List.Sorted (· ≤ ·) (List.insertionSort (· ≤ ·)
            (nc1.pins.map (fun p => p.net_ind) ++ nc2.pins.map (fun p => p.net_ind))) :=
          List.sorted_insertionSort _ _
        have hc := unique_chain _ (List.Pairwise.chain' hs)
        exact (List.chain'_iff_pairwise.1 hc).imp (fun h => Nat.ne_of_lt h)
      · refine ⟨nc1, nc2, rfl, rfl, ?_⟩
        intro n
        rw [mem_unique, (List.perm_insertionSort _ _).mem_iff, List.mem_append, List.mem_map,
          List.mem_map]

theorem net_bounds_congr (circuit : netlist) (pl pl' : detailed_placement) :
    ∀ (ps : List pin_t) (b : ℚ × ℚ × ℚ × ℚ),
    (∀ p ∈ ps, pin_pos circuit pl' p = pin_pos circuit pl p) →
    net_bounds circuit pl' ps b = net_bounds circuit pl ps b
  | [], _, _ => rfl
  | p :: ps, b, h => by
    unfold net_bounds
    rw [h p (List.mem_cons_self _ _)]
    cases pin_pos circuit pl p with
    | none => rfl
    | some pos =>
      exact net_bounds_congr circuit pl pl' ps _ (fun q hq => h q (List.mem_cons_of_mem _ hq))

theorem net_cost_congr (circuit : netlist) (pl pl' : detailed_placement) (n : Nat)
    (h : ∀ pins, circuit.nets[n]? = some pins →
      ∀ p ∈ pins, pin_pos circuit pl' p = pin_pos circuit pl p) :
    net_cost circuit pl' n = net_cost circuit pl n := by
  unfold net_cost
  cases hp : circuit.nets[n]? with
  | none => rfl
  | some pins =>
    cases pins with
    | nil => rfl
    | cons p ps =>
      simp only
      rw [h _ hp p (List.mem_cons_self _ _)]
      cases pin_pos circuit pl p with
      | none => rfl
      | some pos =>
        simp only
        rw [net_bounds_congr circuit pl pl' ps _
          (fun q hq => h _ hp q (List.mem_cons_of_mem _ hq))]

theorem get_nets_cost_congr (circuit : netlist) (pl pl' : detailed_placement) :
    ∀ (l : List Nat), (∀ n ∈ l, net_cost circuit pl' n = net_cost circuit pl n) →
    get_nets_cost circuit pl' l = get_nets_cost circuit pl l
  | [], _ => rfl
  | n :: ns, h => by
    unfold get_nets_cost
    rw [h n (List.mem_cons_self _ _),
      get_nets_cost_congr circuit pl pl' ns (fun m hm => h m (List.mem_cons_of_mem _ hm))]

theorem get_nets_cost_some (circuit : netlist) (pl : detailed_placement) :
    ∀ (l : List Nat) (v : ℚ), get_nets_cost circuit pl l = some v →
    (∀ n ∈ l, ∃ c, net_cost circuit pl n = some c) ∧
    v = (l.map fun n => (net_cost circuit pl n).getD 0).sum
  | [], v, h => by
    simp only [get_nets_cost, Option.some.injEq] at h
    subst h
    exact ⟨fun n hn => by simp at hn, rfl⟩
  | n :: ns, v, h => by
    unfold get_nets_cost at h
    cases hc : net_cost circuit pl n with
    | none => simp [hc] at h
    | some c =>
      cases hr : get_nets_cost circuit pl ns with
      | none => simp [hc, hr] at h
      | some rest =>
        simp only [hc, hr, Option.some.injEq] at h
        obtain ⟨h1, h2⟩ := get_nets_cost_some circuit pl ns rest hr
        refine ⟨?_, ?_⟩
        · intro m hm
          rcases List.mem_cons.1 hm with rfl | hm
          · exact ⟨c, hc⟩
          · exact h1 m hm
        · simp only [List.map_cons, List.sum_cons, hc, Option.getD_some, ← h2, h]

theorem get_nets_cost_of_some (circuit : netlist) (pl : detailed_placement) :
    ∀ (l : List Nat), (∀ n ∈ l, ∃ c, net_cost circuit pl n = some c) →
    get_nets_cost circuit pl l = some (l.map fun n => (net_cost circuit pl n).getD 0).sum
  | [], _ => rfl
  | n :: ns, h => by
    obtain ⟨c, hc⟩ := h n (List.mem_cons_self _ _)
    unfold get_nets_cost
    rw [hc, get_nets_cost_of_some circuit pl ns (fun m hm => h m (List.mem_cons_of_mem _ hm))]
    simp only [List.map_cons, List.sum_cons, hc, Option.getD_some]

/-- The sum over a list without repetition of a function that vanishes outside a part of
the list is the sum over that part. -/
theorem sum_restrict (L S : List Nat) (d : Nat → ℚ) (hL : L.Nodup) (hS : S.Nodup)
    (hsub : ∀ n ∈ S, n ∈ L) (hzero : ∀ n ∈ L, n ∉ S → d n = 0) :
    (L.map d).sum = (S.map d).sum := by
  rw [← List.sum_toFinset d hL, ← List.sum_toFinset d hS]
  symm
  apply Finset.sum_subset
  · intro n hn
    rw [List.mem_toFinset] at hn ⊢
    exact hsub n hn
  · intro n hn hn'
    rw [List.mem_toFinset] at hn hn'
    exact hzero n hn hn'

theorem commit_swap_cells (pl0 pl' : detailed_placement) (c1 c2 n1 n2 : Nat) (e1 e2 : Nat × Nat)
    (r1 r2 : Nat) (h : commit_swap pl0 c1 c2 n1 n2 e1 e2 r1 r2 = some pl') (i : Nat) :
    pl'.cells_[i]? = (pl0.cells_[i]?).map fun cell =>
      let a := if c1 = i then { cell with row := r2 } else cell
      if c2 = i then { a with row := r1 } else a := by
  unfold commit_swap at h
  simp only [Option.bind_eq_some] at h
  obtain ⟨pl6, h6, pl7, h7, pl8, h8, pl9, h9, hfin⟩ := h
  simp only [Option.some.injEq] at hfin
  have hfour := four_patches _ pl9 c1 c2 e1 e2 r1 r2
    (by simp only [Option.bind_eq_some]; exact ⟨pl6, h6, pl7, h7, pl8, h8, h9⟩)
  have hcells := hfour.1
  simp only at hcells
  rw [← hfin]
  simp only [set_row, List.getElem?_modify, hcells]
  cases pl0.cells_[i]? with
  | none => rfl
  | some cell => rfl

theorem pin_pos_of_rows (circuit : netlist) (pl0 pl' : detailed_placement) (c1 c2 r1 r2 : Nat)
    (h : ∀ i, pl'.cells_[i]? = (pl0.cells_[i]?).map fun cell =>
      let a := if c1 = i then { cell with row := r2 } else cell
      if c2 = i then { a with row := r1 } else a) (p : pin_t) :
    pin_pos circuit pl' p = pin_pos circuit pl0 p := by
  unfold pin_pos
  rw [h p.cell_ind]
  cases pl0.cells_[p.cell_ind]? with
  | none => rfl
  | some cell =>
    cases circuit.cells[p.cell_ind]? with
    | none => simp
    | some nc =>
      simp only [Option.map_some']
      by_cases h1 : c1 = p.cell_ind <;> by_cases h2 : c2 = p.cell_ind <;> simp [h1, h2]

theorem sum_map_sub_rat (f g : Nat → ℚ) : ∀ (l : List Nat),
    (l.map fun n => f n - g n).sum = (l.map f).sum - (l.map g).sum
  | [] => by simp
  | n :: ns => by
    simp only [List.map_cons, List.sum_cons, sum_map_sub_rat f g ns]
    ring

/-- A net that is not involved has no pin on `c1` or `c2`, so its cost is the same with
the swapped positions. -/
theorem uninvolved_net_cost (circuit : netlist) (pl : detailed_placement) (c1 c2 : Nat)
    (x1 x2 y1 y2 : Int) (nets : List Nat) (hagree : pin_lists_agree circuit)
    (hnets : involved_nets_of circuit c1 c2 = some nets) (n : Nat)
    (hn : n < circuit.nets.length) (hout : n ∉ nets) :
    net_cost circuit (assign_positions pl c1 c2 x1 x2 y1 y2) n = net_cost circuit pl n := by
  obtain ⟨_, nc1, nc2, h1, h2, hmem⟩ := involved_nets_spec circuit c1 c2 nets hnets
  apply net_cost_congr
  intro pins hpins p hp
  have hp' := hagree.1 n (List.mem_range.2 hn) p (by rw [hpins]; exact hp)
  have hne1 : c1 ≠ p.cell_ind := by
    intro he
    rw [← he, h1] at hp'
    exact hout ((hmem n).2 (Or.inl ⟨p, hp'.2, hp'.1⟩))
  have hne2 : c2 ≠ p.cell_ind := by
    intro he
    rw [← he, h2] at hp'
    exact hout ((hmem n).2 (Or.inr ⟨p, hp'.2, hp'.1⟩))
  unfold pin_pos
  rw [assign_positions_cells]
  cases pl.cells_[p.cell_ind]? with
  | none => rfl
  | some cell => simp [hne1, hne2]

/-- C30: with the cost of `get_nets_cost` in exact arithmetic and a netlist whose pin lists
agree, when the cost of all nets can be computed at the recorded positions and
`try_swap(c1, c2)` returns true, the cost of all nets can be computed on the placement after
the call and is strictly smaller; the costs `old` and `swp` of the involved nets that
decided the swap are those at the recorded positions before and after the call, and their
difference is the difference of the costs of all nets. -/
theorem accepted_swap_lowers_total_cost (circuit : netlist) (pl pl' : detailed_placement)
    (c1 c2 : Nat) (total : ℚ) (hagree : pin_lists_agree circuit)
    (htotal : get_nets_cost circuit pl (List.range circuit.nets.length) = some total)
    (h : try_swap circuit pl c1 c2 = some (true, pl')) :
    ∃ (total' : ℚ) (nets : List Nat) (old swp : ℚ)
      (cell1 cell2 : internal_cell) (c1_l c2_l c1_u c2_u : Int),
      get_nets_cost circuit pl' (List.range circuit.nets.length) = some total' ∧
      involved_nets_of circuit c1 c2 = some nets ∧
      pl.cells_[c1]? = some cell1 ∧ pl.cells_[c2]? = some cell2 ∧
      get_nets_cost circuit pl nets = some old ∧
      get_nets_cost circuit (swapped_positions pl c1 c2 cell1 cell2 c1_l c2_l c1_u c2_u) nets
        = some swp ∧
      get_nets_cost circuit pl' nets = some swp ∧
      swp < old ∧ total - total' = old - swp ∧ total' < total := by
  unfold try_swap try_swap_with at h
  split at h
  · rename_i cell1 cell2 nc1 nc2 hc1 hc2 _ _
    split_ifs at h
    split at h
    · rename_i e1 e2 he1 he2
      split at h
      · rename_i c1_l c2_l c1_u c2_u h1l h2l h1u h2u
        rcases try_swap_limits_decision (get_nets_cost circuit) circuit pl pl' c1 c2 cell1 cell2
          e1 e2 c1_l c2_l c1_u c2_u true h with ⟨_, hb⟩ | ⟨_, nets, old, swp, hn, ho, hs, hiff⟩
        · exact absurd hb (by simp)
        · have hlt : swp < old := hiff.1 rfl
          obtain ⟨_, _, hcommit⟩ := try_swap_limits_true (get_nets_cost circuit) circuit pl pl'
            c1 c2 cell1 cell2 e1 e2 c1_l c2_l c1_u c2_u h
          have hpos : ∀ p, pin_pos circuit pl' p =
              pin_pos circuit (swapped_positions pl c1 c2 cell1 cell2 c1_l c2_l c1_u c2_u) p :=
            fun p => pin_pos_of_rows circuit _ pl' c1 c2 cell1.row cell2.row
              (commit_swap_cells _ pl' c1 c2 _ _ e1 e2 _ _ hcommit) p
          have hnet : ∀ n, net_cost circuit pl' n =
              net_cost circuit (swapped_positions pl c1 c2 cell1 cell2 c1_l c2_l c1_u c2_u) n :=
            fun n => net_cost_congr circuit _ pl' n (fun _ _ p _ => hpos p)
          have hs' : get_nets_cost circuit pl' nets = some swp := by
            rw [get_nets_cost_congr circuit _ pl' nets (fun n _ => hnet n)]
            exact hs
          obtain ⟨hdefL, htotL⟩ := get_nets_cost_some circuit pl _ total htotal
          obtain ⟨hdefS, holdS⟩ := get_nets_cost_some circuit pl nets old ho
          obtain ⟨hdefS', hswpS⟩ := get_nets_cost_some circuit pl' nets swp hs'
          have hout : ∀ n ∈ List.range circuit.nets.length, n ∉ nets →
              net_cost circuit pl' n = net_cost circuit pl n := by
            intro n hnL hnS
            rw [hnet n]
            exact uninvolved_net_cost circuit pl c1 c2 _ _ _ _ nets hagree hn n
              (List.mem_range.1 hnL) hnS
          have hdefL' : ∀ n ∈ List.range circuit.nets.length,
              ∃ c, net_cost circuit pl' n = some c := by
            intro n hnL
            by_cases hnS : n ∈ nets
            · exact hdefS' n hnS
            · rw [hout n hnL hnS]
              exact hdefL n hnL
          have htotL' := get_nets_cost_of_some circuit pl' _ hdefL'
          have hsub : ∀ n ∈ nets, n ∈ List.range circuit.nets.length := by
            intro n hnS
            obtain ⟨c, hc⟩ := hdefS n hnS
            rw [List.mem_range]
            by_contra hge
            unfold net_cost at hc
            rw [List.getElem?_eq_none (by omega)] at hc
            exact absurd hc (by simp)
          have hsum := sum_restrict (List.range circuit.nets.length) nets
            (fun n => (net_cost circuit pl n).getD 0 - (net_cost circuit pl' n).getD 0)
            (List.nodup_range _) (involved_nets_spec circuit c1 c2 nets hn).1 hsub
            (fun n hnL hnS => by
              simp only [hout n hnL hnS, sub_self])
          rw [sum_map_sub_rat, sum_map_sub_rat] at hsum
          refine ⟨_, nets, old, swp, cell1, cell2, c1_l, c2_l, c1_u, c2_u, htotL', hn, hc1, hc2,
            ho, hs, hs', hlt, ?_, ?_⟩ <;> linarith
      · exact absurd h (by simp)
    · exact absurd h (by simp)
  · exact absurd h (by simp)

theorem accepted_swap_lowers_total_cost_witness :
    pin_lists_agree example_circuit ∧
    get_nets_cost example_circuit example_placement (List.range example_circuit.nets.length)
      = some (11 / 2) ∧
    try_swap example_circuit example_placement 4 2 = some (true, example_swapped) ∧
    ∃ (total' : ℚ) (nets : List Nat) (old swp : ℚ)
      (cell1 cell2 : internal_cell) (c1_l c2_l c1_u c2_u : Int),
      get_nets_cost example_circuit example_swapped (List.range example_circuit.nets.length)
        = some total' ∧
      involved_nets_of example_circuit 4 2 = some nets ∧
      example_placement.cells_[4]? = some cell1 ∧ example_placement.cells_[2]? = some cell2 ∧
      get_nets_cost example_circuit example_placement nets = some old ∧
      get_nets_cost example_circuit
        (swapped_positions example_placement 4 2 cell1 cell2 c1_l c2_l c1_u c2_u) nets
        = some swp ∧
      get_nets_cost example_circuit example_swapped nets = some swp ∧
      swp < old ∧ 11 / 2 - total' = old - swp ∧ total' < 11 / 2 :=
  ⟨by unfold pin_lists_agree; decide, by decide!, by decide!,
    accepted_swap_lowers_total_cost example_circuit example_placement example_swapped 4 2
      (11 / 2)
      (by unfold pin_lists_agree; decide) (by decide!) (by decide!)⟩

/-! ## Theorems: the chain of the cells of a row -/

theorem slot_checked (pl : detailed_placement) (hcheck : selfcheck pl = true) (c r n : Nat)
    (cell : internal_cell) (e : Nat × Nat) (hc : pl.cells_[c]? = some cell)
    (hn : neighbour_index pl.cells_ c r = some n) (he : pl.neighbours_[n]? = some e) :
    pred_ok pl c cell r e.1 ∧ succ_ok pl c cell r e.2 := by
  obtain ⟨cell', hcell', hrow, hlt, hnn⟩ := neighbour_index_some _ _ _ _ hn
  rw [hc] at hcell'
  cases hcell'
  obtain ⟨_, e', he', hp, hs⟩ := selfcheck_slots pl hcheck c cell hc (r - cell.row) hlt
  have h1 : r - cell.row + cell.neighbours_begin = n := by omega
  have h2 : cell.row + (r - cell.row) = r := by omega
  rw [h1, he] at he'
  cases he'
  rw [h2] at hp hs
  exact ⟨hp, hs⟩

theorem abscissa_eq (pl : detailed_placement) (c : Nat) (cell : internal_cell)
    (hc : pl.cells_[c]? = some cell) : abscissa pl c = cell.position_x := by
  simp [abscissa, hc]

theorem cells_right_of_lt (pl : detailed_placement) (s : Nat) (oc : internal_cell) (x : Int)
    (hs : pl.cells_[s]? = some oc) (hx : x < oc.position_x) :
    cells_right_of pl oc.position_x < cells_right_of pl x := by
  unfold cells_right_of
  apply countP_lt_of_imp
  · intro cell _ h
    simp only [decide_eq_true_eq] at h ⊢
    omega
  · obtain ⟨h, rfl⟩ := List.getElem?_eq_some_iff.1 hs
    exact ⟨_, List.getElem_mem h, by simpa using hx, by simp⟩

theorem cells_left_of_lt (pl : detailed_placement) (s : Nat) (oc : internal_cell) (x : Int)
    (hs : pl.cells_[s]? = some oc) (hx : oc.position_x < x) :
    cells_left_of pl oc.position_x < cells_left_of pl x := by
  unfold cells_left_of
  apply countP_lt_of_imp
  · intro cell _ h
    simp only [decide_eq_true_eq] at h ⊢
    omega
  · obtain ⟨h, rfl⟩ := List.getElem?_eq_some_iff.1 hs
    exact ⟨_, List.getElem_mem h, by simpa using hx, by simp⟩

theorem cells_right_of_lt_length (pl : detailed_placement) (c : Nat) (cell : internal_cell)
    (hc : pl.cells_[c]? = some cell) :
    cells_right_of pl cell.position_x < pl.cells_.length := by
  have h : pl.cells_.countP (fun cell' => decide (cell.position_x < cell'.position_x)) <
      pl.cells_.countP (fun _ => true) := by
    apply countP_lt_of_imp
    · intro _ _ _
      rfl
    · obtain ⟨h, rfl⟩ := List.getElem?_eq_some_iff.1 hc
      exact ⟨_, List.getElem_mem h, rfl, by simp⟩
  rw [List.countP_true] at h
  exact h

/-- The walk along the successor links from a cell of row `r`, on a placement that passes
`selfcheck` and has cells of positive width: the cells met are linked in this order up to
the last cell of the row, their abscissas increase strictly, and all of them occupy the
row. -/
theorem walk_chain (pl : detailed_placement) (r : Nat) (hcheck : selfcheck pl = true)
    (hpos : ∀ (i : Nat) (c : internal_cell), pl.cells_[i]? = some c → 0 < c.width)
    (hnull : pl.cells_.length ≤ null_ind) :
    ∀ (fuel c : Nat) (cell : internal_cell) (n : Nat) (e : Nat × Nat),
    pl.cells_[c]? = some cell → neighbour_index pl.cells_ c r = some n →
    pl.neighbours_[n]? = some e → cells_right_of pl cell.position_x < fuel →
    ∃ tail, walk_row pl r fuel c = c :: tail ∧
      chain_linked pl r null_ind e.1 (c :: tail) ∧
      pl.row_last_cells_[r]? = some ((c :: tail).getLastD null_ind) ∧
      (c :: tail).Pairwise (fun a b => abscissa pl a < abscissa pl b) ∧
      ∀ d ∈ tail, (∃ k, neighbour_index pl.cells_ d r = some k) ∧
        abscissa pl c < abscissa pl d
  | 0, _, _, _, _, _, _, _, hf => absurd hf (Nat.not_lt_zero _)
  | fuel + 1, c, cell, n, e, hc, hn, he, hf => by
    have hcn : c ≠ null_ind := by
      have := (List.getElem?_eq_some_iff.1 hc).1
      omega
    obtain ⟨_, hsucc⟩ := slot_checked pl hcheck c r n cell e hc hn he
    have hwalk : walk_row pl r (fuel + 1) c = c :: walk_row pl r fuel e.2 := by
      simp only [walk_row, hcn, if_false, hn, he]
    rw [hwalk]
    rcases hsucc with ⟨hs, oc, k, e', hoc, hord, hk, he', hback⟩ | ⟨hs, hlast⟩
    · have hw := hpos c cell hc
      have hlt : cell.position_x < oc.position_x := by omega
      have hm := cells_right_of_lt pl e.2 oc cell.position_x hoc hlt
      obtain ⟨tail, ht, hlink, hlst, hpw, hall⟩ := walk_chain pl r hcheck hpos hnull fuel e.2 oc
        k e' hoc hk he' (by omega)
      rw [hback] at hlink
      refine ⟨e.2 :: tail, by rw [ht], ⟨⟨n, hn, by simpa using he⟩, hlink⟩, ?_, ?_, ?_⟩
      · rw [List.getLastD_cons, List.getLastD_cons] at *
        simpa using hlst
      · rw [List.pairwise_cons]
        refine ⟨?_, hpw⟩
        intro d hd
        rw [abscissa_eq pl c cell hc]
        rcases List.mem_cons.1 hd with rfl | hd
        · rw [abscissa_eq pl _ oc hoc]
          exact hlt
        · have := (hall d hd).2
          rw [abscissa_eq pl _ oc hoc] at this
          omega
      · intro d hd
        rw [abscissa_eq pl c cell hc]
        rcases List.mem_cons.1 hd with rfl | hd
        · rw [abscissa_eq pl _ oc hoc]
          exact ⟨⟨k, hk⟩, hlt⟩
        · have := hall d hd
          rw [abscissa_eq pl _ oc hoc] at this
          exact ⟨this.1, by omega⟩
    · have hnil : walk_row pl r fuel e.2 = [] := by
        rw [hs]
        cases fuel <;> simp [walk_row]
      rw [hnil]
      refine ⟨[], rfl, ⟨⟨n, hn, ?_⟩, trivial⟩, by simpa using hlast, List.pairwise_singleton _ _,
        fun d hd => by simp at hd⟩
      rw [he]
      exact congrArg some (Prod.ext rfl hs)
theorem slot_entry (pl : detailed_placement) (hcheck : selfcheck pl = true) (c r n : Nat)
    (hn : neighbour_index pl.cells_ c r = some n) :
    ∃ cell e, pl.cells_[c]? = some cell ∧ pl.neighbours_[n]? = some e := by
  obtain ⟨cell, hcell, hrow, hlt, hnn⟩ := neighbour_index_some _ _ _ _ hn
  obtain ⟨_, e, he, _, _⟩ := selfcheck_slots pl hcheck c cell hcell (r - cell.row) hlt
  have h1 : r - cell.row + cell.neighbours_begin = n := by omega
  rw [h1] at he
  exact ⟨cell, e, hcell, he⟩

/-- The cell after a cell of a linked chain, when it is not the cell after the chain, is a
cell of the chain. -/
theorem chain_mem_succ (pl : detailed_placement) (r after : Nat) :
    ∀ (W : List Nat) (prev : Nat), chain_linked pl r after prev W →
    ∀ p ∈ W, ∀ (k : Nat) (e : Nat × Nat), neighbour_index pl.cells_ p r = some k →
      pl.neighbours_[k]? = some e → e.2 ≠ after → e.2 ∈ W
  | [], _, _ => fun p hp => by simp at hp
  | d :: ds, prev, h => by
    intro p hp k e hk he hne
    obtain ⟨⟨n, hn, hen⟩, hrest⟩ := h
    rcases List.mem_cons.1 hp with rfl | hp
    · rw [hn] at hk
      cases hk
      rw [hen] at he
      cases he
      cases ds with
      | nil => exact absurd rfl hne
      | cons x xs => simp
    · exact List.mem_cons_of_mem _ (chain_mem_succ pl r after ds d hrest p hp k e hk he hne)

theorem chain_walk (pl : detailed_placement) (r : Nat) (hnull : pl.cells_.length ≤ null_ind) :
    ∀ (W : List Nat) (prev : Nat), chain_linked pl r null_ind prev W →
    ∀ fuel, W.length ≤ fuel → walk_row pl r fuel (W.headD null_ind) = W
  | [], _, _ => fun fuel _ => by cases fuel <;> simp [walk_row]
  | c :: cs, prev, h => by
    intro fuel hfuel
    obtain ⟨⟨n, hn, hen⟩, hrest⟩ := h
    obtain ⟨cell, hcell, _⟩ := neighbour_index_some _ _ _ _ hn
    have hcn : c ≠ null_ind := by
      have := (List.getElem?_eq_some_iff.1 hcell).1
      omega
    cases fuel with
    | zero => simp at hfuel
    | succ fuel =>
      simp only [List.headD_cons, walk_row, hcn, if_false, hn, hen]
      rw [chain_walk pl r hnull cs c hrest fuel (by simpa using hfuel)]

/-- Every cell that occupies row `r` is met by the walk from the first cell of the row, on
a placement that passes `selfcheck` and has cells of positive width. -/
theorem reach_from_first (pl : detailed_placement) (r : Nat) (hcheck : selfcheck pl = true)
    (hpos : ∀ (i : Nat) (c : internal_cell), pl.cells_[i]? = some c → 0 < c.width)
    (hnull : pl.cells_.length ≤ null_ind) (fuel : Nat) (hfuel : pl.cells_.length ≤ fuel) :
    ∀ (m c : Nat) (cell : internal_cell) (n : Nat) (e : Nat × Nat),
    cells_left_of pl cell.position_x ≤ m → pl.cells_[c]? = some cell →
    neighbour_index pl.cells_ c r = some n → pl.neighbours_[n]? = some e →
    ∃ (f : Nat) (fcell : internal_cell) (nf : Nat) (ef : Nat × Nat),
      pl.row_first_cells_[r]? = some f ∧ pl.cells_[f]? = some fcell ∧
      neighbour_index pl.cells_ f r = some nf ∧ pl.neighbours_[nf]? = some ef ∧
      ef.1 = null_ind ∧ c ∈ walk_row pl r fuel f := by
  intro m
  induction m with
  | zero =>
    intro c cell n e hm hc hn he
    obtain ⟨hpred, _⟩ := slot_checked pl hcheck c r n cell e hc hn he
    rcases hpred with ⟨_, oc, _, _, hoc, hord, _⟩ | ⟨hp, hfirst⟩
    · have hw := hpos _ oc hoc
      have := cells_left_of_lt pl e.1 oc cell.position_x hoc (by omega)
      omega
    · obtain ⟨tail, ht, _⟩ := walk_chain pl r hcheck hpos hnull fuel c cell n e hc hn he
        (by have := cells_right_of_lt_length pl c cell hc; omega)
      exact ⟨c, cell, n, e, hfirst, hc, hn, he, hp, by rw [ht]; simp⟩
  | succ m ih =>
    intro c cell n e hm hc hn he
    obtain ⟨hpred, _⟩ := slot_checked pl hcheck c r n cell e hc hn he
    rcases hpred with ⟨_, oc, k, e', hoc, hord, hk, he', hback⟩ | ⟨hp, hfirst⟩
    · have hw := hpos _ oc hoc
      have hlt := cells_left_of_lt pl e.1 oc cell.position_x hoc (by omega)
      obtain ⟨f, fcell, nf, ef, hf, hfc, hnf, hef, hnul, hmem⟩ := ih e.1 oc k e' (by omega) hoc
        hk he'
      obtain ⟨tail, ht, hlink, _⟩ := walk_chain pl r hcheck hpos hnull fuel f fcell nf ef hfc
        hnf hef (by have := cells_right_of_lt_length pl f fcell hfc; omega)
      refine ⟨f, fcell, nf, ef, hf, hfc, hnf, hef, hnul, ?_⟩
      rw [ht] at hmem ⊢
      have hcn : c ≠ null_ind := by
        have := (List.getElem?_eq_some_iff.1 hc).1
        omega
      have := chain_mem_succ pl r null_ind _ _ hlink e.1 hmem k e' hk he' (by rw [hback]; exact hcn)
      rw [hback] at this
      exact this
    · obtain ⟨tail, ht, _⟩ := walk_chain pl r hcheck hpos hnull fuel c cell n e hc hn he
        (by have := cells_right_of_lt_length pl c cell hc; omega)
      exact ⟨c, cell, n, e, hfirst, hc, hn, he, hp, by rw [ht]; simp⟩

theorem nodup_length_le (row : List Nat) (n : Nat) (hnd : row.Nodup) (h : ∀ c ∈ row, c < n) :
    row.length ≤ n := by
  have hsub : row ⊆ List.range n := fun c hc => List.mem_range.2 (h c hc)
  have := (List.subperm_of_subset hnd hsub).length_le
  rwa [List.length_range] at this

/-- C29: on a placement that passes `selfcheck`, with cells of positive width and fewer
cells than the sentinel index, the cells that occupy a row `r` which holds a cell form one
chain `row`: the row reads `row` (each cell is linked to the cell before and after it in
`row`, the first and last pointer of the row are its two ends), a cell is in `row` exactly
when it occupies row `r`, the abscissas increase strictly along `row`, and the walk along
the successor links from the first cell of the row gives `row`. -/
theorem row_chain (pl : detailed_placement) (r : Nat) (hcheck : selfcheck pl = true)
    (hpos : ∀ (i : Nat) (c : internal_cell), pl.cells_[i]? = some c → 0 < c.width)
    (hnull : pl.cells_.length ≤ null_ind) (c0 n0 : Nat)
    (h0 : neighbour_index pl.cells_ c0 r = some n0) :
    ∃ row, row_reads pl r row ∧
      (∀ c, c ∈ row ↔ ∃ n, neighbour_index pl.cells_ c r = some n) ∧
      row.Pairwise (fun a b => abscissa pl a < abscissa pl b) ∧
      ∀ (fuel first : Nat), pl.cells_.length ≤ fuel → pl.row_first_cells_[r]? = some first →
        walk_row pl r fuel first = row := by
  obtain ⟨cell0, e0, hc0, he0⟩ := slot_entry pl hcheck c0 r n0 h0
  obtain ⟨f, fcell, nf, ef, hf, hfc, hnf, hef, hnul, _⟩ := reach_from_first pl r hcheck hpos
    hnull pl.cells_.length (le_refl _) _ c0 cell0 n0 e0 (le_refl _) hc0 h0 he0
  obtain ⟨tail, ht, hlink, hlast, hpw, hall⟩ := walk_chain pl r hcheck hpos hnull
    pl.cells_.length f fcell nf ef hfc hnf hef (cells_right_of_lt_length pl f fcell hfc)
  rw [hnul] at hlink
  have hnd : (f :: tail).Nodup := hpw.imp (fun h => by
    intro heq
    rw [heq] at h
    exact lt_irrefl _ h)
  have hocc : ∀ c ∈ f :: tail, ∃ n, neighbour_index pl.cells_ c r = some n := by
    intro c hc
    rcases List.mem_cons.1 hc with rfl | hc
    · exact ⟨nf, hnf⟩
    · exact (hall c hc).1
  refine ⟨f :: tail, ⟨hlink, by simpa using hf, hlast, hnd⟩, ?_, hpw, ?_⟩
  · intro c
    constructor
    · exact hocc c
    · rintro ⟨n, hn⟩
      obtain ⟨cell, e, hc, he⟩ := slot_entry pl hcheck c r n hn
      obtain ⟨f', _, _, _, hf', _, _, _, _, hmem⟩ := reach_from_first pl r hcheck hpos hnull
        pl.cells_.length (le_refl _) _ c cell n e (le_refl _) hc hn he
      rw [hf] at hf'
      cases hf'
      rw [ht] at hmem
      exact hmem
  · intro fuel first hfuel hfirst
    rw [hf] at hfirst
    cases hfirst
    have hlen := nodup_length_le (f :: tail) pl.cells_.length hnd (fun c hc => by
      obtain ⟨n, hn⟩ := hocc c hc
      obtain ⟨cell, hcell, _⟩ := neighbour_index_some _ _ _ _ hn
      exact (List.getElem?_eq_some_iff.1 hcell).1)
    exact chain_walk pl r hnull (f :: tail) null_ind hlink fuel (by omega)

theorem row_chain_witness :
    selfcheck example_placement = true ∧
    (∀ (i : Nat) (c : internal_cell), example_placement.cells_[i]? = some c → 0 < c.width) ∧
    example_placement.cells_.length ≤ null_ind ∧
    neighbour_index example_placement.cells_ 4 0 = some 5 ∧
    ∃ row, row_reads example_placement 0 row ∧
      (∀ c, c ∈ row ↔ ∃ n, neighbour_index example_placement.cells_ c 0 = some n) ∧
      row.Pairwise (fun a b => abscissa example_placement a < abscissa example_placement b) ∧
      ∀ (fuel first : Nat), example_placement.cells_.length ≤ fuel →
        example_placement.row_first_cells_[0]? = some first →
        walk_row example_placement 0 fuel first = row :=
  have hpos : ∀ (i : Nat) (c : internal_cell), example_placement.cells_[i]? = some c →
      0 < c.width := by
    intro i c hc
    have hi : i < 5 := (List.getElem?_eq_some_iff.1 hc).1
    interval_cases i <;> cases hc <;> decide
  ⟨by decide, hpos, by decide, by decide,
    row_chain example_placement 0 (by decide) hpos (by decide) 4 5 (by decide)⟩

/-! ## Theorems: the rows after an accepted swap -/

/-- The situation of an accepted swap, read off a call of `try_swap` that returns true on
a placement with the table layout and the row invariant. -/
theorem accepted_swap_context {K : Type} [LT K] [DecidableRel (fun a b : K => a < b)]
    (cost : detailed_placement → List Nat → Option K) (circuit : netlist)
    (pl pl' : detailed_placement) (c1 c2 : Nat) (cell1 cell2 : internal_cell)
    (hlay : table_layout pl) (hinv : row_invariant pl)
    (hc1 : pl.cells_[c1]? = some cell1) (hc2 : pl.cells_[c2]? = some cell2)
    (hself : no_self_link pl)
    (h : try_swap_with cost circuit pl c1 c2 = some (true, pl')) :
    ∃ (e1 e2 : Nat × Nat) (c1_l c2_l c1_u c2_u : Int),
      limit_low pl e1.1 = some c1_l ∧ limit_up pl e1.2 = some c1_u ∧
      limit_low pl e2.1 = some c2_l ∧ limit_up pl e2.2 = some c2_u ∧
      swap_context pl pl' c1 c2 cell1 cell2 e1 e2
        (Int.tdiv (c2_l + (c2_u - cell1.width)) 2)
        (Int.tdiv (c1_l + (c1_u - cell2.width)) 2) := by
  unfold try_swap_with at h
  rw [hc1, hc2] at h
  split at h
  · rename_i d1 d2 nc1 nc2 hd1 hd2 _ _
    cases hd1; cases hd2
    split_ifs at h with hh hsz hrows
    simp only [not_not] at hh
    simp only [ne_eq, not_not] at hrows
    split at h
    · rename_i e1 e2 he1 he2
      split at h
      · rename_i c1_l c2_l c1_u c2_u hl1 hl2 hu1 hu2
        obtain ⟨hfit1, hfit2, hcommit⟩ := try_swap_limits_true cost circuit pl pl' c1 c2
          cell1 cell2 e1 e2 _ _ _ _ h
        have hne : c1 ≠ c2 := by
          intro he
          subst he
          rw [hc1] at hc2
          cases hc2
          exact hrows rfl
        have hn : cell1.neighbours_begin ≠ cell2.neighbours_begin := by
          intro he
          have h1 := (neighbour_index_height_one pl.cells_ c1 cell1 hc1 hh.1 cell1.row
            cell1.neighbours_begin).2 ⟨rfl, rfl⟩
          have h2 := (neighbour_index_height_one pl.cells_ c2 cell2 hc2 hh.2 cell2.row
            cell2.neighbours_begin).2 ⟨rfl, rfl⟩
          rw [← he] at h2
          exact hne (neighbour_index_inj pl.cells_ hlay.2.2 _ _ _ _ _ h1 h2).1
        have heff := commit_swap_spec pl pl' c1 c2 cell1 cell2 e1 e2 _ _ hc1 hc2 hne hrows hn
          he1 he2 hcommit
        have hx1 := tdiv_two_between c2_l (c2_u - cell1.width) hfit1
        have hx2 := tdiv_two_between c1_l (c1_u - cell2.width) hfit2
        have L1 := limit_low_spec pl e1.1 c1_l hl1
        have L2 := limit_low_spec pl e2.1 c2_l hl2
        have U1 := limit_up_spec pl e1.2 c1_u hu1
        have U2 := limit_up_spec pl e2.2 c2_u hu2
        exact ⟨e1, e2, c1_l, c2_l, c1_u, c2_u, hl1, hu1, hl2, hu2,
          { layout := hlay
            inv := hinv
            hc1 := hc1
            hc2 := hc2
            height1 := hh.1
            height2 := hh.2
            rows := hrows
            loose1 := hself c1 cell1 0 e1 hc1 (by rw [hh.1]; exact Nat.zero_lt_one) he1
            loose2 := hself c2 cell2 0 e2 hc2 (by rw [hh.2]; exact Nat.zero_lt_one) he2
            he1 := he1
            he2 := he2
            low1 := fun oc hb hoc => by have := L2.1 oc hb hoc; omega
            low1_end := fun hb => by have := L2.2 hb; omega
            up1 := fun oc ha hoc => by have := U2.1 oc ha hoc; omega
            up1_end := fun ha => by have := U2.2 ha; omega
            low2 := fun oc hb hoc => by have := L1.1 oc hb hoc; omega
            low2_end := fun hb => by have := L1.2 hb; omega
            up2 := fun oc ha hoc => by have := U1.1 oc ha hoc; omega
            up2_end := fun ha => by have := U1.2 ha; omega
            effect := heff }⟩
      · exact absurd h (by simp)
    · exact absurd h (by simp)
  · exact absurd h (by simp)

theorem exchange_injective (c1 c2 : Nat) : Function.Injective (exchange c1 c2) := by
  intro a b h
  unfold exchange at h
  split_ifs at h <;> omega

theorem exchange_other (c1 c2 c : Nat) (h1 : c ≠ c1) (h2 : c ≠ c2) : exchange c1 c2 c = c := by
  simp [exchange, h1, h2]

theorem exchange_left (c1 c2 : Nat) : exchange c1 c2 c1 = c2 := by
  simp [exchange]

theorem exchange_right (c1 c2 : Nat) : exchange c1 c2 c2 = c1 := by
  unfold exchange
  by_cases h : c2 = c1 <;> simp [h]
section swap_rows

variable {pl pl' : detailed_placement} {c1 c2 : Nat} {cell1 cell2 : internal_cell}
  {e1 e2 : Nat × Nat} {x1 x2 : Int}

theorem swap_context_null (ctx : swap_context pl pl' c1 c2 cell1 cell2 e1 e2 x1 x2) :
    exchange c1 c2 null_ind = null_ind :=
  exchange_other c1 c2 null_ind (Ne.symm (swap_context_not_null ctx c1 cell1 ctx.hc1))
    (Ne.symm (swap_context_not_null ctx c2 cell2 ctx.hc2))

theorem swap_context_near1 (ctx : swap_context pl pl' c1 c2 cell1 cell2 e1 e2 x1 x2) :
    exchange c1 c2 e1.1 = e1.1 ∧ exchange c1 c2 e1.2 = e1.2 := by
  constructor
  · by_cases h : e1.1 = null_ind
    · rw [h]
      exact swap_context_null ctx
    · obtain ⟨_, _, _, _, _, _, _, h1, h2, _⟩ := swap_context_b1 ctx h
      exact exchange_other _ _ _ h1 h2
  · by_cases h : e1.2 = null_ind
    · rw [h]
      exact swap_context_null ctx
    · obtain ⟨_, _, _, _, _, _, _, h1, h2, _⟩ := swap_context_a1 ctx h
      exact exchange_other _ _ _ h1 h2

theorem swap_context_near2 (ctx : swap_context pl pl' c1 c2 cell1 cell2 e1 e2 x1 x2) :
    exchange c1 c2 e2.1 = e2.1 ∧ exchange c1 c2 e2.2 = e2.2 := by
  constructor
  · by_cases h : e2.1 = null_ind
    · rw [h]
      exact swap_context_null ctx
    · obtain ⟨_, _, _, _, _, _, _, h1, h2, _⟩ := swap_context_b2 ctx h
      exact exchange_other _ _ _ h1 h2
  · by_cases h : e2.2 = null_ind
    · rw [h]
      exact swap_context_null ctx
    · obtain ⟨_, _, _, _, _, _, _, h1, h2, _⟩ := swap_context_a2 ctx h
      exact exchange_other _ _ _ h1 h2

/-- The predecessor `p` recorded for a cell `c` other than `c1` and `c2`, after the swap. -/
theorem swap_pred_exchanged (ctx : swap_context pl pl' c1 c2 cell1 cell2 e1 e2 x1 x2)
    (c r n : Nat) (cell : internal_cell) (e : Nat × Nat) (hc : pl.cells_[c]? = some cell)
    (hn : neighbour_index pl.cells_ c r = some n) (he : pl.neighbours_[n]? = some e) :
    (if e2.2 ≠ null_ind ∧ e2.2 = c ∧ cell2.row = r then c1
      else if e1.2 ≠ null_ind ∧ e1.2 = c ∧ cell1.row = r then c2 else e.1) =
      exchange c1 c2 e.1 := by
  have hcn := swap_context_not_null ctx c cell hc
  obtain ⟨hpred, _⟩ := slot_checked pl ctx.inv.checked c r n cell e hc hn he
  have hfrom : ∀ (p : Nat) (cellp : internal_cell) (ep : Nat × Nat), e.1 = p →
      pl.cells_[p]? = some cellp → cellp.height = 1 →
      pl.neighbours_[cellp.neighbours_begin]? = some ep → ep.2 = c ∧ cellp.row = r := by
    intro p cellp ep hp hcp hh hep
    rcases hpred with ⟨_, oc, k, e', hoc, _, hk, he', hback⟩ | ⟨hnul, _⟩
    · rw [hp] at hk
      obtain ⟨hr, hkk⟩ := (neighbour_index_height_one pl.cells_ p cellp hcp hh r k).1 hk
      rw [hkk, hep] at he'
      cases he'
      exact ⟨hback, hr.symm⟩
    · rw [hp] at hnul
      exact absurd hnul (swap_context_not_null ctx p cellp hcp)
  by_cases h2 : e2.2 ≠ null_ind ∧ e2.2 = c ∧ cell2.row = r
  · rw [if_pos h2]
    obtain ⟨_, k, e', _, hk, he', hback, _⟩ := swap_context_a2 ctx h2.1
    rw [h2.2.1, h2.2.2, hn] at hk
    cases hk
    rw [he] at he'
    cases he'
    rw [hback, exchange_right]
  · rw [if_neg h2]
    by_cases h1 : e1.2 ≠ null_ind ∧ e1.2 = c ∧ cell1.row = r
    · rw [if_pos h1]
      obtain ⟨_, k, e', _, hk, he', hback, _⟩ := swap_context_a1 ctx h1.1
      rw [h1.2.1, h1.2.2, hn] at hk
      cases hk
      rw [he] at he'
      cases he'
      rw [hback, exchange_left]
    · rw [if_neg h1]
      symm
      apply exchange_other
      · intro hp
        obtain ⟨ha, hb⟩ := hfrom c1 cell1 e1 hp ctx.hc1 ctx.height1 ctx.he1
        exact h1 ⟨by rw [ha]; exact hcn, ha, hb⟩
      · intro hp
        obtain ⟨ha, hb⟩ := hfrom c2 cell2 e2 hp ctx.hc2 ctx.height2 ctx.he2
        exact h2 ⟨by rw [ha]; exact hcn, ha, hb⟩

/-- The successor `s` recorded for a cell `c` other than `c1` and `c2`, after the swap. -/
theorem swap_succ_exchanged (ctx : swap_context pl pl' c1 c2 cell1 cell2 e1 e2 x1 x2)
    (c r n : Nat) (cell : internal_cell) (e : Nat × Nat) (hc : pl.cells_[c]? = some cell)
    (hn : neighbour_index pl.cells_ c r = some n) (he : pl.neighbours_[n]? = some e) :
    (if e2.1 ≠ null_ind ∧ e2.1 = c ∧ cell2.row = r then c1
      else if e1.1 ≠ null_ind ∧ e1.1 = c ∧ cell1.row = r then c2 else e.2) =
      exchange c1 c2 e.2 := by
  have hcn := swap_context_not_null ctx c cell hc
  obtain ⟨_, hsucc⟩ := slot_checked pl ctx.inv.checked c r n cell e hc hn he
  have hfrom : ∀ (p : Nat) (cellp : internal_cell) (ep : Nat × Nat), e.2 = p →
      pl.cells_[p]? = some cellp → cellp.height = 1 →
      pl.neighbours_[cellp.neighbours_begin]? = some ep → ep.1 = c ∧ cellp.row = r := by
    intro p cellp ep hp hcp hh hep
    rcases hsucc with ⟨_, oc, k, e', hoc, _, hk, he', hback⟩ | ⟨hnul, _⟩
    · rw [hp] at hk
      obtain ⟨hr, hkk⟩ := (neighbour_index_height_one pl.cells_ p cellp hcp hh r k).1 hk
      rw [hkk, hep] at he'
      cases he'
      exact ⟨hback, hr.symm⟩
    · rw [hp] at hnul
      exact absurd hnul (swap_context_not_null ctx p cellp hcp)
  by_cases h2 : e2.1 ≠ null_ind ∧ e2.1 = c ∧ cell2.row = r
  · rw [if_pos h2]
    obtain ⟨_, k, e', _, hk, he', hback, _⟩ := swap_context_b2 ctx h2.1
    rw [h2.2.1, h2.2.2, hn] at hk
    cases hk
    rw [he] at he'
    cases he'
    rw [hback, exchange_right]
  · rw [if_neg h2]
    by_cases h1 : e1.1 ≠ null_ind ∧ e1.1 = c ∧ cell1.row = r
    · rw [if_pos h1]
      obtain ⟨_, k, e', _, hk, he', hback, _⟩ := swap_context_b1 ctx h1.1
      rw [h1.2.1, h1.2.2, hn] at hk
      cases hk
      rw [he] at he'
      cases he'
      rw [hback, exchange_left]
    · rw [if_neg h1]
      symm
      apply exchange_other
      · intro hp
        obtain ⟨ha, hb⟩ := hfrom c1 cell1 e1 hp ctx.hc1 ctx.height1 ctx.he1
        exact h1 ⟨by rw [ha]; exact hcn, ha, hb⟩
      · intro hp
        obtain ⟨ha, hb⟩ := hfrom c2 cell2 e2 hp ctx.hc2 ctx.height2 ctx.he2
        exact h2 ⟨by rw [ha]; exact hcn, ha, hb⟩

/-- The row-slot of a cell after the swap: where the cell `c` had the neighbours `e` in row
`r`, the cell that takes its place has the cells that take the places of these
neighbours. -/
theorem swap_slot_exchanged (ctx : swap_context pl pl' c1 c2 cell1 cell2 e1 e2 x1 x2)
    (c r n : Nat) (e : Nat × Nat) (hn : neighbour_index pl.cells_ c r = some n)
    (he : pl.neighbours_[n]? = some e) :
    ∃ n', neighbour_index pl'.cells_ (exchange c1 c2 c) r = some n' ∧
      pl'.neighbours_[n']? = some (exchange c1 c2 e.1, exchange c1 c2 e.2) := by
  by_cases h1 : c = c1
  · subst h1
    obtain ⟨hr, hnn⟩ := (swap_context_ni1 ctx r n).1 hn
    subst hnn
    rw [ctx.he1] at he
    cases he
    rw [exchange_left, (swap_context_near1 ctx).1, (swap_context_near1 ctx).2]
    exact ⟨cell2.neighbours_begin, (swap_index_c2 ctx r _).2 ⟨hr, rfl⟩, swap_entry_c2 ctx⟩
  · by_cases h2 : c = c2
    · subst h2
      obtain ⟨hr, hnn⟩ := (swap_context_ni2 ctx r n).1 hn
      subst hnn
      rw [ctx.he2] at he
      cases he
      rw [exchange_right, (swap_context_near2 ctx).1, (swap_context_near2 ctx).2]
      exact ⟨cell1.neighbours_begin, (swap_index_c1 ctx r _).2 ⟨hr, rfl⟩, swap_entry_c1 ctx⟩
    · obtain ⟨cell, hcell, _⟩ := neighbour_index_some _ _ _ _ hn
      rw [exchange_other c1 c2 c h1 h2]
      refine ⟨n, by rw [swap_index_other ctx c h1 h2 r]; exact hn, ?_⟩
      rw [swap_other_entry ctx c r n h1 h2 hn e he,
        swap_pred_exchanged ctx c r n cell e hcell hn he,
        swap_succ_exchanged ctx c r n cell e hcell hn he]

theorem swap_chain_exchanged (ctx : swap_context pl pl' c1 c2 cell1 cell2 e1 e2 x1 x2)
    (r after : Nat) : ∀ (W : List Nat) (prev : Nat), chain_linked pl r after prev W →
    chain_linked pl' r (exchange c1 c2 after) (exchange c1 c2 prev) (W.map (exchange c1 c2))
  | [], _, _ => trivial
  | c :: cs, prev, h => by
    obtain ⟨⟨n, hn, he⟩, hrest⟩ := h
    obtain ⟨n', hn', he'⟩ := swap_slot_exchanged ctx c r n _ hn he
    refine ⟨⟨n', hn', ?_⟩, swap_chain_exchanged ctx r after cs c hrest⟩
    rw [he']
    cases cs <;> rfl

end swap_rows
theorem getLastD_map {α β : Type} (f : α → β) : ∀ (l : List α) (d : α),
    (l.map f).getLastD (f d) = f (l.getLastD d)
  | [], _ => rfl
  | a :: l, _ => by
    simp only [List.map_cons, List.getLastD_cons]
    exact getLastD_map f l a

theorem headD_map {α β : Type} (f : α → β) (l : List α) (d : α) :
    (l.map f).headD (f d) = f (l.headD d) := by
  cases l <;> rfl

section swap_row_ends

variable {pl pl' : detailed_placement} {c1 c2 : Nat} {cell1 cell2 : internal_cell}
  {e1 e2 : Nat × Nat} {x1 x2 : Int}

theorem swap_first_exchanged (ctx : swap_context pl pl' c1 c2 cell1 cell2 e1 e2 x1 x2)
    (r h : Nat) (hfirst : pl.row_first_cells_[r]? = some h) :
    pl'.row_first_cells_[r]? = some (exchange c1 c2 h) := by
  obtain ⟨_, hp1, _⟩ := swap_context_ok1 ctx
  obtain ⟨_, hp2, _⟩ := swap_context_ok2 ctx
  by_cases hA : e2.1 = null_ind ∧ r = cell2.row
  · rcases hp2 with ⟨hne, _⟩ | ⟨_, hf⟩
    · exact absurd hA.1 hne
    · rw [hA.2, hf] at hfirst
      cases hfirst
      rw [exchange_right, hA.2]
      exact ctx.effect.first_c1 hA.1
  · by_cases hB : e1.1 = null_ind ∧ r = cell1.row
    · rcases hp1 with ⟨hne, _⟩ | ⟨_, hf⟩
      · exact absurd hB.1 hne
      · rw [hB.2, hf] at hfirst
        cases hfirst
        rw [exchange_left, hB.2]
        exact ctx.effect.first_c2 hB.1
    · rw [ctx.effect.first_other r hA hB, hfirst]
      congr 1
      symm
      by_cases hnul : h = null_ind
      · rw [hnul]
        exact swap_context_null ctx
      · obtain ⟨n, e, hn, he, hen⟩ := ctx.inv.first_exact r h hfirst hnul
        apply exchange_other
        · intro hc
          rw [hc] at hn
          obtain ⟨hr, hnn⟩ := (swap_context_ni1 ctx r n).1 hn
          rw [hnn, ctx.he1] at he
          cases he
          exact hB ⟨hen, hr⟩
        · intro hc
          rw [hc] at hn
          obtain ⟨hr, hnn⟩ := (swap_context_ni2 ctx r n).1 hn
          rw [hnn, ctx.he2] at he
          cases he
          exact hA ⟨hen, hr⟩

theorem swap_last_exchanged (ctx : swap_context pl pl' c1 c2 cell1 cell2 e1 e2 x1 x2)
    (r h : Nat) (hlast : pl.row_last_cells_[r]? = some h) :
    pl'.row_last_cells_[r]? = some (exchange c1 c2 h) := by
  obtain ⟨_, _, hs1⟩ := swap_context_ok1 ctx
  obtain ⟨_, _, hs2⟩ := swap_context_ok2 ctx
  by_cases hA : e2.2 = null_ind ∧ r = cell2.row
  · rcases hs2 with ⟨hne, _⟩ | ⟨_, hf⟩
    · exact absurd hA.1 hne
    · rw [hA.2, hf] at hlast
      cases hlast
      rw [exchange_right, hA.2]
      exact ctx.effect.last_c1 hA.1
  · by_cases hB : e1.2 = null_ind ∧ r = cell1.row
    · rcases hs1 with ⟨hne, _⟩ | ⟨_, hf⟩
      · exact absurd hB.1 hne
      · rw [hB.2, hf] at hlast
        cases hlast
        rw [exchange_left, hB.2]
        exact ctx.effect.last_c2 hB.1
    · rw [ctx.effect.last_other r hA hB, hlast]
      congr 1
      symm
      by_cases hnul : h = null_ind
      · rw [hnul]
        exact swap_context_null ctx
      · obtain ⟨n, e, hn, he, hen⟩ := ctx.inv.last_exact r h hlast hnul
        apply exchange_other
        · intro hc
          rw [hc] at hn
          obtain ⟨hr, hnn⟩ := (swap_context_ni1 ctx r n).1 hn
          rw [hnn, ctx.he1] at he
          cases he
          exact hB ⟨hen, hr⟩
        · intro hc
          rw [hc] at hn
          obtain ⟨hr, hnn⟩ := (swap_context_ni2 ctx r n).1 hn
          rw [hnn, ctx.he2] at he
          cases he
          exact hA ⟨hen, hr⟩

/-- After the swap every row reads as before with `c1` and `c2` exchanged. -/
theorem swap_row_reads (ctx : swap_context pl pl' c1 c2 cell1 cell2 e1 e2 x1 x2)
    (r : Nat) (row : List Nat) (h : row_reads pl r row) :
    row_reads pl' r (row.map (exchange c1 c2)) := by
  have hnul := swap_context_null ctx
  refine ⟨?_, ?_, ?_, h.nodup.map (exchange_injective c1 c2)⟩
  · have := swap_chain_exchanged ctx r null_ind row null_ind h.linked
    rw [hnul] at this
    exact this
  · have := swap_first_exchanged ctx r _ h.first
    rw [← headD_map (exchange c1 c2) row null_ind, hnul] at this
    exact this
  · have := swap_last_exchanged ctx r _ h.last
    rw [← getLastD_map (exchange c1 c2) row null_ind, hnul] at this
    exact this

end swap_row_ends

/-- On `loop_placement`, whose cell 0 is its own predecessor and successor, the accepted
swap of the cells 0 and 1 does not exchange the pairs of the two cells: cell 1 had no
predecessor and no successor before the call, and after the call cell 0 has cell 1 as
predecessor and as successor. -/
theorem try_swap_looped_cell_pairs :
    table_layout loop_placement ∧ row_invariant loop_placement ∧
    try_swap loop_circuit loop_placement 0 1 = some (true, loop_swapped) ∧
    loop_placement.cells_[0]? = some ⟨0, 0, 0, 1, 0, 0, true, true⟩ ∧
    loop_placement.cells_[1]? = some ⟨0, 1, 0, 1, 1, 1, true, true⟩ ∧
    loop_placement.neighbours_[0]? = some (0, 0) ∧
    loop_placement.neighbours_[1]? = some (null_ind, null_ind) ∧
    loop_swapped.neighbours_[0]? = some (1, 1) :=
  ⟨loop_layout, loop_invariant, by decide!, by decide, by decide, by decide, by decide,
    by decide⟩

/-- C26: on a placement with the table layout and the row invariant that links no cell to
itself, as every placement that the constructor returns, when `try_swap(c1, c2)` returns
true, with records `cell1`, `cell2`, row-slots `e1`, `e2` and gap limits `c1_l`, `c1_u`,
`c2_l`, `c2_u` before the call: after the call `c1` has the row and the ordinate of `c2`
and the abscissa `(c2_l + (c2_u - width(c1))) / 2`, and likewise `c2`; the row-slot of `c1`
holds the pair `e2` and the row-slot of `c2` the pair `e1`; and every row that read `row`
reads `row` with `c1` and `c2` exchanged. The division is the one of C++, and the cells may
have any width, zero included. -/
theorem accepted_swap_exchanges_cells {K : Type} [LT K] [DecidableRel (fun a b : K => a < b)]
    (cost : detailed_placement → List Nat → Option K) (circuit : netlist)
    (pl pl' : detailed_placement) (c1 c2 : Nat) (cell1 cell2 : internal_cell)
    (hlay : table_layout pl) (hinv : row_invariant pl) (hself : no_self_link pl)
    (hc1 : pl.cells_[c1]? = some cell1) (hc2 : pl.cells_[c2]? = some cell2)
    (h : try_swap_with cost circuit pl c1 c2 = some (true, pl')) :
    ∃ (e1 e2 : Nat × Nat) (c1_l c2_l c1_u c2_u : Int),
      pl.neighbours_[cell1.neighbours_begin]? = some e1 ∧
      pl.neighbours_[cell2.neighbours_begin]? = some e2 ∧
      limit_low pl e1.1 = some c1_l ∧ limit_up pl e1.2 = some c1_u ∧
      limit_low pl e2.1 = some c2_l ∧ limit_up pl e2.2 = some c2_u ∧
      pl'.cells_[c1]? = some { cell1 with
        position_x := Int.tdiv (c2_l + (c2_u - cell1.width)) 2,
        position_y := cell2.position_y, row := cell2.row } ∧
      pl'.cells_[c2]? = some { cell2 with
        position_x := Int.tdiv (c1_l + (c1_u - cell2.width)) 2,
        position_y := cell1.position_y, row := cell1.row } ∧
      pl'.neighbours_[cell1.neighbours_begin]? = some e2 ∧
      pl'.neighbours_[cell2.neighbours_begin]? = some e1 ∧
      ∀ (r : Nat) (row : List Nat), row_reads pl r row →
        row_reads pl' r (row.map (exchange c1 c2)) := by
  obtain ⟨e1, e2, c1_l, c2_l, c1_u, c2_u, hl1, hu1, hl2, hu2, ctx⟩ :=
    accepted_swap_context cost circuit pl pl' c1 c2 cell1 cell2 hlay hinv hc1 hc2 hself h
  exact ⟨e1, e2, c1_l, c2_l, c1_u, c2_u, ctx.he1, ctx.he2, hl1, hu1, hl2, hu2,
    ctx.effect.cell_c1, ctx.effect.cell_c2, swap_entry_c1 ctx, swap_entry_c2 ctx,
    fun r row hrow => swap_row_reads ctx r row hrow⟩

theorem accepted_swap_exchanges_cells_witness :
    detailed_placement.construct thin_cells thin_rows 0 10 0 2 1 = some thin_placement ∧
    table_layout thin_placement ∧ row_invariant thin_placement ∧
    no_self_link thin_placement ∧
    thin_placement.cells_[1]? = some ⟨0, 0, 0, 1, 0, 1, true, true⟩ ∧
    thin_placement.cells_[2]? = some ⟨8, 1, 0, 1, 1, 2, true, true⟩ ∧
    try_swap_with (get_nets_cost thin_circuit) thin_circuit thin_placement 1 2
      = some (true, thin_swapped) ∧
    row_reads thin_placement 0 [0, 1] ∧ row_reads thin_swapped 0 [0, 2] ∧
    ∃ (e1 e2 : Nat × Nat) (c1_l c2_l c1_u c2_u : Int),
      thin_placement.neighbours_[1]? = some e1 ∧
      thin_placement.neighbours_[2]? = some e2 ∧
      limit_low thin_placement e1.1 = some c1_l ∧
      limit_up thin_placement e1.2 = some c1_u ∧
      limit_low thin_placement e2.1 = some c2_l ∧
      limit_up thin_placement e2.2 = some c2_u ∧
      thin_swapped.cells_[1]? =
        some ⟨Int.tdiv (c2_l + (c2_u - 0)) 2, 1, 0, 1, 1, 1, true, true⟩ ∧
      thin_swapped.cells_[2]? =
        some ⟨Int.tdiv (c1_l + (c1_u - 0)) 2, 0, 0, 1, 0, 2, true, true⟩ ∧
      thin_swapped.neighbours_[1]? = some e2 ∧
      thin_swapped.neighbours_[2]? = some e1 ∧
      ∀ (r : Nat) (row : List Nat), row_reads thin_placement r row →
        row_reads thin_swapped r (row.map (exchange 1 2)) :=
  have hrow : row_reads thin_placement 0 [0, 1] :=
    ⟨⟨⟨0, by decide, by decide⟩, ⟨1, by decide, by decide⟩, trivial⟩,
      by decide, by decide, by decide⟩
  have hall := accepted_swap_exchanges_cells (get_nets_cost thin_circuit) thin_circuit
    thin_placement thin_swapped 1 2 ⟨0, 0, 0, 1, 0, 1, true, true⟩
    ⟨8, 1, 0, 1, 1, 2, true, true⟩ thin_layout thin_invariant thin_no_self_link (by decide)
    (by decide) (by decide!)
  ⟨by decide, thin_layout, thin_invariant, thin_no_self_link, by decide, by decide, by decide!,
    hrow,
    (by
      obtain ⟨_, _, _, _, _, _, _, _, _, _, _, _, _, _, _, _, hrows⟩ := hall
      exact hrows 0 [0, 1] hrow), hall⟩

/-! ## Theorems: the rewritten window of a row -/

theorem headD_append_left (l1 l2 : List Nat) (d : Nat) :
    (l1 ++ l2).headD d = l1.headD (l2.headD d) := by
  cases l1 <;> rfl

theorem getLastD_append_right (l1 l2 : List Nat) (d : Nat) :
    (l1 ++ l2).getLastD d = l2.getLastD (l1.getLastD d) := by
  induction l1 generalizing d with
  | nil => rfl
  | cons a l ih =>
    simp only [List.cons_append, List.getLastD_cons]
    exact ih a

theorem chain_linked_append (pl : detailed_placement) (r after : Nat) :
    ∀ (l1 l2 : List Nat) (prev : Nat),
    chain_linked pl r after prev (l1 ++ l2) ↔
      chain_linked pl r (l2.headD after) prev l1 ∧
      chain_linked pl r after (l1.getLastD prev) l2
  | [], l2, prev => by simp [chain_linked]
  | c :: cs, l2, prev => by
    have ih := chain_linked_append pl r after cs l2 c
    have hh := headD_append_left cs l2 after
    show ((∃ n, neighbour_index pl.cells_ c r = some n ∧
        pl.neighbours_[n]? = some (prev, (cs ++ l2).headD after)) ∧
      chain_linked pl r after c (cs ++ l2)) ↔
      ((∃ n, neighbour_index pl.cells_ c r = some n ∧
        pl.neighbours_[n]? = some (prev, cs.headD (l2.headD after))) ∧
      chain_linked pl r (l2.headD after) c cs) ∧
      chain_linked pl r after ((c :: cs).getLastD prev) l2
    rw [ih, hh, List.getLastD_cons]
    tauto

theorem chain_linked_congr (pl pl' : detailed_placement) (r after : Nat) :
    ∀ (l : List Nat) (prev : Nat),
    (∀ c ∈ l, ∀ n, neighbour_index pl.cells_ c r = some n →
      neighbour_index pl'.cells_ c r = some n ∧ pl'.neighbours_[n]? = pl.neighbours_[n]?) →
    chain_linked pl r after prev l → chain_linked pl' r after prev l
  | [], _, _, _ => trivial
  | c :: cs, prev, hsame, h => by
    obtain ⟨⟨n, hn, he⟩, hrest⟩ := h
    obtain ⟨hn', he'⟩ := hsame c (List.mem_cons_self _ _) n hn
    exact ⟨⟨n, hn', by rw [he', he]⟩,
      chain_linked_congr pl pl' r after cs c
        (fun d hd => hsame d (List.mem_cons_of_mem _ hd)) hrest⟩

/-- The row-slot of a cell of a linked chain holds the cell before it and the cell after it
in the chain. -/
theorem chain_linked_entry (pl : detailed_placement) (r after prev : Nat) (l1 l2 : List Nat)
    (c : Nat) (h : chain_linked pl r after prev (l1 ++ c :: l2)) :
    ∃ n, neighbour_index pl.cells_ c r = some n ∧
      pl.neighbours_[n]? = some (l1.getLastD prev, l2.headD after) := by
  obtain ⟨_, ⟨h1, _⟩⟩ := (chain_linked_append pl r after l1 (c :: l2) prev).1 h
  exact h1

theorem chain_linked_valid (pl : detailed_placement) (r after prev : Nat) (l : List Nat)
    (h : chain_linked pl r after prev l) (c : Nat) (hc : c ∈ l) :
    ∃ n cell, neighbour_index pl.cells_ c r = some n ∧ pl.cells_[c]? = some cell := by
  obtain ⟨l1, l2, rfl⟩ := List.append_of_mem hc
  obtain ⟨n, hn, _⟩ := chain_linked_entry pl r after prev l1 l2 c h
  obtain ⟨cell, hcell, _⟩ := neighbour_index_some _ _ _ _ hn
  exact ⟨n, cell, hn, hcell⟩

theorem getLastD_ne_null (pl : detailed_placement) (hnull : pl.cells_.length ≤ null_ind)
    (l : List Nat) (d : Nat) (hvalid : ∀ c ∈ l, c < pl.cells_.length)
    (h : l.getLastD d = null_ind) : l = [] := by
  cases l with
  | nil => rfl
  | cons a as =>
    have hmem : (a :: as).getLastD d ∈ a :: as := by
      rw [List.getLastD_eq_getLast?, List.getLast?_eq_getLast _ (List.cons_ne_nil _ _)]
      exact List.getLast_mem _
    have := hvalid _ hmem
    omega

theorem headD_ne_null (pl : detailed_placement) (hnull : pl.cells_.length ≤ null_ind)
    (l : List Nat) (hvalid : ∀ c ∈ l, c < pl.cells_.length)
    (h : l.headD null_ind = null_ind) : l = [] := by
  cases l with
  | nil => rfl
  | cons a as =>
    have := hvalid a (List.mem_cons_self _ _)
    simp only [List.headD_cons] at h
    omega
theorem list_snoc_cases (l : List Nat) : l = [] ∨ ∃ l' q, l = l' ++ [q] := by
  rcases List.eq_nil_or_concat l with h | ⟨L, b, h⟩
  · exact Or.inl h
  · exact Or.inr ⟨L, b, by rw [h, List.concat_eq_append]⟩

theorem chain_ordered (pl : detailed_placement) (r after : Nat) (hcheck : selfcheck pl = true)
    (hnull : pl.cells_.length ≤ null_ind) :
    ∀ (l : List Nat) (prev : Nat), chain_linked pl r after prev l →
    l.Chain' (non_overlapping pl)
  | [], _, _ => List.chain'_nil
  | [c], _, _ => List.chain'_singleton c
  | c :: d :: ds, prev, h => by
    obtain ⟨⟨n, hn, he⟩, hrest⟩ := h
    have ih := chain_ordered pl r after hcheck hnull (d :: ds) c hrest
    obtain ⟨⟨nd, hnd, _⟩, _⟩ := hrest
    obtain ⟨cell, hcell, _⟩ := neighbour_index_some _ _ _ _ hn
    obtain ⟨celld, hcelld, _⟩ := neighbour_index_some _ _ _ _ hnd
    obtain ⟨_, hsucc⟩ := slot_checked pl hcheck c r n cell _ hcell hn he
    simp only [List.headD_cons] at hsucc
    refine List.Chain'.cons ?_ ih
    rcases hsucc with ⟨_, oc, _, _, hoc, hord, _⟩ | ⟨hnul, _⟩
    · exact ⟨cell, oc, hcell, hoc, hord⟩
    · have := (List.getElem?_eq_some_iff.1 hcelld).1
      omega

/-- A row that reads `row` on a placement with the row invariant: consecutive cells do not
overlap and the two ends lie inside the region. -/
theorem row_reads_checked (pl : detailed_placement) (r : Nat) (row : List Nat)
    (hinv : row_invariant pl) (hnull : pl.cells_.length ≤ null_ind)
    (h : row_reads pl r row) : row_checked pl r row := by
  refine ⟨h, chain_ordered pl r null_ind hinv.checked hnull row null_ind h.linked, ?_, ?_⟩
  · intro c cell hhead hc
    cases row with
    | nil => simp at hhead
    | cons a as =>
      simp only [List.head?_cons, Option.some.injEq] at hhead
      subst hhead
      obtain ⟨⟨n, hn, he⟩, _⟩ := h.linked
      obtain ⟨cell', hcell', _, hlt, hnn⟩ := neighbour_index_some _ _ _ _ hn
      rw [hc] at hcell'
      cases hcell'
      exact (hinv.ends_inside a cell (r - cell.row) _ hc hlt
        (by rw [Nat.add_comm, ← hnn]; exact he)).1 rfl
  · intro c cell hlast hc
    have hne : row ≠ [] := by
      intro hnil
      rw [hnil] at hlast
      simp at hlast
    have hrow := (List.dropLast_append_getLast? c hlast).symm
    have hlink := h.linked
    rw [hrow] at hlink
    obtain ⟨n, hn, he⟩ := chain_linked_entry pl r null_ind null_ind row.dropLast [] c hlink
    obtain ⟨cell', hcell', _, hlt, hnn⟩ := neighbour_index_some _ _ _ _ hn
    rw [hc] at hcell'
    cases hcell'
    exact (hinv.ends_inside c cell (r - cell.row) _ hc hlt
      (by rw [Nat.add_comm, ← hnn]; exact he)).2 rfl

theorem neighbour_index_abscissa (pl pl' : detailed_placement)
    (h : ∀ i : Nat, pl'.cells_[i]? =
      (pl.cells_[i]?).map fun (cell : internal_cell) =>
        { cell with position_x := abscissa pl' i }) (c r : Nat) :
    neighbour_index pl'.cells_ c r = neighbour_index pl.cells_ c r := by
  unfold neighbour_index
  rw [h c]
  cases pl.cells_[c]? with
  | none => rfl
  | some cell => rfl
section rewritten

variable {pl pl' : detailed_placement} {r : Nat} {row moved : List Nat}

theorem rewritten_index (hfr : row_rewritten pl pl' r row moved) (c ρ : Nat) :
    neighbour_index pl'.cells_ c ρ = neighbour_index pl.cells_ c ρ :=
  neighbour_index_abscissa pl pl' hfr.cells c ρ

theorem rewritten_cells_length (hfr : row_rewritten pl pl' r row moved) :
    pl'.cells_.length = pl.cells_.length :=
  length_eq_of_getElem?_map _ _ _ hfr.cells

theorem rewritten_cell (hfr : row_rewritten pl pl' r row moved) (i : Nat) (c' : internal_cell)
    (hc' : pl'.cells_[i]? = some c') :
    ∃ c, pl.cells_[i]? = some c ∧ c'.width = c.width ∧ c'.height = c.height ∧
      c'.row = c.row ∧ c'.neighbours_begin = c.neighbours_begin ∧
      (i ∉ moved → c' = c) := by
  have h := hfr.cells i
  rw [hc'] at h
  cases hc : pl.cells_[i]? with
  | none => simp [hc] at h
  | some c =>
    rw [hc] at h
    simp only [Option.map_some', Option.some.injEq] at h
    refine ⟨c, rfl, by rw [h], by rw [h], by rw [h], by rw [h], ?_⟩
    intro hi
    have := hfr.cells_other i hi
    rw [hc', hc] at this
    exact Option.some.inj this

/-- A row-slot outside the rewritten row belongs to a cell that was not moved. -/
theorem stray_not_moved (hfr : row_rewritten pl pl' r row moved) (hrow : row_reads pl r row)
    (i ρ n : Nat) (hn : neighbour_index pl.cells_ i ρ = some n) (hout : ρ ≠ r ∨ i ∉ row) :
    i ∉ moved := by
  intro hi
  have hir := hfr.moved_row i hi
  obtain ⟨k, cell, hk, hcell⟩ := chain_linked_valid pl r _ _ row hrow.linked i hir
  have hh := hfr.moved_height i cell hi hcell
  have h1 := (neighbour_index_height_one pl.cells_ i cell hcell hh ρ n).1 hn
  have h2 := (neighbour_index_height_one pl.cells_ i cell hcell hh r k).1 hk
  rcases hout with h | h
  · exact h (h1.1.trans h2.1.symm)
  · exact h hir

/-- The cell before a cell in a row-slot outside the rewritten row lies outside it too. -/
theorem stray_pred (hrow : row_reads pl r row) (hnull : pl.cells_.length ≤ null_ind)
    (i ρ p k : Nat) (cell : internal_cell) (e : Nat × Nat) (hc : pl.cells_[i]? = some cell)
    (hout : ρ ≠ r ∨ i ∉ row) (hk : neighbour_index pl.cells_ p ρ = some k)
    (he : pl.neighbours_[k]? = some e) (hback : e.2 = i) : ρ ≠ r ∨ p ∉ row := by
  by_cases hρ : ρ = r
  · right
    intro hp
    obtain ⟨l1, l2, hsplit⟩ := List.append_of_mem hp
    have hlink := hrow.linked
    rw [hsplit] at hlink
    obtain ⟨n', hn', he'⟩ := chain_linked_entry pl r _ _ l1 l2 p hlink
    rw [hρ, hn'] at hk
    cases hk
    rw [he'] at he
    cases he
    simp only at hback
    have hi := (List.getElem?_eq_some_iff.1 hc).1
    cases l2 with
    | nil =>
      simp only [List.headD_nil] at hback
      omega
    | cons a as =>
      simp only [List.headD_cons] at hback
      rcases hout with h | h
      · exact h hρ
      · apply h
        rw [hsplit, ← hback]
        simp
  · exact Or.inl hρ

/-- The cell after a cell in a row-slot outside the rewritten row lies outside it too. -/
theorem stray_succ (hrow : row_reads pl r row) (hnull : pl.cells_.length ≤ null_ind)
    (i ρ s k : Nat) (cell : internal_cell) (e : Nat × Nat) (hc : pl.cells_[i]? = some cell)
    (hout : ρ ≠ r ∨ i ∉ row) (hk : neighbour_index pl.cells_ s ρ = some k)
    (he : pl.neighbours_[k]? = some e) (hback : e.1 = i) : ρ ≠ r ∨ s ∉ row := by
  by_cases hρ : ρ = r
  · right
    intro hp
    obtain ⟨l1, l2, hsplit⟩ := List.append_of_mem hp
    have hlink := hrow.linked
    rw [hsplit] at hlink
    obtain ⟨n', hn', he'⟩ := chain_linked_entry pl r _ _ l1 l2 s hlink
    rw [hρ, hn'] at hk
    cases hk
    rw [he'] at he
    cases he
    simp only at hback
    have hi := (List.getElem?_eq_some_iff.1 hc).1
    rcases list_snoc_cases l1 with rfl | ⟨l1', q, rfl⟩
    · simp only [List.getLastD_nil] at hback
      omega
    · rw [List.getLastD_concat] at hback
      rcases hout with h | h
      · exact h hρ
      · apply h
        rw [hsplit, ← hback]
        simp
  · exact Or.inl hρ

theorem stray_pred_ok (hfr : row_rewritten pl pl' r row moved) (hrow : row_reads pl r row)
    (hnull : pl.cells_.length ≤ null_ind) (i ρ : Nat) (cell : internal_cell) (p : Nat)
    (hc : pl.cells_[i]? = some cell)
    (hout : ρ ≠ r ∨ i ∉ row) (hp : pred_ok pl i cell ρ p) : pred_ok pl' i cell ρ p := by
  have hi := (List.getElem?_eq_some_iff.1 hc).1
  rcases hp with ⟨hne, oc, k, e, hoc, hord, hk, he, hback⟩ | ⟨hnul, hfirst⟩
  · have hpout := stray_pred hrow hnull i ρ p k cell e hc hout hk he hback
    have hpm := stray_not_moved hfr hrow p ρ k hk hpout
    exact Or.inl ⟨hne, oc, k, e, by rw [hfr.cells_other p hpm]; exact hoc, hord,
      by rw [rewritten_index hfr]; exact hk,
      by rw [hfr.slots_other p ρ k hk hpout]; exact he, hback⟩
  · refine Or.inr ⟨hnul, ?_⟩
    by_cases hρ : ρ = r
    · exfalso
      have := hrow.first
      rw [← hρ, hfirst] at this
      simp only [Option.some.injEq] at this
      rcases hout with h | h
      · exact h hρ
      · cases row with
        | nil =>
          simp only [List.headD_nil] at this
          omega
        | cons a as =>
          simp only [List.headD_cons] at this
          apply h
          rw [this]
          simp
    · rw [hfr.first_other ρ hρ]
      exact hfirst

theorem stray_succ_ok (hfr : row_rewritten pl pl' r row moved) (hrow : row_reads pl r row)
    (hnull : pl.cells_.length ≤ null_ind) (i ρ : Nat) (cell : internal_cell) (s : Nat)
    (hc : pl.cells_[i]? = some cell)
    (hout : ρ ≠ r ∨ i ∉ row) (hs : succ_ok pl i cell ρ s) : succ_ok pl' i cell ρ s := by
  have hi := (List.getElem?_eq_some_iff.1 hc).1
  rcases hs with ⟨hne, oc, k, e, hoc, hord, hk, he, hback⟩ | ⟨hnul, hlast⟩
  · have hsout := stray_succ hrow hnull i ρ s k cell e hc hout hk he hback
    have hsm := stray_not_moved hfr hrow s ρ k hk hsout
    exact Or.inl ⟨hne, oc, k, e, by rw [hfr.cells_other s hsm]; exact hoc, hord,
      by rw [rewritten_index hfr]; exact hk,
      by rw [hfr.slots_other s ρ k hk hsout]; exact he, hback⟩
  · refine Or.inr ⟨hnul, ?_⟩
    by_cases hρ : ρ = r
    · exfalso
      have := hrow.last
      rw [← hρ, hlast] at this
      simp only [Option.some.injEq] at this
      rcases hout with h | h
      · exact h hρ
      · rcases list_snoc_cases row with hnil | ⟨l', q, hq⟩
        · rw [hnil] at this
          simp only [List.getLastD_nil] at this
          omega
        · rw [hq, List.getLastD_concat] at this
          apply h
          rw [hq, this]
          simp
    · rw [hfr.last_other ρ hρ]
      exact hlast

end rewritten
/-- What `selfcheck` verifies for a cell of a row that reads `row`, with consecutive cells
that do not overlap. -/
theorem chain_slot_ok (pl : detailed_placement) (r : Nat) (l1 l2 : List Nat) (i : Nat)
    (cell : internal_cell) (hnull : pl.cells_.length ≤ null_ind)
    (hck : row_checked pl r (l1 ++ i :: l2)) (hc : pl.cells_[i]? = some cell) :
    ∃ n, neighbour_index pl.cells_ i r = some n ∧
      pl.neighbours_[n]? = some (l1.getLastD null_ind, l2.headD null_ind) ∧
      pred_ok pl i cell r (l1.getLastD null_ind) ∧ succ_ok pl i cell r (l2.headD null_ind) := by
  obtain ⟨n, hn, he⟩ := chain_linked_entry pl r _ _ l1 l2 i hck.reads.linked
  have hvalid : ∀ c ∈ l1 ++ i :: l2, c < pl.cells_.length := by
    intro c hc
    obtain ⟨_, cellc, _, hcc⟩ := chain_linked_valid pl r _ _ _ hck.reads.linked c hc
    exact (List.getElem?_eq_some_iff.1 hcc).1
  refine ⟨n, hn, he, ?_, ?_⟩
  · rcases list_snoc_cases l1 with rfl | ⟨l1', q, rfl⟩
    · refine Or.inr ⟨rfl, ?_⟩
      have := hck.reads.first
      simpa using this
    · rw [List.getLastD_concat]
      have hq := hvalid q (by simp)
      have hlink := hck.reads.linked
      rw [List.append_assoc, List.singleton_append] at hlink
      obtain ⟨k, hk, hek⟩ := chain_linked_entry pl r _ _ l1' (i :: l2) q hlink
      have hord := hck.ordered
      rw [List.append_assoc, List.singleton_append, List.chain'_append_cons_cons] at hord
      obtain ⟨ca, cb, hca, hcb, hle⟩ := hord.2.1
      rw [hc] at hcb
      cases hcb
      exact Or.inl ⟨by omega, ca, k, _, hca, hle, hk, hek, rfl⟩
  · cases l2 with
    | nil =>
      refine Or.inr ⟨rfl, ?_⟩
      have := hck.reads.last
      rw [List.getLastD_concat] at this
      exact this
    | cons s l2' =>
      simp only [List.headD_cons]
      have hs := hvalid s (by simp)
      have hlink := hck.reads.linked
      have hre : l1 ++ i :: s :: l2' = (l1 ++ [i]) ++ s :: l2' := by simp
      rw [hre] at hlink
      obtain ⟨k, hk, hek⟩ := chain_linked_entry pl r _ _ (l1 ++ [i]) l2' s hlink
      rw [List.getLastD_concat] at hek
      have hord := hck.ordered
      rw [List.chain'_append_cons_cons] at hord
      obtain ⟨ca, cb, hca, hcb, hle⟩ := hord.2.1
      rw [hc] at hca
      cases hca
      exact Or.inl ⟨by omega, cb, k, _, hcb, hle, hk, hek, rfl⟩

/-- A placement that differs from a placement with the row invariant only in one row, which
reads a list of the same cells without overlap and inside the region, has the row
invariant and the table layout. -/
theorem rewritten_row_invariant (pl pl' : detailed_placement) (r : Nat)
    (row row' moved : List Nat) (hlay : table_layout pl) (hinv : row_invariant pl)
    (hrow : row_reads pl r row) (hmem : ∀ c, c ∈ row' ↔ c ∈ row)
    (hfr : row_rewritten pl pl' r row moved) (hck : row_checked pl' r row') :
    row_invariant pl' ∧ table_layout pl' := by
  have hnull := hlay.1
  have hlen := rewritten_cells_length hfr
  have hnull' : pl'.cells_.length ≤ null_ind := by omega
  have hvalid' : ∀ c ∈ row', c < pl'.cells_.length := by
    intro c hc
    obtain ⟨_, cellc, _, hcc⟩ := chain_linked_valid pl' r _ _ _ hck.reads.linked c hc
    exact (List.getElem?_eq_some_iff.1 hcc).1
  have hslot : ∀ (i : Nat) (c' : internal_cell) (l : Nat), pl'.cells_[i]? = some c' →
      l < c'.height → ∃ e, pl'.neighbours_[l + c'.neighbours_begin]? = some e ∧
        pred_ok pl' i c' (c'.row + l) e.1 ∧ succ_ok pl' i c' (c'.row + l) e.2 ∧
        (e.1 = null_ind → pl'.min_x_ ≤ c'.position_x) ∧
        (e.2 = null_ind → c'.position_x + c'.width ≤ pl'.max_x_) := by
    intro i c' l hc' hl
    obtain ⟨c, hc, hw, hh, hr, hnb, hsame⟩ := rewritten_cell hfr i c' hc'
    have hn' := neighbour_index_slot pl'.cells_ i c' hc' l hl
    by_cases hchain : c'.row + l = r ∧ i ∈ row'
    · obtain ⟨l1, l2, hsplit⟩ := List.append_of_mem hchain.2
      rw [hsplit] at hck hvalid'
      obtain ⟨n, hn, he, hp, hs⟩ := chain_slot_ok pl' r l1 l2 i c' hnull' hck hc'
      rw [hchain.1, hn] at hn'
      cases hn'
      rw [hchain.1]
      refine ⟨_, he, hp, hs, ?_, ?_⟩
      · intro h1
        have := getLastD_ne_null pl' hnull' l1 null_ind
          (fun c hc => hvalid' c (List.mem_append_left _ hc)) h1
        subst this
        exact hck.left_inside i c' rfl hc'
      · intro h2
        have := headD_ne_null pl' hnull' l2
          (fun c hc => hvalid' c (List.mem_append_right _ (List.mem_cons_of_mem _ hc))) h2
        subst this
        exact hck.right_inside i c' (by simp) hc'
    · have hout : c.row + l ≠ r ∨ i ∉ row := by
        rw [← hr]
        by_cases hρ : c'.row + l = r
        · exact Or.inr (fun hi => hchain ⟨hρ, (hmem i).2 hi⟩)
        · exact Or.inl hρ
      have hn := neighbour_index_slot pl.cells_ i c hc l (by omega)
      have him := stray_not_moved hfr hrow i _ _ hn hout
      have hcc := hsame him
      subst hcc
      obtain ⟨_, e, he, hp, hs⟩ := selfcheck_slots pl hinv.checked i c' hc l hl
      have hin := hinv.ends_inside i c' l e hc hl he
      refine ⟨e, by rw [hfr.slots_other i _ _ hn hout]; exact he,
        stray_pred_ok hfr hrow hnull i _ c' e.1 hc hout hp,
        stray_succ_ok hfr hrow hnull i _ c' e.2 hc hout hs, ?_, ?_⟩
      · rw [hfr.min_x]
        exact hin.1
      · rw [hfr.max_x]
        exact hin.2
  have hlens := ((selfcheck_iff pl).1 hinv.checked).1
  refine ⟨⟨?_, ?_, ?_, ?_⟩, ⟨hnull', ?_, ?_⟩⟩
  · apply selfcheck_of_slots
    · rw [hfr.first_length, hfr.last_length]
      exact hlens
    · intro i c' hc' l hl
      obtain ⟨c, hc, hw, hh, hr, hnb, _⟩ := rewritten_cell hfr i c' hc'
      obtain ⟨hrows, _⟩ := selfcheck_slots pl hinv.checked i c hc l (by omega)
      obtain ⟨e, he, hp, hs, _⟩ := hslot i c' l hc' hl
      refine ⟨?_, e, he, hp, hs⟩
      unfold detailed_placement.row_cnt at hrows ⊢
      rw [hfr.first_length, hr, hh]
      exact hrows
  · intro ρ c hfirst hcn
    by_cases hρ : ρ = r
    · subst hρ
      have := hck.reads.first
      rw [hfirst] at this
      simp only [Option.some.injEq] at this
      cases hrow' : row' with
      | nil =>
        rw [hrow'] at this
        exact absurd this hcn
      | cons a as =>
        rw [hrow'] at this hck
        simp only [List.headD_cons] at this
        subst this
        obtain ⟨⟨n, hn, he⟩, _⟩ := hck.reads.linked
        exact ⟨n, _, hn, he, rfl⟩
    · rw [hfr.first_other ρ hρ] at hfirst
      obtain ⟨n, e, hn, he, hnul⟩ := hinv.first_exact ρ c hfirst hcn
      exact ⟨n, e, by rw [rewritten_index hfr]; exact hn,
        by rw [hfr.slots_other c ρ n hn (Or.inl hρ)]; exact he, hnul⟩
  · intro ρ c hlast hcn
    by_cases hρ : ρ = r
    · subst hρ
      have := hck.reads.last
      rw [hlast] at this
      simp only [Option.some.injEq] at this
      rcases list_snoc_cases row' with hnil | ⟨l', q, hq⟩
      · rw [hnil] at this
        exact absurd this hcn
      · rw [hq, List.getLastD_concat] at this
        subst this
        have hlink := hck.reads.linked
        rw [hq] at hlink
        obtain ⟨n, hn, he⟩ := chain_linked_entry pl' ρ _ _ l' [] c hlink
        exact ⟨n, _, hn, he, rfl⟩
    · rw [hfr.last_other ρ hρ] at hlast
      obtain ⟨n, e, hn, he, hnul⟩ := hinv.last_exact ρ c hlast hcn
      exact ⟨n, e, by rw [rewritten_index hfr]; exact hn,
        by rw [hfr.slots_other c ρ n hn (Or.inl hρ)]; exact he, hnul⟩
  · intro i c' l e' hc' hl he'
    obtain ⟨e, he, _, _, h1, h2⟩ := hslot i c' l hc' hl
    rw [he'] at he
    cases he
    exact ⟨h1, h2⟩
  · intro c cell' hc'
    obtain ⟨cell, hc, _, hh, _, hnb, _⟩ := rewritten_cell hfr c cell' hc'
    rw [hh, hnb, hfr.neighbours_length]
    exact hlay.2.1 c cell hc
  · intro c c' cell cell' hlt hc hc'
    obtain ⟨d, hd, _, hh, _, hnb, _⟩ := rewritten_cell hfr c cell hc
    obtain ⟨d', hd', _, _, _, hnb', _⟩ := rewritten_cell hfr c' cell' hc'
    rw [hh, hnb, hnb']
    exact hlay.2.2 c c' d d' hlt hd hd'
theorem assign_run_positions_spec : ∀ (p : List Nat) (xs : List Int) (pl : detailed_placement),
    p.Nodup → (∀ c ∈ p, c < pl.cells_.length) → p.length = xs.length →
    ∃ pl1, assign_run_positions pl p xs = some pl1 ∧
      pl1.min_x_ = pl.min_x_ ∧ pl1.max_x_ = pl.max_x_ ∧ pl1.neighbours_ = pl.neighbours_ ∧
      pl1.row_first_cells_ = pl.row_first_cells_ ∧ pl1.row_last_cells_ = pl.row_last_cells_ ∧
      (∀ i, i ∉ p → pl1.cells_[i]? = pl.cells_[i]?) ∧
      ∀ (j c : Nat) (x : Int), p[j]? = some c → xs[j]? = some x →
        pl1.cells_[c]? = (pl.cells_[c]?).map fun (cell : internal_cell) =>
          { cell with position_x := x }
  | [], _, pl, _, _, _ =>
    ⟨pl, rfl, rfl, rfl, rfl, rfl, rfl, fun _ _ => rfl, fun j c x h => by simp at h⟩
  | c :: cs, [], _, _, _, hlen => by simp at hlen
  | c :: cs, x :: xs, pl, hnd, hvalid, hlen => by
    have hc := hvalid c (List.mem_cons_self _ _)
    obtain ⟨hcn, hnd'⟩ := List.nodup_cons.1 hnd
    obtain ⟨pl1, h, h1, h2, h3, h4, h5, h6, h7⟩ := assign_run_positions_spec cs xs
      (set_position_x pl c x) hnd'
      (fun d hd => by
        simp only [set_position_x, List.length_modify]
        exact hvalid d (List.mem_cons_of_mem _ hd))
      (by simpa using hlen)
    refine ⟨pl1, by simp only [assign_run_positions, if_pos hc, h], h1, h2, h3, h4, h5, ?_, ?_⟩
    · intro i hi
      rw [h6 i (fun hm => hi (List.mem_cons_of_mem _ hm))]
      have hne : c ≠ i := fun he => hi (by rw [he]; exact List.mem_cons_self _ _)
      simp only [set_position_x, List.getElem?_modify]
      cases pl.cells_[i]? with
      | none => rfl
      | some cell => simp [hne]
    · intro j d y hj hy
      cases j with
      | zero =>
        simp only [List.getElem?_cons_zero, Option.some.injEq] at hj hy
        subst hj hy
        rw [h6 c hcn]
        simp only [set_position_x, List.getElem?_modify]
        cases pl.cells_[c]? with
        | none => rfl
        | some cell => simp
      | succ j =>
        simp only [List.getElem?_cons_succ] at hj hy
        rw [h7 j d y hj hy]
        have hne : c ≠ d := by
          intro he
          apply hcn
          rw [he]
          obtain ⟨hlt, rfl⟩ := List.getElem?_eq_some_iff.1 hj
          exact List.getElem_mem hlt
        simp only [set_position_x, List.getElem?_modify]
        cases pl.cells_[d]? with
        | none => rfl
        | some cell => simp [hne]

theorem run_ordered_true (pl : detailed_placement) : ∀ (p : List Nat),
    p.Chain' (non_overlapping pl) → (∀ c ∈ p, c < pl.cells_.length) →
    run_ordered pl p = some true
  | [], _, _ => rfl
  | [c], _, hvalid => by
    simp only [run_ordered]
    rw [if_pos (hvalid c (List.mem_cons_self _ _))]
  | c :: d :: ds, hch, hvalid => by
    obtain ⟨⟨ca, cb, hca, hcb, hle⟩, hrest⟩ := List.chain'_cons.1 hch
    simp only [run_ordered, hca, hcb]
    rw [if_pos (by omega)]
    exact run_ordered_true pl (d :: ds) hrest (fun x hx => hvalid x (List.mem_cons_of_mem _ hx))

/-- The positions of a run that fits, once written: consecutive cells do not overlap, the
first cell starts at or after the lower limit and the last one ends at or before the upper
limit. -/
theorem run_fits_chain (pl pl1 : detailed_placement) (upper : Int) :
    ∀ (p : List Nat) (xs : List Int) (lower : Int), run_fits pl upper lower p xs →
    (∀ (j c : Nat) (x : Int), p[j]? = some c → xs[j]? = some x →
      pl1.cells_[c]? = (pl.cells_[c]?).map fun (cell : internal_cell) =>
        { cell with position_x := x }) →
    p.Chain' (non_overlapping pl1) ∧ p.length = xs.length ∧
    (∀ c ∈ p, ∃ cell, pl.cells_[c]? = some cell) ∧
    (∀ (c : Nat) (cell1 : internal_cell), p.head? = some c → pl1.cells_[c]? = some cell1 →
      lower ≤ cell1.position_x) ∧
    (∀ (c : Nat) (cell1 : internal_cell), p.getLast? = some c → pl1.cells_[c]? = some cell1 →
      cell1.position_x + cell1.width ≤ upper)
  | [], [], _, _, _ =>
    ⟨List.chain'_nil, rfl, fun c hc => by simp at hc, fun c _ h => by simp at h,
      fun c _ h => by simp at h⟩
  | [], _ :: _, _, h, _ => by simp [run_fits] at h
  | _ :: _, [], _, h, _ => by simp [run_fits] at h
  | c :: cs, x :: xs, lower, h, hB => by
    obtain ⟨hlo, cell, hcell, hup, hrest⟩ := h
    have hc1 := hB 0 c x (by simp) (by simp)
    rw [hcell] at hc1
    simp only [Option.map_some'] at hc1
    obtain ⟨hch, hlen, hval, hhead, hlast⟩ := run_fits_chain pl pl1 upper cs xs _ hrest
      (fun j d y hj hy => hB (j + 1) d y (by simpa using hj) (by simpa using hy))
    refine ⟨?_, by simp [hlen], ?_, ?_, ?_⟩
    · apply List.Chain'.cons' hch
      intro y hy
      have hy' : cs.head? = some y := hy
      obtain ⟨celly, hcy⟩ := hval y (List.mem_of_mem_head? hy)
      have hidx : cs[0]? = some y := by
        rw [← List.head?_eq_getElem?]
        exact hy'
      have hxs : ∃ y', xs[0]? = some y' := by
        cases xs with
        | nil =>
          cases cs with
          | nil => simp at hy'
          | cons a as => simp at hlen
        | cons b bs => exact ⟨b, by simp⟩
      obtain ⟨y', hy'x⟩ := hxs
      have hc2 := hB 1 y y' (by simpa using hidx) (by simpa using hy'x)
      rw [hcy] at hc2
      simp only [Option.map_some'] at hc2
      have := hhead y _ hy' hc2
      exact ⟨_, _, hc1, hc2, this⟩
    · intro d hd
      rcases List.mem_cons.1 hd with rfl | hd
      · exact ⟨cell, hcell⟩
      · exact hval d hd
    · intro d cell1 hd hcd
      simp only [List.head?_cons, Option.some.injEq] at hd
      subst hd
      rw [hc1] at hcd
      cases hcd
      exact hlo
    · intro d cell1 hd hcd
      cases cs with
      | nil =>
        simp only [List.getLast?_singleton, Option.some.injEq] at hd
        subst hd
        rw [hc1] at hcd
        cases hcd
        exact hup
      | cons a as =>
        rw [List.getLast?_cons_cons] at hd
        exact hlast d cell1 hd hcd
theorem run_fits_length (pl : detailed_placement) (upper : Int) :
    ∀ (p : List Nat) (xs : List Int) (lower : Int), run_fits pl upper lower p xs →
    p.length = xs.length ∧ ∀ c ∈ p, c < pl.cells_.length
  | [], [], _, _ => ⟨rfl, fun c hc => by simp at hc⟩
  | [], _ :: _, _, h => by simp [run_fits] at h
  | _ :: _, [], _, h => by simp [run_fits] at h
  | c :: cs, x :: xs, lower, h => by
    obtain ⟨_, cell, hcell, _, hrest⟩ := h
    obtain ⟨hlen, hval⟩ := run_fits_length pl upper cs xs _ hrest
    refine ⟨by simp [hlen], ?_⟩
    intro d hd
    rcases List.mem_cons.1 hd with rfl | hd
    · exact (List.getElem?_eq_some_iff.1 hcell).1
    · exact hval d hd

/-- After the positions of a run have been written, the records differ from the former
ones in their abscissa only. -/
theorem assign_cells_abscissa (pl pl1 : detailed_placement) (p : List Nat) (xs : List Int)
    (hlen : p.length = xs.length)
    (hA : ∀ i, i ∉ p → pl1.cells_[i]? = pl.cells_[i]?)
    (hB : ∀ (j c : Nat) (x : Int), p[j]? = some c → xs[j]? = some x →
      pl1.cells_[c]? = (pl.cells_[c]?).map fun (cell : internal_cell) =>
        { cell with position_x := x }) (i : Nat) :
    pl1.cells_[i]? = (pl.cells_[i]?).map fun (cell : internal_cell) =>
      { cell with position_x := abscissa pl1 i } := by
  by_cases hi : i ∈ p
  · obtain ⟨j, hj⟩ := List.getElem?_of_mem hi
    have hjlt : j < xs.length := by
      rw [← hlen]
      exact (List.getElem?_eq_some_iff.1 hj).1
    have h := hB j i xs[j] hj (List.getElem?_eq_getElem hjlt)
    cases hc : pl.cells_[i]? with
    | none => rw [h, hc]; rfl
    | some cell =>
      rw [hc] at h
      simp only [Option.map_some'] at h ⊢
      have : abscissa pl1 i = xs[j] := by simp [abscissa, h]
      rw [this, h]
  · rw [hA i hi]
    cases hc : pl.cells_[i]? with
    | none => rfl
    | some cell =>
      have : abscissa pl1 i = cell.position_x := by simp [abscissa, hA i hi, hc]
      rw [this]
      rfl

theorem rewrite_links_spec (r after : Nat) : ∀ (p : List Nat) (pl : detailed_placement)
    (prev : Nat), p.Nodup →
    (∀ c ∈ p, ∃ cell, pl.cells_[c]? = some cell ∧
      neighbour_index pl.cells_ c r = some cell.neighbours_begin ∧
      cell.neighbours_begin < pl.neighbours_.length) →
    (∀ c ∈ p, ∀ d ∈ p, c ≠ d → neighbour_index pl.cells_ c r ≠ neighbour_index pl.cells_ d r) →
    ∃ pl2, rewrite_links after pl prev p = some pl2 ∧ pl2.cells_ = pl.cells_ ∧
      pl2.min_x_ = pl.min_x_ ∧ pl2.max_x_ = pl.max_x_ ∧
      pl2.row_first_cells_ = pl.row_first_cells_ ∧
      pl2.row_last_cells_ = pl.row_last_cells_ ∧
      pl2.neighbours_.length = pl.neighbours_.length ∧
      chain_linked pl2 r after prev p ∧
      ∀ s, (∀ c ∈ p, neighbour_index pl.cells_ c r ≠ some s) →
        pl2.neighbours_[s]? = pl.neighbours_[s]?
  | [], pl, _, _, _, _ => ⟨pl, rfl, rfl, rfl, rfl, rfl, rfl, rfl, trivial, fun _ _ => rfl⟩
  | c :: cs, pl, prev, hnd, hval, hinj => by
    obtain ⟨hcn, hnd'⟩ := List.nodup_cons.1 hnd
    obtain ⟨cell, hcell, hni, hlt⟩ := hval c (List.mem_cons_self _ _)
    obtain ⟨pl2, h, h1, h2, h3, h4, h5, h6, h7, h8⟩ := rewrite_links_spec r after cs
      { pl with neighbours_ :=
          pl.neighbours_.set cell.neighbours_begin (prev, cs.headD after) } c hnd'
      (fun d hd => by
        obtain ⟨celld, hd1, hd2, hd3⟩ := hval d (List.mem_cons_of_mem _ hd)
        exact ⟨celld, hd1, hd2, by simpa using hd3⟩)
      (fun a ha b hb hab =>
        hinj a (List.mem_cons_of_mem _ ha) b (List.mem_cons_of_mem _ hb) hab)
    simp only at h1 h2 h3 h4 h5 h6 h7 h8
    have hslot : ∀ d ∈ cs, neighbour_index pl.cells_ d r ≠ some cell.neighbours_begin := by
      intro d hd he
      have hne : c ≠ d := by
        intro hcd
        apply hcn
        rw [hcd]
        exact hd
      exact hinj c (List.mem_cons_self _ _) d (List.mem_cons_of_mem _ hd) hne (by rw [hni, he])
    refine ⟨pl2, by simp only [rewrite_links, hcell, if_pos hlt, h], h1, h2, h3, h4, h5,
      by rw [h6, List.length_set], ?_, ?_⟩
    · refine ⟨⟨cell.neighbours_begin, by rw [h1]; exact hni, ?_⟩, h7⟩
      rw [h8 _ hslot, List.getElem?_set_self hlt]
    · intro s hs
      have hne : cell.neighbours_begin ≠ s := by
        intro he
        exact hs c (List.mem_cons_self _ _) (by rw [hni, he])
      rw [h8 s (fun d hd => hs d (List.mem_cons_of_mem _ hd)), List.getElem?_set_ne hne]
/-- The block of `swap_in_rows` that writes a window back completes, with the effect
`window_effect`, when the cells of the window have height one and lie in row `r`, the
cells before and after the window are other cells of this row, and the positions fit. -/
theorem commit_window_effect (pl : detailed_placement) (r B A : Nat) (p : List Nat)
    (xs : List Int) (lower upper : Int) (hlay : table_layout pl) (hne : p ≠ [])
    (hnd : p.Nodup)
    (hp : ∀ c ∈ p, ∃ cell, pl.cells_[c]? = some cell ∧ cell.height = 1 ∧ cell.row = r)
    (hB : B ≠ null_ind → B ∉ p ∧ ∃ k e, neighbour_index pl.cells_ B r = some k ∧
      pl.neighbours_[k]? = some e)
    (hA : A ≠ null_ind → A ∉ p ∧ ∃ k e, neighbour_index pl.cells_ A r = some k ∧
      pl.neighbours_[k]? = some e)
    (hBA : B ≠ null_ind → B ≠ A)
    (hfirst : r < pl.row_first_cells_.length) (hlast : r < pl.row_last_cells_.length)
    (hfit : run_fits pl upper lower p xs) :
    ∃ pl', commit_window pl r B A p xs = some pl' ∧ window_effect pl pl' r B A p xs := by
  obtain ⟨hlen, hvalid⟩ := run_fits_length pl upper p xs lower hfit
  obtain ⟨pl1, h1, m1, x1, n1, f1, l1, hA1, hB1⟩ := assign_run_positions_spec p xs pl hnd
    hvalid hlen
  have hcells1 := assign_cells_abscissa pl pl1 p xs hlen hA1 hB1
  have hni1 : ∀ c ρ, neighbour_index pl1.cells_ c ρ = neighbour_index pl.cells_ c ρ :=
    neighbour_index_abscissa pl pl1 hcells1
  have hlen1 : pl1.cells_.length = pl.cells_.length :=
    length_eq_of_getElem?_map _ _ _ hcells1
  obtain ⟨hch, _, _, _, _⟩ := run_fits_chain pl pl1 upper p xs lower hfit hB1
  have hord := run_ordered_true pl1 p hch (fun c hc => by rw [hlen1]; exact hvalid c hc)
  have hslotp : ∀ c ∈ p, ∃ cell, pl.cells_[c]? = some cell ∧
      neighbour_index pl.cells_ c r = some cell.neighbours_begin ∧
      cell.neighbours_begin < pl.neighbours_.length := by
    intro c hc
    obtain ⟨cell, hcell, hh, hr⟩ := hp c hc
    refine ⟨cell, hcell,
      (neighbour_index_height_one pl.cells_ c cell hcell hh r _).2 ⟨hr.symm, rfl⟩, ?_⟩
    have := hlay.2.1 c cell hcell
    omega
  obtain ⟨pl2, h2, c2, m2, x2, f2, l2, nl2, hlink2, hother2⟩ := rewrite_links_spec r A p pl1 B
    hnd
    (fun c hc => by
      obtain ⟨cell, hcell, hni, hlt⟩ := hslotp c hc
      have hc1 := hcells1 c
      rw [hcell] at hc1
      exact ⟨_, hc1, by rw [hni1]; exact hni, by rw [n1]; exact hlt⟩)
    (fun c hc d hd hcd he => by
      rw [hni1, hni1] at he
      obtain ⟨cell, _, hni, _⟩ := hslotp c hc
      rw [hni] at he
      exact hcd (neighbour_index_inj pl.cells_ hlay.2.2 c d r r _ hni he.symm).1)
  obtain ⟨front, hfront⟩ : ∃ front, p.head? = some front := by
    cases p with
    | nil => exact absurd rfl hne
    | cons a as => exact ⟨a, rfl⟩
  obtain ⟨back, hback⟩ : ∃ back, p.getLast? = some back :=
    ⟨p.getLast hne, List.getLast?_eq_getLast _ hne⟩
  have hfrontD : p.headD A = front := by
    cases p with
    | nil => exact absurd rfl hne
    | cons a as =>
      simp only [List.head?_cons, Option.some.injEq] at hfront
      simp [hfront]
  have hbackD : p.getLastD B = back := by
    rw [List.getLastD_eq_getLast?, hback]
    rfl
  have hni2 : ∀ c ρ, neighbour_index pl2.cells_ c ρ = neighbour_index pl.cells_ c ρ := by
    intro c ρ
    rw [c2]
    exact hni1 c ρ
  -- the two patches
  have hpb : ∃ pl3, patch_before pl2 B r front = some pl3 ∧ pl3.cells_ = pl2.cells_ ∧
      pl3.min_x_ = pl2.min_x_ ∧ pl3.max_x_ = pl2.max_x_ ∧
      pl3.row_last_cells_ = pl2.row_last_cells_ ∧
      pl3.neighbours_.length = pl2.neighbours_.length ∧
      pl3.row_first_cells_.length = pl2.row_first_cells_.length ∧
      (B ≠ null_ind → pl3.row_first_cells_ = pl2.row_first_cells_) ∧
      (B = null_ind → pl3.row_first_cells_[r]? = some front) ∧
      (∀ ρ, ρ ≠ r → pl3.row_first_cells_[ρ]? = pl2.row_first_cells_[ρ]?) ∧
      (∀ s, neighbour_index pl.cells_ B r ≠ some s → pl3.neighbours_[s]? = pl2.neighbours_[s]?) ∧
      (B ≠ null_ind → ∀ k, neighbour_index pl.cells_ B r = some k →
        pl3.neighbours_[k]? = (pl2.neighbours_[k]?).map fun e => (e.1, front)) := by
    by_cases hb : B = null_ind
    · have hval : patch_before pl2 B r front =
          some { pl2 with row_first_cells_ := pl2.row_first_cells_.set r front } := by
        unfold patch_before
        rw [if_neg (by simpa using hb), if_pos (by rw [f2, f1]; exact hfirst)]
      refine ⟨_, hval, rfl, rfl, rfl, rfl, rfl, by simp, fun h => absurd hb h, ?_, ?_,
        fun _ _ => rfl, fun h => absurd hb h⟩
      · intro _
        simp only
        rw [List.getElem?_set_self (by rw [f2, f1]; exact hfirst)]
      · intro ρ hρ
        simp only
        rw [List.getElem?_set_ne (Ne.symm hρ)]
    · obtain ⟨_, k, e, hk, he⟩ := hB hb
      have hklt : k < pl2.neighbours_.length := by
        rw [nl2, n1]
        exact (List.getElem?_eq_some_iff.1 he).1
      have hval : patch_before pl2 B r front = some { pl2 with
          neighbours_ := pl2.neighbours_.modify (fun e => (e.1, front)) k } := by
        unfold patch_before
        rw [if_pos hb, hni2, hk]
        simp only [Option.some_bind]
        rw [if_pos hklt]
      refine ⟨_, hval, rfl, rfl, rfl, rfl, by simp, rfl, fun _ => rfl, fun h => absurd h hb,
        fun _ _ => rfl, ?_, ?_⟩
      · intro s hs
        simp only [List.getElem?_modify]
        have hks : k ≠ s := fun h => hs (by rw [hk, h])
        cases pl2.neighbours_[s]? with
        | none => rfl
        | some e' => simp [hks]
      · intro _ k' hk'
        rw [hk] at hk'
        cases hk'
        simp only [List.getElem?_modify]
        cases pl2.neighbours_[k]? with
        | none => rfl
        | some e' => simp
  obtain ⟨pl3, h3, c3, m3, x3, l3, nl3, fl3, fk3, fe3, fo3, so3, sb3⟩ := hpb
  have hpa : ∃ pl4, patch_after pl3 A r back = some pl4 ∧ pl4.cells_ = pl3.cells_ ∧
      pl4.min_x_ = pl3.min_x_ ∧ pl4.max_x_ = pl3.max_x_ ∧
      pl4.row_first_cells_ = pl3.row_first_cells_ ∧
      pl4.neighbours_.length = pl3.neighbours_.length ∧
      pl4.row_last_cells_.length = pl3.row_last_cells_.length ∧
      (A ≠ null_ind → pl4.row_last_cells_ = pl3.row_last_cells_) ∧
      (A = null_ind → pl4.row_last_cells_[r]? = some back) ∧
      (∀ ρ, ρ ≠ r → pl4.row_last_cells_[ρ]? = pl3.row_last_cells_[ρ]?) ∧
      (∀ s, neighbour_index pl.cells_ A r ≠ some s → pl4.neighbours_[s]? = pl3.neighbours_[s]?) ∧
      (A ≠ null_ind → ∀ k, neighbour_index pl.cells_ A r = some k →
        pl4.neighbours_[k]? = (pl3.neighbours_[k]?).map fun e => (back, e.2)) := by
    have hni3 : ∀ c ρ, neighbour_index pl3.cells_ c ρ = neighbour_index pl.cells_ c ρ := by
      intro c ρ
      rw [c3]
      exact hni2 c ρ
    by_cases ha : A = null_ind
    · have hval : patch_after pl3 A r back =
          some { pl3 with row_last_cells_ := pl3.row_last_cells_.set r back } := by
        unfold patch_after
        rw [if_neg (by simpa using ha), if_pos (by rw [l3, l2, l1]; exact hlast)]
      refine ⟨_, hval, rfl, rfl, rfl, rfl, rfl, by simp, fun h => absurd ha h, ?_, ?_,
        fun _ _ => rfl, fun h => absurd ha h⟩
      · intro _
        simp only
        rw [List.getElem?_set_self (by rw [l3, l2, l1]; exact hlast)]
      · intro ρ hρ
        simp only
        rw [List.getElem?_set_ne (Ne.symm hρ)]
    · obtain ⟨_, k, e, hk, he⟩ := hA ha
      have hklt : k < pl3.neighbours_.length := by
        rw [nl3, nl2, n1]
        exact (List.getElem?_eq_some_iff.1 he).1
      have hval : patch_after pl3 A r back = some { pl3 with
          neighbours_ := pl3.neighbours_.modify (fun e => (back, e.2)) k } := by
        unfold patch_after
        rw [if_pos ha, hni3, hk]
        simp only [Option.some_bind]
        rw [if_pos hklt]
      refine ⟨_, hval, rfl, rfl, rfl, rfl, by simp, rfl, fun _ => rfl, fun h => absurd h ha,
        fun _ _ => rfl, ?_, ?_⟩
      · intro s hs
        simp only [List.getElem?_modify]
        have hks : k ≠ s := fun h => hs (by rw [hk, h])
        cases pl3.neighbours_[s]? with
        | none => rfl
        | some e' => simp [hks]
      · intro _ k' hk'
        rw [hk] at hk'
        cases hk'
        simp only [List.getElem?_modify]
        cases pl3.neighbours_[k]? with
        | none => rfl
        | some e' => simp
  obtain ⟨pl4, h4, c4, m4, x4, f4, nl4, ll4, lk4, le4, lo4, so4, sa4⟩ := hpa
  have hrun : commit_window pl r B A p xs = some pl4 := by
    unfold commit_window
    rw [hfront, hback]
    simp only [h1, Option.some_bind, hord, if_true, h2, h3, h4]
  -- slots of the window are not touched by the patches
  have hpB : ∀ c ∈ p, ∀ s, neighbour_index pl.cells_ c r = some s →
      neighbour_index pl.cells_ B r ≠ some s := by
    intro c hc s hs he
    have := (neighbour_index_inj pl.cells_ hlay.2.2 c B r r s hs he).1
    have hbn : B ≠ null_ind := by
      obtain ⟨_, cell, _, hcell⟩ : ∃ n cell, neighbour_index pl.cells_ B r = some n ∧
          pl.cells_[B]? = some cell := by
        obtain ⟨cell, hcell, _⟩ := neighbour_index_some _ _ _ _ he
        exact ⟨s, cell, he, hcell⟩
      have := (List.getElem?_eq_some_iff.1 hcell).1
      have := hlay.1
      omega
    exact (hB hbn).1 (by rw [← this]; exact hc)
  have hpA : ∀ c ∈ p, ∀ s, neighbour_index pl.cells_ c r = some s →
      neighbour_index pl.cells_ A r ≠ some s := by
    intro c hc s hs he
    have := (neighbour_index_inj pl.cells_ hlay.2.2 c A r r s hs he).1
    have han : A ≠ null_ind := by
      obtain ⟨cell, hcell, _⟩ := neighbour_index_some _ _ _ _ he
      have := (List.getElem?_eq_some_iff.1 hcell).1
      have := hlay.1
      omega
    exact (hA han).1 (by rw [← this]; exact hc)
  refine ⟨pl4, hrun, ?_⟩
  refine
    { min_x := by rw [m4, m3, m2, m1]
      max_x := by rw [x4, x3, x2, x1]
      cells_other := fun i hi => by rw [c4, c3, c2]; exact hA1 i hi
      cells_moved := fun j c x hj hx => by rw [c4, c3, c2]; exact hB1 j c x hj hx
      linked := ?_
      before := ?_
      after := ?_
      slots_other := ?_
      neighbours_length := by rw [nl4, nl3, nl2, n1]
      first_length := by rw [f4, fl3, f2, f1]
      last_length := by rw [ll4, l3, l2, l1]
      first_end := fun hb => by rw [f4, hfrontD]; exact fe3 hb
      first_kept := fun hb => by rw [f4, fk3 hb, f2, f1]
      first_other := fun ρ hρ => by rw [f4, fo3 ρ hρ, f2, f1]
      last_end := fun ha => by rw [hbackD]; exact le4 ha
      last_kept := fun ha => by rw [lk4 ha, l3, l2, l1]
      last_other := fun ρ hρ => by rw [lo4 ρ hρ, l3, l2, l1] }
  · apply chain_linked_congr pl2 pl4 r A p B _ hlink2
    intro c hc n hn
    rw [hni2] at hn
    refine ⟨by rw [c4, c3]; rw [hni2]; exact hn, ?_⟩
    rw [so4 n (hpA c hc n hn), so3 n (hpB c hc n hn)]
  · intro hb k e hk he
    have hAk : neighbour_index pl.cells_ A r ≠ some k := by
      intro hAk
      exact hBA hb (neighbour_index_inj pl.cells_ hlay.2.2 B A r r k hk hAk).1
    rw [so4 k hAk, sb3 hb k hk, hother2 k (fun c hc he' => by
      rw [hni1] at he'
      exact hpB c hc k he' hk), n1, he, hfrontD]
    rfl
  · intro ha k e hk he
    have hBk : neighbour_index pl.cells_ B r ≠ some k := by
      intro hBk
      have hbn : B ≠ null_ind := by
        obtain ⟨cell, hcell, _⟩ := neighbour_index_some _ _ _ _ hBk
        have := (List.getElem?_eq_some_iff.1 hcell).1
        have := hlay.1
        omega
      exact hBA hbn (neighbour_index_inj pl.cells_ hlay.2.2 B A r r k hBk hk).1
    rw [sa4 ha k hk, so3 k hBk, hother2 k (fun c hc he' => by
      rw [hni1] at he'
      exact hpA c hc k he' hk), n1, he, hbackD]
    rfl
  · intro s hs hBs hAs
    rw [so4 s hAs, so3 s hBs, hother2 s (fun c hc he => by
      rw [hni1] at he
      exact hs c hc he), n1]
theorem non_overlapping_congr (pl pl' : detailed_placement) (a b : Nat)
    (ha : pl'.cells_[a]? = pl.cells_[a]?) (hb : pl'.cells_[b]? = pl.cells_[b]?)
    (h : non_overlapping pl a b) : non_overlapping pl' a b := by
  obtain ⟨ca, cb, hca, hcb, hle⟩ := h
  exact ⟨ca, cb, by rw [ha]; exact hca, by rw [hb]; exact hcb, hle⟩

theorem chain_unmoved (pl pl' : detailed_placement) (l : List Nat)
    (hsame : ∀ c ∈ l, pl'.cells_[c]? = pl.cells_[c]?) (h : l.Chain' (non_overlapping pl)) :
    l.Chain' (non_overlapping pl') := by
  rw [List.Chain'.iff_mem] at h ⊢
  exact h.imp (fun a b ⟨ha, hb, hab⟩ =>
    ⟨ha, hb, non_overlapping_congr pl pl' a b (hsame a ha) (hsame b hb) hab⟩)

/-- The cells of a row outside the window and other than the cells next to it keep their
row-slot when the window is written back. -/
theorem window_slot_kept (pl pl' : detailed_placement) (r B A : Nat) (p : List Nat)
    (xs : List Int) (hlay : table_layout pl) (heff : window_effect pl pl' r B A p xs)
    (c n : Nat) (hn : neighbour_index pl.cells_ c r = some n) (hp : c ∉ p) (hB : c ≠ B)
    (hA : c ≠ A) : pl'.neighbours_[n]? = pl.neighbours_[n]? := by
  apply heff.slots_other
  · intro d hd he
    exact hp (by rw [(neighbour_index_inj pl.cells_ hlay.2.2 c d r r n hn he).1]; exact hd)
  · intro he
    exact hB (neighbour_index_inj pl.cells_ hlay.2.2 c B r r n hn he).1
  · intro he
    exact hA (neighbour_index_inj pl.cells_ hlay.2.2 c A r r n hn he).1

theorem window_index (pl pl' : detailed_placement) (r B A : Nat) (p : List Nat)
    (xs : List Int) (hlen : p.length = xs.length) (heff : window_effect pl pl' r B A p xs)
    (c ρ : Nat) : neighbour_index pl'.cells_ c ρ = neighbour_index pl.cells_ c ρ :=
  neighbour_index_abscissa pl pl'
    (assign_cells_abscissa pl pl' p xs hlen heff.cells_other heff.cells_moved) c ρ

/-- The part of the row before the window, after the window has been written back: it is
linked as before, its last cell now to the first cell of the new arrangement. -/
theorem window_pre_linked (pl pl' : detailed_placement) (r A : Nat) (pre p : List Nat)
    (xs : List Int) (X : Nat) (hlay : table_layout pl) (hlen : p.length = xs.length)
    (heff : window_effect pl pl' r (pre.getLastD null_ind) A p xs)
    (hnd : pre.Nodup) (hdis : ∀ c ∈ pre, c ∉ p) (hA : ∀ c ∈ pre, c ≠ A)
    (h : chain_linked pl r X null_ind pre) :
    chain_linked pl' r (p.headD A) null_ind pre := by
  rcases list_snoc_cases pre with rfl | ⟨pre', B, rfl⟩
  · trivial
  · rw [List.getLastD_concat] at heff
    rw [chain_linked_append] at h ⊢
    obtain ⟨h1, ⟨n, hn, he⟩, _⟩ := h
    simp only [List.headD_cons, List.headD_nil] at h1 he ⊢
    have hBn : B ≠ null_ind := by
      obtain ⟨cell, hcell, _⟩ := neighbour_index_some _ _ _ _ hn
      have := (List.getElem?_eq_some_iff.1 hcell).1
      have := hlay.1
      omega
    have hBnot : B ∉ pre' := by
      intro hm
      have := List.nodup_append.1 hnd
      exact this.2.2 hm (List.mem_singleton_self B)
    refine ⟨?_, ⟨n, by rw [window_index pl pl' r _ A p xs hlen heff]; exact hn, ?_⟩, trivial⟩
    · apply chain_linked_congr pl pl' r B pre' null_ind _ h1
      intro c hc k hk
      refine ⟨by rw [window_index pl pl' r _ A p xs hlen heff]; exact hk, ?_⟩
      exact window_slot_kept pl pl' r B A p xs hlay heff c k hk
        (hdis c (List.mem_append_left _ hc))
        (fun hcb => hBnot (by rw [← hcb]; exact hc))
        (hA c (List.mem_append_left _ hc))
    · rw [heff.before hBn n _ hn he]
      rfl

/-- The part of the row after the window, after the window has been written back: it is
linked as before, its first cell now to the last cell of the new arrangement. -/
theorem window_post_linked (pl pl' : detailed_placement) (r B : Nat) (post p : List Nat)
    (xs : List Int) (Y : Nat) (hlay : table_layout pl) (hlen : p.length = xs.length)
    (heff : window_effect pl pl' r B (post.headD null_ind) p xs)
    (hnd : post.Nodup) (hdis : ∀ c ∈ post, c ∉ p) (hB : ∀ c ∈ post, c ≠ B)
    (h : chain_linked pl r null_ind Y post) :
    chain_linked pl' r null_ind (p.getLastD B) post := by
  cases post with
  | nil => trivial
  | cons A post' =>
    simp only [List.headD_cons] at heff
    obtain ⟨⟨n, hn, he⟩, h1⟩ := h
    have hAn : A ≠ null_ind := by
      obtain ⟨cell, hcell, _⟩ := neighbour_index_some _ _ _ _ hn
      have := (List.getElem?_eq_some_iff.1 hcell).1
      have := hlay.1
      omega
    have hAnot : A ∉ post' := (List.nodup_cons.1 hnd).1
    refine ⟨⟨n, by rw [window_index pl pl' r B A p xs hlen heff]; exact hn, ?_⟩, ?_⟩
    · rw [heff.after hAn n _ hn he]
    · apply chain_linked_congr pl pl' r null_ind post' A _ h1
      intro c hc k hk
      refine ⟨by rw [window_index pl pl' r B A p xs hlen heff]; exact hk, ?_⟩
      exact window_slot_kept pl pl' r B A p xs hlay heff c k hk
        (hdis c (List.mem_cons_of_mem _ hc))
        (hB c (List.mem_cons_of_mem _ hc))
        (fun hca => hAnot (by rw [← hca]; exact hc))

/-- C28: on a placement with the table layout and the row invariant, let row `r` read
`pre ++ w ++ post`, the cells of the window `w` have height one, `p` be an arrangement of
the cells of `w`, and the positions `xs` place the cells of `p`, in this order and without
overlap, between the limits read from the cell before the window (the last cell of `pre`)
and the cell after it (the first cell of `post`). Then the block of `swap_in_rows` that
writes the window back completes; after it row `r` reads `pre ++ p ++ post`, so the first
and last cell of `p` are linked to the cells before and after the window, or named by the
pointers of the row when there is none; the other rows read as before, the cells outside
the window keep their records, and the placement has the row invariant and the table
layout again. -/
theorem commit_window_keeps_row (pl : detailed_placement) (r : Nat)
    (pre w post p : List Nat) (xs : List Int) (lower upper : Int)
    (hlay : table_layout pl) (hinv : row_invariant pl)
    (hrow : row_reads pl r (pre ++ w ++ post)) (hw : w ≠ [])
    (hheight : ∀ (c : Nat) (cell : internal_cell), c ∈ w → pl.cells_[c]? = some cell →
      cell.height = 1)
    (hperm : p.Perm w)
    (hlow : limit_low pl (pre.getLastD null_ind) = some lower)
    (hup : limit_up pl (post.headD null_ind) = some upper)
    (hfit : run_fits pl upper lower p xs) :
    ∃ pl', commit_window pl r (pre.getLastD null_ind) (post.headD null_ind) p xs = some pl' ∧
      row_reads pl' r (pre ++ p ++ post) ∧
      (∀ (ρ : Nat) (row : List Nat), ρ ≠ r → row_reads pl ρ row → row_reads pl' ρ row) ∧
      (∀ i, i ∉ p → pl'.cells_[i]? = pl.cells_[i]?) ∧
      row_invariant pl' ∧ table_layout pl' := by
  have hnull := hlay.1
  have hnd := hrow.nodup
  obtain ⟨hnd1, hndpost, hdis1⟩ := List.nodup_append.1 hnd
  obtain ⟨hndpre, hndw, hdis2⟩ := List.nodup_append.1 hnd1
  have hpnd : p.Nodup := hperm.nodup_iff.2 hndw
  have hpw : ∀ c, c ∈ p ↔ c ∈ w := fun c => hperm.mem_iff
  have hpne : p ≠ [] := by
    intro hnil
    rw [hnil] at hperm
    exact hw hperm.symm.eq_nil
  have hval : ∀ c ∈ pre ++ w ++ post, ∃ n cell, neighbour_index pl.cells_ c r = some n ∧
      pl.cells_[c]? = some cell := chain_linked_valid pl r _ _ _ hrow.linked
  have hnotnull : ∀ c ∈ pre ++ w ++ post, c ≠ null_ind := by
    intro c hc
    obtain ⟨_, cell, _, hcell⟩ := hval c hc
    have := (List.getElem?_eq_some_iff.1 hcell).1
    omega
  have hprep : ∀ c ∈ pre, c ∉ p := fun c hc hcp => hdis2 hc ((hpw c).1 hcp)
  have hpostp : ∀ c ∈ post, c ∉ p := fun c hc hcp =>
    hdis1 (List.mem_append_right _ ((hpw c).1 hcp)) hc
  have hBmem : pre.getLastD null_ind ≠ null_ind → pre.getLastD null_ind ∈ pre := by
    intro h
    rcases list_snoc_cases pre with rfl | ⟨pre', b, rfl⟩
    · exact absurd rfl h
    · rw [List.getLastD_concat]
      simp
  have hAmem : post.headD null_ind ≠ null_ind → post.headD null_ind ∈ post := by
    intro h
    cases post with
    | nil => exact absurd rfl h
    | cons a as => simp
  have hp : ∀ c ∈ p, ∃ cell, pl.cells_[c]? = some cell ∧ cell.height = 1 ∧ cell.row = r := by
    intro c hc
    have hcw := (hpw c).1 hc
    obtain ⟨n, cell, hn, hcell⟩ := hval c
      (List.mem_append_left _ (List.mem_append_right _ hcw))
    have hh := hheight c cell hcw hcell
    exact ⟨cell, hcell, hh, ((neighbour_index_height_one pl.cells_ c cell hcell hh r n).1 hn).1.symm⟩
  have hslot : ∀ c ∈ pre ++ w ++ post, ∃ k e, neighbour_index pl.cells_ c r = some k ∧
      pl.neighbours_[k]? = some e := by
    intro c hc
    obtain ⟨n, _, hn, _⟩ := hval c hc
    obtain ⟨_, e, _, he⟩ := slot_entry pl hinv.checked c r n hn
    exact ⟨n, e, hn, he⟩
  have hfirst : r < pl.row_first_cells_.length := (List.getElem?_eq_some_iff.1 hrow.first).1
  have hlast : r < pl.row_last_cells_.length := (List.getElem?_eq_some_iff.1 hrow.last).1
  obtain ⟨pl', hrun, heff⟩ := commit_window_effect pl r (pre.getLastD null_ind)
    (post.headD null_ind) p xs lower upper hlay hpne hpnd hp
    (fun hb => ⟨hprep _ (hBmem hb),
      hslot _ (List.mem_append_left _ (List.mem_append_left _ (hBmem hb)))⟩)
    (fun ha => ⟨hpostp _ (hAmem ha), hslot _ (List.mem_append_right _ (hAmem ha))⟩)
    (fun hb he => by
      have ha : post.headD null_ind ≠ null_ind := by rw [← he]; exact hb
      exact hdis1 (List.mem_append_left _ (hBmem hb)) (by rw [he]; exact hAmem ha))
    hfirst hlast hfit
  obtain ⟨hlen, _⟩ := run_fits_length pl upper p xs lower hfit
  have hcells := assign_cells_abscissa pl pl' p xs hlen heff.cells_other heff.cells_moved
  have hni := window_index pl pl' r _ _ p xs hlen heff
  have hck := row_reads_checked pl r _ hinv hnull hrow
  obtain ⟨hchp, _, _, hheadp, hlastp⟩ := run_fits_chain pl pl' upper p xs lower hfit
    heff.cells_moved
  -- the frame
  have hfr : row_rewritten pl pl' r (pre ++ w ++ post) p :=
    { min_x := heff.min_x
      max_x := heff.max_x
      cells := hcells
      cells_other := heff.cells_other
      moved_height := fun c cell hc hcell => hheight c cell ((hpw c).1 hc) hcell
      moved_row := fun c hc => List.mem_append_left _ (List.mem_append_right _ ((hpw c).1 hc))
      neighbours_length := heff.neighbours_length
      slots_other := by
        intro c ρ n hn hout
        have hcontra : ∀ d, d ∈ pre ++ w ++ post → neighbour_index pl.cells_ d r ≠ some n := by
          intro d hd he
          obtain ⟨hcd, hρ⟩ := neighbour_index_inj pl.cells_ hlay.2.2 c d ρ r n hn he
          rcases hout with h | h
          · exact h hρ
          · exact h (by rw [hcd]; exact hd)
        apply heff.slots_other
        · intro d hd
          exact hcontra d (List.mem_append_left _ (List.mem_append_right _ ((hpw d).1 hd)))
        · intro he
          obtain ⟨cell, hcell, _⟩ := neighbour_index_some _ _ _ _ he
          have hb : pre.getLastD null_ind ≠ null_ind := by
            have := (List.getElem?_eq_some_iff.1 hcell).1
            omega
          exact hcontra _ (List.mem_append_left _ (List.mem_append_left _ (hBmem hb))) he
        · intro he
          obtain ⟨cell, hcell, _⟩ := neighbour_index_some _ _ _ _ he
          have ha : post.headD null_ind ≠ null_ind := by
            have := (List.getElem?_eq_some_iff.1 hcell).1
            omega
          exact hcontra _ (List.mem_append_right _ (hAmem ha)) he
      first_length := heff.first_length
      last_length := heff.last_length
      first_other := heff.first_other
      last_other := heff.last_other }
  -- the row after the call
  have hl := hrow.linked
  rw [chain_linked_append, chain_linked_append] at hl
  obtain ⟨⟨hlpre, _⟩, hlpost⟩ := hl
  have hlinked : chain_linked pl' r null_ind null_ind (pre ++ p ++ post) := by
    rw [chain_linked_append, chain_linked_append]
    refine ⟨⟨?_, heff.linked⟩, ?_⟩
    · exact window_pre_linked pl pl' r _ pre p xs _ hlay hlen heff hndpre hprep
        (fun c hc he => by
          have ha : post.headD null_ind ≠ null_ind := by
            rw [← he]
            exact hnotnull c (List.mem_append_left _ (List.mem_append_left _ hc))
          exact hdis1 (List.mem_append_left _ hc) (by rw [he]; exact hAmem ha))
        hlpre
    · rw [getLastD_append_right]
      exact window_post_linked pl pl' r _ post p xs _ hlay hlen heff hndpost hpostp
        (fun c hc he => by
          have hb : pre.getLastD null_ind ≠ null_ind := by
            rw [← he]
            exact hnotnull c (List.mem_append_right _ hc)
          exact hdis1 (List.mem_append_left _ (hBmem hb)) (by rw [← he]; exact hc))
        hlpost
  have hreads : row_reads pl' r (pre ++ p ++ post) := by
    refine ⟨hlinked, ?_, ?_, ((hperm.append_left pre).append_right post).nodup_iff.2 hnd⟩
    · cases pre with
      | nil =>
        rw [heff.first_end rfl]
        simp only [List.nil_append, headD_append_left]
      | cons a as =>
        have hb : (a :: as).getLastD null_ind ≠ null_ind := fun h => by
          have := getLastD_ne_null pl hnull (a :: as) null_ind (fun c hc => by
            obtain ⟨_, cell, _, hcell⟩ := hval c
              (List.mem_append_left _ (List.mem_append_left _ hc))
            exact (List.getElem?_eq_some_iff.1 hcell).1) h
          exact absurd this (List.cons_ne_nil _ _)
        rw [heff.first_kept hb, hrow.first]
        rfl
    · cases post with
      | nil =>
        rw [heff.last_end rfl]
        simp only [List.append_nil, getLastD_append_right]
      | cons a as =>
        have ha : (a :: as).headD null_ind ≠ null_ind := by
          simp only [List.headD_cons]
          exact hnotnull a (List.mem_append_right _ (List.mem_cons_self _ _))
        rw [heff.last_kept ha, hrow.last, getLastD_append_right (pre ++ w) (a :: as),
          getLastD_append_right (pre ++ p) (a :: as)]
        simp only [List.getLastD_cons]
  have hordered : (pre ++ p ++ post).Chain' (non_overlapping pl') := by
    have hord := hck.ordered
    rw [List.chain'_append] at hord ⊢
    obtain ⟨hord1, hordpost, _⟩ := hord
    have hordpre := hord1.left_of_append
    refine ⟨?_, chain_unmoved pl pl' post (fun c hc => heff.cells_other c (hpostp c hc))
      hordpost, ?_⟩
    · rw [List.chain'_append]
      refine ⟨chain_unmoved pl pl' pre (fun c hc => heff.cells_other c (hprep c hc)) hordpre,
        hchp, ?_⟩
      intro x hx y hy
      have hxm : x ∈ pre := List.mem_of_mem_getLast? hx
      have hym : y ∈ p := List.mem_of_mem_head? hy
      have hxB : pre.getLastD null_ind = x := by
        rw [List.getLastD_eq_getLast?, Option.mem_def.1 hx]
        rfl
      obtain ⟨_, cellx, _, hcx⟩ := hval x (List.mem_append_left _ (List.mem_append_left _ hxm))
      obtain ⟨celly, hcy, _⟩ := hp y hym
      have hcy' := hcells y
      rw [hcy] at hcy'
      simp only [Option.map_some'] at hcy'
      have h1 := hheadp y _ hy hcy'
      have h2 := (limit_low_spec pl _ lower hlow).1 cellx
        (by rw [hxB]; exact hnotnull x (List.mem_append_left _ (List.mem_append_left _ hxm)))
        (by rw [hxB]; exact hcx)
      exact ⟨cellx, _, by rw [heff.cells_other x (hprep x hxm)]; exact hcx, hcy', by omega⟩
    · intro x hx y hy
      have hx' : x ∈ p.getLast? := by
        rw [List.getLast?_append] at hx
        cases hpl : p.getLast? with
        | none =>
          rw [List.getLast?_eq_none_iff] at hpl
          exact absurd hpl hpne
        | some z =>
          rw [hpl] at hx
          exact hx
      have hxm : x ∈ p := List.mem_of_mem_getLast? hx'
      have hym : y ∈ post := List.mem_of_mem_head? hy
      have hyA : post.headD null_ind = y := by
        cases post with
        | nil => simp at hy
        | cons a as =>
          simp only [List.head?_cons, Option.mem_def, Option.some.injEq] at hy
          simp [hy]
      obtain ⟨_, celly, _, hcy⟩ := hval y (List.mem_append_right _ hym)
      obtain ⟨cellx, hcx, _⟩ := hp x hxm
      have hcx' := hcells x
      rw [hcx] at hcx'
      simp only [Option.map_some'] at hcx'
      have h1 := hlastp x _ hx' hcx'
      have h2 := (limit_up_spec pl _ upper hup).1 celly
        (by rw [hyA]; exact hnotnull y (List.mem_append_right _ hym))
        (by rw [hyA]; exact hcy)
      exact ⟨_, celly, hcx', by rw [heff.cells_other y (hpostp y hym)]; exact hcy, by omega⟩
  have hck' : row_checked pl' r (pre ++ p ++ post) := by
    refine ⟨hreads, hordered, ?_, ?_⟩
    · intro c cell hhead hc
      rw [heff.min_x]
      cases pre with
      | nil =>
        simp only [List.nil_append] at hhead
        have hcp : p.head? = some c := by
          cases p with
          | nil => exact absurd rfl hpne
          | cons a as => simpa using hhead
        have h1 := hheadp c cell hcp hc
        have h2 := (limit_low_spec pl _ lower hlow).2 rfl
        omega
      | cons a as =>
        simp only [List.cons_append, List.head?_cons, Option.some.injEq] at hhead
        subst hhead
        rw [heff.cells_other a (hprep a (List.mem_cons_self _ _))] at hc
        exact hck.left_inside a cell rfl hc
    · intro c cell hlastc hc
      rw [heff.max_x]
      cases post with
      | nil =>
        simp only [List.append_nil] at hlastc
        have hcp : p.getLast? = some c := by
          rw [List.getLast?_append] at hlastc
          cases hpl : p.getLast? with
          | none =>
            rw [List.getLast?_eq_none_iff] at hpl
            exact absurd hpl hpne
          | some z =>
            rw [hpl] at hlastc
            exact hlastc
        have h1 := hlastp c cell hcp hc
        have h2 := (limit_up_spec pl _ upper hup).2 rfl
        omega
      | cons a as =>
        have hcm : c ∈ a :: as := by
          rw [List.getLast?_append] at hlastc
          cases hpl : (a :: as).getLast? with
          | none =>
            rw [List.getLast?_eq_none_iff] at hpl
            exact absurd hpl (List.cons_ne_nil _ _)
          | some z =>
            rw [hpl] at hlastc
            have hzc : some z = some c := hlastc
            cases hzc
            exact List.mem_of_mem_getLast? hpl
        rw [heff.cells_other c (hpostp c hcm)] at hc
        apply hck.right_inside c cell _ hc
        rw [List.getLast?_append] at hlastc ⊢
        exact hlastc
  have hmem : ∀ c, c ∈ pre ++ p ++ post ↔ c ∈ pre ++ w ++ post := fun c =>
    ((hperm.append_left pre).append_right post).mem_iff
  obtain ⟨hinv', hlay'⟩ := rewritten_row_invariant pl pl' r _ _ p hlay hinv hrow hmem hfr hck'
  refine ⟨pl', hrun, hreads, ?_, heff.cells_other, hinv', hlay'⟩
  intro ρ row hρ hreadsρ
  refine ⟨?_, by rw [heff.first_other ρ hρ]; exact hreadsρ.first,
    by rw [heff.last_other ρ hρ]; exact hreadsρ.last, hreadsρ.nodup⟩
  apply chain_linked_congr pl pl' ρ null_ind row null_ind _ hreadsρ.linked
  intro c _ n hn
  exact ⟨by rw [hni]; exact hn, hfr.slots_other c ρ n hn (Or.inl hρ)⟩
theorem window_legal : table_layout window_placement ∧ row_invariant window_placement := by
  refine ⟨⟨by decide, ?_, ?_⟩, ⟨by decide, ?_, ?_, ?_⟩⟩
  · intro c cell hc
    have hi : c < 3 := (List.getElem?_eq_some_iff.1 hc).1
    interval_cases c <;> cases hc <;> decide
  · intro c c' cell cell' hlt hc hc'
    have hi : c < 3 := (List.getElem?_eq_some_iff.1 hc).1
    have hi' : c' < 3 := (List.getElem?_eq_some_iff.1 hc').1
    interval_cases c <;> interval_cases c' <;> cases hc <;> cases hc' <;> decide
  · intro r c hr hne
    have hlt : r < 1 := (List.getElem?_eq_some_iff.1 hr).1
    interval_cases r
    cases hr
    exact ⟨0, (null_ind, 1), by decide, by decide, rfl⟩
  · intro r c hr hne
    have hlt : r < 1 := (List.getElem?_eq_some_iff.1 hr).1
    interval_cases r
    cases hr
    exact ⟨2, (1, null_ind), by decide, by decide, rfl⟩
  · intro i c l e hc hl he
    have hi : i < 3 := (List.getElem?_eq_some_iff.1 hc).1
    interval_cases i <;> cases hc <;> (have hl2 : l < 1 := hl) <;>
      interval_cases l <;> cases he <;> decide

theorem commit_window_keeps_row_witness :
    table_layout window_placement ∧ row_invariant window_placement ∧
    row_reads window_placement 0 ([0] ++ [1, 2] ++ []) ∧ [1, 2] ≠ [] ∧
    (∀ (c : Nat) (cell : internal_cell), c ∈ [1, 2] → window_placement.cells_[c]? = some cell →
      cell.height = 1) ∧
    [2, 1].Perm [1, 2] ∧
    limit_low window_placement ([0].getLastD null_ind) = some 3 ∧
    limit_up window_placement (([] : List Nat).headD null_ind) = some 10 ∧
    run_fits window_placement 10 3 [2, 1] [3, 5] ∧
    ∃ pl', commit_window window_placement 0 ([0].getLastD null_ind)
        (([] : List Nat).headD null_ind) [2, 1] [3, 5] = some pl' ∧
      row_reads pl' 0 ([0] ++ [2, 1] ++ []) ∧
      (∀ (ρ : Nat) (row : List Nat), ρ ≠ 0 → row_reads window_placement ρ row →
        row_reads pl' ρ row) ∧
      (∀ i, i ∉ [2, 1] → pl'.cells_[i]? = window_placement.cells_[i]?) ∧
      row_invariant pl' ∧ table_layout pl' :=
  have hrow : row_reads window_placement 0 ([0] ++ [1, 2] ++ []) :=
    ⟨⟨⟨0, by decide, by decide⟩, ⟨1, by decide, by decide⟩, ⟨2, by decide, by decide⟩, trivial⟩,
      by decide, by decide, by decide⟩
  have hheight : ∀ (c : Nat) (cell : internal_cell), c ∈ [1, 2] →
      window_placement.cells_[c]? = some cell → cell.height = 1 := by
    intro c cell hc hcell
    have hi : c < 3 := (List.getElem?_eq_some_iff.1 hcell).1
    interval_cases c <;> cases hcell <;> rfl
  have hperm : [2, 1].Perm [1, 2] := List.Perm.swap 1 2 []
  have hfit : run_fits window_placement 10 3 [2, 1] [3, 5] :=
    ⟨by decide, ⟨7, 0, 2, 1, 0, 2, true, true⟩, by decide, by decide,
      by decide, ⟨4, 0, 1, 1, 0, 1, true, true⟩, by decide, by decide, trivial⟩
  ⟨window_legal.1, window_legal.2, hrow, by decide, hheight, hperm, by decide, by decide, hfit,
    commit_window_keeps_row window_placement 0 [0] [1, 2] [] [2, 1] [3, 5] 3 10
      window_legal.1 window_legal.2 hrow (by decide) hheight hperm (by decide) (by decide) hfit⟩

/-! ## Theorems: `previous_min` applied twice -/

theorem min_steps_append (b : p_v) (l : List p_v) (h : min_steps b l) :
    ∀ (back : p_v) (l2 : List p_v), (b :: l).getLast? = some back → min_steps back l2 →
      min_steps b (l ++ l2) := by
  induction h with
  | nil b =>
    intro back l2 hb h2
    simp only [List.getLast?_singleton, Option.some.injEq] at hb
    subst hb
    exact h2
  | copy b q rest h1 h2 _ ih =>
    intro back l2 hb hl2
    rw [List.getLast?_cons_cons] at hb
    exact min_steps.copy b q _ h1 h2 (ih back l2 hb hl2)
  | extra b e q rest h1 h2 h3 h4 _ ih =>
    intro back l2 hb hl2
    rw [List.getLast?_cons_cons, List.getLast?_cons_cons] at hb
    exact min_steps.extra b e q _ h1 h2 h3 h4 (ih back l2 hb hl2)

theorem min_steps_increasing (b : p_v) (l : List p_v) (h : min_steps b l) :
    knots_increasing (b :: l) := by
  unfold knots_increasing
  induction h with
  | nil b => exact List.chain'_singleton b
  | copy b q rest h1 _ _ ih => exact List.Chain'.cons h1 ih
  | extra b e q rest h1 _ h3 _ _ ih => exact List.Chain'.cons h1 (List.Chain'.cons h3 ih)

/-- The loop of `previous_min` on knots that an earlier run of the loop has pushed after
`back` pushes the same knots again. -/
theorem previous_min_loop_steps (back : p_v) (l : List p_v) (h : min_steps back l) :
    ∀ init : List p_v,
      previous_min_loop (init ++ [back]) back l = some ((init ++ [back]) ++ l) := by
  induction h with
  | nil b =>
    intro init
    simp [previous_min_loop]
  | copy b q rest h1 h2 _ ih =>
    intro init
    have hgt : q.1 > b.1 := h1
    simp only [previous_min_loop, getLast?_snoc, hgt, not_true_eq_false, if_false, h2, if_true,
      ne_eq]
    rw [ih (init ++ [b])]
    simp
  | extra b e q rest h1 h2 h3 h4 _ ih =>
    intro init
    have hgt : e.1 > b.1 := h1
    have hgt2 : q.1 > b.1 := by omega
    have hnlt : ¬ e.2 < b.2 := by omega
    have hne : e.1 ≠ b.1 := by omega
    have hpos : (pl_edge.mk e q).pos_at b.2 = some e.1 := by
      have c1 : b.2 ≤ max e.2 q.2 := by rw [h2]; exact le_max_left _ _
      have c2 : min e.2 q.2 ≤ b.2 := le_trans (min_le_right _ _) (le_of_lt h4)
      have c3 : e.2 ≠ q.2 := by omega
      have hd : q.2 - e.2 ≠ 0 := by omega
      simp only [pl_edge.pos_at, c1, c2, c3, ne_eq, not_false_eq_true, and_self, if_true,
        Option.some.injEq]
      rw [← h2, sub_self, mul_zero, add_zero]
      exact Int.mul_tdiv_cancel _ hd
    have hq : q.1 ≠ e.1 := by omega
    simp only [previous_min_loop, getLast?_snoc, hgt, hgt2, not_true_eq_false, if_false, hnlt,
      h4, if_true, ne_eq, hne, not_false_eq_true, hpos, Ne.symm hq, and_self]
    rw [ih ((init ++ [b]) ++ [(e.1, b.2)])]
    have he : e = (e.1, b.2) := Prod.ext rfl h2
    rw [← he]
    simp

/-- The loop of `previous_min` keeps the shape of the result: the knots after the first one
are steps in the sense of `min_steps`. -/
theorem previous_min_loop_shape (p0 : p_v) : ∀ (rest mid : List p_v) (back prev : p_v),
    (p0 :: mid).getLast? = some back → min_steps p0 mid →
    knots_increasing (prev :: rest) → back.1 ≤ prev.1 →
    (prev.1 ≠ back.1 → back.2 ≤ prev.2) →
    ∃ r, previous_min_loop (p0 :: mid) prev rest = some (p0 :: r) ∧ min_steps p0 r
  | [], mid, back, prev, _, hs, _, _, _ => ⟨mid, rfl, hs⟩
  | it :: rest, mid, back, prev, hb, hs, hinc, hle, hval => by
    have hpi : prev.1 < it.1 := by
      simp [knots_increasing] at hinc; exact hinc.1
    have htl : knots_increasing (it :: rest) := by
      simp [knots_increasing] at hinc ⊢; exact hinc.2
    have hgt : it.1 > back.1 := by omega
    have hlast : ∀ (l : List p_v) (x : p_v), (p0 :: (mid ++ l ++ [x])).getLast? = some x := by
      intro l x
      rw [← List.cons_append, List.getLast?_append]
      simp
    simp only [previous_min_loop, hb, hgt, not_true_eq_false, if_false]
    by_cases hlt : it.2 < back.2
    · simp only [hlt, if_true]
      have hcopy : min_steps p0 (mid ++ [it]) :=
        min_steps_append p0 mid hs back [it] hb
          (min_steps.copy back it [] hgt hlt (min_steps.nil it))
      by_cases hpb : prev.1 ≠ back.1
      · have hbp := hval hpb
        have hpos : (pl_edge.mk prev it).pos_at back.2 = some (Int.tdiv
            (prev.1 * (it.2 - back.2) + it.1 * (back.2 - prev.2)) (it.2 - prev.2)) := by
          have h1 : back.2 ≤ max prev.2 it.2 := le_trans hbp (le_max_left _ _)
          have h2 : min prev.2 it.2 ≤ back.2 := le_trans (min_le_right _ _) (le_of_lt hlt)
          have h3 : prev.2 ≠ it.2 := by omega
          simp [pl_edge.pos_at, h1, h2, h3]
        obtain ⟨hb1, hb2⟩ := pos_at_between prev it back.2 hpi hlt hbp
        simp only [hpb, if_true, hpos]
        split_ifs with hc
        · have hextra : min_steps p0 (mid ++ [(Int.tdiv
              (prev.1 * (it.2 - back.2) + it.1 * (back.2 - prev.2)) (it.2 - prev.2), back.2),
              it]) :=
            min_steps_append p0 mid hs back _ hb
              (min_steps.extra back _ it [] (by simp only; omega) rfl
                (by simp only; omega) hlt (min_steps.nil it))
          have := previous_min_loop_shape p0 rest _ it it
            (by simpa using hlast [(Int.tdiv
              (prev.1 * (it.2 - back.2) + it.1 * (back.2 - prev.2)) (it.2 - prev.2), back.2)] it)
            hextra htl (le_refl _) (fun h => absurd rfl h)
          simpa using this
        · have := previous_min_loop_shape p0 rest _ it it (by simpa using hlast [] it) hcopy htl
            (le_refl _) (fun h => absurd rfl h)
          simpa using this
      · simp only [hpb, if_false]
        have := previous_min_loop_shape p0 rest _ it it (by simpa using hlast [] it) hcopy htl
          (le_refl _) (fun h => absurd rfl h)
        simpa using this
    · simp only [hlt, if_false]
      exact previous_min_loop_shape p0 rest mid back it hb hs htl (by omega) (fun _ => by omega)

/-- C31: for every non-empty `f` with strictly increasing knot positions, `previous_min`
returns a function `r` with strictly increasing knot positions, and `previous_min` applied
to `r` returns `r` again, knot for knot. -/
theorem previous_min_idempotent (f : piecewise_linear_function) (hne : f ≠ [])
    (hinc : knots_increasing f) :
    ∃ r, previous_min f = some r ∧ knots_increasing r ∧ previous_min r = some r := by
  cases f with
  | nil => exact absurd rfl hne
  | cons p rest =>
    obtain ⟨r, hr, hs⟩ := previous_min_loop_shape p rest [] p p rfl (min_steps.nil p) hinc
      (le_refl _) (fun h => absurd rfl h)
    refine ⟨p :: r, hr, min_steps_increasing p r hs, ?_⟩
    have := previous_min_loop_steps p r hs []
    simpa [previous_min] using this

theorem previous_min_idempotent_witness :
    ([(0, 5), (2, 7), (6, 3), (8, 4), (10, -2)] : piecewise_linear_function) ≠ [] ∧
    knots_increasing [(0, 5), (2, 7), (6, 3), (8, 4), (10, -2)] ∧
    previous_min [(0, 5), (2, 7), (6, 3), (8, 4), (10, -2)]
      = some [(0, 5), (4, 5), (6, 3), (8, 3), (10, -2)] ∧
    previous_min [(0, 5), (4, 5), (6, 3), (8, 3), (10, -2)]
      = some [(0, 5), (4, 5), (6, 3), (8, 3), (10, -2)] ∧
    ∃ r, previous_min [(0, 5), (2, 7), (6, 3), (8, 4), (10, -2)] = some r ∧
      knots_increasing r ∧ previous_min r = some r :=
  ⟨by decide, by simp [knots_increasing], by decide, by decide,
    previous_min_idempotent _ (by decide) (by simp [knots_increasing])⟩

/-! ## Theorems: what an accepted swap leaves unchanged -/

theorem patch_before_y_origin (pl pl' : detailed_placement) (b r c : Nat)
    (h : patch_before pl b r c = some pl') : pl'.y_origin_ = pl.y_origin_ := by
  unfold patch_before at h
  split_ifs at h with hb hr
  · cases hk : neighbour_index pl.cells_ b r with
    | none => simp [hk] at h
    | some k =>
      simp only [hk, Option.some_bind] at h
      split_ifs at h
      cases h
      rfl
  · cases h
    rfl

theorem patch_after_y_origin (pl pl' : detailed_placement) (a r c : Nat)
    (h : patch_after pl a r c = some pl') : pl'.y_origin_ = pl.y_origin_ := by
  unfold patch_after at h
  split_ifs at h with ha hr
  · cases hk : neighbour_index pl.cells_ a r with
    | none => simp [hk] at h
    | some k =>
      simp only [hk, Option.some_bind] at h
      split_ifs at h
      cases h
      rfl
  · cases h
    rfl

/-- The tables after the branch of `try_swap` that keeps the swap, read from the tables
`pl0` at the start of the branch. -/
theorem commit_swap_tables (pl0 pl' : detailed_placement) (c1 c2 n1 n2 : Nat)
    (e1 e2 : Nat × Nat) (r1 r2 : Nat)
    (h : commit_swap pl0 c1 c2 n1 n2 e1 e2 r1 r2 = some pl') :
    pl'.min_x_ = pl0.min_x_ ∧ pl'.max_x_ = pl0.max_x_ ∧ pl'.y_origin_ = pl0.y_origin_ ∧
    (∀ s : Nat, pl'.neighbours_[s]? =
      (((pl0.neighbours_.set n1 e2).set n2 e1)[s]?).map fun e =>
        (swap_first pl0.cells_ c1 c2 e1 e2 r1 r2 s e.1,
          swap_second pl0.cells_ c1 c2 e1 e2 r1 r2 s e.2)) ∧
    (∀ r : Nat, ¬ (e2.1 = null_ind ∧ r = r2) → ¬ (e1.1 = null_ind ∧ r = r1) →
      pl'.row_first_cells_[r]? = pl0.row_first_cells_[r]?) ∧
    (∀ r : Nat, ¬ (e2.2 = null_ind ∧ r = r2) → ¬ (e1.2 = null_ind ∧ r = r1) →
      pl'.row_last_cells_[r]? = pl0.row_last_cells_[r]?) ∧
    pl'.row_first_cells_.length = pl0.row_first_cells_.length ∧
    pl'.row_last_cells_.length = pl0.row_last_cells_.length := by
  unfold commit_swap at h
  simp only [Option.bind_eq_some] at h
  obtain ⟨pl6, h6, pl7, h7, pl8, h8, pl9, h9, hfin⟩ := h
  simp only [Option.some.injEq] at hfin
  have hfour := four_patches _ pl9 c1 c2 e1 e2 r1 r2
    (by simp only [Option.bind_eq_some]; exact ⟨pl6, h6, pl7, h7, pl8, h8, h9⟩)
  obtain ⟨_, hmin, hmax, hnbs, _, _, hfo, _, _, hlo, hflen, hllen⟩ := hfour
  simp only at hmin hmax hnbs hfo hlo hflen hllen
  have hy : pl9.y_origin_ = pl0.y_origin_ := by
    rw [patch_after_y_origin _ _ _ _ _ h9, patch_after_y_origin _ _ _ _ _ h8,
      patch_before_y_origin _ _ _ _ _ h7, patch_before_y_origin _ _ _ _ _ h6]
  rw [← hfin]
  exact ⟨hmin, hmax, hy, hnbs, hfo, hlo, hflen, hllen⟩

/-- C32: when `try_swap(c1, c2)` returns true, with records `cell1`, `cell2` and entries
`e1`, `e2` of the two cells before the call: the region is the same; `c1` and `c2` keep
every member of their records but the abscissa, the ordinate and the row; every other cell
keeps its record; in an entry of the neighbour table other than those of `c1` and `c2` the
predecessor is the same unless the entry is that of the old successor of `c1` or of `c2` in
the row concerned, and the successor is the same unless the entry is that of the old
predecessor of `c1` or of `c2` in the row concerned; the first pointer of a row is the same
unless the row is that of `c1` or `c2` and this cell had no predecessor, and the last
pointer likewise with the successor; the tables keep their lengths. -/
theorem accepted_swap_frame {K : Type} [LT K] [DecidableRel (fun a b : K => a < b)]
    (cost : detailed_placement → List Nat → Option K) (circuit : netlist)
    (pl pl' : detailed_placement) (c1 c2 : Nat)
    (h : try_swap_with cost circuit pl c1 c2 = some (true, pl')) :
    ∃ (cell1 cell2 : internal_cell) (e1 e2 : Nat × Nat) (x1 x2 : Int),
      pl.cells_[c1]? = some cell1 ∧ pl.cells_[c2]? = some cell2 ∧
      pl.neighbours_[cell1.neighbours_begin]? = some e1 ∧
      pl.neighbours_[cell2.neighbours_begin]? = some e2 ∧
      pl'.min_x_ = pl.min_x_ ∧ pl'.max_x_ = pl.max_x_ ∧ pl'.y_origin_ = pl.y_origin_ ∧
      pl'.cells_[c1]? = some { cell1 with
        position_x := x1, position_y := cell2.position_y, row := cell2.row } ∧
      pl'.cells_[c2]? = some { cell2 with
        position_x := x2, position_y := cell1.position_y, row := cell1.row } ∧
      (∀ i : Nat, i ≠ c1 → i ≠ c2 → pl'.cells_[i]? = pl.cells_[i]?) ∧
      pl'.neighbours_.length = pl.neighbours_.length ∧
      (∀ s : Nat, s ≠ cell1.neighbours_begin → s ≠ cell2.neighbours_begin →
        ¬ (e1.2 ≠ null_ind ∧ neighbour_index pl.cells_ e1.2 cell1.row = some s) →
        ¬ (e2.2 ≠ null_ind ∧ neighbour_index pl.cells_ e2.2 cell2.row = some s) →
        (pl'.neighbours_[s]?).map Prod.fst = (pl.neighbours_[s]?).map Prod.fst) ∧
      (∀ s : Nat, s ≠ cell1.neighbours_begin → s ≠ cell2.neighbours_begin →
        ¬ (e1.1 ≠ null_ind ∧ neighbour_index pl.cells_ e1.1 cell1.row = some s) →
        ¬ (e2.1 ≠ null_ind ∧ neighbour_index pl.cells_ e2.1 cell2.row = some s) →
        (pl'.neighbours_[s]?).map Prod.snd = (pl.neighbours_[s]?).map Prod.snd) ∧
      pl'.row_first_cells_.length = pl.row_first_cells_.length ∧
      pl'.row_last_cells_.length = pl.row_last_cells_.length ∧
      (∀ r : Nat, ¬ (e1.1 = null_ind ∧ r = cell1.row) → ¬ (e2.1 = null_ind ∧ r = cell2.row) →
        pl'.row_first_cells_[r]? = pl.row_first_cells_[r]?) ∧
      (∀ r : Nat, ¬ (e1.2 = null_ind ∧ r = cell1.row) → ¬ (e2.2 = null_ind ∧ r = cell2.row) →
        pl'.row_last_cells_[r]? = pl.row_last_cells_[r]?) := by
  unfold try_swap_with at h
  split at h
  · rename_i cell1 cell2 nc1 nc2 hc1 hc2 _ _
    split_ifs at h with hh hsz hrows
    simp only [ne_eq, not_not] at hrows
    split at h
    · rename_i e1 e2 he1 he2
      split at h
      · rename_i c1_l c2_l c1_u c2_u hl1 hl2 hu1 hu2
        obtain ⟨_, _, hcommit⟩ := try_swap_limits_true cost circuit pl pl' c1 c2
          cell1 cell2 e1 e2 _ _ _ _ h
        have hne : c1 ≠ c2 := by
          intro he
          subst he
          rw [hc1] at hc2
          cases hc2
          exact hrows rfl
        obtain ⟨hmin, hmax, hy, hnbs, hfo, hlo, hflen, hllen⟩ :=
          commit_swap_tables _ pl' c1 c2 _ _ e1 e2 _ _ hcommit
        have hcell := commit_swap_cells _ pl' c1 c2 _ _ e1 e2 _ _ hcommit
        have hentry : ∀ s : Nat, s ≠ cell1.neighbours_begin → s ≠ cell2.neighbours_begin →
            pl'.neighbours_[s]? = (pl.neighbours_[s]?).map fun e =>
              (swap_first pl.cells_ c1 c2 e1 e2 cell1.row cell2.row s e.1,
                swap_second pl.cells_ c1 c2 e1 e2 cell1.row cell2.row s e.2) := by
          intro s hs1 hs2
          rw [hnbs s]
          simp only [swap_first, swap_second, assign_positions_neighbour_index]
          rw [List.getElem?_set_ne (Ne.symm hs2), List.getElem?_set_ne (Ne.symm hs1)]
          rfl
        refine ⟨cell1, cell2, e1, e2, Int.tdiv (c2_l + (c2_u - cell1.width)) 2,
          Int.tdiv (c1_l + (c1_u - cell2.width)) 2, hc1, hc2, he1, he2, hmin, hmax, hy, ?_, ?_,
          ?_, ?_, ?_, ?_, hflen, hllen, ?_, ?_⟩
        · rw [hcell c1, assign_positions_cells, hc1]
          simp [hne, Ne.symm hne]
        · rw [hcell c2, assign_positions_cells, hc2]
          simp [hne, Ne.symm hne]
        · intro i h1 h2
          rw [hcell i, assign_positions_cells]
          cases pl.cells_[i]? with
          | none => rfl
          | some cell => simp [Ne.symm h1, Ne.symm h2]
        · have hlen : ∀ s : Nat, pl'.neighbours_[s]? = none ↔ pl.neighbours_[s]? = none := by
            intro s
            rw [hnbs s]
            simp [assign_positions, set_position_x, set_position_y]
          apply le_antisymm
          · exact List.getElem?_eq_none_iff.1 ((hlen _).2 (List.getElem?_eq_none (le_refl _)))
          · exact List.getElem?_eq_none_iff.1 ((hlen _).1 (List.getElem?_eq_none (le_refl _)))
        · intro s hs1 hs2 ha1 ha2
          rw [hentry s hs1 hs2]
          cases pl.neighbours_[s]? with
          | none => rfl
          | some e => simp [swap_first, ha1, ha2]
        · intro s hs1 hs2 hb1 hb2
          rw [hentry s hs1 hs2]
          cases pl.neighbours_[s]? with
          | none => rfl
          | some e => simp [swap_second, hb1, hb2]
        · intro r hr1 hr2
          exact hfo r hr2 hr1
        · intro r hr1 hr2
          exact hlo r hr2 hr1
      · exact absurd h (by simp)
    · exact absurd h (by simp)
  · exact absurd h (by simp)

theorem accepted_swap_frame_witness :
    try_swap_with (get_nets_cost example_circuit) example_circuit example_placement 4 2
      = some (true, example_swapped) ∧
    example_swapped.cells_[0]? = example_placement.cells_[0]? ∧
    example_swapped.cells_[1]? = example_placement.cells_[1]? ∧
    example_swapped.cells_[3]? = example_placement.cells_[3]? ∧
    example_swapped.neighbours_[0]? = example_placement.neighbours_[0]? ∧
    example_swapped.neighbours_[4]? = example_placement.neighbours_[4]? ∧
    ∃ (cell1 cell2 : internal_cell) (e1 e2 : Nat × Nat) (x1 x2 : Int),
      example_placement.cells_[4]? = some cell1 ∧ example_placement.cells_[2]? = some cell2 ∧
      example_placement.neighbours_[cell1.neighbours_begin]? = some e1 ∧
      example_placement.neighbours_[cell2.neighbours_begin]? = some e2 ∧
      example_swapped.min_x_ = example_placement.min_x_ ∧
      example_swapped.max_x_ = example_placement.max_x_ ∧
      example_swapped.y_origin_ = example_placement.y_origin_ ∧
      example_swapped.cells_[4]? = some { cell1 with
        position_x := x1, position_y := cell2.position_y, row := cell2.row } ∧
      example_swapped.cells_[2]? = some { cell2 with
        position_x := x2, position_y := cell1.position_y, row := cell1.row } ∧
      (∀ i : Nat, i ≠ 4 → i ≠ 2 → example_swapped.cells_[i]? = example_placement.cells_[i]?) ∧
      example_swapped.neighbours_.length = example_placement.neighbours_.length ∧
      (∀ s : Nat, s ≠ cell1.neighbours_begin → s ≠ cell2.neighbours_begin →
        ¬ (e1.2 ≠ null_ind ∧
          neighbour_index example_placement.cells_ e1.2 cell1.row = some s) →
        ¬ (e2.2 ≠ null_ind ∧
          neighbour_index example_placement.cells_ e2.2 cell2.row = some s) →
        (example_swapped.neighbours_[s]?).map Prod.fst =
          (example_placement.neighbours_[s]?).map Prod.fst) ∧
      (∀ s : Nat, s ≠ cell1.neighbours_begin → s ≠ cell2.neighbours_begin →
        ¬ (e1.1 ≠ null_ind ∧
          neighbour_index example_placement.cells_ e1.1 cell1.row = some s) →
        ¬ (e2.1 ≠ null_ind ∧
          neighbour_index example_placement.cells_ e2.1 cell2.row = some s) →
        (example_swapped.neighbours_[s]?).map Prod.snd =
          (example_placement.neighbours_[s]?).map Prod.snd) ∧
      example_swapped.row_first_cells_.length = example_placement.row_first_cells_.length ∧
      example_swapped.row_last_cells_.length = example_placement.row_last_cells_.length ∧
      (∀ r : Nat, ¬ (e1.1 = null_ind ∧ r = cell1.row) → ¬ (e2.1 = null_ind ∧ r = cell2.row) →
        example_swapped.row_first_cells_[r]? = example_placement.row_first_cells_[r]?) ∧
      (∀ r : Nat, ¬ (e1.2 = null_ind ∧ r = cell1.row) → ¬ (e2.2 = null_ind ∧ r = cell2.row) →
        example_swapped.row_last_cells_[r]? = example_placement.row_last_cells_[r]?) :=
  ⟨by decide!, by decide, by decide, by decide, by decide, by decide,
    accepted_swap_frame (get_nets_cost example_circuit) example_circuit example_placement
      example_swapped 4 2 (by decide!)⟩

/-! ## Theorems: what the global optimizer leaves unchanged -/

/-- The placement after the last loop of `optimize_positions`, when the loop completes: the
cells listed that are x-movable have a new abscissa, and nothing else has changed. -/
theorem write_potentials_frame (circuit : netlist) (potential : flow_node → Int) :
    ∀ (l : List Nat) (pl pl' : detailed_placement),
    write_potentials circuit potential l pl = some pl' →
      pl'.min_x_ = pl.min_x_ ∧ pl'.max_x_ = pl.max_x_ ∧ pl'.y_origin_ = pl.y_origin_ ∧
      pl'.neighbours_ = pl.neighbours_ ∧ pl'.row_first_cells_ = pl.row_first_cells_ ∧
      pl'.row_last_cells_ = pl.row_last_cells_ ∧
      ∀ i, pl'.cells_[i]? = (pl.cells_[i]?).map fun cell =>
        if i ∈ l then moved_cell circuit potential i cell else cell
  | [], pl, pl', h => by
    simp only [write_potentials, Option.some.injEq] at h
    subst h
    exact ⟨rfl, rfl, rfl, rfl, rfl, rfl, fun i => by simp⟩
  | c :: cs, pl, pl', h => by
    unfold write_potentials at h
    split at h
    · exact absurd h (by simp)
    · rename_i hm
      split_ifs at h with hc
      obtain ⟨h1, h2, h3, h4, h5, h6, h7⟩ := write_potentials_frame circuit potential cs _ pl' h
      refine ⟨h1, h2, h3, h4, h5, h6, ?_⟩
      intro i
      rw [h7 i]
      simp only [set_position_x, List.getElem?_modify]
      cases pl.cells_[i]? with
      | none => rfl
      | some cell =>
        simp only [Option.map_eq_map, Option.map_some', List.mem_cons]
        by_cases hi : c = i
        · subst hi
          by_cases hcs : c ∈ cs <;> simp [moved_cell, hm, hcs]
        · have hi' : ¬ i = c := fun h => hi h.symm
          simp [hi, hi']
    · rename_i hm
      obtain ⟨h1, h2, h3, h4, h5, h6, h7⟩ := write_potentials_frame circuit potential cs pl pl' h
      refine ⟨h1, h2, h3, h4, h5, h6, ?_⟩
      intro i
      rw [h7 i]
      cases pl.cells_[i]? with
      | none => rfl
      | some cell =>
        simp only [Option.map_some', List.mem_cons]
        by_cases hi : i = c
        · subst hi
          simp [moved_cell, hm]
        · simp [hi]

/-- C33: when `optimize_positions` returns, whatever the solver and the potentials it
returns, the region, the neighbour table and the first and last pointers of the rows are
the same as before the call, the table of the cells has the same length, and every cell
keeps every member of its record but the abscissa; the abscissa of a cell without the
attribute `XMovable` is the same too. -/
theorem optimize_positions_frame
    (solve : List arc_pair → List (flow_node × Int) → Option (flow_node → Int))
    (circuit : netlist) (pl pl' : detailed_placement)
    (h : optimize_positions solve circuit pl = some pl') :
    pl'.min_x_ = pl.min_x_ ∧ pl'.max_x_ = pl.max_x_ ∧ pl'.y_origin_ = pl.y_origin_ ∧
    pl'.neighbours_ = pl.neighbours_ ∧ pl'.row_first_cells_ = pl.row_first_cells_ ∧
    pl'.row_last_cells_ = pl.row_last_cells_ ∧ pl'.cells_.length = pl.cells_.length ∧
    ∀ (c : Nat) (cell : internal_cell), pl.cells_[c]? = some cell →
      ∃ x : Int, pl'.cells_[c]? = some { cell with position_x := x } ∧
        (x_movable circuit c ≠ some true → x = cell.position_x) := by
  unfold optimize_positions at h
  split at h
  · exact absurd h (by simp)
  · split at h
    · exact absurd h (by simp)
    · rename_i potential _
      split at h
      · exact absurd h (by simp)
      · rename_i pl2 hw
        split_ifs at h
        simp only [Option.some.injEq] at h
        subst h
        obtain ⟨h1, h2, h3, h4, h5, h6, h7⟩ := write_potentials_frame circuit potential _ pl pl2 hw
        refine ⟨h1, h2, h3, h4, h5, h6, length_eq_of_getElem?_map _ _ _ h7, ?_⟩
        intro c cell hc
        refine ⟨(if c ∈ List.range circuit.cells.length then moved_cell circuit potential c cell
          else cell).position_x, ?_, ?_⟩
        · rw [h7 c, hc]
          simp only [Option.map_some', Option.some.injEq]
          split_ifs
          · unfold moved_cell
            split_ifs <;> rfl
          · rfl
        · intro hm
          unfold moved_cell
          simp [hm]

set_option maxRecDepth 100000 in
theorem optimize_positions_frame_witness :
    optimize_positions (fun _ _ => some (pulled_potential 7)) (pulled_circuit 2)
      (pulled_placement 1 2) = some (pulled_placement 7 2) ∧
    x_movable (pulled_circuit 2) 0 = some true ∧ x_movable (pulled_circuit 2) 1 = some false ∧
    x_movable (pulled_circuit 2) 2 = some false ∧
    (pulled_placement 7 2).min_x_ = (pulled_placement 1 2).min_x_ ∧
    (pulled_placement 7 2).max_x_ = (pulled_placement 1 2).max_x_ ∧
    (pulled_placement 7 2).y_origin_ = (pulled_placement 1 2).y_origin_ ∧
    (pulled_placement 7 2).neighbours_ = (pulled_placement 1 2).neighbours_ ∧
    (pulled_placement 7 2).row_first_cells_ = (pulled_placement 1 2).row_first_cells_ ∧
    (pulled_placement 7 2).row_last_cells_ = (pulled_placement 1 2).row_last_cells_ ∧
    (pulled_placement 7 2).cells_.length = (pulled_placement 1 2).cells_.length ∧
    ∀ (c : Nat) (cell : internal_cell), (pulled_placement 1 2).cells_[c]? = some cell →
      ∃ x : Int, (pulled_placement 7 2).cells_[c]? = some { cell with position_x := x } ∧
        (x_movable (pulled_circuit 2) c ≠ some true → x = cell.position_x) :=
  ⟨by decide, by decide, by decide, by decide,
    optimize_positions_frame (fun _ _ => some (pulled_potential 7)) (pulled_circuit 2)
      (pulled_placement 1 2) (pulled_placement 7 2) (by decide)⟩

/-! ## Theorems: the pointwise minimum at every position -/

theorem segments_mem (f pf : List p_v) (p q : p_v) (sf : List p_v)
    (h : f = pf ++ p :: q :: sf) : (p, q) ∈ f.zip f.tail := by
  subst h
  induction pf with
  | nil => simp
  | cons x t ih =>
    cases t with
    | nil =>
      simp
    | cons y t' =>
      simp only [List.cons_append, List.tail_cons, List.zip_cons_cons, List.mem_cons] at ih ⊢
      exact Or.inr ih

theorem lattice_of_segments (a b : piecewise_linear_function)
    (h : ∀ e ∈ a.zip a.tail, ∀ g ∈ b.zip b.tail,
      pl_edge.intersect ⟨e.1, e.2⟩ ⟨g.1, g.2⟩ = true →
      Int.tmod (pl_edge.dist ⟨e.1, e.2⟩ ⟨g.1, g.2⟩) (pl_edge.denom ⟨e.1, e.2⟩ ⟨g.1, g.2⟩) = 0 ∧
      e.1.1 = 0 ∧
      Int.tmod ((pl_edge.mk e.1 e.2).num
        (Int.tdiv (pl_edge.dist ⟨e.1, e.2⟩ ⟨g.1, g.2⟩) (pl_edge.denom ⟨e.1, e.2⟩ ⟨g.1, g.2⟩)))
        (e.2.1 - e.1.1) = 0) : crossings_on_lattice a b :=
  fun pa p q sa pb p' q' sb ha hb =>
    h (p, q) (segments_mem a pa p q sa ha) (p', q') (segments_mem b pb p' q' sb hb)

/-- A knot that touches a segment of the other function from below is dropped: the knot
(2, 2) of `[(0,0),(2,2),(4,0)]` lies on the segment of `[(0,4),(4,0)]`, the segments cross
strictly inside nowhere, and `minimum` keeps only the two end knots, so that the result has
the value 0 at position 2, where both functions have the value 2. -/
theorem minimum_drops_touching_knot :
    knots_increasing [(0, 0), (2, 2), (4, 0)] ∧ knots_increasing [(0, 4), (4, 0)] ∧
    crossings_on_lattice [(0, 0), (2, 2), (4, 0)] [(0, 4), (4, 0)] ∧
    minimum [(0, 0), (2, 2), (4, 0)] [(0, 4), (4, 0)] = some [(0, 0), (4, 0)] ∧
    value_at [(0, 0), (4, 0)] 2 = some 0 ∧
    value_at [(0, 0), (2, 2), (4, 0)] 2 = some 2 ∧ value_at [(0, 4), (4, 0)] 2 = some 2 := by
  refine ⟨by simp [knots_increasing], by simp [knots_increasing], ?_, by decide, by decide,
    by decide, by decide⟩
  intro pa p q sa pb p' q' sb ha hb
  exact lattice_of_segments _ _ (by decide) pa p q sa pb p' q' sb ha hb

end coloquinte
